import Mathlib

/-!
# Atom-IT: time series and LoRa payloads

Shallow embedding of `Framework/TimeSeries/MemoryBackend/MemoryTimeSeriesContent.cpp`,
followed by the writers, readers and manager of `Framework/TimeSeries` and by the
payloads of `Framework/LoRa`, each under a heading of its own.

* A `std::string` is the list of its bytes; `size()` is the length of that list.
* `std::map<int64_t, Item*>` is the list of its entries in iteration order
  (strictly increasing keys); an iterator is an index into that list and
  `end()` is the length of the list.
* `int64_t` timestamps are integers: the class only compares them.
* `uint64_t`/`size_t` counters are natural numbers: they count entries and
  bytes that are resident in memory at the same time, so they stay far below
  `2^64`.
* A C++ exception is the `error` case of `Except`.
-/

namespace AtomIT

/-- Contents of a `std::string`. -/
abbrev Bytes := List UInt8

deriving instance DecidableEq for Except

/-- The Orthanc error codes thrown by the embedded code; `OutOfRange` stands for
the exception `std::out_of_range` of the standard library. -/
inductive ErrorCode where
  | InternalError
  | BadSequenceOfCalls
  | BadParameterType
  | ParameterOutOfRange
  | InexistentItem
  | NullPointer
  | NetworkProtocol
  | BadFileFormat
  | OutOfRange
deriving DecidableEq, Repr

/-- The nested class `MemoryTimeSeriesContent::Item`. -/
structure Item where
  metadata_ : Bytes
  value_ : Bytes
deriving DecidableEq, Repr

namespace Item

/-- The method `Item::GetMetadata`. -/
def GetMetadata (i : Item) : Bytes := i.metadata_

/-- The method `Item::GetValue`. -/
def GetValue (i : Item) : Bytes := i.value_

/-- The method `Item::SetValue`. -/
def SetValue (_i : Item) (metadata value : Bytes) : Item :=
  { metadata_ := metadata, value_ := value }

end Item

/-- The type `Content`, a `std::map<int64_t, Item*>`, as its entries in key order. -/
abbrev Content := List (Int × Item)

namespace Content

/-- Iterator `std::map::lower_bound`: the first entry whose key is not less than `k`. -/
def lower_bound (c : Content) (k : Int) : Nat :=
  c.findIdx (fun e => decide (k ≤ e.1))

/-- Iterator `std::map::upper_bound`: the first entry whose key is greater than `k`. -/
def upper_bound (c : Content) (k : Int) : Nat :=
  c.findIdx (fun e => decide (k < e.1))

/-- Iterator `std::map::find`: the entry whose key is `k`, or `end()`. -/
def find (c : Content) (k : Int) : Nat :=
  c.findIdx (fun e => decide (e.1 = k))

/-- Range form of `std::map::erase`: drops the entries in `[first, last)`. -/
def erase (c : Content) (first last : Nat) : Content :=
  c.take first ++ c.drop last

/-- Assignment `m[k] = item` of `std::map`: replaces the entry of key `k`, or
inserts a new entry at its place in key order. -/
def assign (k : Int) (item : Item) : Content → Content
  | [] => [(k, item)]
  | e :: rest =>
    if k < e.1 then (k, item) :: e :: rest
    else if k = e.1 then (k, item) :: rest
    else e :: assign k item rest

end Content

/-- The fields of the class `MemoryTimeSeriesContent`. -/
structure MemoryTimeSeriesContent where
  content_ : Content
  size_ : Nat
  maxLength_ : Nat
  maxSize_ : Nat
  hasLastTimestamp_ : Bool
  lastTimestamp_ : Int
deriving DecidableEq, Repr

namespace MemoryTimeSeriesContent

/-- The constructor `MemoryTimeSeriesContent(maxLength, maxSize)`. -/
def create (maxLength maxSize : Nat) : MemoryTimeSeriesContent :=
  { content_ := [], size_ := 0, maxLength_ := maxLength, maxSize_ := maxSize,
    hasLastTimestamp_ := false, lastTimestamp_ := 0 }

/-- The method `RemoveOldest`: erases `content_.begin()`, throws on an empty map. -/
def RemoveOldest (s : MemoryTimeSeriesContent) : Except ErrorCode MemoryTimeSeriesContent :=
  match s.content_ with
  | oldest :: rest =>
    .ok { s with content_ := rest, size_ := s.size_ - oldest.2.GetValue.length }
  | [] => .error ErrorCode.InternalError

/-- The loop `while (cond) { RemoveOldest(); }` of `Append`, on the two fields
that `RemoveOldest` writes (`content_` and `size_`): every turn erases the first
entry, and `RemoveOldest` throws when there is none left. -/
def removeOldestLoop (cond : MemoryTimeSeriesContent → Bool) (s : MemoryTimeSeriesContent) :
    Content → Nat → Except ErrorCode MemoryTimeSeriesContent
  | [], size =>
    if cond { s with content_ := [], size_ := size } then .error ErrorCode.InternalError
    else .ok { s with content_ := [], size_ := size }
  | oldest :: rest, size =>
    if cond { s with content_ := oldest :: rest, size_ := size } then
      removeOldestLoop cond s rest (size - oldest.2.GetValue.length)
    else .ok { s with content_ := oldest :: rest, size_ := size }

/-- The loop `while (cond) { RemoveOldest(); }` of `Append`. -/
def removeOldestWhile (cond : MemoryTimeSeriesContent → Bool) (s : MemoryTimeSeriesContent) :
    Except ErrorCode MemoryTimeSeriesContent :=
  removeOldestLoop cond s s.content_ s.size_

/-- The method `SetValue`. Dereferencing the iterator `found` fails exactly when
it is `content_.end()`. -/
def SetValue (s : MemoryTimeSeriesContent) (timestamp : Int) (metadata value : Bytes) :
    Except ErrorCode MemoryTimeSeriesContent :=
  let found := s.content_.find timestamp
  match s.content_[found]? with
  | none =>
    if s.maxLength_ ≠ 0 ∧ s.content_.length + 1 > s.maxLength_ then
      .error ErrorCode.BadSequenceOfCalls
    else if s.maxSize_ ≠ 0 ∧ s.size_ + value.length > s.maxSize_ then
      .error ErrorCode.BadSequenceOfCalls
    else
      .ok { s with
            content_ := s.content_.assign timestamp { metadata_ := metadata, value_ := value },
            size_ := s.size_ + value.length }
  | some entry =>
    let oldSize := entry.2.GetValue.length
    .ok { s with
          content_ := s.content_.set found (entry.1, entry.2.SetValue metadata value),
          size_ := s.size_ - oldSize + value.length }

/-- The method `DeleteRange`. The `for` loop walks the entries in `[from, to)`
and takes the length of each value off `size_`. -/
def DeleteRange (s : MemoryTimeSeriesContent) (start stop : Int) : MemoryTimeSeriesContent :=
  if start ≥ stop then s
  else
    let first := s.content_.lower_bound start
    let last := s.content_.lower_bound stop
    let size := ((s.content_.drop first).take (last - first)).foldl
      (fun size it => size - it.2.GetValue.length) s.size_
    { s with content_ := s.content_.erase first last, size_ := size }

/-- The method `SeekFirst`: `none` stands for the result `false`. -/
def SeekFirst (s : MemoryTimeSeriesContent) : Option Int :=
  match s.content_ with
  | [] => none
  | first :: _ => some first.1

/-- The method `SeekLast`. -/
def SeekLast (s : MemoryTimeSeriesContent) : Option Int :=
  match s.content_.getLast? with
  | none => none
  | some last => some last.1

/-- The method `SeekNearest`. -/
def SeekNearest (s : MemoryTimeSeriesContent) (timestamp : Int) : Option Int :=
  match s.content_[s.content_.lower_bound timestamp]? with
  | none => none
  | some found => some found.1

/-- The method `SeekNext`. -/
def SeekNext (s : MemoryTimeSeriesContent) (timestamp : Int) : Option Int :=
  match s.content_[s.content_.upper_bound timestamp]? with
  | none => none
  | some found => some found.1

/-- The method `SeekPrevious`. -/
def SeekPrevious (s : MemoryTimeSeriesContent) (timestamp : Int) : Option Int :=
  if s.content_.isEmpty then none
  else
    let found := s.content_.lower_bound timestamp
    if found = 0 then none
    else
      match s.content_[found - 1]? with
      | none => none
      | some previous => some previous.1

/-- The method `Read`: the pair `(metadata, value)`, `none` for the result `false`. -/
def Read (s : MemoryTimeSeriesContent) (timestamp : Int) : Option (Bytes × Bytes) :=
  match s.content_[s.content_.find timestamp]? with
  | none => none
  | some found => some (found.2.GetMetadata, found.2.GetValue)

/-- The method `Append`: the returned boolean and the state it leaves. An
exception of `RemoveOldest` or `SetValue` ends the call. -/
def Append (s : MemoryTimeSeriesContent) (timestamp : Int) (metadata value : Bytes) :
    Except ErrorCode (Bool × MemoryTimeSeriesContent) :=
  if s.maxSize_ ≠ 0 ∧ value.length > s.maxSize_ then .ok (false, s)
  else if s.hasLastTimestamp_ = true ∧ timestamp ≤ s.lastTimestamp_ then .ok (false, s)
  else
    let afterLength :=
      if s.maxLength_ ≠ 0 then
        removeOldestWhile (fun t => decide (t.content_.length + 1 > t.maxLength_)) s
      else .ok s
    match afterLength with
    | .error e => .error e
    | .ok s1 =>
      let afterSize :=
        if s1.maxSize_ ≠ 0 then
          removeOldestWhile (fun t => decide (t.size_ + value.length > t.maxSize_)) s1
        else .ok s1
      match afterSize with
      | .error e => .error e
      | .ok s2 =>
        match SetValue s2 timestamp metadata value with
        | .error e => .error e
        | .ok s3 => .ok (true, { s3 with hasLastTimestamp_ := true, lastTimestamp_ := timestamp })

/-- The method `GetStatistics`: the pair `(length, size)`. -/
def GetStatistics (s : MemoryTimeSeriesContent) : Nat × Nat :=
  (s.content_.length, s.size_)

/-- The method `ClearContent`. -/
def ClearContent (s : MemoryTimeSeriesContent) : MemoryTimeSeriesContent :=
  { s with content_ := [], size_ := 0 }

/-- The method `GetLastTimestamp`. -/
def GetLastTimestamp (s : MemoryTimeSeriesContent) : Option Int :=
  if s.hasLastTimestamp_ then some s.lastTimestamp_ else none

/-- The bytes held by the values of the entries: what `size_` is meant to count. -/
def totalSize : Content → Nat
  | [] => 0
  | entry :: rest => entry.2.GetValue.length + totalSize rest

/-- The class invariant: the map is in strictly increasing key order, `size_`
counts the bytes of the stored values, every stored timestamp is at most the
last appended one, and the quotas are respected. -/
structure Consistent (s : MemoryTimeSeriesContent) : Prop where
  sorted : s.content_.Pairwise (fun a b => a.1 < b.1)
  size_eq : s.size_ = totalSize s.content_
  below_last : ∀ e ∈ s.content_, s.hasLastTimestamp_ = true ∧ e.1 ≤ s.lastTimestamp_
  length_le : s.maxLength_ ≠ 0 → s.content_.length ≤ s.maxLength_
  size_le : s.maxSize_ ≠ 0 → s.size_ ≤ s.maxSize_

/-- A call of one of the public methods that write to the series. -/
inductive Call where
  | Append (timestamp : Int) (metadata value : Bytes)
  | DeleteRange (start stop : Int)
  | ClearContent
deriving DecidableEq, Repr

/-- The state after one call (the boolean of `Append` is dropped). -/
def call (s : MemoryTimeSeriesContent) : Call → Except ErrorCode MemoryTimeSeriesContent
  | .Append timestamp metadata value =>
    match Append s timestamp metadata value with
    | .error e => .error e
    | .ok (_, s1) => .ok s1
  | .DeleteRange start stop => .ok (DeleteRange s start stop)
  | .ClearContent => .ok (ClearContent s)

/-- The state after a sequence of calls, made one after the other. -/
def calls (s : MemoryTimeSeriesContent) : List Call → Except ErrorCode MemoryTimeSeriesContent
  | [] => .ok s
  | c :: rest =>
    match call s c with
    | .error e => .error e
    | .ok s1 => calls s1 rest

/-- A sequence of `Append` calls: the entries of the accepted ones, in the order
of the calls, and the state at the end. -/
def appends (s : MemoryTimeSeriesContent) :
    List (Int × Bytes × Bytes) → Except ErrorCode (List (Int × Item) × MemoryTimeSeriesContent)
  | [] => .ok ([], s)
  | (timestamp, metadata, value) :: rest =>
    match Append s timestamp metadata value with
    | .error e => .error e
    | .ok (accepted, s1) =>
      match appends s1 rest with
      | .error e => .error e
      | .ok (log, s2) =>
        .ok (if accepted then (timestamp, { metadata_ := metadata, value_ := value }) :: log
             else log, s2)

/-- The booleans returned by the `Append` calls of a sequence of calls, in order. -/
def returned (s : MemoryTimeSeriesContent) : List Call → Except ErrorCode (List Bool)
  | [] => .ok []
  | .Append timestamp metadata value :: rest =>
    match Append s timestamp metadata value with
    | .error e => .error e
    | .ok (accepted, s1) =>
      match returned s1 rest with
      | .error e => .error e
      | .ok results => .ok (accepted :: results)
  | .DeleteRange start stop :: rest => returned (DeleteRange s start stop) rest
  | .ClearContent :: rest => returned (ClearContent s) rest

/-- The loop of a full scan, as in `CheckStatistics` of the unit tests, with the
cursor of the reader transaction as the argument `timestamp`: `Read` at the
cursor, count the entry (`l2`) and the bytes of its value (`s2`), and move the
cursor with `SeekNext` until it fails. `steps` bounds the number of turns; the
result is `none` when a `Read` fails or when the bound is reached. -/
def scanLoop (s : MemoryTimeSeriesContent) : Nat → Int → Nat → Nat → Option (Nat × Nat)
  | 0, _, _, _ => none
  | steps + 1, timestamp, l2, s2 =>
    match Read s timestamp with
    | none => none
    | some (_, value) =>
      match SeekNext s timestamp with
      | none => some (l2 + 1, s2 + value.length)
      | some next => scanLoop s steps next (l2 + 1) (s2 + value.length)

/-- A full scan: `SeekFirst`, then the loop above; an empty series counts `(0, 0)`. -/
def fullScan (s : MemoryTimeSeriesContent) (steps : Nat) : Option (Nat × Nat) :=
  match SeekFirst s with
  | none => some (0, 0)
  | some first => scanLoop s steps first 0 0

/-- The timestamps that are stored in the series. -/
def timestamps (s : MemoryTimeSeriesContent) : List Int :=
  s.content_.map Prod.fst

end MemoryTimeSeriesContent

/-! ## Data of the unit tests -/

/-- The string `"0123456789"` of the test `SizeRecycling`. -/
def digits : Bytes := [0x30, 0x31, 0x32, 0x33, 0x34, 0x35, 0x36, 0x37, 0x38, 0x39]

/-- The string `"0123456789a"` of the test `SizeRecycling`. -/
def digitsAndLetter : Bytes := digits ++ [0x61]

/-- The string `"01234"` of the test `SizeRecycling`. -/
def lowDigits : Bytes := [0x30, 0x31, 0x32, 0x33, 0x34]

/-- The string `"56789"` of the test `SizeRecycling`. -/
def highDigits : Bytes := [0x35, 0x36, 0x37, 0x38, 0x39]

/-- The series of the test `SizeRecycling` (quota `(0, 10)`) after its first
accepted `Append(0, "", "0123456789")`. -/
def sizeRecyclingFirst : MemoryTimeSeriesContent :=
  { content_ := [(0, { metadata_ := [], value_ := digits })], size_ := 10, maxLength_ := 0,
    maxSize_ := 10, hasLastTimestamp_ := true, lastTimestamp_ := 0 }

/-- The series of the test `SizeRecycling` when `Append(2, "", "56789")` follows
the first accepted `Append`. -/
def sizeRecyclingThird : MemoryTimeSeriesContent :=
  { content_ := [(2, { metadata_ := [], value_ := highDigits })], size_ := 5, maxLength_ := 0,
    maxSize_ := 10, hasLastTimestamp_ := true, lastTimestamp_ := 2 }

/-- Three calls of `Append` at the timestamps 0, 10 and 20 with one-byte values. -/
def threeAppends : List (Int × Bytes × Bytes) :=
  [(0, [], [0x30]), (10, [], [0x31]), (20, [], [0x32])]

/-- The series with the timestamps 0, 10 and 20 that `threeAppends` builds
without quotas. -/
def threeItems : MemoryTimeSeriesContent :=
  { content_ := [(0, { metadata_ := [], value_ := [0x30] }),
                 (10, { metadata_ := [], value_ := [0x31] }),
                 (20, { metadata_ := [], value_ := [0x32] })],
    size_ := 3, maxLength_ := 0, maxSize_ := 0, hasLastTimestamp_ := true,
    lastTimestamp_ := 20 }

/-- The calls that build `threeItems`. -/
def threeCalls : List MemoryTimeSeriesContent.Call :=
  [.Append 0 [] [0x30], .Append 10 [] [0x31], .Append 20 [] [0x32]]

/-! ## Messages, series, writers and readers

Embedding of `Framework/Message.cpp`, `Framework/TimeSeries/TimeSeriesWriter.cpp`,
`Framework/TimeSeries/TimeSeriesReader.cpp` and of the class `TimeSeries` of
`Framework/TimeSeries/GenericTimeSeriesManager.cpp`.

* An `int64_t` sum is reduced to its two's-complement value (`toInt64`).
* A pointer to an observer is a number; a call of `NotifySeriesModified` or
  `NotifySeriesDeleted` on an observer is a `Notification`.
* Locks only order the calls in time; the calls are made one after the other.
-/

/-- The value of a 64-bit signed result in two's complement. -/
def toInt64 (x : Int) : Int := (x + 2 ^ 63) % 2 ^ 64 - 2 ^ 63

/-- The enumeration `TimestampType`, with the values that the sources name. -/
inductive TimestampType where
  | Default
  | Fixed
  | NanosecondsClock
  | MillisecondsClock
  | SecondsClock
  | Sequence
deriving DecidableEq, Repr

/-- The fields of the class `Message`. -/
structure Message where
  type_ : TimestampType
  timestamp_ : Int
  metadata_ : Bytes
  value_ : Bytes
deriving DecidableEq, Repr

namespace Message

/-- The constructor `Message()`. -/
def create : Message :=
  { type_ := TimestampType.Default, timestamp_ := 0, metadata_ := [], value_ := [] }

/-- The method `SetTimestampType`. -/
def SetTimestampType (m : Message) (type : TimestampType) : Except ErrorCode Message :=
  if type = TimestampType.Fixed then .error ErrorCode.BadParameterType
  else .ok { m with type_ := type }

/-- The method `GetTimestampType`. -/
def GetTimestampType (m : Message) : TimestampType := m.type_

/-- The method `GetTimestamp`. -/
def GetTimestamp (m : Message) : Except ErrorCode Int :=
  if m.type_ ≠ TimestampType.Fixed then .error ErrorCode.BadParameterType
  else .ok m.timestamp_

/-- The method `SetTimestamp`. -/
def SetTimestamp (m : Message) (timestamp : Int) : Message :=
  { m with type_ := TimestampType.Fixed, timestamp_ := timestamp }

/-- The method `GetMetadata`. -/
def GetMetadata (m : Message) : Bytes := m.metadata_

/-- The method `SetMetadata`. -/
def SetMetadata (m : Message) (metadata : Bytes) : Message := { m with metadata_ := metadata }

/-- The method `GetValue`. -/
def GetValue (m : Message) : Bytes := m.value_

/-- The method `SetValue`. -/
def SetValue (m : Message) (value : Bytes) : Message := { m with value_ := value }

end Message

/-- A call received by an observer of a series (`ITimeSeriesObserver`). -/
inductive Notification where
  | SeriesModified (observer : Nat) (name : String)
  | SeriesDeleted (observer : Nat) (name : String)
deriving DecidableEq, Repr

/-- Modelled from the spec: the backend of a memory series. The file
`MemoryTimeSeriesBackend.cpp` is missing; by section 4.1 the scope of a
transaction of the memory backend is the scope of a method, so every method of
its `ITransaction` is the method of the same name of the `MemoryTimeSeriesContent`
that the backend owns, and `CreateTransaction` never returns `NULL`. -/
abbrev MemoryTimeSeriesBackend := MemoryTimeSeriesContent

/-- The fields of the class `GenericTimeSeriesManager::TimeSeries` (without its
mutex and its set of accessors, which no result depends on); `backend_` is
`none` for the `NULL` pointer. -/
structure TimeSeries where
  name_ : String
  backend_ : Option MemoryTimeSeriesBackend
  defaultTimestamp_ : TimestampType
  observers_ : List Nat
deriving DecidableEq, Repr

namespace TimeSeries

/-- The method `Lock::HasBackend`. -/
def HasBackend (that_ : TimeSeries) : Bool := that_.backend_.isSome

/-- The method `Lock::GetDefaultTimestampType`. -/
def GetDefaultTimestampType (that_ : TimeSeries) : TimestampType := that_.defaultTimestamp_

/-- The method `NotifyModification`: the calls of `NotifySeriesModified`. -/
def NotifyModification (that_ : TimeSeries) : List Notification :=
  that_.observers_.map (fun observer => Notification.SeriesModified observer that_.name_)

/-- The method `Delete`: the calls of `NotifySeriesDeleted`, and the series
without its backend. -/
def Delete (that_ : TimeSeries) : TimeSeries × List Notification :=
  ({ that_ with backend_ := none },
   that_.observers_.map (fun observer => Notification.SeriesDeleted observer that_.name_))

end TimeSeries

/-- The readings of the three clocks of `Toolbox` at the time of a call. -/
structure Clock where
  nanoseconds : Int
  milliseconds : Int
  seconds : Int
deriving DecidableEq, Repr

namespace TimeSeriesWriter

/-- The fields of the class `TimeSeriesWriter::Transaction`: `lock_` is the
series that the lock is on, `transaction_` the state of the backend that the
transaction writes to (`none` for the `NULL` pointer). -/
structure Transaction where
  lock_ : TimeSeries
  transaction_ : Option MemoryTimeSeriesBackend
  modified_ : Bool
deriving DecidableEq, Repr

namespace Transaction

/-- The constructor `Transaction(writer)`, on the series of the accessor of the writer. -/
def create (series : TimeSeries) : Transaction :=
  { lock_ := series,
    transaction_ := if series.HasBackend then series.backend_ else none,
    modified_ := false }

/-- The destructor: the series with the state that the transaction leaves in
its backend, and the notifications sent. -/
def destroy (t : Transaction) : TimeSeries × List Notification :=
  ({ t.lock_ with backend_ := t.transaction_ },
   if t.modified_ then t.lock_.NotifyModification else [])

/-- The method `GetLastTimestamp`. -/
def GetLastTimestamp (t : Transaction) : Option Int :=
  match t.transaction_ with
  | none => none
  | some backend => backend.GetLastTimestamp

/-- The method `Append`. -/
def Append (t : Transaction) (timestamp : Int) (metadata value : Bytes) :
    Except ErrorCode (Bool × Transaction) :=
  match t.transaction_ with
  | none => .ok (false, t)
  | some backend =>
    match backend.Append timestamp metadata value with
    | .error e => .error e
    | .ok (true, backend1) =>
      .ok (true, { t with transaction_ := some backend1, modified_ := true })
    | .ok (false, backend1) => .ok (false, { t with transaction_ := some backend1 })

/-- The method `DeleteRange`. -/
def DeleteRange (t : Transaction) (start stop : Int) : Bool × Transaction :=
  match t.transaction_ with
  | none => (false, t)
  | some backend =>
    (true, { t with transaction_ := some (backend.DeleteRange start stop), modified_ := true })

/-- The method `ClearContent`. -/
def ClearContent (t : Transaction) : Transaction :=
  match t.transaction_ with
  | none => t
  | some backend => { t with transaction_ := some backend.ClearContent, modified_ := true }

/-- The method `GetDefaultTimestampType`. -/
def GetDefaultTimestampType (t : Transaction) : TimestampType :=
  t.lock_.GetDefaultTimestampType

end Transaction

/-- The timestamp that `TimeSeriesWriter::Append` computes for a message (the
`switch` of the method). -/
def resolve (transaction : Transaction) (clock : Clock) (message : Message) :
    Except ErrorCode Int :=
  let type :=
    if message.GetTimestampType = TimestampType.Default then
      transaction.GetDefaultTimestampType
    else message.GetTimestampType
  match type with
  | TimestampType.Fixed => message.GetTimestamp
  | TimestampType.NanosecondsClock => .ok clock.nanoseconds
  | TimestampType.MillisecondsClock => .ok clock.milliseconds
  | TimestampType.SecondsClock => .ok clock.seconds
  | TimestampType.Sequence =>
    match transaction.GetLastTimestamp with
    | some timestamp => .ok (toInt64 (timestamp + 1))
    | none => .ok 0
  | TimestampType.Default => .error ErrorCode.ParameterOutOfRange

/-- The method `TimeSeriesWriter::Append(message)` on the series of the writer:
the returned boolean, the series and the notifications that the destructor of
its transaction leaves. An exception leaves the series as it was. -/
def Append (series : TimeSeries) (clock : Clock) (message : Message) :
    Except ErrorCode (Bool × TimeSeries × List Notification) :=
  let transaction := Transaction.create series
  match resolve transaction clock message with
  | .error e => .error e
  | .ok timestamp =>
    match transaction.Append timestamp message.GetMetadata message.GetValue with
    | .error e => .error e
    | .ok (accepted, transaction1) =>
      .ok (accepted, transaction1.destroy.1, transaction1.destroy.2)

end TimeSeriesWriter

namespace TimeSeriesReader

/-- The fields of the class `TimeSeriesReader::Transaction` that the methods
read and write; `transaction_` is the state of the backend, `none` for `NULL`. -/
structure Transaction where
  transaction_ : Option MemoryTimeSeriesBackend
  valid_ : Bool
  timestamp_ : Int
deriving DecidableEq, Repr

namespace Transaction

/-- The constructor `Transaction(reader)`, on the series of the accessor of the reader. -/
def create (series : TimeSeries) : Transaction :=
  { transaction_ := if series.HasBackend then series.backend_ else none,
    valid_ := false, timestamp_ := 0 }

/-- The method `GetTimestamp`. -/
def GetTimestamp (t : Transaction) : Option Int :=
  if t.valid_ then some t.timestamp_ else none

/-- The common end of the seeks: the cursor moves when the backend finds a timestamp. -/
def moveTo (t : Transaction) (found : Option Int) : Bool × Transaction :=
  match found with
  | some timestamp => (true, { t with valid_ := true, timestamp_ := timestamp })
  | none => (false, t)

/-- The method `SeekFirst`. -/
def SeekFirst (t : Transaction) : Bool × Transaction :=
  match t.transaction_ with
  | none => (false, t)
  | some backend => t.moveTo backend.SeekFirst

/-- The method `SeekLast`. -/
def SeekLast (t : Transaction) : Bool × Transaction :=
  match t.transaction_ with
  | none => (false, t)
  | some backend => t.moveTo backend.SeekLast

/-- The method `Seek`. -/
def Seek (t : Transaction) (timestamp : Int) : Transaction :=
  { t with valid_ := true, timestamp_ := timestamp }

/-- The method `SeekNearest`. -/
def SeekNearest (t : Transaction) (timestamp : Int) : Bool × Transaction :=
  match t.transaction_ with
  | none => (false, t)
  | some backend => t.moveTo (backend.SeekNearest timestamp)

/-- The method `SeekNext`. -/
def SeekNext (t : Transaction) : Bool × Transaction :=
  if !t.valid_ then (false, t)
  else
    match t.transaction_ with
    | none => (false, t)
    | some backend => t.moveTo (backend.SeekNext t.timestamp_)

/-- The method `SeekPrevious`. -/
def SeekPrevious (t : Transaction) : Bool × Transaction :=
  if !t.valid_ then (false, t)
  else
    match t.transaction_ with
    | none => (false, t)
    | some backend => t.moveTo (backend.SeekPrevious t.timestamp_)

/-- The method `Read`. -/
def Read (t : Transaction) : Option (Bytes × Bytes) :=
  if !t.valid_ then none
  else
    match t.transaction_ with
    | none => none
    | some backend => backend.Read t.timestamp_

/-- The method `GetStatistics`. -/
def GetStatistics (t : Transaction) : Nat × Nat :=
  match t.transaction_ with
  | none => (0, 0)
  | some backend => backend.GetStatistics

end Transaction

end TimeSeriesReader

namespace TimeSeriesWriter

/-- One operation of a writer transaction. -/
def Transaction.apply (t : Transaction) :
    MemoryTimeSeriesContent.Call → Except ErrorCode Transaction
  | .Append timestamp metadata value =>
    match t.Append timestamp metadata value with
    | .error e => .error e
    | .ok (_, t1) => .ok t1
  | .DeleteRange start stop => .ok (t.DeleteRange start stop).2
  | .ClearContent => .ok t.ClearContent

/-- The operations of a writer transaction, made one after the other. -/
def Transaction.applyAll (t : Transaction) :
    List MemoryTimeSeriesContent.Call → Except ErrorCode Transaction
  | [] => .ok t
  | operation :: rest =>
    match t.apply operation with
    | .error e => .error e
    | .ok t1 => Transaction.applyAll t1 rest

/-- A whole writer transaction on a series: it is opened, makes the given
operations and is destroyed. The series and the notifications that it leaves. -/
def transact (series : TimeSeries) (operations : List MemoryTimeSeriesContent.Call) :
    Except ErrorCode (TimeSeries × List Notification) :=
  match (Transaction.create series).applyAll operations with
  | .error e => .error e
  | .ok t => .ok t.destroy

/-- Consecutive calls of `TimeSeriesWriter::Append`, each with the readings of
the clocks at its time: the returned booleans and the series at the end. -/
def appendAll (series : TimeSeries) :
    List (Clock × Message) → Except ErrorCode (List Bool × TimeSeries)
  | [] => .ok ([], series)
  | (clock, message) :: rest =>
    match Append series clock message with
    | .error e => .error e
    | .ok (accepted, series1, _) =>
      match appendAll series1 rest with
      | .error e => .error e
      | .ok (results, series2) => .ok (accepted :: results, series2)

end TimeSeriesWriter

namespace TimeSeriesReader

/-- The loop of a full scan with a reader transaction: the timestamp of the
cursor, then `SeekNext` until it returns `false`. `steps` bounds the number of
turns; `none` when the bound is reached or the cursor is not valid. -/
def scanLoop : Nat → Transaction → Option (List Int)
  | 0, _ => none
  | steps + 1, t =>
    match t.GetTimestamp with
    | none => none
    | some timestamp =>
      match t.SeekNext with
      | (false, _) => some [timestamp]
      | (true, t1) =>
        match scanLoop steps t1 with
        | none => none
        | some later => some (timestamp :: later)

/-- A full scan of a series in one reader transaction: `SeekFirst`, then the
loop above. The timestamps met, in the order of the scan. -/
def readAll (series : TimeSeries) (steps : Nat) : Option (List Int) :=
  match (Transaction.create series).SeekFirst with
  | (false, _) => some []
  | (true, t) => scanLoop steps t

end TimeSeriesReader

/-- A new series without quotas, as `CreateTimeSeries` makes it with a memory backend. -/
def newSeries (name : String) (policy : TimestampType) (observers : List Nat) : TimeSeries :=
  { name_ := name, backend_ := some (MemoryTimeSeriesContent.create 0 0),
    defaultTimestamp_ := policy, observers_ := observers }

/-- The message of the test `Sequence`: a new message set to the type `Sequence`. -/
def sequenceMessage : Message :=
  { type_ := TimestampType.Sequence, timestamp_ := 0, metadata_ := [], value_ := [] }

/-- Some readings of the clocks. -/
def someClock : Clock := { nanoseconds := 1000000000, milliseconds := 1000, seconds := 1 }

/-- The largest `int64_t` value. -/
def INT64_MAX : Int := 2 ^ 63 - 1

/-- The smallest `int64_t` value. -/
def INT64_MIN : Int := -2 ^ 63

/-- A series without quotas on which one message was appended at the fixed
timestamp `INT64_MAX`. -/
def seriesAtMax : TimeSeries :=
  { name_ := "hello",
    backend_ := some
      { content_ := [(INT64_MAX, { metadata_ := [], value_ := [] })], size_ := 0,
        maxLength_ := 0, maxSize_ := 0, hasLastTimestamp_ := true,
        lastTimestamp_ := INT64_MAX },
    defaultTimestamp_ := TimestampType.Sequence, observers_ := [] }

/-- A series of declared policy `Fixed`, without quotas, that holds one empty
item at the timestamp 0. -/
def fixedSeriesFirst : TimeSeries :=
  { name_ := "hello",
    backend_ := some
      { content_ := [(0, { metadata_ := [], value_ := [] })], size_ := 0,
        maxLength_ := 0, maxSize_ := 0, hasLastTimestamp_ := true, lastTimestamp_ := 0 },
    defaultTimestamp_ := TimestampType.Fixed, observers_ := [] }

/-- The backend of the series of the test `Sequence2` after its two accepted
calls of `Append` (a new message, then the same message set to the timestamp 10). -/
def sequence2Backend : MemoryTimeSeriesBackend :=
  { content_ := [(0, { metadata_ := [], value_ := [] }), (10, { metadata_ := [], value_ := [] })],
    size_ := 0, maxLength_ := 0, maxSize_ := 0, hasLastTimestamp_ := true,
    lastTimestamp_ := 10 }

/-- The series of the test `Sequence2` after its two accepted calls of `Append`. -/
def sequence2Series : TimeSeries :=
  { name_ := "hello", backend_ := some sequence2Backend,
    defaultTimestamp_ := TimestampType.Sequence, observers_ := [] }

/-- The series `threeItems` under a name, with one observer. -/
def threeItemsSeries : TimeSeries :=
  { name_ := "hello", backend_ := some threeItems,
    defaultTimestamp_ := TimestampType.Sequence, observers_ := [7] }

/-! ## The manager of the series

Embedding of `Framework/TimeSeries/GenericTimeSeriesManager.cpp`.

* A `boost::shared_ptr<TimeSeries>` is the index of its object in `heap_`, the
  list of the `TimeSeries` objects allocated so far; an object stays in the
  list when the manager forgets it, for the accessors that still point to it.
* A `std::map` or `std::set` keyed by names is the list of its entries; only
  membership is used.
-/

/-- Modelled from the spec: the interface `ITimeSeriesFactory`, whose header is
not among the sources, by the three calls that `GenericTimeSeriesManager` makes
and by its implementations (`MainTimeSeriesFactory.cpp`, the unit tests). A
backend is given by its state and `none` is the `NULL` pointer. -/
structure ITimeSeriesFactory where
  ListManualTimeSeries : List (String × TimestampType)
  CreateManualTimeSeries : String → Option MemoryTimeSeriesBackend
  CreateAutoTimeSeries : String → TimestampType × Option MemoryTimeSeriesBackend

/-- The constructor `TimeSeries(name, backend, type)`. -/
def TimeSeries.create (name : String) (backend : Option MemoryTimeSeriesBackend)
    (type : TimestampType) : Except ErrorCode TimeSeries :=
  match backend with
  | none => .error ErrorCode.NullPointer
  | some b => .ok { name_ := name, backend_ := some b, defaultTimestamp_ := type, observers_ := [] }

/-- The method `TimeSeries::RegisterObserver`. -/
def TimeSeries.RegisterObserver (that_ : TimeSeries) (observer : Nat) :
    Except ErrorCode TimeSeries :=
  if observer ∈ that_.observers_ then .error ErrorCode.BadSequenceOfCalls
  else .ok { that_ with observers_ := that_.observers_ ++ [observer] }

/-- The method `TimeSeries::UnregisterObserver`. -/
def TimeSeries.UnregisterObserver (that_ : TimeSeries) (observer : Nat) : TimeSeries :=
  { that_ with observers_ := that_.observers_.filter (fun o => o != observer) }

/-- The fields of the class `GenericTimeSeriesManager`, and the `TimeSeries`
objects that its shared pointers and those of the accessors point to. -/
structure GenericTimeSeriesManager where
  factory_ : ITimeSeriesFactory
  content_ : List (String × Nat)
  heap_ : List TimeSeries

/-- The classes `Accessor` and `SynchronousAccessor`: the series pointed to,
and the address under which a synchronous accessor observes it. -/
structure Accessor where
  timeSeries_ : Nat
  observer_ : Option Nat
deriving DecidableEq, Repr

namespace GenericTimeSeriesManager

/-- Lookup `content_.find(name)`: the pointer stored under the name. -/
def find (m : GenericTimeSeriesManager) (name : String) : Option Nat :=
  match m.content_.find? (fun entry => entry.1 == name) with
  | none => none
  | some entry => some entry.2

/-- The method `GetTimeSeries`, with the manager that an auto-creation leaves. -/
def GetTimeSeries (m : GenericTimeSeriesManager) (name : String) :
    Except ErrorCode (Nat × GenericTimeSeriesManager) :=
  match m.find name with
  | none =>
    match m.factory_.CreateAutoTimeSeries name with
    | (timestampType, some backend) =>
      match TimeSeries.create name (some backend) timestampType with
      | .error e => .error e
      | .ok series =>
        .ok (m.heap_.length,
             { m with heap_ := m.heap_ ++ [series],
                      content_ := m.content_ ++ [(name, m.heap_.length)] })
    | (_, none) => .error ErrorCode.InexistentItem
  | some found => .ok (found, m)

/-- The method `ListTimeSeries`. -/
def ListTimeSeries (m : GenericTimeSeriesManager) : List String :=
  m.content_.map Prod.fst

/-- The method `CreateTimeSeries`. -/
def CreateTimeSeries (m : GenericTimeSeriesManager) (name : String)
    (timestampType : TimestampType) : Except ErrorCode GenericTimeSeriesManager :=
  if (m.find name).isSome then .error ErrorCode.BadSequenceOfCalls
  else
    match TimeSeries.create name (m.factory_.CreateManualTimeSeries name) timestampType with
    | .error e => .error e
    | .ok series =>
      .ok { m with heap_ := m.heap_ ++ [series],
                   content_ := m.content_ ++ [(name, m.heap_.length)] }

/-- The constructor: the manual series of the factory are created in turn. -/
def create.loop (m : GenericTimeSeriesManager) :
    List (String × TimestampType) → Except ErrorCode GenericTimeSeriesManager
  | [] => .ok m
  | (name, type) :: rest =>
    match m.CreateTimeSeries name type with
    | .error e => .error e
    | .ok m1 => create.loop m1 rest

/-- The constructor `GenericTimeSeriesManager(factory)`. -/
def create (factory : ITimeSeriesFactory) : Except ErrorCode GenericTimeSeriesManager :=
  create.loop { factory_ := factory, content_ := [], heap_ := [] } factory.ListManualTimeSeries

/-- The method `DeleteTimeSeries`, with the notifications of `TimeSeries::Delete`. -/
def DeleteTimeSeries (m : GenericTimeSeriesManager) (name : String) :
    Except ErrorCode (GenericTimeSeriesManager × List Notification) :=
  match m.find name with
  | none => .error ErrorCode.InexistentItem
  | some found =>
    match m.heap_[found]? with
    | none => .error ErrorCode.NullPointer
    | some series =>
      .ok ({ m with heap_ := m.heap_.set found series.Delete.1,
                    content_ := m.content_.filter (fun entry => entry.1 != name) },
           series.Delete.2)

/-- The method `CreateAccessor`; `address` is the address of the new accessor,
under which a `SynchronousAccessor` registers as an observer of the series. -/
def CreateAccessor (m : GenericTimeSeriesManager) (name : String) (hasSynchronousWait : Bool)
    (address : Nat) : Except ErrorCode (Accessor × GenericTimeSeriesManager) :=
  match m.GetTimeSeries name with
  | .error e => .error e
  | .ok (series, m1) =>
    if hasSynchronousWait then
      match m1.heap_[series]? with
      | none => .error ErrorCode.NullPointer
      | some object =>
        match object.RegisterObserver address with
        | .error e => .error e
        | .ok object1 =>
          .ok ({ timeSeries_ := series, observer_ := some address },
               { m1 with heap_ := m1.heap_.set series object1 })
    else .ok ({ timeSeries_ := series, observer_ := none }, m1)

/-- The method `Accessor::Lock`: the series that the accessor points to. -/
def Lock (m : GenericTimeSeriesManager) (accessor : Accessor) : Option TimeSeries :=
  m.heap_[accessor.timeSeries_]?

end GenericTimeSeriesManager

/-- The constructor `TimeSeriesReader(manager, name, hasSynchronousWait)`: the
accessor of the reader. -/
def TimeSeriesReader.createReader (manager : GenericTimeSeriesManager) (name : String)
    (hasSynchronousWait : Bool) (address : Nat) :
    Except ErrorCode (Accessor × GenericTimeSeriesManager) :=
  manager.CreateAccessor name hasSynchronousWait address

/-- The constructor `TimeSeriesWriter(manager, name)`: the accessor of the writer. -/
def TimeSeriesWriter.createWriter (manager : GenericTimeSeriesManager) (name : String)
    (address : Nat) : Except ErrorCode (Accessor × GenericTimeSeriesManager) :=
  manager.CreateAccessor name false address

namespace GenericTimeSeriesManager

/-- The method `Accessor::~Accessor` (and `~SynchronousAccessor`): a synchronous
accessor is taken off the observers of its series. -/
def DestroyAccessor (m : GenericTimeSeriesManager) (accessor : Accessor) :
    GenericTimeSeriesManager :=
  match accessor.observer_, m.heap_[accessor.timeSeries_]? with
  | some address, some series =>
    { m with heap_ := m.heap_.set accessor.timeSeries_ (series.UnregisterObserver address) }
  | _, _ => m

/-- A writer transaction through an accessor: the operations are made on the
series that the accessor points to. An exception leaves the manager as it was. -/
def Write (m : GenericTimeSeriesManager) (accessor : Accessor)
    (operations : List MemoryTimeSeriesContent.Call) :
    Except ErrorCode (GenericTimeSeriesManager × List Notification) :=
  match m.Lock accessor with
  | none => .error ErrorCode.NullPointer
  | some series =>
    match TimeSeriesWriter.transact series operations with
    | .error e => .error e
    | .ok (series1, notifications) =>
      .ok ({ m with heap_ := m.heap_.set accessor.timeSeries_ series1 }, notifications)

/-- A call made on the manager or through one of its accessors. -/
inductive Call where
  | CreateTimeSeries (name : String) (timestampType : TimestampType)
  | DeleteTimeSeries (name : String)
  | CreateAccessor (name : String) (hasSynchronousWait : Bool) (address : Nat)
  | DestroyAccessor (accessor : Accessor)
  | Write (accessor : Accessor) (operations : List MemoryTimeSeriesContent.Call)

/-- The manager after one call; a call that raises an exception leaves what it
had done before the exception (only the auto-creation of `CreateAccessor`). -/
def call (m : GenericTimeSeriesManager) : Call → GenericTimeSeriesManager
  | .CreateTimeSeries name timestampType =>
    match m.CreateTimeSeries name timestampType with
    | .ok m1 => m1
    | .error _ => m
  | .DeleteTimeSeries name =>
    match m.DeleteTimeSeries name with
    | .ok (m1, _) => m1
    | .error _ => m
  | .CreateAccessor name hasSynchronousWait address =>
    match m.CreateAccessor name hasSynchronousWait address with
    | .ok (_, m1) => m1
    | .error _ =>
      match m.GetTimeSeries name with
      | .ok (_, m1) => m1
      | .error _ => m
  | .DestroyAccessor accessor => m.DestroyAccessor accessor
  | .Write accessor operations =>
    match m.Write accessor operations with
    | .ok (m1, _) => m1
    | .error _ => m

/-- The manager after a sequence of calls. -/
def calls (m : GenericTimeSeriesManager) : List Call → GenericTimeSeriesManager
  | [] => m
  | c :: rest => calls (m.call c) rest

/-- The pointers of `content_` point to objects of `heap_`, and two entries of
`content_` have neither the same name nor the same pointer. -/
structure WellFormed (m : GenericTimeSeriesManager) : Prop where
  valid : ∀ entry ∈ m.content_, entry.2 < m.heap_.length
  names : (m.content_.map Prod.fst).Nodup
  pointers : (m.content_.map Prod.snd).Nodup

end GenericTimeSeriesManager

/-- The factory of the unit tests for the memory backend (`MemoryFactory`):
no manual series is listed, none is created automatically, and every created
series gets a new memory backend with the given quotas. -/
def memoryFactory (maxLength maxSize : Nat) : ITimeSeriesFactory :=
  { ListManualTimeSeries := [],
    CreateManualTimeSeries := fun _ => some (MemoryTimeSeriesContent.create maxLength maxSize),
    CreateAutoTimeSeries := fun _ => (TimestampType.Default, none) }

/-- A factory whose backends already hold an item when they are handed over,
as the backends of `SQLiteFactory` and of the SQLite branch of
`MainTimeSeriesFactory` do when the database holds rows under the name
(`SQLiteDatabase::CreateTimeSeries` keeps the rows of a name that it has). -/
def persistentFactory : ITimeSeriesFactory :=
  { ListManualTimeSeries := [],
    CreateManualTimeSeries := fun _ => some sizeRecyclingFirst,
    CreateAutoTimeSeries := fun _ => (TimestampType.Default, none) }

/-- A manager without series. -/
def emptyManager (factory : ITimeSeriesFactory) : GenericTimeSeriesManager :=
  { factory_ := factory, content_ := [], heap_ := [] }

/-- An object of the heap that the manager has deleted and forgotten: no entry
of `content_` points to it and it has no backend. -/
structure GenericTimeSeriesManager.Detached (m : GenericTimeSeriesManager) (pointer : Nat) :
    Prop where
  bound : pointer < m.heap_.length
  forgotten : ∀ entry ∈ m.content_, entry.2 ≠ pointer
  deleted : ∀ series, m.heap_[pointer]? = some series → series.backend_ = none

/-- The manager of the unit tests with the series `hello`, observed by the
synchronous accessor of address 7. -/
def openedManager : GenericTimeSeriesManager :=
  { factory_ := memoryFactory 0 0, content_ := [("hello", 0)],
    heap_ := [newSeries "hello" TimestampType.Sequence [7]] }

/-- The manager `openedManager` after `DeleteTimeSeries("hello")`. -/
def deletedManager : GenericTimeSeriesManager :=
  { factory_ := memoryFactory 0 0, content_ := [],
    heap_ := [{ name_ := "hello", backend_ := none,
                defaultTimestamp_ := TimestampType.Sequence, observers_ := [7] }] }

/-- The synchronous accessor of address 7 on the first series of a manager. -/
def helloAccessor : Accessor := { timeSeries_ := 0, observer_ := some 7 }

/-! ## LoRa payloads

Embedding of `Framework/LoRa/PHYPayload.cpp` and `Framework/LoRa/MACPayload.cpp`.

* A `uint8_t`, `uint16_t` or `uint32_t` field is the natural number that it
  holds; every value stored below is within the range of its field.
* The `size_t` fields of `MACPayload` are natural numbers: `frameOffset_` is at
  most 23 and the one subtraction is made where the size is the larger number.
* `data[i]` is read at indices below the size that has been checked before.
-/

namespace LoRa

/-- Modelled from the spec: the enumeration `MessageType` of `LoRaEnumerations.h`,
a header that is not among the sources, by the eight constants that
`PHYPayload::Parse` assigns. -/
inductive MessageType where
  | JoinRequest
  | JoinAccept
  | UnconfirmedDataUp
  | UnconfirmedDataDown
  | ConfirmedDataUp
  | ConfirmedDataDown
  | Reserved
  | Proprietary
deriving DecidableEq, Repr

/-- The byte `data[i]` of a buffer, as a number. -/
def byteAt (data : Bytes) (i : Nat) : Nat := (data.getD i 0).toNat

/-- The read `le16toh(*reinterpret_cast<const uint16_t*>(data + offset))`: the
two bytes from `offset` on, the first one being the least significant. -/
def le16 (data : Bytes) (offset : Nat) : Nat :=
  ((data.drop offset).take 2).foldr (fun byte rest => byte.toNat + 256 * rest) 0

/-- The read `le32toh(*reinterpret_cast<const uint32_t*>(data + offset))`: the
four bytes from `offset` on, the first one being the least significant. -/
def le32 (data : Bytes) (offset : Nat) : Nat :=
  ((data.drop offset).take 4).foldr (fun byte rest => byte.toNat + 256 * rest) 0

/-- The method `std::string::substr(pos, len)`; `none` is `std::out_of_range`. -/
def substr (s : Bytes) (pos len : Nat) : Option Bytes :=
  if pos > s.length then none else some ((s.drop pos).take len)

/-- The fields of the class `PHYPayload`. -/
structure PHYPayload where
  buffer_ : Bytes
  type_ : MessageType
  mhdr_ : Nat
  rfu_ : Nat
  major_ : Nat
  mic_ : Nat
deriving DecidableEq, Repr

namespace PHYPayload

/-- The method `Parse`, on the buffer that the object holds. -/
def Parse (buffer_ : Bytes) : Except ErrorCode PHYPayload :=
  if buffer_.length < 5 then .error ErrorCode.NetworkProtocol
  else
    let mhdr_ := byteAt buffer_ 0
    let fields (type_ : MessageType) : Except ErrorCode PHYPayload :=
      .ok { buffer_ := buffer_, type_ := type_, mhdr_ := mhdr_,
            rfu_ := (mhdr_ >>> 2) &&& 0x07,
            major_ := mhdr_ &&& 0x03,
            mic_ := le32 buffer_ (buffer_.length - 4) }
    match mhdr_ >>> 5 with
    | 0 => fields MessageType.JoinRequest
    | 1 => fields MessageType.JoinAccept
    | 2 => fields MessageType.UnconfirmedDataUp
    | 3 => fields MessageType.UnconfirmedDataDown
    | 4 => fields MessageType.ConfirmedDataUp
    | 5 => fields MessageType.ConfirmedDataDown
    | 6 => fields MessageType.Reserved
    | 7 => fields MessageType.Proprietary
    | _ => .error ErrorCode.InternalError

/-- The method `FromBuffer(buffer)`. -/
def FromBuffer (buffer : Bytes) : Except ErrorCode PHYPayload := Parse buffer

/-- The method `GetMessageType`. -/
def GetMessageType (p : PHYPayload) : MessageType := p.type_

/-- The method `GetMHDR`. -/
def GetMHDR (p : PHYPayload) : Nat := p.mhdr_

/-- The method `GetMajor`. -/
def GetMajor (p : PHYPayload) : Nat := p.major_

/-- The method `GetRFU`. -/
def GetRFU (p : PHYPayload) : Nat := p.rfu_

/-- The method `GetMIC`. -/
def GetMIC (p : PHYPayload) : Nat := p.mic_

end PHYPayload

/-- The fields of the class `MACPayload`. -/
structure MACPayload where
  buffer_ : Bytes
  deviceAddress_ : Nat
  fctrl_ : Nat
  frameCounter_ : Nat
  foptsLength_ : Nat
  fport_ : Nat
  frameOffset_ : Nat
  frameSize_ : Nat
deriving DecidableEq, Repr

namespace MACPayload

/-- The method `Parse`, on the buffer that the object holds. -/
def Parse (buffer_ : Bytes) : Except ErrorCode MACPayload :=
  if buffer_.length < 7 then .error ErrorCode.NetworkProtocol
  else
    let deviceAddress_ := le32 buffer_ 0
    let frameCounter_ := le16 buffer_ 5
    let fctrl_ := byteAt buffer_ 4
    let foptsLength_ := fctrl_ &&& 0x0f
    let frameOffset_ := 7 + foptsLength_
    if buffer_.length < frameOffset_ then .error ErrorCode.NetworkProtocol
    else if buffer_.length = frameOffset_ then
      .ok { buffer_ := buffer_, deviceAddress_ := deviceAddress_, fctrl_ := fctrl_,
            frameCounter_ := frameCounter_, foptsLength_ := foptsLength_,
            fport_ := 0, frameOffset_ := frameOffset_, frameSize_ := 0 }
    else
      let fport_ := byteAt buffer_ frameOffset_
      let frameOffset_ := frameOffset_ + 1
      .ok { buffer_ := buffer_, deviceAddress_ := deviceAddress_, fctrl_ := fctrl_,
            frameCounter_ := frameCounter_, foptsLength_ := foptsLength_,
            fport_ := fport_, frameOffset_ := frameOffset_,
            frameSize_ :=
              if buffer_.length = frameOffset_ + 1 then 0
              else buffer_.length - frameOffset_ }

/-- The method `FromBuffer(buffer)`. -/
def FromBuffer (buffer : Bytes) : Except ErrorCode MACPayload := Parse buffer

/-- The method `GetDeviceAddress`. -/
def GetDeviceAddress (p : MACPayload) : Nat := p.deviceAddress_

/-- The method `GetFrameCounter`. -/
def GetFrameCounter (p : MACPayload) : Nat := p.frameCounter_

/-- The method `GetFCtrl`. -/
def GetFCtrl (p : MACPayload) : Nat := p.fctrl_

/-- The method `GetFOptsLength`. -/
def GetFOptsLength (p : MACPayload) : Nat := p.foptsLength_

/-- The method `GetFOpts`. -/
def GetFOpts (p : MACPayload) : Option Bytes := substr p.buffer_ 7 p.foptsLength_

/-- The method `GetFPort`. -/
def GetFPort (p : MACPayload) : Nat := p.fport_

/-- The method `GetFrameSize`. -/
def GetFrameSize (p : MACPayload) : Nat := p.frameSize_

/-- The method `GetFramePayload`. -/
def GetFramePayload (p : MACPayload) : Option Bytes :=
  substr p.buffer_ p.frameOffset_ p.frameSize_

/-- The method `GetFHDR`. -/
def GetFHDR (p : MACPayload) : Option Bytes := substr p.buffer_ 0 (p.frameOffset_ - 1)

end MACPayload

/-- The physical payload of the test `PHYPayload3`. -/
def phyPayload3 : Bytes :=
  [0x40, 0xF1, 0x7D, 0xBE, 0x49, 0x00, 0x02, 0x00, 0x01, 0x95, 0x43, 0x78, 0x76, 0x2B, 0x11,
   0xFF, 0x0D]

/-- The MAC payload of the test `PHYPayload3`. -/
def macPayload3 : Bytes :=
  [0xF1, 0x7D, 0xBE, 0x49, 0x00, 0x02, 0x00, 0x01, 0x95, 0x43, 0x78, 0x76]

/-- The MAC payload of the test `PHYPayload3` with one byte of frame payload
instead of four. -/
def macPayloadOneByte : Bytes := [0xF1, 0x7D, 0xBE, 0x49, 0x00, 0x02, 0x00, 0x01, 0x95]

end LoRa

/-! ## LoRa: hexadecimal strings, flags of FCtrl, AES-CMAC and frame encryption

Embedding of `Framework/LoRa/LoRaToolbox.cpp`, of the flags of
`Framework/LoRa/MACPayload.cpp`, of `Framework/LoRa/UnsignedInteger128.cpp` and
of `Framework/LoRa/FrameEncryptionKey.cpp`.

* A `char` of a `std::string` is the byte that it holds; the comparisons of
  `GetHexadecimalValue` reject every byte above `0x7f` whether `char` is signed
  or not.
* An `UnsignedInteger128` is the list of the bytes of its array `buffer_`; every
  object that the code reads has been filled with `SIZE` bytes before.
* The block encryption `AES_ECB_encrypt` belongs to a third-party library that
  is not among the sources: the functions that call it take the method
  `EncryptAES` as a parameter, `encrypt key data`.
* A `uint16_t` or `uint32_t` argument is a natural number below `2 ^ 16` or
  `2 ^ 32`; sums of such numbers are reduced modulo `2 ^ 32`.
-/

namespace LoRa

/-- Modelled from the spec: the enumeration `MessageDirection` of
`LoRaEnumerations.h`, a header that is not among the sources. -/
inductive MessageDirection where
  | Uplink
  | Downlink
deriving DecidableEq, Repr

/-- Modelled from the spec: the function `GetMessageDirection` of the missing
`LoRaEnumerations`. Section 4.7 derives the direction of the data frames (`Up`
is uplink, `Down` is downlink) and of no other type. -/
def GetMessageDirection : MessageType → Except ErrorCode MessageDirection
  | MessageType.UnconfirmedDataUp => .ok MessageDirection.Uplink
  | MessageType.ConfirmedDataUp => .ok MessageDirection.Uplink
  | MessageType.UnconfirmedDataDown => .ok MessageDirection.Downlink
  | MessageType.ConfirmedDataDown => .ok MessageDirection.Downlink
  | _ => .error ErrorCode.ParameterOutOfRange

namespace LoRaToolbox

/-- Modelled from the spec: the function `CeilingDivision` of `LoRaToolbox.h`, a
header that is not among the sources: the ceiling of `a / b` (section 4.7,
`N = ⌈len/16⌉`; the unit test gives 17/4 = 5, 16/4 = 4, 15/4 = 4). -/
def CeilingDivision (a b : Nat) : Nat :=
  if a % b = 0 then a / b else a / b + 1

/-- The function `GetHexadecimalValue(c)`; `0x61` is `'a'`, `0x41` is `'A'` and
`0x30` is `'0'`. -/
def GetHexadecimalValue (c : UInt8) : Except ErrorCode UInt8 :=
  if 0x61 ≤ c ∧ c ≤ 0x66 then .ok (c - 0x61 + 10)
  else if 0x41 ≤ c ∧ c ≤ 0x46 then .ok (c - 0x41 + 10)
  else if 0x30 ≤ c ∧ c ≤ 0x39 then .ok (c - 0x30)
  else .error ErrorCode.ParameterOutOfRange

/-- The function `GetHexadecimalValue(high, low)`. -/
def GetHexadecimalValuePair (high low : UInt8) : Except ErrorCode UInt8 :=
  match GetHexadecimalValue high with
  | .error e => .error e
  | .ok h =>
    match GetHexadecimalValue low with
    | .error e => .error e
    | .ok l => .ok (h * 16 + l)

/-- The function `ToHexadecimalCharacters`: the characters `a` and `b`. -/
def ToHexadecimalCharacters (value : UInt8) (upcase : Bool) : UInt8 × UInt8 :=
  let low := value &&& 0x0f
  let high := value >>> 4
  let base : UInt8 := if upcase then 0x41 else 0x61
  (if high < 10 then 0x30 + high else base + (high - 10),
   if low < 10 then 0x30 + low else base + (low - 10))

/-- The loop of `ParseHexadecimal`: one byte for every two characters. -/
def ParseHexadecimal.loop : Bytes → Except ErrorCode Bytes
  | high :: low :: rest =>
    match GetHexadecimalValuePair high low with
    | .error e => .error e
    | .ok value =>
      match ParseHexadecimal.loop rest with
      | .error e => .error e
      | .ok buffer => .ok (value :: buffer)
  | _ => .ok []

/-- The function `ParseHexadecimal`: the parsed buffer. -/
def ParseHexadecimal (message : Bytes) : Except ErrorCode Bytes :=
  if message.length % 2 ≠ 0 then .error ErrorCode.BadFileFormat
  else ParseHexadecimal.loop message

/-- The function `FormatHexadecimal`. -/
def FormatHexadecimal : Bytes → Bool → Bytes
  | [], _ => []
  | value :: rest, upcase =>
    (ToHexadecimalCharacters value upcase).1 :: (ToHexadecimalCharacters value upcase).2 ::
      FormatHexadecimal rest upcase

end LoRaToolbox

namespace PHYPayload

/-- The method `GetMessageDirection`. -/
def GetMessageDirection (p : PHYPayload) : Except ErrorCode MessageDirection :=
  LoRa.GetMessageDirection p.type_

/-- The method `HasMACPayload`. -/
def HasMACPayload (p : PHYPayload) : Bool :=
  p.type_ = MessageType.UnconfirmedDataUp || p.type_ = MessageType.UnconfirmedDataDown ||
    p.type_ = MessageType.ConfirmedDataUp || p.type_ = MessageType.ConfirmedDataDown

/-- The method `GetMACPayloadSize`. -/
def GetMACPayloadSize (p : PHYPayload) : Except ErrorCode Nat :=
  if p.HasMACPayload then .ok (p.buffer_.length - 5) else .error ErrorCode.NetworkProtocol

/-- The method `GetMACPayload`; the buffer of a parsed payload has 5 bytes or more. -/
def GetMACPayload (p : PHYPayload) : Except ErrorCode Bytes :=
  if p.HasMACPayload then
    match substr p.buffer_ 1 (p.buffer_.length - 5) with
    | none => .error ErrorCode.OutOfRange
    | some result => .ok result
  else .error ErrorCode.NetworkProtocol

end PHYPayload

namespace MACPayload

/-- The constructor `MACPayload(physical)`. -/
def create (physical : PHYPayload) : Except ErrorCode MACPayload :=
  match physical.GetMACPayload with
  | .error e => .error e
  | .ok buffer_ => Parse buffer_

/-- The function `HasBit`. -/
def HasBit (value bit : Nat) : Bool := value &&& (1 <<< bit) != 0

/-- The method `HasADR`. -/
def HasADR (p : MACPayload) : Bool := HasBit p.fctrl_ 7

/-- The method `HasACK`. -/
def HasACK (p : MACPayload) : Bool := HasBit p.fctrl_ 5

/-- The method `HasRFU(direction)`. -/
def HasRFU (p : MACPayload) : MessageDirection → Bool
  | MessageDirection.Downlink => HasBit p.fctrl_ 6
  | MessageDirection.Uplink => HasBit p.fctrl_ 4

/-- The method `GetFPending(direction)`. -/
def GetFPending (p : MACPayload) : MessageDirection → Except ErrorCode Bool
  | MessageDirection.Downlink => .ok (HasBit p.fctrl_ 4)
  | _ => .error ErrorCode.ParameterOutOfRange

/-- The method `HasADRACKReq(direction)`. -/
def HasADRACKReq (p : MACPayload) : MessageDirection → Except ErrorCode Bool
  | MessageDirection.Uplink => .ok (HasBit p.fctrl_ 6)
  | _ => .error ErrorCode.ParameterOutOfRange

end MACPayload

/-- The field of the class `UnsignedInteger128`: the bytes of the array `buffer_`. -/
structure UnsignedInteger128 where
  buffer_ : Bytes
deriving DecidableEq, Repr

namespace UnsignedInteger128

/-- The constant `SIZE`. -/
def SIZE : Nat := 16

/-- The method `AssignZero`. -/
def AssignZero : UnsignedInteger128 := { buffer_ := List.replicate SIZE 0 }

/-- The loop of `ShiftLeftOneBit`: the turns `i, i - 1, ..., 1`. -/
def ShiftLeftOneBit.loop : Nat → Bytes → Bool → Bytes
  | 0, buffer_, _ => buffer_
  | i + 1, buffer_, overflow =>
    let nextOverflow := (buffer_.getD i 0 &&& 0x80) != 0
    ShiftLeftOneBit.loop i
      (buffer_.set i ((buffer_.getD i 0 <<< 1) + (if overflow then 1 else 0))) nextOverflow

/-- The method `ShiftLeftOneBit`. -/
def ShiftLeftOneBit (u : UnsignedInteger128) : UnsignedInteger128 :=
  { buffer_ := ShiftLeftOneBit.loop SIZE u.buffer_ false }

/-- The method `GetByte`. -/
def GetByte (u : UnsignedInteger128) (pos : Nat) : Except ErrorCode UInt8 :=
  if pos < SIZE then .ok (u.buffer_.getD pos 0) else .error ErrorCode.ParameterOutOfRange

/-- The method `SetByte`. -/
def SetByte (u : UnsignedInteger128) (pos : Nat) (value : UInt8) :
    Except ErrorCode UnsignedInteger128 :=
  if pos < SIZE then .ok { buffer_ := u.buffer_.set pos value }
  else .error ErrorCode.ParameterOutOfRange

/-- The method `Copy(offset, value, size)`: `value` holds the bytes that the
pointer points to, of which the first `size` are copied. -/
def Copy (u : UnsignedInteger128) (offset : Nat) (value : Bytes) (size : Nat) :
    Except ErrorCode UnsignedInteger128 :=
  if offset + size > SIZE then .error ErrorCode.ParameterOutOfRange
  else
    .ok { buffer_ := u.buffer_.take offset ++ value.take size ++ u.buffer_.drop (offset + size) }

/-- The bytes of `htole32(value)` in memory: the least significant byte first. -/
def htole32 (value : Nat) : Bytes :=
  [UInt8.ofNat value, UInt8.ofNat (value >>> 8), UInt8.ofNat (value >>> 16),
   UInt8.ofNat (value >>> 24)]

/-- The method `Copy(offset, value)` for a 32-bit `value`, called with
`htole32` of a number: the four bytes of that number are copied. -/
def CopyUInt32 (u : UnsignedInteger128) (offset : Nat) (value : Nat) :
    Except ErrorCode UnsignedInteger128 :=
  u.Copy offset (htole32 value) 4

/-- The method `ParseHexadecimal`. -/
def ParseHexadecimal (buffer : Bytes) : Except ErrorCode UnsignedInteger128 :=
  match LoRaToolbox.ParseHexadecimal buffer with
  | .error e => .error e
  | .ok parsed =>
    if parsed.length ≠ SIZE then .error ErrorCode.ParameterOutOfRange
    else .ok { buffer_ := parsed }

/-- The method `Format`. -/
def Format (u : UnsignedInteger128) (upcase : Bool) : Bytes :=
  LoRaToolbox.FormatHexadecimal (u.buffer_.take SIZE) upcase

/-- The method `ApplyXOR`. -/
def ApplyXOR (u key : UnsignedInteger128) : UnsignedInteger128 :=
  { buffer_ := List.zipWith (fun a b => a ^^^ b) u.buffer_ key.buffer_ }

/-- The method `GenerateCMACSubkey`: the keys `k1` and `k2`. -/
def GenerateCMACSubkey (encrypt : UnsignedInteger128 → UnsignedInteger128 → UnsignedInteger128)
    (key : UnsignedInteger128) : Except ErrorCode (UnsignedInteger128 × UnsignedInteger128) :=
  let zero := AssignZero
  match AssignZero.SetByte 15 0x87 with
  | .error e => .error e
  | .ok rb =>
    let l := encrypt key zero
    let k1 := l.ShiftLeftOneBit
    match l.GetByte 0 with
    | .error e => .error e
    | .ok first =>
      let k1 := if (first &&& 0x80) != 0 then k1.ApplyXOR rb else k1
      let k2 := k1.ShiftLeftOneBit
      match k1.GetByte 0 with
      | .error e => .error e
      | .ok first1 =>
        let k2 := if (first1 &&& 0x80) != 0 then k2.ApplyXOR rb else k2
        .ok (k1, k2)

/-- The loop of `ComputeCMAC` over the blocks before the last one: `turns` is
the number of turns left and `i` the index of the block. -/
def ComputeCMAC.loop (encrypt : UnsignedInteger128 → UnsignedInteger128 → UnsignedInteger128)
    (key : UnsignedInteger128) (message : Bytes) :
    Nat → Nat → UnsignedInteger128 → Except ErrorCode UnsignedInteger128
  | 0, _, x => .ok x
  | turns + 1, i, x =>
    match AssignZero.Copy 0 (message.drop (SIZE * i)) SIZE with
    | .error e => .error e
    | .ok block => ComputeCMAC.loop encrypt key message turns (i + 1) (encrypt key (x.ApplyXOR block))

/-- The method `ComputeCMAC`. -/
def ComputeCMAC (encrypt : UnsignedInteger128 → UnsignedInteger128 → UnsignedInteger128)
    (key : UnsignedInteger128) (message : Bytes) : Except ErrorCode UnsignedInteger128 :=
  match GenerateCMACSubkey encrypt key with
  | .error e => .error e
  | .ok (k1, k2) =>
    let n0 := LoRaToolbox.CeilingDivision message.length SIZE
    let n := if n0 = 0 then 1 else n0
    let flag := if n0 = 0 then false else decide (message.length % SIZE = 0)
    let lastOffset := SIZE * (n - 1)
    let last : Except ErrorCode UnsignedInteger128 :=
      if flag then
        match AssignZero.Copy 0 (message.drop lastOffset) SIZE with
        | .error e => .error e
        | .ok lastBlock => .ok (lastBlock.ApplyXOR k1)
      else
        let length := message.length - lastOffset
        match AssignZero.Copy 0 (message.drop lastOffset) length with
        | .error e => .error e
        | .ok lastBlock =>
          match lastBlock.SetByte length 0x80 with
          | .error e => .error e
          | .ok lastBlock => .ok (lastBlock.ApplyXOR k2)
    match last with
    | .error e => .error e
    | .ok lastBlock =>
      match ComputeCMAC.loop encrypt key message (n - 1) 0 AssignZero with
      | .error e => .error e
      | .ok x => .ok (encrypt key (x.ApplyXOR lastBlock))

end UnsignedInteger128

/-- The field of the class `FrameEncryptionKey`. -/
structure FrameEncryptionKey where
  key_ : UnsignedInteger128
deriving DecidableEq, Repr

namespace FrameEncryptionKey

open UnsignedInteger128 in
/-- The method `PrepareMainBlock`: the block. -/
def PrepareMainBlock (direction : MessageDirection) (deviceAddress frameCounter : Nat)
    (headerByte trailerByte : UInt8) : Except ErrorCode UnsignedInteger128 :=
  match AssignZero.SetByte 0 headerByte with
  | .error e => .error e
  | .ok block =>
    match block.SetByte 5 (if direction = MessageDirection.Uplink then 0 else 1) with
    | .error e => .error e
    | .ok block =>
      match block.CopyUInt32 6 deviceAddress with
      | .error e => .error e
      | .ok block =>
        match block.CopyUInt32 10 frameCounter with
        | .error e => .error e
        | .ok block => block.SetByte 15 trailerByte

/-- The loop of `PrepareSessionKey`: `turns` is the number of turns left, `i`
the index of the block and `result` the bytes written so far. -/
def PrepareSessionKey.loop
    (encrypt : UnsignedInteger128 → UnsignedInteger128 → UnsignedInteger128)
    (key : UnsignedInteger128) :
    Nat → Nat → UnsignedInteger128 → Bytes → Except ErrorCode Bytes
  | 0, _, _, result => .ok result
  | turns + 1, i, mainBlock, result =>
    match mainBlock.SetByte 15 (UInt8.ofNat (i + 1)) with
    | .error e => .error e
    | .ok mainBlock =>
      PrepareSessionKey.loop encrypt key turns (i + 1) mainBlock
        (result ++ (encrypt key mainBlock).buffer_.take 16)

/-- The method `PrepareSessionKey`: the string `result`. -/
def PrepareSessionKey (encrypt : UnsignedInteger128 → UnsignedInteger128 → UnsignedInteger128)
    (k : FrameEncryptionKey) (direction : MessageDirection) (deviceAddress frameCounter : Nat)
    (frameSize : Nat) : Except ErrorCode Bytes :=
  let blocks := LoRaToolbox.CeilingDivision frameSize 16
  match PrepareMainBlock direction deviceAddress frameCounter 0x01 0 with
  | .error e => .error e
  | .ok mainBlock => PrepareSessionKey.loop encrypt k.key_ blocks 0 mainBlock []

/-- The method `Apply(target, source, direction, deviceAddress, frameCounter)`:
the string `target`. The session key has at least as many bytes as the source. -/
def Apply (encrypt : UnsignedInteger128 → UnsignedInteger128 → UnsignedInteger128)
    (k : FrameEncryptionKey) (source : Bytes) (direction : MessageDirection)
    (deviceAddress frameCounter : Nat) : Except ErrorCode Bytes :=
  match PrepareSessionKey encrypt k direction deviceAddress frameCounter source.length with
  | .error e => .error e
  | .ok session => .ok (List.zipWith (fun a b => a ^^^ b) source session)

/-- The sum `mac.GetFrameCounter() + (highFrameCounter << 16)` in `uint32_t`. -/
def frameCounter32 (frameCounter highFrameCounter : Nat) : Nat :=
  (frameCounter + (highFrameCounter <<< 16) % 2 ^ 32) % 2 ^ 32

/-- The method `Apply(target, payload, highFrameCounter)`: the string `target`. -/
def ApplyPayload (encrypt : UnsignedInteger128 → UnsignedInteger128 → UnsignedInteger128)
    (k : FrameEncryptionKey) (payload : PHYPayload) (highFrameCounter : Nat) :
    Except ErrorCode Bytes :=
  match MACPayload.create payload with
  | .error e => .error e
  | .ok mac =>
    let frameCounter := frameCounter32 mac.GetFrameCounter highFrameCounter
    match mac.GetFramePayload with
    | none => .error ErrorCode.OutOfRange
    | some source =>
      match payload.GetMessageDirection with
      | .error e => .error e
      | .ok direction => Apply encrypt k source direction mac.GetDeviceAddress frameCounter

/-- The method `ComputeMIC`; `htole16` is taken on a little-endian host, where
it changes nothing, and the first 16 bytes of `msg` are the 16 bytes of `b0`. -/
def ComputeMIC (encrypt : UnsignedInteger128 → UnsignedInteger128 → UnsignedInteger128)
    (k : FrameEncryptionKey) (payload : PHYPayload) (highFrameCounter : Nat) :
    Except ErrorCode Nat :=
  match MACPayload.create payload with
  | .error e => .error e
  | .ok mac =>
    let frameCounter := frameCounter32 mac.GetFrameCounter highFrameCounter
    let mhdr := UInt8.ofNat payload.GetMHDR
    let fport := UInt8.ofNat mac.GetFPort
    match mac.GetFHDR with
    | none => .error ErrorCode.OutOfRange
    | some fhdr =>
      match mac.GetFramePayload with
      | none => .error ErrorCode.OutOfRange
      | some frame =>
        let msgSize := 1 + fhdr.length + 1 + frame.length
        if msgSize > 255 then .error ErrorCode.NetworkProtocol
        else
          match payload.GetMessageDirection with
          | .error e => .error e
          | .ok direction =>
            match PrepareMainBlock direction mac.GetDeviceAddress frameCounter 0x49
                (UInt8.ofNat msgSize) with
            | .error e => .error e
            | .ok b0 =>
              let msg := b0.buffer_.take 16 ++ [mhdr] ++ fhdr ++ [fport] ++ frame
              match k.key_.ComputeCMAC encrypt msg with
              | .error e => .error e
              | .ok cmac => .ok (le32 cmac.buffer_ 0)

/-- The method `CheckMIC`. -/
def CheckMIC (encrypt : UnsignedInteger128 → UnsignedInteger128 → UnsignedInteger128)
    (k : FrameEncryptionKey) (payload : PHYPayload) (highFrameCounter : Nat) :
    Except ErrorCode Bool :=
  match ComputeMIC encrypt k payload highFrameCounter with
  | .error e => .error e
  | .ok mic => .ok (payload.GetMIC == mic)

end FrameEncryptionKey

end LoRa
/-! ## The block cipher

The AES-128 encryption of one block, for the claims on concrete keys and
messages. Inside the cipher a byte is a natural number below 256, and the 16
bytes of a state or of a round key are in the order of the input block.
-/

namespace AES

/-- The substitution table of AES. -/
def sbox : List Nat :=
  [0x63, 0x7c, 0x77, 0x7b, 0xf2, 0x6b, 0x6f, 0xc5, 0x30, 0x01, 0x67, 0x2b, 0xfe, 0xd7, 0xab, 0x76,
   0xca, 0x82, 0xc9, 0x7d, 0xfa, 0x59, 0x47, 0xf0, 0xad, 0xd4, 0xa2, 0xaf, 0x9c, 0xa4, 0x72, 0xc0,
   0xb7, 0xfd, 0x93, 0x26, 0x36, 0x3f, 0xf7, 0xcc, 0x34, 0xa5, 0xe5, 0xf1, 0x71, 0xd8, 0x31, 0x15,
   0x04, 0xc7, 0x23, 0xc3, 0x18, 0x96, 0x05, 0x9a, 0x07, 0x12, 0x80, 0xe2, 0xeb, 0x27, 0xb2, 0x75,
   0x09, 0x83, 0x2c, 0x1a, 0x1b, 0x6e, 0x5a, 0xa0, 0x52, 0x3b, 0xd6, 0xb3, 0x29, 0xe3, 0x2f, 0x84,
   0x53, 0xd1, 0x00, 0xed, 0x20, 0xfc, 0xb1, 0x5b, 0x6a, 0xcb, 0xbe, 0x39, 0x4a, 0x4c, 0x58, 0xcf,
   0xd0, 0xef, 0xaa, 0xfb, 0x43, 0x4d, 0x33, 0x85, 0x45, 0xf9, 0x02, 0x7f, 0x50, 0x3c, 0x9f, 0xa8,
   0x51, 0xa3, 0x40, 0x8f, 0x92, 0x9d, 0x38, 0xf5, 0xbc, 0xb6, 0xda, 0x21, 0x10, 0xff, 0xf3, 0xd2,
   0xcd, 0x0c, 0x13, 0xec, 0x5f, 0x97, 0x44, 0x17, 0xc4, 0xa7, 0x7e, 0x3d, 0x64, 0x5d, 0x19, 0x73,
   0x60, 0x81, 0x4f, 0xdc, 0x22, 0x2a, 0x90, 0x88, 0x46, 0xee, 0xb8, 0x14, 0xde, 0x5e, 0x0b, 0xdb,
   0xe0, 0x32, 0x3a, 0x0a, 0x49, 0x06, 0x24, 0x5c, 0xc2, 0xd3, 0xac, 0x62, 0x91, 0x95, 0xe4, 0x79,
   0xe7, 0xc8, 0x37, 0x6d, 0x8d, 0xd5, 0x4e, 0xa9, 0x6c, 0x56, 0xf4, 0xea, 0x65, 0x7a, 0xae, 0x08,
   0xba, 0x78, 0x25, 0x2e, 0x1c, 0xa6, 0xb4, 0xc6, 0xe8, 0xdd, 0x74, 0x1f, 0x4b, 0xbd, 0x8b, 0x8a,
   0x70, 0x3e, 0xb5, 0x66, 0x48, 0x03, 0xf6, 0x0e, 0x61, 0x35, 0x57, 0xb9, 0x86, 0xc1, 0x1d, 0x9e,
   0xe1, 0xf8, 0x98, 0x11, 0x69, 0xd9, 0x8e, 0x94, 0x9b, 0x1e, 0x87, 0xe9, 0xce, 0x55, 0x28, 0xdf,
   0x8c, 0xa1, 0x89, 0x0d, 0xbf, 0xe6, 0x42, 0x68, 0x41, 0x99, 0x2d, 0x0f, 0xb0, 0x54, 0xbb, 0x16]
/-- The substitution of one byte. -/
def subByte (b : Nat) : Nat := sbox.getD b 0

/-- The multiplication by `x` in the field of AES. -/
def xtime (b : Nat) : Nat := (2 * b % 256) ^^^ (if 128 ≤ b then 0x1b else 0)

/-- The step `AddRoundKey`. -/
def addRoundKey (state key : List Nat) : List Nat :=
  List.zipWith (fun a b => a ^^^ b) state key

/-- The step `SubBytes`. -/
def subBytes (state : List Nat) : List Nat := state.map subByte

/-- The step `ShiftRows`: the row `r` of the state is rotated by `r` columns. -/
def shiftRows (state : List Nat) : List Nat :=
  [0, 5, 10, 15, 4, 9, 14, 3, 8, 13, 2, 7, 12, 1, 6, 11].map (fun i => state.getD i 0)

/-- The step `MixColumns` on one column. -/
def mixColumn : List Nat → List Nat
  | [a0, a1, a2, a3] =>
    [xtime a0 ^^^ (xtime a1 ^^^ a1) ^^^ a2 ^^^ a3,
     a0 ^^^ xtime a1 ^^^ (xtime a2 ^^^ a2) ^^^ a3,
     a0 ^^^ a1 ^^^ xtime a2 ^^^ (xtime a3 ^^^ a3),
     (xtime a0 ^^^ a0) ^^^ a1 ^^^ a2 ^^^ xtime a3]
  | other => other

/-- The step `MixColumns`. -/
def mixColumns (state : List Nat) : List Nat :=
  mixColumn (state.take 4) ++ mixColumn ((state.drop 4).take 4) ++
    mixColumn ((state.drop 8).take 4) ++ mixColumn ((state.drop 12).take 4)

/-- The round key that follows `key` in the key expansion, with the round
constant `rcon`. -/
def nextRoundKey (key : List Nat) (rcon : Nat) : List Nat :=
  let t := [subByte (key.getD 13 0) ^^^ rcon, subByte (key.getD 14 0),
            subByte (key.getD 15 0), subByte (key.getD 12 0)]
  let w0 := addRoundKey (key.take 4) t
  let w1 := addRoundKey ((key.drop 4).take 4) w0
  let w2 := addRoundKey ((key.drop 8).take 4) w1
  let w3 := addRoundKey ((key.drop 12).take 4) w2
  w0 ++ w1 ++ w2 ++ w3

/-- The rounds of the cipher, one for each round constant; the last round has
no `MixColumns`. -/
def rounds (state key : List Nat) : List Nat → List Nat
  | [] => state
  | [rcon] => addRoundKey (shiftRows (subBytes state)) (nextRoundKey key rcon)
  | rcon :: rest =>
    rounds (addRoundKey (mixColumns (shiftRows (subBytes state))) (nextRoundKey key rcon))
      (nextRoundKey key rcon) rest

/-- The cipher of AES-128 on one block. -/
def cipher (key block : List Nat) : List Nat :=
  rounds (addRoundKey block key) key [0x01, 0x02, 0x04, 0x08, 0x10, 0x20, 0x40, 0x80, 0x1b, 0x36]

end AES

namespace LoRa

/-- Modelled from the spec: the function `AES_ECB_encrypt(input, key, output, 16)`
of the third-party library tiny-AES-c, which is not among the sources: the
`AES-ECB-Encrypt` of section 4.7 on one block, that is the cipher of AES-128;
the 16 bytes of `output`. -/
def AES_ECB_encrypt (input key : Bytes) : Bytes :=
  (((AES.cipher (key.map UInt8.toNat) (input.map UInt8.toNat)).map UInt8.ofNat) ++
    List.replicate 16 0).take 16

/-- The method `UnsignedInteger128::EncryptAES`. -/
def UnsignedInteger128.EncryptAES (key data : UnsignedInteger128) : UnsignedInteger128 :=
  { buffer_ := AES_ECB_encrypt data.buffer_ key.buffer_ }

/-- The bytes of a string of ASCII characters. -/
def ascii (s : String) : Bytes := s.data.map (fun c => UInt8.ofNat c.toNat)

/-- The key `2b7e151628aed2a6abf7158809cf4f3c` of the test vectors of RFC 4493. -/
def rfc4493Key : UnsignedInteger128 :=
  { buffer_ := [0x2b, 0x7e, 0x15, 0x16, 0x28, 0xae, 0xd2, 0xa6, 0xab, 0xf7, 0x15, 0x88, 0x09,
                0xcf, 0x4f, 0x3c] }

/-- The 64 bytes of the longest test vector of RFC 4493; the other vectors are
its first 0, 16 and 40 bytes. -/
def rfc4493Message : Bytes :=
  [0x6b, 0xc1, 0xbe, 0xe2, 0x2e, 0x40, 0x9f, 0x96, 0xe9, 0x3d, 0x7e, 0x11, 0x73, 0x93, 0x17, 0x2a,
   0xae, 0x2d, 0x8a, 0x57, 0x1e, 0x03, 0xac, 0x9c, 0x9e, 0xb7, 0x6f, 0xac, 0x45, 0xaf, 0x8e, 0x51,
   0x30, 0xc8, 0x1c, 0x46, 0xa3, 0x5c, 0xe4, 0x11, 0xe5, 0xfb, 0xc1, 0x19, 0x1a, 0x0a, 0x52, 0xef,
   0xf6, 0x9f, 0x24, 0x45, 0xdf, 0x4f, 0x9b, 0x17, 0xad, 0x2b, 0x41, 0x7b, 0xe6, 0x6c, 0x37, 0x10]

/-- The key `ec925802ae430ca77fd3dd73cb2cc588` of the tests `Decrypt1` and `Decrypt2`. -/
def appSKey : FrameEncryptionKey :=
  { key_ := { buffer_ := [0xec, 0x92, 0x58, 0x02, 0xae, 0x43, 0x0c, 0xa7, 0x7f, 0xd3, 0xdd, 0x73,
                          0xcb, 0x2c, 0xc5, 0x88] } }

/-- The key `44024241ed4ce9a68c6a8bc055233fd3` of the tests `Decrypt5` to `Decrypt8`. -/
def nwkSKey : FrameEncryptionKey :=
  { key_ := { buffer_ := [0x44, 0x02, 0x42, 0x41, 0xed, 0x4c, 0xe9, 0xa6, 0x8c, 0x6a, 0x8b, 0xc0,
                          0x55, 0x23, 0x3f, 0xd3] } }

end LoRa
namespace LoRa

/-- A MAC payload of 7 bytes, without options, FPort and frame payload; its
frame counter is `0x0102`. -/
def macPayloadNoFPort : Bytes := [0xF1, 0x7D, 0xBE, 0x49, 0x00, 0x02, 0x01]

end LoRa
namespace LoRa

/-- The number that the bytes of a buffer make when they are read as one
big-endian integer, the first byte being the most significant. -/
def bigEndian (data : Bytes) : Nat := data.foldl (fun number byte => 256 * number + byte.toNat) 0

namespace RFC4493

open UnsignedInteger128 in
/-- The last block of a message padded to 16 bytes: `0x80`, then zeros. -/
def pad (last : Bytes) : UnsignedInteger128 :=
  { buffer_ := last ++ [0x80] ++ List.replicate (15 - last.length) 0 }

open UnsignedInteger128 in
/-- The construction of RFC 4493 in the words of section 4.7, with the block
encryption `encrypt` and the subkeys `k1` and `k2`: the message is cut into
`n = max(1, ⌈|m| / 16⌉)` blocks; the last block is XORed with `k1` when the
length of the message is a positive multiple of 16, and is else padded and
XORed with `k2`; `X` starts at zero and becomes `encrypt(K, X ⊕ B)` for every
block `B` but the last; the result is `encrypt(K, X ⊕ M_last)`. -/
def cmac (encrypt : UnsignedInteger128 → UnsignedInteger128 → UnsignedInteger128)
    (key k1 k2 : UnsignedInteger128) (message : Bytes) : UnsignedInteger128 :=
  let n := max 1 ((message.length + 15) / 16)
  let blocks : List UnsignedInteger128 :=
    (List.range (n - 1)).map (fun i => { buffer_ := (message.drop (16 * i)).take 16 })
  let last := message.drop (16 * (n - 1))
  let mLast :=
    if 0 < message.length ∧ message.length % 16 = 0 then
      ({ buffer_ := last } : UnsignedInteger128).ApplyXOR k1
    else (pad last).ApplyXOR k2
  let x := blocks.foldl (fun x block => encrypt key (x.ApplyXOR block)) AssignZero
  encrypt key (x.ApplyXOR mLast)

end RFC4493

end LoRa
namespace LoRa

/-- The frame of the test `PHYPayload3` with one byte of frame payload instead
of four: MHDR, the MAC payload `macPayloadOneByte`, and the four bytes of a MIC. -/
def phyPayloadOneByte : Bytes :=
  [0x40, 0xF1, 0x7D, 0xBE, 0x49, 0x00, 0x02, 0x00, 0x01, 0x95, 0x2B, 0x11, 0xFF, 0x0D]

/-- A frame without FPort: MHDR, the MAC payload `macPayloadNoFPort`, and the
four bytes of a MIC. -/
def phyPayloadNoFPort : Bytes :=
  [0x40, 0xF1, 0x7D, 0xBE, 0x49, 0x00, 0x02, 0x01, 0x2B, 0x11, 0xFF, 0x0D]

end LoRa

/-! ## Filters and the server context

Embedding of `Framework/Filters/AdapterFilter.cpp` and of
`Applications/ServerContext.cpp`.

* The reader `reader_` and the writer `inputPopper_` of an adapter are both
  opened on the series of name `timeSeries_`; a step takes that series as it
  is under their locks and gives back what it leaves of it.
* The sums `timestamp_ + 1` and `timestamp + 1` are `int64_t` sums (`toInt64`).
* `WaitModification` only waits: a step that waits leaves everything as it was.
* A call that the server context makes on one of its filters is recorded in a
  list, in the order of the calls.
-/

/-- The method `Message::SwapMetadata`: the message after the swap. -/
def Message.SwapMetadata (m : Message) (metadata : Bytes) : Message :=
  { m with metadata_ := metadata }

/-- The method `Message::SwapValue`: the message after the swap. -/
def Message.SwapValue (m : Message) (value : Bytes) : Message :=
  { m with value_ := value }

/-- The enumeration `AdapterFilter::PushStatus`. -/
inductive PushStatus where
  | Success
  | Retry
  | Failure
deriving DecidableEq, Repr

/-- The fields of the class `AdapterFilter` that its methods read and write;
`inputPopper_` tells whether the pointer of that name is not `NULL`. -/
structure AdapterFilter where
  name_ : String
  timeSeries_ : String
  replayHistory_ : Bool
  isValid_ : Bool
  timestamp_ : Int
  inputPopper_ : Bool
deriving DecidableEq, Repr

namespace AdapterFilter

/-- The constructor `AdapterFilter(name, manager, timeSeries)`. -/
def create (name timeSeries : String) : AdapterFilter :=
  { name_ := name, timeSeries_ := timeSeries, replayHistory_ := false, isValid_ := false,
    timestamp_ := 0, inputPopper_ := false }

/-- The method `SetReplayHistory`. -/
def SetReplayHistory (f : AdapterFilter) (replay : Bool) : AdapterFilter :=
  { f with replayHistory_ := replay }

/-- The method `SetPopInput`. -/
def SetPopInput (f : AdapterFilter) (pop : Bool) : AdapterFilter :=
  { f with inputPopper_ := pop }

/-- The method `IsPopInput`. -/
def IsPopInput (f : AdapterFilter) : Bool := f.inputPopper_

/-- The method `Start`, on the input series as it is at the call. -/
def Start (f : AdapterFilter) (series : TimeSeries) : AdapterFilter :=
  let f1 := { f with isValid_ := false }
  if !f1.replayHistory_ then
    let transaction := TimeSeriesReader.Transaction.create series
    match transaction.SeekLast with
    | (true, transaction1) =>
      match transaction1.GetTimestamp with
      | some last => { f1 with isValid_ := true, timestamp_ := last }
      | none => f1
    | (false, _) => f1
  else f1

/-- The first block of `Step`: the reader transaction that looks for the item
after the reading head. The timestamp, metadata and value read, `none` when
`ok` is `false` at the end of the block. -/
def Step.read (f : AdapterFilter) (series : TimeSeries) : Option (Int × Bytes × Bytes) :=
  let transaction := TimeSeriesReader.Transaction.create series
  let sought :=
    if f.isValid_ then transaction.SeekNearest (toInt64 (f.timestamp_ + 1))
    else transaction.SeekFirst
  match sought with
  | (true, transaction1) =>
    match transaction1.GetTimestamp, transaction1.Read with
    | some timestamp, some (metadata, value) => some (timestamp, metadata, value)
    | _, _ => none
  | (false, _) => none

/-- The message that `Step` builds from the item that it read. -/
def Step.message (timestamp : Int) (metadata value : Bytes) : Message :=
  ((Message.create.SetTimestamp timestamp).SwapMetadata metadata).SwapValue value

/-- What one call of `Step` does: the message that it pushed with the status
that `Push` returned, `none` when it waited for a modification instead. -/
structure Step.Result (σ : Type) where
  returned : Bool
  filter : AdapterFilter
  series : TimeSeries
  notifications : List Notification
  subclass : σ
  pushed : Option (Message × PushStatus)

/-- The method `Step`. `Push` is the pure virtual method of that name: it works
on the state `σ` of the subclass and of what the subclass writes to. The
`default` case of the `switch` is for values outside of the enumeration. -/
def Step {σ : Type} (Push : σ → Message → PushStatus × σ) (f : AdapterFilter)
    (series : TimeSeries) (subclass : σ) : Step.Result σ :=
  match Step.read f series with
  | some (timestamp, metadata, value) =>
    let message := Step.message timestamp metadata value
    let status := (Push subclass message).1
    let subclass1 := (Push subclass message).2
    let f1 :=
      match status with
      | PushStatus.Success => { f with isValid_ := true, timestamp_ := timestamp }
      | PushStatus.Failure => { f with isValid_ := true, timestamp_ := timestamp }
      | PushStatus.Retry => f
    if status = PushStatus.Success ∧ f.inputPopper_ = true then
      let transaction := TimeSeriesWriter.Transaction.create series
      let transaction1 := (transaction.DeleteRange timestamp (toInt64 (timestamp + 1))).2
      { returned := true, filter := f1, series := transaction1.destroy.1,
        notifications := transaction1.destroy.2, subclass := subclass1,
        pushed := some (message, status) }
    else
      { returned := true, filter := f1, series := series, notifications := [],
        subclass := subclass1, pushed := some (message, status) }
  | none =>
    { returned := true, filter := f, series := series, notifications := [],
      subclass := subclass, pushed := none }

/-- What happens to an adapter and its input series between `Start` and `Stop`:
a step of the worker of the filter, or a writer transaction of someone else on
the input series. -/
inductive Event where
  | Step
  | Write (operations : List MemoryTimeSeriesContent.Call)
deriving DecidableEq, Repr

/-- One pushed message in the life of an adapter: the input series as the step
found it, the message and the status that `Push` returned. -/
structure Pushed where
  input : TimeSeries
  message : Message
  status : PushStatus
deriving DecidableEq, Repr

/-- The state of a running adapter: its fields, its input series, the state of
its subclass and the messages pushed so far, the first one first. -/
structure Running (σ : Type) where
  filter : AdapterFilter
  series : TimeSeries
  subclass : σ
  log : List Pushed

/-- One event in the life of a running adapter. A writer transaction that
throws leaves the series as it was. -/
def Running.event {σ : Type} (Push : σ → Message → PushStatus × σ) (r : Running σ) :
    Event → Running σ
  | .Step =>
    let result := Step Push r.filter r.series r.subclass
    { filter := result.filter, series := result.series, subclass := result.subclass,
      log :=
        match result.pushed with
        | some (message, status) =>
          r.log ++ [{ input := r.series, message := message, status := status }]
        | none => r.log }
  | .Write operations =>
    match TimeSeriesWriter.transact r.series operations with
    | .ok (series1, _) => { r with series := series1 }
    | .error _ => r

/-- The events of the life of a running adapter, one after the other. -/
def Running.events {σ : Type} (Push : σ → Message → PushStatus × σ) (r : Running σ) :
    List Event → Running σ
  | [] => r
  | e :: rest => Running.events Push (r.event Push e) rest

/-- An adapter that has just been started on its input series. -/
def started {σ : Type} (f : AdapterFilter) (series : TimeSeries) (subclass : σ) : Running σ :=
  { filter := f.Start series, series := series, subclass := subclass, log := [] }

/-- What stays true of a running adapter `r` whose input series has the
consistent backend `b` and stores no timestamp outside of `[INT64_MIN, INT64_MAX)`:
the reading head is in that range; every pushed message was read from a stored
item of the input as it was; a pushed message is at or below the reading head,
unless it was pushed with the status `Retry` and is then at or below every
stored item above the head; the timestamps of `old` are at or below the head
and below every pushed message; the pushed messages are in the order of their
timestamps, strictly after a message that was not pushed with `Retry`; and the
first pushed message was read by the filter `start`, the filter as `Start`
left it. -/
structure Running.Sound {σ : Type} (old : List Int) (start : AdapterFilter) (r : Running σ)
    (b : MemoryTimeSeriesBackend) : Prop where
  backend : r.series.backend_ = some b
  consistent : MemoryTimeSeriesContent.Consistent b
  range : ∀ e ∈ b.content_, INT64_MIN ≤ e.1 ∧ e.1 < INT64_MAX
  head : r.filter.isValid_ = true →
    INT64_MIN ≤ r.filter.timestamp_ ∧ r.filter.timestamp_ < INT64_MAX
  below_last : ∀ p ∈ r.log,
    b.hasLastTimestamp_ = true ∧ p.message.timestamp_ ≤ b.lastTimestamp_
  position : ∀ p ∈ r.log,
    (r.filter.isValid_ = true ∧ p.message.timestamp_ ≤ r.filter.timestamp_) ∨
    (p.status = PushStatus.Retry ∧
      ∀ e ∈ b.content_, (r.filter.isValid_ = true → r.filter.timestamp_ < e.1) →
        p.message.timestamp_ ≤ e.1)
  old_below : ∀ t ∈ old, r.filter.isValid_ = true ∧ t ≤ r.filter.timestamp_
  fresh : ∀ p ∈ r.log, ∀ t ∈ old, t < p.message.timestamp_
  ordered : r.log.Pairwise (fun p q =>
    p.message.timestamp_ ≤ q.message.timestamp_ ∧
    (p.status ≠ PushStatus.Retry → p.message.timestamp_ < q.message.timestamp_))
  first : r.log = [] → r.filter = start
  first_read : ∀ p, r.log.head? = some p →
    Step.read start p.input =
      some (p.message.timestamp_, p.message.metadata_, p.message.value_)
  stored : ∀ p ∈ r.log, ∃ input, p.input.backend_ = some input ∧
    MemoryTimeSeriesContent.Consistent input ∧
    (p.message.timestamp_, { metadata_ := p.message.metadata_, value_ := p.message.value_ }) ∈
      input.content_ ∧
    p.message = Step.message p.message.timestamp_ p.message.metadata_ p.message.value_

/-- The timestamps that the writer transactions among some events append at. -/
def appended : List Event → List Int
  | [] => []
  | .Step :: rest => appended rest
  | .Write operations :: rest =>
    operations.filterMap (fun operation =>
      match operation with
      | .Append timestamp _ _ => some timestamp
      | _ => none) ++ appended rest

/-- A method `Push` without state that returns the same status for every message. -/
def constantPush (status : PushStatus) : Unit → Message → PushStatus × Unit :=
  fun subclass _ => (status, subclass)

end AdapterFilter

/-- An adapter on the series `hello`, as its constructor leaves it. -/
def helloAdapter : AdapterFilter := AdapterFilter.create "adapter" "hello"

/-- Modelled from the spec: the interface `IFilter`, whose header is not among
the sources (section 4.5: every filter declares `name`, `start()`, `stop()` and
`step()`). For the server context a filter is its name and whether its `Start`
and its `Stop` return (`true`) or throw (`false`). -/
structure IFilter where
  GetName : String
  Start : Bool
  Stop : Bool
deriving DecidableEq, Repr

/-- A call that the server context makes on the filter of a given position in
`filters_`, or the creation of the worker thread of that filter. -/
inductive FilterCall where
  | Start (filter : Nat)
  | Stop (filter : Nat)
  | WorkerThread (filter : Nat)
deriving DecidableEq, Repr

namespace ServerContext

/-- The enumeration `State` of the class `ServerContext`. -/
inductive State where
  | Setup
  | Running
  | Done
deriving DecidableEq, Repr

end ServerContext

/-- The fields of the class `ServerContext`; `threads_` holds the positions of
the filters whose worker thread was created. -/
structure ServerContext where
  continue_ : Bool
  state_ : ServerContext.State
  filters_ : List IFilter
  threads_ : List Nat
deriving DecidableEq, Repr

namespace ServerContext

/-- The constructor `ServerContext(manager)`. -/
def create : ServerContext :=
  { continue_ := true, state_ := State.Setup, filters_ := [], threads_ := [] }

/-- The method `AddFilter`, for a pointer that is not `NULL`. -/
def AddFilter (c : ServerContext) (filter : IFilter) : Except ErrorCode ServerContext :=
  if c.state_ ≠ State.Setup then .error ErrorCode.BadSequenceOfCalls
  else .ok { c with filters_ := c.filters_ ++ [filter] }

/-- The method `StartFilter` on the filter at a position: the call made and the
returned boolean. -/
def StartFilter (position : Nat) (filter : IFilter) : List FilterCall × Bool :=
  ([FilterCall.Start position], filter.Start)

/-- The method `StopFilter` on the filter at a position. -/
def StopFilter (position : Nat) (filter : IFilter) : List FilterCall × Bool :=
  ([FilterCall.Stop position], filter.Stop)

/-- The inner loop of `Start`: `StopFilter` on the filters from `filters_.begin()`
up to `it`, the position of the filter that did not start; `it2` is the
position of the first filter of the list. -/
def Start.stopStarted (it : Nat) : Nat → List IFilter → List FilterCall
  | _, [] => []
  | it2, filter :: rest =>
    if it2 = it then []
    else (StopFilter it2 filter).1 ++ Start.stopStarted it (it2 + 1) rest

/-- The first loop of `Start` from the position `it` on, over the filters that
are left: the calls made, and `false` when the loop ended with the exception. -/
def Start.loop (filters : List IFilter) : Nat → List IFilter → List FilterCall × Bool
  | _, [] => ([], true)
  | it, filter :: rest =>
    if (StartFilter it filter).2 then
      ((StartFilter it filter).1 ++ (Start.loop filters (it + 1) rest).1,
       (Start.loop filters (it + 1) rest).2)
    else
      ((StartFilter it filter).1 ++ Start.stopStarted it 0 filters, false)

/-- The method `Start`: the calls made on the filters, and the context that it
leaves or the exception that it throws. -/
def Start (c : ServerContext) : List FilterCall × Except ErrorCode ServerContext :=
  if c.state_ = State.Running then ([], .ok c)
  else if c.state_ = State.Done then ([], .error ErrorCode.BadSequenceOfCalls)
  else
    match Start.loop c.filters_ 0 c.filters_ with
    | (calls, false) => (calls, .error ErrorCode.InternalError)
    | (calls, true) =>
      (calls ++ (List.range c.filters_.length).map FilterCall.WorkerThread,
       .ok { c with threads_ := c.threads_ ++ List.range c.filters_.length,
                    state_ := State.Running })

end ServerContext

/-- Three filters of which the third one does not start. -/
def threeFilters : List IFilter :=
  [{ GetName := "first", Start := true, Stop := true },
   { GetName := "second", Start := true, Stop := true },
   { GetName := "third", Start := false, Stop := true }]

/-- A server context to which `threeFilters` were added in turn. -/
def threeFiltersContext : ServerContext :=
  { continue_ := true, state_ := ServerContext.State.Setup, filters_ := threeFilters,
    threads_ := [] }

/-! ## The filter that decodes LoRa packets

Embedding of `Framework/Filters/LoRaPacketFilter.cpp`.

* The writer `writer_` is opened on the output series; `Push` takes that series
  as it is under the lock of the writer and gives back what it leaves of it.
* The handler of `Push` catches `Orthanc::OrthancException` only: the exception
  `std::out_of_range` (`ErrorCode.OutOfRange`) leaves the method.
-/

/-- The call `sprintf(buf, "%04X", value)` of the C library on a `uint32_t`:
the digits of the value in base 16, in upper case, after as many zeros as it
takes to make four characters. -/
def sprintf04X (value : Nat) : Bytes :=
  let digits := (Nat.toDigits 16 value).map (fun c => UInt8.ofNat c.toUpper.toNat)
  List.replicate (4 - digits.length) 0x30 ++ digits

/-- The fields of the class `LoRaPacketFilter` that `Push` reads. -/
structure LoRaPacketFilter where
  nwkSKey_ : LoRa.FrameEncryptionKey
  appSKey_ : LoRa.FrameEncryptionKey
deriving DecidableEq, Repr

namespace LoRaPacketFilter

open LoRa in
/-- The `try` block of `Push`: the status that it returns with the output series
and the notifications that the writer leaves, or the exception that it throws.
The logged strings are left out. -/
def Push.body (encrypt : UnsignedInteger128 → UnsignedInteger128 → UnsignedInteger128)
    (that_ : LoRaPacketFilter) (writer_ : TimeSeries) (clock : Clock) (message : Message) :
    Except ErrorCode (Option (TimeSeries × List Notification)) :=
  match PHYPayload.FromBuffer message.GetValue with
  | .error e => .error e
  | .ok phy =>
    match MACPayload.create phy with
    | .error e => .error e
    | .ok mac =>
      let buf := sprintf04X mac.GetDeviceAddress
      match mac.GetFramePayload with
      | none => .error ErrorCode.OutOfRange
      | some _ =>
        match that_.nwkSKey_.CheckMIC encrypt phy 0 with
        | .error e => .error e
        | .ok false => .ok none
        | .ok true =>
          match that_.appSKey_.ApplyPayload encrypt phy 0 with
          | .error e => .error e
          | .ok value =>
            match message.GetTimestamp with
            | .error e => .error e
            | .ok timestamp =>
              let output := ((Message.create.SetTimestamp timestamp).SetMetadata buf).SetValue value
              match TimeSeriesWriter.Append writer_ clock output with
              | .error e => .error e
              | .ok (_, series, notifications) => .ok (some (series, notifications))

/-- The method `Push`: the status, the output series and the notifications of
its writer. The result is `error` when an exception leaves the method. -/
def Push (encrypt : LoRa.UnsignedInteger128 → LoRa.UnsignedInteger128 → LoRa.UnsignedInteger128)
    (that_ : LoRaPacketFilter) (writer_ : TimeSeries) (clock : Clock) (message : Message) :
    Except ErrorCode (PushStatus × TimeSeries × List Notification) :=
  match Push.body encrypt that_ writer_ clock message with
  | .ok (some (series, notifications)) => .ok (PushStatus.Success, series, notifications)
  | .ok none => .ok (PushStatus.Failure, writer_, [])
  | .error ErrorCode.OutOfRange => .error ErrorCode.OutOfRange
  | .error _ => .ok (PushStatus.Failure, writer_, [])

end LoRaPacketFilter

namespace LoRa

/-- A frame with one byte of FRMPayload (`phyPayloadOneByte`) that carries the
MIC of its own bytes `40 F17DBE49 00 0200 01 95` under `nwkSKey`. -/
def phyPayloadOneByteGenuine : Bytes :=
  [0x40, 0xF1, 0x7D, 0xBE, 0x49, 0x00, 0x02, 0x00, 0x01, 0x95, 0x10, 0x66, 0x34, 0x76]

/-- The same frame with the MIC that `ComputeMIC` returns for it. -/
def phyPayloadOneByteAccepted : Bytes :=
  [0x40, 0xF1, 0x7D, 0xBE, 0x49, 0x00, 0x02, 0x00, 0x01, 0x95, 0x8D, 0x8C, 0xA5, 0xBB]

end LoRa

/-- The filter of the tests `Decrypt1` and `Decrypt5`, by its two keys. -/
def testPacketFilter : LoRaPacketFilter :=
  { nwkSKey_ := LoRa.nwkSKey, appSKey_ := LoRa.appSKey }

/-! ## The SQLite backend

The SQL statements of `SQLiteDatabase.cpp` and `SQLiteTimeSeriesTransaction.cpp`
are read as operations on the rows of two tables. A table is the list of its
rows in the order of their insertion. -/

/-- Modelled from the spec: a row of the table `TimeSeries`. The schema
`PrepareDatabase.sql` is not part of the sources; the columns are those that the
statements name, in the order of `INSERT INTO TimeSeries VALUES(NULL, ?, ?, ?, 0,
0, NULL)`, which is the order `Series(id, name, max_length, max_size, length,
size, last_timestamp)` of the specification. -/
structure TimeSeriesRow where
  internalId : Int
  publicId : String
  maxLength : Nat
  maxSize : Nat
  currentLength : Nat
  currentSize : Nat
  lastTimestamp : Option Int
deriving DecidableEq, Repr

/-- Modelled from the spec: a row of the table `Content`, with the columns in
the order of `INSERT INTO Content VALUES(?, ?, ?, ?, ?)`, which is the order
`Item(series_id, ts, size, metadata, value)` of the specification; the primary
key is the pair `(id, timestamp)`. -/
structure ContentRow where
  id : Int
  timestamp : Int
  size : Nat
  metadata : Bytes
  value : Bytes
deriving DecidableEq, Repr

/-- A row of `Content` as an entry of a map from timestamps to items. -/
def ContentRow.entry (row : ContentRow) : Int × Item :=
  (row.timestamp, { metadata_ := row.metadata, value_ := row.value })

/-- The clause `ORDER BY timestamp ASC LIMIT 1` on the selected rows. -/
def firstByTimestamp : List ContentRow → Option ContentRow
  | [] => none
  | row :: rest =>
    match firstByTimestamp rest with
    | none => some row
    | some other => if other.timestamp < row.timestamp then some other else some row

/-- The clause `ORDER BY timestamp DESC LIMIT 1` on the selected rows. -/
def lastByTimestamp : List ContentRow → Option ContentRow
  | [] => none
  | row :: rest =>
    match lastByTimestamp rest with
    | none => some row
    | some other => if row.timestamp < other.timestamp then some other else some row

/-- The class `SQLiteDatabase`: the content of the two tables. -/
structure SQLiteDatabase where
  tableTimeSeries : List TimeSeriesRow
  tableContent : List ContentRow
deriving DecidableEq, Repr

namespace SQLiteDatabase

/-- The constructor `SQLiteDatabase()` on a transient database: `SetupDatabase`
creates the tables, which are empty. -/
def create : SQLiteDatabase :=
  { tableTimeSeries := [], tableContent := [] }

/-- The method `Transaction::HasTimeSeries`: whether the statement `SELECT
internalId FROM TimeSeries WHERE publicId=?` has a row. -/
def Transaction.HasTimeSeries (database : SQLiteDatabase) (name : String) : Bool :=
  database.tableTimeSeries.any (fun row => row.publicId == name)

/-- The key that SQLite gives to a row inserted with `NULL` as its integer
primary key: one more than the largest key in use, 1 in an empty table. -/
def nextInternalId (database : SQLiteDatabase) : Int :=
  (database.tableTimeSeries.map (fun row => row.internalId)).foldl max 0 + 1

end SQLiteDatabase

/-- The fields of the class `SQLiteTimeSeriesTransaction`. `transaction_` is the
database as the open transaction sees it. -/
structure SQLiteTimeSeriesTransaction where
  transaction_ : SQLiteDatabase
  id_ : Int
  maxLength_ : Nat
  maxSize_ : Nat
  currentLength_ : Nat
  currentSize_ : Nat
  hasLastTimestamp_ : Bool
  lastTimestamp_ : Int
deriving DecidableEq, Repr

namespace SQLiteTimeSeriesTransaction

/-- The constructor `SQLiteTimeSeriesTransaction(database, name)`: reads the row
of the series, throws `InexistentItem` when there is none. `lastTimestamp_` is
not initialised when the column is `NULL`; 0 stands for that value, which the
code never reads. -/
def create (database : SQLiteDatabase) (name : String) :
    Except ErrorCode SQLiteTimeSeriesTransaction :=
  match database.tableTimeSeries.find? (fun row => row.publicId == name) with
  | none => .error ErrorCode.InexistentItem
  | some row =>
    .ok { transaction_ := database
          id_ := row.internalId
          maxLength_ := row.maxLength
          maxSize_ := row.maxSize
          currentLength_ := row.currentLength
          currentSize_ := row.currentSize
          hasLastTimestamp_ := row.lastTimestamp.isSome
          lastTimestamp_ := row.lastTimestamp.getD 0 }

/-- The destructor: commits the transaction, which leaves the database. -/
def destroy (t : SQLiteTimeSeriesTransaction) : SQLiteDatabase :=
  t.transaction_

/-- The rows that the clause `FROM Content WHERE id=?` selects. -/
def rows (t : SQLiteTimeSeriesTransaction) : List ContentRow :=
  t.transaction_.tableContent.filter (fun row => decide (row.id = t.id_))

/-- The method `UpdateTimeSeriesTable`: the statement `UPDATE TimeSeries SET
currentLength=?, currentSize=?, lastTimestamp=? WHERE internalId=?`. -/
def UpdateTimeSeriesTable (t : SQLiteTimeSeriesTransaction) : SQLiteTimeSeriesTransaction :=
  { t with
    transaction_ :=
      { t.transaction_ with
        tableTimeSeries := t.transaction_.tableTimeSeries.map (fun row =>
          if row.internalId = t.id_ then
            { row with
              currentLength := t.currentLength_
              currentSize := t.currentSize_
              lastTimestamp := if t.hasLastTimestamp_ then some t.lastTimestamp_ else none }
          else row) } }

/-- The method `RemoveOldest`: selects the row of the series with the lowest
timestamp, throws when there is none or when a counter would go below zero,
takes the row off the counters and deletes it. -/
def RemoveOldest (t : SQLiteTimeSeriesTransaction) :
    Except ErrorCode SQLiteTimeSeriesTransaction :=
  match firstByTimestamp t.rows with
  | none => .error ErrorCode.InternalError
  | some oldest =>
    if t.currentLength_ = 0 ∨ t.currentSize_ < oldest.size then
      .error ErrorCode.InternalError
    else
      .ok { t with
            currentSize_ := t.currentSize_ - oldest.size
            currentLength_ := t.currentLength_ - 1
            transaction_ :=
              { t.transaction_ with
                tableContent := t.transaction_.tableContent.filter (fun row =>
                  !decide (row.id = t.id_ ∧ row.timestamp = oldest.timestamp)) } }

/-- The loop `while (cond) { RemoveOldest(); }` with a bound on the number of
turns. -/
def removeOldestLoop (cond : SQLiteTimeSeriesTransaction → Bool) :
    Nat → SQLiteTimeSeriesTransaction → Except ErrorCode SQLiteTimeSeriesTransaction
  | 0, t => .ok t
  | turns + 1, t =>
    if cond t then
      match RemoveOldest t with
      | .error e => .error e
      | .ok t1 => removeOldestLoop cond turns t1
    else .ok t

/-- The loop `while (cond) { RemoveOldest(); }`. A turn that does not throw
deletes a row of `Content`, so that the loop is over within one turn more than
the table has rows: the bound is never reached (`removeOldestWhile_eq`). -/
def removeOldestWhile (cond : SQLiteTimeSeriesTransaction → Bool)
    (t : SQLiteTimeSeriesTransaction) : Except ErrorCode SQLiteTimeSeriesTransaction :=
  removeOldestLoop cond (t.transaction_.tableContent.length + 1) t

/-- The method `DeleteRange`. `COUNT(*)` and `SUM(size)` are taken on the rows
of the range, and the sum of no row reads as 0. -/
def DeleteRange (t : SQLiteTimeSeriesTransaction) (start stop : Int) :
    Except ErrorCode SQLiteTimeSeriesTransaction :=
  let selected := t.rows.filter (fun row => decide (row.timestamp ≥ start ∧ row.timestamp < stop))
  let length := selected.length
  let size := (selected.map (fun row => row.size)).sum
  if t.currentLength_ < length ∨ t.currentSize_ < size then .error ErrorCode.InternalError
  else
    .ok (UpdateTimeSeriesTable
      { t with
        currentLength_ := t.currentLength_ - length
        currentSize_ := t.currentSize_ - size
        transaction_ :=
          { t.transaction_ with
            tableContent := t.transaction_.tableContent.filter (fun row =>
              !decide (row.id = t.id_ ∧ row.timestamp ≥ start ∧ row.timestamp < stop)) } })

/-- The method `SeekFirst`: `none` stands for the result `false`. -/
def SeekFirst (t : SQLiteTimeSeriesTransaction) : Option Int :=
  match firstByTimestamp t.rows with
  | some row => some row.timestamp
  | none => none

/-- The method `SeekLast`. -/
def SeekLast (t : SQLiteTimeSeriesTransaction) : Option Int :=
  match lastByTimestamp t.rows with
  | some row => some row.timestamp
  | none => none

/-- The method `SeekNearest`. -/
def SeekNearest (t : SQLiteTimeSeriesTransaction) (timestamp : Int) : Option Int :=
  match firstByTimestamp (t.rows.filter (fun row => decide (row.timestamp ≥ timestamp))) with
  | some row => some row.timestamp
  | none => none

/-- The method `SeekNext`. -/
def SeekNext (t : SQLiteTimeSeriesTransaction) (timestamp : Int) : Option Int :=
  match firstByTimestamp (t.rows.filter (fun row => decide (row.timestamp > timestamp))) with
  | some row => some row.timestamp
  | none => none

/-- The method `SeekPrevious`. -/
def SeekPrevious (t : SQLiteTimeSeriesTransaction) (timestamp : Int) : Option Int :=
  match lastByTimestamp (t.rows.filter (fun row => decide (row.timestamp < timestamp))) with
  | some row => some row.timestamp
  | none => none

/-- The method `Read`: the first row of `SELECT metadata, value FROM Content
WHERE id=? AND timestamp=?`. -/
def Read (t : SQLiteTimeSeriesTransaction) (timestamp : Int) : Option (Bytes × Bytes) :=
  match t.rows.find? (fun row => decide (row.timestamp = timestamp)) with
  | some row => some (row.metadata, row.value)
  | none => none

/-- The method `Append`: the returned boolean and the state it leaves. The
`INSERT` fails, and the method throws, when the table has a row with the same
primary key. -/
def Append (t : SQLiteTimeSeriesTransaction) (timestamp : Int) (metadata value : Bytes) :
    Except ErrorCode (Bool × SQLiteTimeSeriesTransaction) :=
  if t.maxSize_ ≠ 0 ∧ value.length > t.maxSize_ then .ok (false, t)
  else if t.hasLastTimestamp_ = true ∧ timestamp ≤ t.lastTimestamp_ then .ok (false, t)
  else
    let afterLength :=
      if t.maxLength_ ≠ 0 then
        removeOldestWhile (fun u => decide (u.currentLength_ + 1 > u.maxLength_)) t
      else .ok t
    match afterLength with
    | .error e => .error e
    | .ok t1 =>
      let afterSize :=
        if t1.maxSize_ ≠ 0 then
          removeOldestWhile (fun u => decide (u.currentSize_ + value.length > u.maxSize_)) t1
        else .ok t1
      match afterSize with
      | .error e => .error e
      | .ok t2 =>
        if t2.transaction_.tableContent.any
            (fun row => decide (row.id = t2.id_ ∧ row.timestamp = timestamp)) then
          .error ErrorCode.InternalError
        else
          .ok (true, UpdateTimeSeriesTable
            { t2 with
              transaction_ :=
                { t2.transaction_ with
                  tableContent := t2.transaction_.tableContent ++
                    [{ id := t2.id_, timestamp := timestamp, size := value.length,
                       metadata := metadata, value := value }] }
              currentLength_ := t2.currentLength_ + 1
              currentSize_ := t2.currentSize_ + value.length
              hasLastTimestamp_ := true
              lastTimestamp_ := timestamp })

/-- The method `GetStatistics`: the pair `(length, size)`. -/
def GetStatistics (t : SQLiteTimeSeriesTransaction) : Nat × Nat :=
  (t.currentLength_, t.currentSize_)

/-- The method `ClearContent`. -/
def ClearContent (t : SQLiteTimeSeriesTransaction) : SQLiteTimeSeriesTransaction :=
  UpdateTimeSeriesTable
    { t with
      transaction_ :=
        { t.transaction_ with
          tableContent := t.transaction_.tableContent.filter (fun row =>
            !decide (row.id = t.id_)) }
      currentLength_ := 0
      currentSize_ := 0 }

/-- The method `GetLastTimestamp`. -/
def GetLastTimestamp (t : SQLiteTimeSeriesTransaction) : Option Int :=
  if t.hasLastTimestamp_ then some t.lastTimestamp_ else none

/-- The static method `UpdateQuota`: opens a transaction on the series, removes
the oldest rows while a counter is above its quota, writes the counters to the
table and commits. -/
def UpdateQuota (database : SQLiteDatabase) (name : String) : Except ErrorCode SQLiteDatabase :=
  match create database name with
  | .error e => .error e
  | .ok t =>
    let afterLength :=
      if t.maxLength_ ≠ 0 then
        removeOldestWhile (fun u => decide (u.currentLength_ > u.maxLength_)) t
      else .ok t
    match afterLength with
    | .error e => .error e
    | .ok t1 =>
      let afterSize :=
        if t1.maxSize_ ≠ 0 then
          removeOldestWhile (fun u => decide (u.currentSize_ > u.maxSize_)) t1
        else .ok t1
      match afterSize with
      | .error e => .error e
      | .ok t2 => .ok (UpdateTimeSeriesTable t2).destroy

/-- The items of the series that the transaction sees: the rows of the series
as entries of a map, in the order of the table. -/
def items (t : SQLiteTimeSeriesTransaction) : Content :=
  t.rows.map ContentRow.entry

/-- The state of the transaction holds what the state `s` of a memory backend
holds: the rows of the series are the entries of `s`, the column `size` is the
length of the value, the fields are those of `s`, and the map of `s` is in key
order with an exact `size_`. -/
structure Refines (t : SQLiteTimeSeriesTransaction) (s : MemoryTimeSeriesContent) : Prop where
  items : t.items = s.content_
  sizes : ∀ row ∈ t.rows, row.size = row.value.length
  maxLength : t.maxLength_ = s.maxLength_
  maxSize : t.maxSize_ = s.maxSize_
  currentLength : t.currentLength_ = s.content_.length
  currentSize : t.currentSize_ = s.size_
  hasLast : t.hasLastTimestamp_ = s.hasLastTimestamp_
  last : s.hasLastTimestamp_ = true → t.lastTimestamp_ = s.lastTimestamp_
  sorted : s.content_.Pairwise (fun a b => a.1 < b.1)
  size_eq : s.size_ = MemoryTimeSeriesContent.totalSize s.content_

/-- The row of the series `name` in the table `TimeSeries` holds the fields of
the transaction. -/
def Synced (t : SQLiteTimeSeriesTransaction) (name : String) : Prop :=
  ∃ row, t.transaction_.tableTimeSeries.find? (fun row => row.publicId == name) = some row ∧
    row.internalId = t.id_ ∧ row.maxLength = t.maxLength_ ∧ row.maxSize = t.maxSize_ ∧
    row.currentLength = t.currentLength_ ∧ row.currentSize = t.currentSize_ ∧
    row.lastTimestamp = (if t.hasLastTimestamp_ then some t.lastTimestamp_ else none)

/-- The transaction `t1` has the table `TimeSeries`, the identifier, the quotas
and the last timestamp of the transaction `t`. -/
structure Frame (t t1 : SQLiteTimeSeriesTransaction) : Prop where
  table : t1.transaction_.tableTimeSeries = t.transaction_.tableTimeSeries
  id : t1.id_ = t.id_
  maxLength : t1.maxLength_ = t.maxLength_
  maxSize : t1.maxSize_ = t.maxSize_
  hasLast : t1.hasLastTimestamp_ = t.hasLastTimestamp_
  last : t1.lastTimestamp_ = t.lastTimestamp_

end SQLiteTimeSeriesTransaction

namespace SQLiteDatabase

/-- The method `CreateTimeSeries`: inserts the row of a new series, or writes
the quotas to the row of the series and calls `UpdateQuota`. -/
def CreateTimeSeries (database : SQLiteDatabase) (name : String) (maxLength maxSize : Nat) :
    Except ErrorCode SQLiteDatabase :=
  if !Transaction.HasTimeSeries database name then
    .ok { database with
          tableTimeSeries := database.tableTimeSeries ++
            [{ internalId := database.nextInternalId, publicId := name,
               maxLength := maxLength, maxSize := maxSize,
               currentLength := 0, currentSize := 0, lastTimestamp := none }] }
  else
    SQLiteTimeSeriesTransaction.UpdateQuota
      { database with
        tableTimeSeries := database.tableTimeSeries.map (fun row =>
          if row.publicId = name then { row with maxLength := maxLength, maxSize := maxSize }
          else row) }
      name

end SQLiteDatabase

/-! ## The interface of the transactions of the two backends -/

namespace ITransaction

/-- A call of a method of the interface `ITimeSeriesBackend::ITransaction`. -/
inductive Operation where
  | Append (timestamp : Int) (metadata value : Bytes)
  | DeleteRange (start stop : Int)
  | ClearContent
  | SeekFirst
  | SeekLast
  | SeekNearest (timestamp : Int)
  | SeekNext (timestamp : Int)
  | SeekPrevious (timestamp : Int)
  | Read (timestamp : Int)
  | GetStatistics
  | GetLastTimestamp
deriving DecidableEq, Repr

/-- What a call returns: the boolean of `Append`, nothing for `DeleteRange` and
`ClearContent`, the timestamp of a seek, the pair `(metadata, value)` of `Read`,
the pair `(length, size)` of `GetStatistics`, the timestamp of
`GetLastTimestamp`; `none` stands for the result `false`. -/
inductive Answer where
  | Append (accepted : Bool)
  | Void
  | Seek (result : Option Int)
  | Read (item : Option (Bytes × Bytes))
  | GetStatistics (statistics : Nat × Nat)
  | GetLastTimestamp (result : Option Int)
deriving DecidableEq, Repr

/-- What is seen of a backend after a call: what the call has returned, and the
items, the statistics and the last timestamp that the series holds. -/
structure Observation where
  answer : Answer
  items : Content
  statistics : Nat × Nat
  lastTimestamp : Option Int
deriving DecidableEq, Repr

end ITransaction

namespace MemoryTimeSeriesContent

open ITransaction

/-- One call on the memory backend: the answer and the state that it leaves. -/
def perform (s : MemoryTimeSeriesContent) :
    Operation → Except ErrorCode (Answer × MemoryTimeSeriesContent)
  | .Append timestamp metadata value =>
    match Append s timestamp metadata value with
    | .error e => .error e
    | .ok (accepted, s1) => .ok (Answer.Append accepted, s1)
  | .DeleteRange start stop => .ok (Answer.Void, DeleteRange s start stop)
  | .ClearContent => .ok (Answer.Void, ClearContent s)
  | .SeekFirst => .ok (Answer.Seek (SeekFirst s), s)
  | .SeekLast => .ok (Answer.Seek (SeekLast s), s)
  | .SeekNearest timestamp => .ok (Answer.Seek (SeekNearest s timestamp), s)
  | .SeekNext timestamp => .ok (Answer.Seek (SeekNext s timestamp), s)
  | .SeekPrevious timestamp => .ok (Answer.Seek (SeekPrevious s timestamp), s)
  | .Read timestamp => .ok (Answer.Read (Read s timestamp), s)
  | .GetStatistics => .ok (Answer.GetStatistics (GetStatistics s), s)
  | .GetLastTimestamp => .ok (Answer.GetLastTimestamp (GetLastTimestamp s), s)

/-- What is seen of the memory backend after a call that has returned `answer`. -/
def observation (s : MemoryTimeSeriesContent) (answer : Answer) : Observation :=
  { answer := answer, items := s.content_, statistics := GetStatistics s,
    lastTimestamp := GetLastTimestamp s }

/-- The calls of one transaction, one after the other: what is seen after each
call, and the state at the end. -/
def run (s : MemoryTimeSeriesContent) :
    List Operation → Except ErrorCode (List Observation × MemoryTimeSeriesContent)
  | [] => .ok ([], s)
  | op :: rest =>
    match perform s op with
    | .error e => .error e
    | .ok (answer, s1) =>
      match run s1 rest with
      | .error e => .error e
      | .ok (seen, s2) => .ok (observation s1 answer :: seen, s2)

/-- A sequence of transactions, one after the other. -/
def runAll (s : MemoryTimeSeriesContent) :
    List (List Operation) → Except ErrorCode (List Observation × MemoryTimeSeriesContent)
  | [] => .ok ([], s)
  | ops :: rest =>
    match run s ops with
    | .error e => .error e
    | .ok (seen1, s1) =>
      match runAll s1 rest with
      | .error e => .error e
      | .ok (seen2, s2) => .ok (seen1 ++ seen2, s2)

end MemoryTimeSeriesContent

namespace SQLiteTimeSeriesTransaction

open ITransaction

/-- One call on the SQLite transaction: the answer and the state that it leaves. -/
def perform (t : SQLiteTimeSeriesTransaction) :
    Operation → Except ErrorCode (Answer × SQLiteTimeSeriesTransaction)
  | .Append timestamp metadata value =>
    match Append t timestamp metadata value with
    | .error e => .error e
    | .ok (accepted, t1) => .ok (Answer.Append accepted, t1)
  | .DeleteRange start stop =>
    match DeleteRange t start stop with
    | .error e => .error e
    | .ok t1 => .ok (Answer.Void, t1)
  | .ClearContent => .ok (Answer.Void, ClearContent t)
  | .SeekFirst => .ok (Answer.Seek (SeekFirst t), t)
  | .SeekLast => .ok (Answer.Seek (SeekLast t), t)
  | .SeekNearest timestamp => .ok (Answer.Seek (SeekNearest t timestamp), t)
  | .SeekNext timestamp => .ok (Answer.Seek (SeekNext t timestamp), t)
  | .SeekPrevious timestamp => .ok (Answer.Seek (SeekPrevious t timestamp), t)
  | .Read timestamp => .ok (Answer.Read (Read t timestamp), t)
  | .GetStatistics => .ok (Answer.GetStatistics (GetStatistics t), t)
  | .GetLastTimestamp => .ok (Answer.GetLastTimestamp (GetLastTimestamp t), t)

/-- What is seen of the SQLite transaction after a call that has returned
`answer`. -/
def observation (t : SQLiteTimeSeriesTransaction) (answer : Answer) : Observation :=
  { answer := answer, items := t.items, statistics := GetStatistics t,
    lastTimestamp := GetLastTimestamp t }

/-- The calls of one transaction, one after the other: what is seen after each
call, and the state at the end. -/
def run (t : SQLiteTimeSeriesTransaction) :
    List Operation → Except ErrorCode (List Observation × SQLiteTimeSeriesTransaction)
  | [] => .ok ([], t)
  | op :: rest =>
    match perform t op with
    | .error e => .error e
    | .ok (answer, t1) =>
      match run t1 rest with
      | .error e => .error e
      | .ok (seen, t2) => .ok (observation t1 answer :: seen, t2)

end SQLiteTimeSeriesTransaction

namespace SQLiteDatabase

open ITransaction

/-- A sequence of transactions on the series `name`, one after the other: each
one is opened on the database, makes its calls and commits. -/
def runAll (database : SQLiteDatabase) (name : String) :
    List (List Operation) → Except ErrorCode (List Observation × SQLiteDatabase)
  | [] => .ok ([], database)
  | ops :: rest =>
    match SQLiteTimeSeriesTransaction.create database name with
    | .error e => .error e
    | .ok t =>
      match t.run ops with
      | .error e => .error e
      | .ok (seen1, t1) =>
        match runAll t1.destroy name rest with
        | .error e => .error e
        | .ok (seen2, database2) => .ok (seen1 ++ seen2, database2)

/-- A new database with one series, and a sequence of transactions on it. -/
def created (name : String) (maxLength maxSize : Nat) (transactions : List (List Operation)) :
    Except ErrorCode (List Observation × SQLiteDatabase) :=
  match create.CreateTimeSeries name maxLength maxSize with
  | .error e => .error e
  | .ok database => database.runAll name transactions

end SQLiteDatabase

/-- The string `"v"` followed by the decimal digit `i`, as in the test
`ChangeQuota`. -/
def changeQuotaValue (i : Nat) : Bytes := [0x76, UInt8.ofNat (0x30 + i)]

/-- The transactions of the test `ChangeQuota`: ten of them, each with one
`Append` at the timestamp `i` of the value `"v" + i` with empty metadata. -/
def changeQuotaAppends : List (List ITransaction.Operation) :=
  (List.range 10).map (fun i => [ITransaction.Operation.Append (Int.ofNat i) [] (changeQuotaValue i)])

/-- The database that the ten transactions of the test `ChangeQuota` leave. -/
def changeQuotaDatabase : Except ErrorCode SQLiteDatabase :=
  match SQLiteDatabase.created "world" 0 0 changeQuotaAppends with
  | .error e => .error e
  | .ok (_, database) => .ok database

/-- The database of the test `ChangeQuota` after the ten transactions. -/
def worldDatabase : SQLiteDatabase :=
  { tableTimeSeries :=
      [{ internalId := 1, publicId := "world", maxLength := 0, maxSize := 0,
         currentLength := 10, currentSize := 20, lastTimestamp := some 9 }]
    tableContent := (List.range 10).map (fun i =>
      { id := 1, timestamp := Int.ofNat i, size := 2, metadata := [],
        value := changeQuotaValue i }) }

/-- The transaction that opens on `worldDatabase`. -/
def worldTransaction : SQLiteTimeSeriesTransaction :=
  { transaction_ := worldDatabase, id_ := 1, maxLength_ := 0, maxSize_ := 0,
    currentLength_ := 10, currentSize_ := 20, hasLastTimestamp_ := true, lastTimestamp_ := 9 }

/-- The memory backend that holds what `worldDatabase` holds. -/
def worldContent : MemoryTimeSeriesContent :=
  { content_ := (List.range 10).map (fun i =>
      (Int.ofNat i, { metadata_ := [], value_ := changeQuotaValue i }))
    size_ := 20, maxLength_ := 0, maxSize_ := 0, hasLastTimestamp_ := true,
    lastTimestamp_ := 9 }

/-- The function `GetLength` and the function `GetSize` of the unit tests, as a
pair. -/
def GetLengthAndSize (db : SQLiteDatabase) (name : String) : Except ErrorCode (Nat × Nat) :=
  match SQLiteTimeSeriesTransaction.create db name with
  | .error e => .error e
  | .ok t => .ok t.GetStatistics

/-- The calls `CreateTimeSeries(name, maxLength, maxSize)` of a list of quotas,
one after the other, with the length and the size of the series after each. -/
def changeQuotas (db : SQLiteDatabase) (name : String) :
    List (Nat × Nat) → Except ErrorCode (List (Nat × Nat))
  | [] => .ok []
  | (maxLength, maxSize) :: rest =>
    match db.CreateTimeSeries name maxLength maxSize with
    | .error e => .error e
    | .ok db1 =>
      match GetLengthAndSize db1 name, changeQuotas db1 name rest with
      | .ok statistics, .ok others => .ok (statistics :: others)
      | .error e, _ => .error e
      | _, .error e => .error e

/-! ## Lemmas on the map operations -/

namespace Content

theorem find_eq_length_of_lt (c : Content) (k : Int) (h : ∀ e ∈ c, e.1 < k) :
    c.find k = c.length := by
  unfold find
  induction c with
  | nil => rfl
  | cons e rest ih =>
    have he : e.1 < k := h e (List.mem_cons_self _ _)
    have hne : ¬ e.1 = k := by omega
    rw [List.findIdx_cons, List.length_cons, ih (fun x hx => h x (List.mem_cons_of_mem _ hx))]
    simp [hne]

theorem assign_of_lt (c : Content) (k : Int) (item : Item) (h : ∀ e ∈ c, e.1 < k) :
    assign k item c = c ++ [(k, item)] := by
  induction c with
  | nil => rfl
  | cons e rest ih =>
    have he : e.1 < k := h e (List.mem_cons_self _ _)
    have h1 : ¬ k < e.1 := by omega
    have h2 : ¬ k = e.1 := by omega
    simp [assign, h1, h2]
    exact ih (fun x hx => h x (List.mem_cons_of_mem _ hx))

end Content

namespace MemoryTimeSeriesContent

theorem totalSize_append (a b : Content) : totalSize (a ++ b) = totalSize a + totalSize b := by
  induction a with
  | nil => simp [totalSize]
  | cons e rest ih => simp [totalSize, ih]; omega

theorem totalSize_take_add_drop (c : Content) (k : Nat) :
    totalSize (c.take k) + totalSize (c.drop k) = totalSize c := by
  rw [← totalSize_append, List.take_append_drop]

/-- The loop stops at the first `k` for which the condition fails after `k`
removals, and throws when there is no such `k`. -/
theorem removeOldestLoop_spec (cond : MemoryTimeSeriesContent → Bool) (s : MemoryTimeSeriesContent) :
    ∀ (c : Content) (size : Nat),
      (∃ k, k ≤ c.length ∧
        removeOldestLoop cond s c size =
          .ok { s with content_ := c.drop k, size_ := size - totalSize (c.take k) } ∧
        cond { s with content_ := c.drop k, size_ := size - totalSize (c.take k) } = false ∧
        ∀ j, j < k →
          cond { s with content_ := c.drop j, size_ := size - totalSize (c.take j) } = true) ∨
      (removeOldestLoop cond s c size = .error ErrorCode.InternalError ∧
        ∀ j, j ≤ c.length →
          cond { s with content_ := c.drop j, size_ := size - totalSize (c.take j) } = true) := by
  intro c
  induction c with
  | nil =>
    intro size
    by_cases h : cond { s with content_ := [], size_ := size } = true
    · right
      refine ⟨by simp [removeOldestLoop, h], ?_⟩
      intro j _
      simpa [totalSize] using h
    · left
      refine ⟨0, le_refl _, by simp [removeOldestLoop, h, totalSize], ?_, ?_⟩
      · simpa [totalSize] using h
      · intro j hj; omega
  | cons e rest ih =>
    intro size
    by_cases h : cond { s with content_ := e :: rest, size_ := size } = true
    · have hstep : removeOldestLoop cond s (e :: rest) size =
          removeOldestLoop cond s rest (size - e.2.GetValue.length) := by
        simp [removeOldestLoop, h]
      have hshift : ∀ j, size - totalSize ((e :: rest).take (j + 1)) =
          size - e.2.GetValue.length - totalSize (rest.take j) := by
        intro j; simp [totalSize]; omega
      rcases ih (size - e.2.GetValue.length) with ⟨k, hk, hrun, hstop, hbefore⟩ | ⟨hrun, hall⟩
      · left
        refine ⟨k + 1, by simpa using hk, ?_, ?_, ?_⟩
        · rw [hstep, hrun, hshift]; rfl
        · rw [hshift]; simpa using hstop
        · intro j hj
          cases j with
          | zero => simpa [totalSize] using h
          | succ j =>
            rw [hshift]
            simpa using hbefore j (by omega)
      · right
        refine ⟨by rw [hstep, hrun], ?_⟩
        intro j hj
        cases j with
        | zero => simpa [totalSize] using h
        | succ j =>
          rw [hshift]
          simpa using hall j (by simpa using hj)
    · left
      refine ⟨0, Nat.zero_le _, by simp [removeOldestLoop, h, totalSize], ?_, ?_⟩
      · simpa [totalSize] using h
      · intro j hj; omega

theorem removeOldestLoop_fields (cond : MemoryTimeSeriesContent → Bool)
    (s : MemoryTimeSeriesContent) (content0 : Content) (size0 : Nat) :
    ∀ (c : Content) (size : Nat),
      removeOldestLoop cond { s with content_ := content0, size_ := size0 } c size =
        removeOldestLoop cond s c size := by
  intro c
  induction c with
  | nil => intro size; rfl
  | cons e rest ih =>
    intro size
    simp only [removeOldestLoop, ih]

/-- The loop is `while (cond) { RemoveOldest(); }`: when the condition holds it
calls `RemoveOldest` and goes on from the state that this leaves, and it lets
the exception of `RemoveOldest` through. -/
theorem removeOldestWhile_unfold (cond : MemoryTimeSeriesContent → Bool)
    (s : MemoryTimeSeriesContent) :
    removeOldestWhile cond s =
      if cond s then
        match RemoveOldest s with
        | .ok s1 => removeOldestWhile cond s1
        | .error e => .error e
      else .ok s := by
  obtain ⟨content, size, maxLength, maxSize, hasLast, last⟩ := s
  cases content with
  | nil => simp only [removeOldestWhile, removeOldestLoop, RemoveOldest]
  | cons oldest rest =>
    simp only [removeOldestWhile, removeOldestLoop, RemoveOldest]
    rw [removeOldestLoop_fields cond
      { content_ := oldest :: rest, size_ := size, maxLength_ := maxLength,
        maxSize_ := maxSize, hasLastTimestamp_ := hasLast, lastTimestamp_ := last }
      rest (size - oldest.2.GetValue.length)]

theorem size_after_removals (s : MemoryTimeSeriesContent)
    (hsize : s.size_ = totalSize s.content_) (k : Nat) :
    s.size_ - totalSize (s.content_.take k) = totalSize (s.content_.drop k) := by
  have := totalSize_take_add_drop s.content_ k
  omega

/-- The first loop of `Append` (length quota) on a state whose `size_` is exact. -/
theorem removeOldestWhile_length (s : MemoryTimeSeriesContent)
    (hsize : s.size_ = totalSize s.content_) (hmax : s.maxLength_ ≠ 0) :
    ∃ k, k ≤ s.content_.length ∧
      removeOldestWhile (fun t => decide (t.content_.length + 1 > t.maxLength_)) s =
        .ok { s with content_ := s.content_.drop k, size_ := totalSize (s.content_.drop k) } ∧
      s.content_.length - k + 1 ≤ s.maxLength_ ∧
      ∀ j, j < k → ¬ (s.content_.length - j + 1 ≤ s.maxLength_) := by
  rcases removeOldestLoop_spec (fun t => decide (t.content_.length + 1 > t.maxLength_)) s
      s.content_ s.size_ with ⟨k, hk, hrun, hstop, hbefore⟩ | ⟨_, hall⟩
  · refine ⟨k, hk, ?_, ?_, ?_⟩
    · unfold removeOldestWhile
      rw [hrun, size_after_removals s hsize k]
    · simpa using hstop
    · intro j hj
      have := hbefore j hj
      simp at this
      omega
  · have := hall s.content_.length (le_refl _)
    simp at this
    omega

/-- The second loop of `Append` (size quota) on a state whose `size_` is exact,
for a value that fits in the quota. -/
theorem removeOldestWhile_size (s : MemoryTimeSeriesContent) (value : Bytes)
    (hsize : s.size_ = totalSize s.content_) (hfit : value.length ≤ s.maxSize_) :
    ∃ k, k ≤ s.content_.length ∧
      removeOldestWhile (fun t => decide (t.size_ + value.length > t.maxSize_)) s =
        .ok { s with content_ := s.content_.drop k, size_ := totalSize (s.content_.drop k) } ∧
      totalSize (s.content_.drop k) + value.length ≤ s.maxSize_ ∧
      ∀ j, j < k → ¬ (totalSize (s.content_.drop j) + value.length ≤ s.maxSize_) := by
  rcases removeOldestLoop_spec (fun t => decide (t.size_ + value.length > t.maxSize_)) s
      s.content_ s.size_ with ⟨k, hk, hrun, hstop, hbefore⟩ | ⟨_, hall⟩
  · refine ⟨k, hk, ?_, ?_, ?_⟩
    · unfold removeOldestWhile
      rw [hrun, size_after_removals s hsize k]
    · have := size_after_removals s hsize k
      simp at hstop
      omega
    · intro j hj
      have h1 := hbefore j hj
      have h2 := size_after_removals s hsize j
      simp at h1
      omega
  · have h1 := hall s.content_.length (le_refl _)
    have h2 := size_after_removals s hsize s.content_.length
    simp [totalSize] at h1 h2
    omega

/-- `SetValue` at a timestamp above every stored one, when the quotas leave room. -/
theorem SetValue_above (s : MemoryTimeSeriesContent) (timestamp : Int) (metadata value : Bytes)
    (habove : ∀ e ∈ s.content_, e.1 < timestamp)
    (hlength : s.maxLength_ ≠ 0 → s.content_.length + 1 ≤ s.maxLength_)
    (hsize : s.maxSize_ ≠ 0 → s.size_ + value.length ≤ s.maxSize_) :
    SetValue s timestamp metadata value =
      .ok { s with
            content_ := s.content_ ++ [(timestamp, { metadata_ := metadata, value_ := value })],
            size_ := s.size_ + value.length } := by
  have hfind : s.content_[s.content_.find timestamp]? = none := by
    rw [Content.find_eq_length_of_lt _ _ habove]
    simp
  have h1 : ¬ (s.maxLength_ ≠ 0 ∧ s.content_.length + 1 > s.maxLength_) := by
    intro h; have := hlength h.1; omega
  have h2 : ¬ (s.maxSize_ ≠ 0 ∧ s.size_ + value.length > s.maxSize_) := by
    intro h; have := hsize h.1; omega
  unfold SetValue
  simp only [hfind, h1, h2, if_false, Content.assign_of_lt _ _ _ habove]

/-- What an accepted `Append` does to a consistent state: it removes the first
`k` entries, `k` being the least number of removals after which both quotas
leave room for the new item, and adds the new entry at the end. -/
theorem Append_accepted (s : MemoryTimeSeriesContent) (hs : Consistent s)
    (timestamp : Int) (metadata value : Bytes)
    (hfit : s.maxSize_ = 0 ∨ value.length ≤ s.maxSize_)
    (hlast : s.hasLastTimestamp_ = false ∨ s.lastTimestamp_ < timestamp) :
    ∃ k, k ≤ s.content_.length ∧
      Append s timestamp metadata value =
        .ok (true, { s with
          content_ := s.content_.drop k ++ [(timestamp, { metadata_ := metadata, value_ := value })],
          size_ := totalSize (s.content_.drop k) + value.length,
          hasLastTimestamp_ := true,
          lastTimestamp_ := timestamp }) ∧
      (s.maxLength_ ≠ 0 → s.content_.length - k + 1 ≤ s.maxLength_) ∧
      (s.maxSize_ ≠ 0 → totalSize (s.content_.drop k) + value.length ≤ s.maxSize_) ∧
      ∀ j, j < k →
        ¬ ((s.maxLength_ ≠ 0 → s.content_.length - j + 1 ≤ s.maxLength_) ∧
           (s.maxSize_ ≠ 0 → totalSize (s.content_.drop j) + value.length ≤ s.maxSize_)) := by
  have hr1 : ¬ (s.maxSize_ ≠ 0 ∧ value.length > s.maxSize_) := by
    rintro ⟨h0, h1⟩; rcases hfit with h | h <;> omega
  have hr2 : ¬ (s.hasLastTimestamp_ = true ∧ timestamp ≤ s.lastTimestamp_) := by
    rintro ⟨h0, h1⟩
    rcases hlast with h | h
    · rw [h] at h0; exact Bool.noConfusion h0
    · omega
  have habove : ∀ e ∈ s.content_, e.1 < timestamp := by
    intro e he
    obtain ⟨h0, h1⟩ := hs.below_last e he
    rcases hlast with h | h
    · rw [h] at h0; exact Bool.noConfusion h0
    · omega
  -- first loop
  obtain ⟨k1, hk1, hrun1, hstop1, hbefore1⟩ :
      ∃ k, k ≤ s.content_.length ∧
        (if s.maxLength_ ≠ 0 then
          removeOldestWhile (fun t => decide (t.content_.length + 1 > t.maxLength_)) s
         else .ok s) =
          .ok { s with content_ := s.content_.drop k, size_ := totalSize (s.content_.drop k) } ∧
        (s.maxLength_ ≠ 0 → s.content_.length - k + 1 ≤ s.maxLength_) ∧
        ∀ j, j < k → (s.maxLength_ ≠ 0 ∧ ¬ (s.content_.length - j + 1 ≤ s.maxLength_)) := by
    by_cases hmax : s.maxLength_ = 0
    · refine ⟨0, Nat.zero_le _, ?_, fun h => absurd hmax h, fun j hj => by omega⟩
      rw [if_neg (not_not.mpr hmax), List.drop_zero, ← hs.size_eq]
    · obtain ⟨k, hk, hrun, hstop, hbefore⟩ := removeOldestWhile_length s hs.size_eq hmax
      exact ⟨k, hk, by simp only [ne_eq, hmax, not_false_eq_true, if_true, hrun],
        fun _ => hstop, fun j hj => ⟨hmax, hbefore j hj⟩⟩
  -- second loop
  obtain ⟨k2, hk2, hrun2, hstop2, hbefore2⟩ :
      ∃ k, k ≤ (s.content_.drop k1).length ∧
        (if s.maxSize_ ≠ 0 then
          removeOldestWhile (fun t => decide (t.size_ + value.length > t.maxSize_))
            { s with content_ := s.content_.drop k1, size_ := totalSize (s.content_.drop k1) }
         else .ok { s with content_ := s.content_.drop k1,
                           size_ := totalSize (s.content_.drop k1) }) =
          .ok { s with content_ := s.content_.drop (k1 + k),
                       size_ := totalSize (s.content_.drop (k1 + k)) } ∧
        (s.maxSize_ ≠ 0 → totalSize (s.content_.drop (k1 + k)) + value.length ≤ s.maxSize_) ∧
        ∀ j, j < k →
          (s.maxSize_ ≠ 0 ∧ ¬ (totalSize (s.content_.drop (k1 + j)) + value.length ≤ s.maxSize_)) := by
    by_cases hmax : s.maxSize_ = 0
    · refine ⟨0, Nat.zero_le _, ?_, fun h => absurd hmax h, fun j hj => by omega⟩
      rw [if_neg (not_not.mpr hmax), Nat.add_zero]
    · have hv : value.length ≤ s.maxSize_ := by rcases hfit with h | h <;> omega
      obtain ⟨k, hk, hrun, hstop, hbefore⟩ := removeOldestWhile_size
        { s with content_ := s.content_.drop k1, size_ := totalSize (s.content_.drop k1) }
        value rfl hv
      refine ⟨k, hk, ?_, fun _ => ?_, fun j hj => ⟨hmax, ?_⟩⟩
      · simp only [ne_eq, hmax, not_false_eq_true, if_true, hrun, List.drop_drop]
      · simpa only [List.drop_drop] using hstop
      · simpa only [List.drop_drop] using hbefore j hj
  have hlen2 : (s.content_.drop (k1 + k2)).length = s.content_.length - (k1 + k2) :=
    List.length_drop _ _
  have hlen1 : (s.content_.drop k1).length = s.content_.length - k1 := List.length_drop _ _
  have habove2 : ∀ e ∈ s.content_.drop (k1 + k2), e.1 < timestamp :=
    fun e he => habove e (List.mem_of_mem_drop he)
  have hset := SetValue_above
    { s with content_ := s.content_.drop (k1 + k2),
             size_ := totalSize (s.content_.drop (k1 + k2)) }
    timestamp metadata value habove2
    (by intro h; have := hstop1 h; simp only [hlen2]; omega)
    (by intro h; exact hstop2 h)
  refine ⟨k1 + k2, by omega, ?_, ?_, hstop2, ?_⟩
  · unfold Append
    simp only [hr1, hr2, if_false, hrun1, hrun2, hset]
  · intro h; have := hstop1 h; omega
  · intro j hj hboth
    by_cases hj1 : j < k1
    · obtain ⟨h0, h1⟩ := hbefore1 j hj1
      exact h1 (hboth.1 h0)
    · obtain ⟨h0, h1⟩ := hbefore2 (j - k1) (by omega)
      have : k1 + (j - k1) = j := by omega
      rw [this] at h1
      exact h1 (hboth.2 h0)

theorem Consistent_create (maxLength maxSize : Nat) : Consistent (create maxLength maxSize) where
  sorted := List.Pairwise.nil
  size_eq := rfl
  below_last := by intro e he; simp [create] at he
  length_le := by intro _; simp [create]
  size_le := by intro _; simp [create]

theorem Consistent_ClearContent (s : MemoryTimeSeriesContent) : Consistent (ClearContent s) where
  sorted := List.Pairwise.nil
  size_eq := rfl
  below_last := by intro e he; simp [ClearContent] at he
  length_le := by intro _; simp [ClearContent]
  size_le := by intro _; simp [ClearContent]

/-- On a consistent state `Append` never throws: it is either refused, and then
returns `false` and leaves the state alone, or accepted as `Append_accepted` says. -/
theorem Append_total (s : MemoryTimeSeriesContent) (hs : Consistent s)
    (timestamp : Int) (metadata value : Bytes) :
    (((s.maxSize_ ≠ 0 ∧ value.length > s.maxSize_) ∨
        (s.hasLastTimestamp_ = true ∧ timestamp ≤ s.lastTimestamp_)) ∧
      Append s timestamp metadata value = .ok (false, s)) ∨
    (((s.maxSize_ = 0 ∨ value.length ≤ s.maxSize_) ∧
        (s.hasLastTimestamp_ = false ∨ s.lastTimestamp_ < timestamp)) ∧
      ∃ k, k ≤ s.content_.length ∧
        Append s timestamp metadata value =
          .ok (true, { s with
            content_ := s.content_.drop k ++
              [(timestamp, { metadata_ := metadata, value_ := value })],
            size_ := totalSize (s.content_.drop k) + value.length,
            hasLastTimestamp_ := true,
            lastTimestamp_ := timestamp }) ∧
        (s.maxLength_ ≠ 0 → s.content_.length - k + 1 ≤ s.maxLength_) ∧
        (s.maxSize_ ≠ 0 → totalSize (s.content_.drop k) + value.length ≤ s.maxSize_)) := by
  by_cases h1 : s.maxSize_ ≠ 0 ∧ value.length > s.maxSize_
  · left
    exact ⟨Or.inl h1, by unfold Append; rw [if_pos h1]⟩
  · by_cases h2 : s.hasLastTimestamp_ = true ∧ timestamp ≤ s.lastTimestamp_
    · left
      exact ⟨Or.inr h2, by unfold Append; rw [if_neg h1, if_pos h2]⟩
    · right
      have hfit : s.maxSize_ = 0 ∨ value.length ≤ s.maxSize_ := by
        by_cases h : s.maxSize_ = 0
        · exact Or.inl h
        · right
          by_contra hc
          exact h1 ⟨h, by omega⟩
      have hlast : s.hasLastTimestamp_ = false ∨ s.lastTimestamp_ < timestamp := by
        cases hb : s.hasLastTimestamp_ with
        | false => exact Or.inl rfl
        | true =>
          right
          by_contra hc
          exact h2 ⟨hb, by omega⟩
      obtain ⟨k, hk, hrun, hl, hz, _⟩ := Append_accepted s hs timestamp metadata value hfit hlast
      exact ⟨⟨hfit, hlast⟩, k, hk, hrun, hl, hz⟩

theorem Consistent_Append (s : MemoryTimeSeriesContent) (hs : Consistent s)
    (timestamp : Int) (metadata value : Bytes) :
    ∃ accepted s1, Append s timestamp metadata value = .ok (accepted, s1) ∧ Consistent s1 := by
  rcases Append_total s hs timestamp metadata value with ⟨_, hrun⟩ | ⟨⟨_, hlast⟩, k, hk, hrun, hl, hz⟩
  · exact ⟨false, s, hrun, hs⟩
  · refine ⟨true, _, hrun, ?_⟩
    have habove : ∀ e ∈ s.content_, e.1 < timestamp := by
      intro e he
      obtain ⟨h0, h1⟩ := hs.below_last e he
      rcases hlast with h | h
      · rw [h] at h0; exact Bool.noConfusion h0
      · omega
    constructor
    · show List.Pairwise _ (s.content_.drop k ++ _)
      rw [List.pairwise_append]
      refine ⟨hs.sorted.sublist (List.drop_sublist _ _), List.pairwise_singleton _ _, ?_⟩
      intro a ha b hb
      rw [List.mem_singleton] at hb
      rw [hb]
      exact habove a (List.mem_of_mem_drop ha)
    · show _ = totalSize (s.content_.drop k ++ _)
      rw [totalSize_append]
      rfl
    · intro e he
      have he : e ∈ s.content_.drop k ++ [(timestamp, { metadata_ := metadata, value_ := value })] := he
      rw [List.mem_append, List.mem_singleton] at he
      refine ⟨rfl, ?_⟩
      show e.1 ≤ timestamp
      rcases he with he | he
      · exact le_of_lt (habove e (List.mem_of_mem_drop he))
      · rw [he]
    · intro h
      have := hl h
      show (s.content_.drop k ++ _).length ≤ s.maxLength_
      rw [List.length_append, List.length_drop, List.length_singleton]
      exact this
    · intro h
      exact hz h

theorem foldl_sub_totalSize (l : Content) (size : Nat) :
    l.foldl (fun size it => size - it.2.GetValue.length) size = size - totalSize l := by
  induction l generalizing size with
  | nil => simp [totalSize]
  | cons e rest ih => simp only [List.foldl_cons, ih, totalSize]; omega

theorem lower_bound_le_length (c : Content) (k : Int) : c.lower_bound k ≤ c.length :=
  List.findIdx_le_length _

theorem lower_bound_mono (c : Content) (a b : Int) (hab : a ≤ b) :
    c.lower_bound a ≤ c.lower_bound b := by
  unfold Content.lower_bound
  induction c with
  | nil => simp
  | cons e rest ih =>
    rw [List.findIdx_cons, List.findIdx_cons]
    by_cases h : b ≤ e.1
    · have : a ≤ e.1 := by omega
      simp [h, this]
    · by_cases h2 : a ≤ e.1
      · simp [h, h2]
      · simp [h, h2, ih]

/-- In a map in key order, the entries before `lower_bound k` are those of key `< k`. -/
theorem take_lower_bound (c : Content) (k : Int) (hsorted : c.Pairwise (fun a b => a.1 < b.1)) :
    c.take (c.lower_bound k) = c.filter (fun e => decide (e.1 < k)) := by
  unfold Content.lower_bound
  induction c with
  | nil => simp
  | cons e rest ih =>
    rw [List.pairwise_cons] at hsorted
    rw [List.findIdx_cons]
    by_cases h : k ≤ e.1
    · have h1 : ¬ e.1 < k := by omega
      have h2 : rest.filter (fun e => decide (e.1 < k)) = [] := by
        rw [List.filter_eq_nil_iff]
        intro x hx
        have := hsorted.1 x hx
        simp only [decide_eq_true_eq]
        omega
      simp [h, h1, h2]
    · have h1 : e.1 < k := by omega
      simp [h, h1, ih hsorted.2]

/-- In a map in key order, the entries from `lower_bound k` on are those of key `≥ k`. -/
theorem drop_lower_bound (c : Content) (k : Int) (hsorted : c.Pairwise (fun a b => a.1 < b.1)) :
    c.drop (c.lower_bound k) = c.filter (fun e => decide (k ≤ e.1)) := by
  unfold Content.lower_bound
  induction c with
  | nil => simp
  | cons e rest ih =>
    rw [List.pairwise_cons] at hsorted
    rw [List.findIdx_cons]
    by_cases h : k ≤ e.1
    · have h2 : rest.filter (fun e => decide (k ≤ e.1)) = rest := by
        rw [List.filter_eq_self]
        intro x hx
        have := hsorted.1 x hx
        simp only [decide_eq_true_eq]
        omega
      simp [h, h2]
    · simp [h, ih hsorted.2]

theorem filter_outside_sorted (c : Content) (a b : Int) (hab : a < b)
    (hsorted : c.Pairwise (fun x y => x.1 < y.1)) :
    c.filter (fun e => decide (e.1 < a)) ++ c.filter (fun e => decide (b ≤ e.1)) =
      c.filter (fun e => !decide (a ≤ e.1 ∧ e.1 < b)) := by
  induction c with
  | nil => simp
  | cons e rest ih =>
    rw [List.pairwise_cons] at hsorted
    have ih := ih hsorted.2
    by_cases h1 : e.1 < a
    · have h2 : ¬ b ≤ e.1 := by omega
      have h3 : ¬ (a ≤ e.1 ∧ e.1 < b) := by omega
      simp only [List.filter_cons, h1, h2, h3, decide_True, decide_False, if_true,
        Bool.not_false, List.cons_append, Bool.false_eq_true, if_false]
      rw [ih]
    · by_cases h2 : b ≤ e.1
      · have h3 : ¬ (a ≤ e.1 ∧ e.1 < b) := by omega
        have h4 : rest.filter (fun e => decide (e.1 < a)) = [] := by
          rw [List.filter_eq_nil_iff]
          intro x hx
          have := hsorted.1 x hx
          simp only [decide_eq_true_eq]
          omega
        rw [h4] at ih
        simp only [List.filter_cons, h1, h2, h3, decide_True, decide_False, if_true,
          Bool.not_false, Bool.false_eq_true, if_false, h4, List.nil_append]
        rw [← ih, List.nil_append]
      · have h3 : a ≤ e.1 ∧ e.1 < b := by omega
        simp only [List.filter_cons, h1, h2, h3, decide_True, decide_False,
          Bool.not_true, Bool.false_eq_true, if_false, and_self]
        exact ih

/-- In a map in key order, erasing `[lower_bound a, lower_bound b)` with `a < b`
keeps exactly the entries whose key is outside `[a, b)`, in their order. -/
theorem erase_lower_bounds (c : Content) (a b : Int) (hab : a < b)
    (hsorted : c.Pairwise (fun x y => x.1 < y.1)) :
    c.erase (c.lower_bound a) (c.lower_bound b) =
      c.filter (fun e => !decide (a ≤ e.1 ∧ e.1 < b)) := by
  unfold Content.erase
  rw [take_lower_bound c a hsorted, drop_lower_bound c b hsorted]
  exact filter_outside_sorted c a b hab hsorted

/-- The bytes that the loop of `DeleteRange` takes off `size_` are those of the
erased entries. -/
theorem totalSize_erase (c : Content) (first last : Nat) (h : first ≤ last) :
    totalSize (c.erase first last) + totalSize ((c.drop first).take (last - first)) =
      totalSize c := by
  unfold Content.erase
  have h1 := totalSize_take_add_drop c first
  have h2 := totalSize_take_add_drop (c.drop first) (last - first)
  rw [List.drop_drop] at h2
  have h3 : first + (last - first) = last := by omega
  rw [h3] at h2
  rw [totalSize_append]
  omega

/-- The state after `DeleteRange` on a consistent state. -/
theorem DeleteRange_eq (s : MemoryTimeSeriesContent) (hs : Consistent s) (start stop : Int) :
    DeleteRange s start stop =
      { s with
        content_ := s.content_.filter (fun e => !decide (start ≤ e.1 ∧ e.1 < stop)),
        size_ := totalSize (s.content_.filter (fun e => !decide (start ≤ e.1 ∧ e.1 < stop))) } := by
  unfold DeleteRange
  by_cases h : start ≥ stop
  · have hall : s.content_.filter (fun e => !decide (start ≤ e.1 ∧ e.1 < stop)) = s.content_ := by
      rw [List.filter_eq_self]
      intro x _
      have : ¬ (start ≤ x.1 ∧ x.1 < stop) := by omega
      simp [this]
    rw [if_pos h, hall, ← hs.size_eq]
  · have hab : start < stop := by omega
    have hmono := lower_bound_mono s.content_ start stop (le_of_lt hab)
    have hsz := totalSize_erase s.content_ _ _ hmono
    rw [if_neg h]
    simp only [foldl_sub_totalSize]
    rw [← erase_lower_bounds s.content_ start stop hab hs.sorted]
    have : s.size_ - totalSize ((s.content_.drop (s.content_.lower_bound start)).take
        (s.content_.lower_bound stop - s.content_.lower_bound start)) =
        totalSize (s.content_.erase (s.content_.lower_bound start)
          (s.content_.lower_bound stop)) := by
      rw [hs.size_eq]; omega
    rw [this]

theorem totalSize_filter_le (c : Content) (p : Int × Item → Bool) :
    totalSize (c.filter p) ≤ totalSize c := by
  induction c with
  | nil => simp [totalSize]
  | cons e rest ih =>
    rw [List.filter_cons]
    split <;> simp only [totalSize] <;> omega

theorem Consistent_DeleteRange (s : MemoryTimeSeriesContent) (hs : Consistent s)
    (start stop : Int) : Consistent (DeleteRange s start stop) := by
  rw [DeleteRange_eq s hs]
  constructor
  · exact hs.sorted.sublist (List.filter_sublist _)
  · rfl
  · intro e he
    exact hs.below_last e (List.mem_of_mem_filter he)
  · intro h
    exact le_trans (List.length_filter_le _ _) (hs.length_le h)
  · intro h
    have := hs.size_le h
    have := totalSize_filter_le s.content_ (fun e => !decide (start ≤ e.1 ∧ e.1 < stop))
    have := hs.size_eq
    show totalSize _ ≤ s.maxSize_
    omega

/-- A sequence of calls on a consistent state: it runs to its end, the quotas
stay what they were, and the last timestamp is present at the end exactly when
it was at the start or some `Append` of the sequence was accepted, and then it
is not below the one at the start. -/
theorem calls_spec (ops : List Call) :
    ∀ s : MemoryTimeSeriesContent, Consistent s →
      ∃ s1 results, calls s ops = .ok s1 ∧ returned s ops = .ok results ∧ Consistent s1 ∧
        s1.maxLength_ = s.maxLength_ ∧ s1.maxSize_ = s.maxSize_ ∧
        (s1.hasLastTimestamp_ = true ↔ (s.hasLastTimestamp_ = true ∨ true ∈ results)) ∧
        (s.hasLastTimestamp_ = true → s.lastTimestamp_ ≤ s1.lastTimestamp_) := by
  induction ops with
  | nil =>
    intro s hs
    exact ⟨s, [], rfl, rfl, hs, rfl, rfl, by simp, fun _ => le_refl _⟩
  | cons op rest ih =>
    intro s hs
    cases op with
    | Append timestamp metadata value =>
      rcases Append_total s hs timestamp metadata value with
        ⟨_, hrun⟩ | ⟨⟨_, hlast⟩, k, hk, hrun, hl, hz⟩
      · obtain ⟨s2, results, hc, hr, hs2, hL, hS, hhas, hmono⟩ := ih s hs
        refine ⟨s2, false :: results, ?_, ?_, hs2, hL, hS, ?_, hmono⟩
        · simp only [calls, call, hrun, hc]
        · simp only [returned, hrun, hr]
        · simpa using hhas
      · obtain ⟨a, s1, hrun1, hs1⟩ := Consistent_Append s hs timestamp metadata value
        rw [hrun] at hrun1
        injection hrun1 with hrun1
        injection hrun1 with _ hs1eq
        subst hs1eq
        obtain ⟨s2, results, hc, hr, hs2, hL, hS, hhas, hmono⟩ := ih _ hs1
        refine ⟨s2, true :: results, ?_, ?_, hs2, hL, hS, ?_, ?_⟩
        · simp only [calls, call, hrun, hc]
        · simp only [returned, hrun, hr]
        · simp only [List.mem_cons, true_or, or_true, iff_true]
          exact hhas.mpr (Or.inl rfl)
        · intro hb
          have h1 : timestamp ≤ s2.lastTimestamp_ := hmono rfl
          rcases hlast with h | h
          · rw [h] at hb; exact Bool.noConfusion hb
          · omega
    | DeleteRange start stop =>
      obtain ⟨s2, results, hc, hr, hs2, hL, hS, hhas, hmono⟩ :=
        ih _ (Consistent_DeleteRange s hs start stop)
      rw [DeleteRange_eq s hs] at hc hr hL hS hhas hmono
      refine ⟨s2, results, ?_, ?_, hs2, hL, hS, hhas, hmono⟩
      · simp only [calls, call]; rw [DeleteRange_eq s hs]; exact hc
      · simp only [returned]; rw [DeleteRange_eq s hs]; exact hr
    | ClearContent =>
      obtain ⟨s2, results, hc, hr, hs2, hL, hS, hhas, hmono⟩ :=
        ih _ (Consistent_ClearContent s)
      exact ⟨s2, results, by simp only [calls, call, hc], by simp only [returned, hr], hs2,
        hL, hS, hhas, hmono⟩

/-- The state of a series after any sequence of calls since its creation. -/
theorem created_spec (maxLength maxSize : Nat) (history : List Call) :
    ∃ s results, calls (create maxLength maxSize) history = .ok s ∧
      returned (create maxLength maxSize) history = .ok results ∧ Consistent s ∧
      s.maxLength_ = maxLength ∧ s.maxSize_ = maxSize ∧
      (s.hasLastTimestamp_ = true ↔ true ∈ results) := by
  obtain ⟨s, results, hc, hr, hs, hL, hS, hhas, _⟩ :=
    calls_spec history (create maxLength maxSize) (Consistent_create maxLength maxSize)
  refine ⟨s, results, hc, hr, hs, hL, hS, ?_⟩
  simpa [create] using hhas

theorem created_consistent (maxLength maxSize : Nat) (history : List Call)
    (s : MemoryTimeSeriesContent) (h : calls (create maxLength maxSize) history = .ok s) :
    Consistent s ∧ s.maxLength_ = maxLength ∧ s.maxSize_ = maxSize := by
  obtain ⟨s1, _, hc, _, hs, hL, hS, _⟩ := created_spec maxLength maxSize history
  rw [hc] at h
  injection h with h
  subst h
  exact ⟨hs, hL, hS⟩

/-- The method `Read` returns the first entry of the given key. -/
theorem Read_eq_find? (s : MemoryTimeSeriesContent) (timestamp : Int) :
    Read s timestamp =
      (s.content_.find? (fun e => decide (e.1 = timestamp))).map
        (fun e => (e.2.metadata_, e.2.value_)) := by
  unfold Read Content.find
  generalize s.content_ = c
  induction c with
  | nil => rfl
  | cons e rest ih =>
    by_cases h : e.1 = timestamp
    · simp [List.findIdx_cons, List.find?_cons, h, Item.GetMetadata, Item.GetValue]
    · simp only [List.findIdx_cons, List.find?_cons, h, decide_False, cond_false,
        List.getElem?_cons_succ]
      exact ih

/-! ## The claims on the memory backend -/

/-- C1: in every state that a series created with quotas `(maxLength, maxSize)`
reaches through calls of its public methods, `Append` returns (it does not
throw), and it returns `true` if and only if (`maxSize = 0` or the value is at
most `maxSize` bytes long) and (no `Append` was accepted so far or the
timestamp is above the last timestamp); the last timestamp is absent exactly
when no `Append` was accepted so far. When `Append` returns `true`, the entry
`(timestamp, metadata, value)` is stored, `Read` gives it back, and the last
timestamp is `timestamp`. -/
theorem Append_accepts_iff (maxLength maxSize : Nat) (history : List Call)
    (s : MemoryTimeSeriesContent) (results : List Bool)
    (hstate : calls (create maxLength maxSize) history = .ok s)
    (hresults : returned (create maxLength maxSize) history = .ok results)
    (timestamp : Int) (metadata value : Bytes) :
    ∃ accepted s1, Append s timestamp metadata value = .ok (accepted, s1) ∧
      (accepted = true ↔
        (maxSize = 0 ∨ value.length ≤ maxSize) ∧
        (true ∉ results ∨ ∃ last, GetLastTimestamp s = some last ∧ last < timestamp)) ∧
      (GetLastTimestamp s = none ↔ true ∉ results) ∧
      (accepted = true →
        (timestamp, { metadata_ := metadata, value_ := value }) ∈ s1.content_ ∧
        Read s1 timestamp = some (metadata, value) ∧
        GetLastTimestamp s1 = some timestamp) := by
  obtain ⟨s0, results0, hc, hr, hs, _, hS, hhas⟩ := created_spec maxLength maxSize history
  rw [hc] at hstate
  rw [hr] at hresults
  injection hstate with hstate
  injection hresults with hresults
  subst hstate hresults
  have hnone : GetLastTimestamp s0 = none ↔ true ∉ results0 := by
    unfold GetLastTimestamp
    cases hb : s0.hasLastTimestamp_ with
    | false =>
      have : true ∉ results0 := fun h => by
        have := hhas.mpr h
        rw [hb] at this
        exact Bool.noConfusion this
      simp [this]
    | true =>
      have : true ∈ results0 := hhas.mp hb
      simp [this]
  rcases Append_total s0 hs timestamp metadata value with
    ⟨hrej, hrun⟩ | ⟨⟨hfit, hlast⟩, k, hk, hrun, _, _⟩
  · refine ⟨false, s0, hrun, ?_, hnone, fun h => Bool.noConfusion h⟩
    constructor
    · intro h; exact Bool.noConfusion h
    · rintro ⟨h1, h2⟩
      exfalso
      rcases hrej with ⟨h3, h4⟩ | ⟨h3, h4⟩
      · rw [hS] at h3 h4
        rcases h1 with h1 | h1 <;> omega
      · rcases h2 with h2 | ⟨last, h2, h5⟩
        · exact h2 (hhas.mp h3)
        · unfold GetLastTimestamp at h2
          rw [h3] at h2
          simp only [if_true, Option.some.injEq] at h2
          omega
  · refine ⟨true, _, hrun, ?_, hnone, fun _ => ⟨?_, ?_, ?_⟩⟩
    · simp only [true_iff]
      refine ⟨by rw [← hS]; exact hfit, ?_⟩
      rcases hlast with h | h
      · left
        intro hmem
        have := hhas.mpr hmem
        rw [h] at this
        exact Bool.noConfusion this
      · cases hb : s0.hasLastTimestamp_ with
        | false =>
          left
          intro hmem
          have := hhas.mpr hmem
          rw [hb] at this
          exact Bool.noConfusion this
        | true =>
          right
          exact ⟨s0.lastTimestamp_, by simp [GetLastTimestamp, hb], h⟩
    · show _ ∈ s0.content_.drop k ++ _
      simp
    · have habove : ∀ e ∈ s0.content_.drop k, e.1 < timestamp := by
        intro e he
        obtain ⟨h0, h1⟩ := hs.below_last e (List.mem_of_mem_drop he)
        rcases hlast with h | h
        · rw [h] at h0; exact Bool.noConfusion h0
        · omega
      have hfind : (s0.content_.drop k).find? (fun e => decide (e.1 = timestamp)) = none := by
        rw [List.find?_eq_none]
        intro x hx
        have := habove x hx
        simp only [decide_eq_true_eq]
        omega
      rw [Read_eq_find?]
      show Option.map _ (List.find? _ (s0.content_.drop k ++ _)) = _
      rw [List.find?_append, hfind]
      simp
    · rfl

/-- Witness of C1 on the series of the test `SizeRecycling` after its first
`Append`: the too long `"0123456789a"` is then refused at timestamp 1. -/
theorem Append_accepts_iff_witness :
    ∃ accepted s1, Append sizeRecyclingFirst 1 [] digitsAndLetter = .ok (accepted, s1) ∧
      (accepted = true ↔
        (10 = 0 ∨ digitsAndLetter.length ≤ 10) ∧
        (true ∉ [true] ∨ ∃ last, GetLastTimestamp sizeRecyclingFirst = some last ∧ last < 1)) ∧
      (GetLastTimestamp sizeRecyclingFirst = none ↔ true ∉ [true]) ∧
      (accepted = true →
        ((1 : Int), ({ metadata_ := [], value_ := digitsAndLetter } : Item)) ∈ s1.content_ ∧
        Read s1 1 = some ([], digitsAndLetter) ∧
        GetLastTimestamp s1 = some 1) :=
  Append_accepts_iff 0 10 [Call.Append 0 [] digits] sizeRecyclingFirst [true]
    (by decide) (by decide) 1 [] digitsAndLetter

/-- C2: an `Append` that is refused, because the value is longer than a
non-zero `maxSize_` or because the timestamp is not above the last timestamp,
returns `false` and leaves every field of the series as it was: the entries
(nothing is evicted), `size_` and the last timestamp. Conversely `Append`
never returns `false` with a changed state. -/
theorem Append_refused_unchanged (s : MemoryTimeSeriesContent)
    (timestamp : Int) (metadata value : Bytes)
    (hrefused : (s.maxSize_ ≠ 0 ∧ value.length > s.maxSize_) ∨
      (s.hasLastTimestamp_ = true ∧ timestamp ≤ s.lastTimestamp_)) :
    Append s timestamp metadata value = .ok (false, s) ∧
      ∀ s1, Append s timestamp metadata value = .ok (false, s1) →
        s1 = s ∧ s1.content_ = s.content_ ∧ GetStatistics s1 = GetStatistics s ∧
          GetLastTimestamp s1 = GetLastTimestamp s := by
  have hrun : Append s timestamp metadata value = .ok (false, s) := by
    unfold Append
    by_cases h1 : s.maxSize_ ≠ 0 ∧ value.length > s.maxSize_
    · rw [if_pos h1]
    · rcases hrefused with h | h
      · exact absurd h h1
      · rw [if_neg h1, if_pos h]
  refine ⟨hrun, ?_⟩
  intro s1 h
  rw [hrun] at h
  injection h with h
  injection h with _ h
  subst h
  exact ⟨rfl, rfl, rfl, rfl⟩

/-- Witness of C2: the refused `Append(1, "", "0123456789a")` of the test
`SizeRecycling`. -/
theorem Append_refused_unchanged_witness :
    Append sizeRecyclingFirst 1 [] digitsAndLetter = .ok (false, sizeRecyclingFirst) ∧
      ∀ s1, Append sizeRecyclingFirst 1 [] digitsAndLetter = .ok (false, s1) →
        s1 = sizeRecyclingFirst ∧ s1.content_ = sizeRecyclingFirst.content_ ∧
          GetStatistics s1 = GetStatistics sizeRecyclingFirst ∧
          GetLastTimestamp s1 = GetLastTimestamp sizeRecyclingFirst :=
  Append_refused_unchanged sizeRecyclingFirst 1 [] digitsAndLetter (Or.inl (by decide))

/-- C3: take a series created with any quotas, any sequence of calls `before`
and any sequence of calls `after` that follows it. Both run to their end, and a
last timestamp that is present after `before` is still present after `after`
and is not smaller. `DeleteRange` and `ClearContent` return the last timestamp
exactly as it was, whatever they remove. -/
theorem last_timestamp_persistent (maxLength maxSize : Nat) (before after : List Call) :
    ∃ s1 s2, calls (create maxLength maxSize) before = .ok s1 ∧ calls s1 after = .ok s2 ∧
      (∀ t1, GetLastTimestamp s1 = some t1 →
        ∃ t2, GetLastTimestamp s2 = some t2 ∧ t1 ≤ t2) ∧
      (∀ start stop, GetLastTimestamp (DeleteRange s1 start stop) = GetLastTimestamp s1) ∧
      GetLastTimestamp (ClearContent s1) = GetLastTimestamp s1 := by
  obtain ⟨s1, _, hc1, _, hs1, _⟩ := created_spec maxLength maxSize before
  obtain ⟨s2, _, hc2, _, _, _, _, hhas, hmono⟩ := calls_spec after s1 hs1
  refine ⟨s1, s2, hc1, hc2, ?_, ?_, rfl⟩
  · intro t1 ht1
    unfold GetLastTimestamp at ht1
    cases hb : s1.hasLastTimestamp_ with
    | false => rw [hb] at ht1; simp at ht1
    | true =>
      rw [hb] at ht1
      simp only [if_true, Option.some.injEq] at ht1
      have h2 : s2.hasLastTimestamp_ = true := hhas.mpr (Or.inl hb)
      refine ⟨s2.lastTimestamp_, by simp [GetLastTimestamp, h2], ?_⟩
      rw [← ht1]
      exact hmono hb
  · intro start stop
    rw [DeleteRange_eq s1 hs1]
    rfl

/-- C5: after every sequence of calls on a series created with quotas
`(maxLength, maxSize)`, the length reported by `GetStatistics` is at most
`maxLength` when `maxLength > 0` and the size it reports is at most `maxSize`
when `maxSize > 0`. -/
theorem quotas_respected (maxLength maxSize : Nat) (ops : List Call) :
    ∃ s, calls (create maxLength maxSize) ops = .ok s ∧
      (maxLength > 0 → (GetStatistics s).1 ≤ maxLength) ∧
      (maxSize > 0 → (GetStatistics s).2 ≤ maxSize) := by
  obtain ⟨s, _, hc, _, hs, hL, hS, _⟩ := created_spec maxLength maxSize ops
  refine ⟨s, hc, ?_, ?_⟩
  · intro h
    have := hs.length_le (by omega)
    show s.content_.length ≤ maxLength
    omega
  · intro h
    have := hs.size_le (by omega)
    show s.size_ ≤ maxSize
    omega

/-- C8 as stated fails: with quota `(0, 10)`, after `Append(0, "", "0123456789")`
(accepted) and `Append(1, "", "0123456789a")` (refused), the accepted
`Append(2, "", "56789")` does not leave the timestamps `1, 2` with size 10. -/
theorem sizeRecycling_not_as_stated :
    ¬ ∃ s1 s2 s3, Append (create 0 10) 0 [] digits = .ok (true, s1) ∧
      Append s1 1 [] digitsAndLetter = .ok (false, s2) ∧
      Append s2 2 [] highDigits = .ok (true, s3) ∧
      timestamps s3 = [1, 2] ∧ (GetStatistics s3).2 = 10 := by
  rintro ⟨s1, s2, s3, h1, h2, h3, h4, _⟩
  have e1 : Append (create 0 10) 0 [] digits = .ok (true, sizeRecyclingFirst) := by decide
  rw [e1] at h1
  injection h1 with h1
  injection h1 with _ h1
  subst h1
  have e2 : Append sizeRecyclingFirst 1 [] digitsAndLetter = .ok (false, sizeRecyclingFirst) := by
    decide
  rw [e2] at h2
  injection h2 with h2
  injection h2 with _ h2
  subst h2
  have e3 : Append sizeRecyclingFirst 2 [] highDigits =
      .ok (true, sizeRecyclingThird) := by
    decide
  rw [e3] at h3
  injection h3 with h3
  injection h3 with _ h3
  subst h3
  revert h4
  decide

/-- C8, amended: with quota `(0, 10)`, `Append(0, "", "0123456789")` returns
`true`, `Append(1, "", "0123456789a")` returns `false` and changes nothing, and
the following `Append(2, "", "56789")` returns `true`, evicts item 0 and leaves
the series holding item 2 alone, with length 1 and size 5. -/
theorem sizeRecycling_scenario :
    ∃ s1 s3, Append (create 0 10) 0 [] digits = .ok (true, s1) ∧
      Append s1 1 [] digitsAndLetter = .ok (false, s1) ∧
      Append s1 2 [] highDigits = .ok (true, s3) ∧
      timestamps s1 = [0] ∧ timestamps s3 = [2] ∧ Read s3 0 = none ∧
      Read s3 2 = some ([], highDigits) ∧ GetStatistics s3 = (1, 5) :=
  ⟨sizeRecyclingFirst, sizeRecyclingThird,
   by decide, by decide, by decide, by decide, by decide, by decide, by decide, by decide⟩

theorem find?_key_filter (c : Content) (q : Int → Bool) (timestamp : Int) :
    (c.filter (fun e => q e.1)).find? (fun e => decide (e.1 = timestamp)) =
      if q timestamp then c.find? (fun e => decide (e.1 = timestamp)) else none := by
  induction c with
  | nil => simp
  | cons e rest ih =>
    by_cases h : e.1 = timestamp
    · cases hq : q timestamp with
      | false =>
        have : q e.1 = false := by rw [h]; exact hq
        rw [List.filter_cons_of_neg (by simp [this]), ih, hq]
        simp
      | true =>
        have : q e.1 = true := by rw [h]; exact hq
        rw [List.filter_cons_of_pos (by simp [this])]
        simp [h]
    · cases hq : q e.1 with
      | false =>
        rw [List.filter_cons_of_neg (by simp [hq]), ih]
        simp [h]
      | true =>
        rw [List.filter_cons_of_pos (by simp [hq])]
        simp only [List.find?_cons, h, decide_False]
        exact ih

theorem Read_eq_none_iff (s : MemoryTimeSeriesContent) (timestamp : Int) :
    Read s timestamp = none ↔ timestamp ∉ timestamps s := by
  rw [Read_eq_find?, Option.map_eq_none', List.find?_eq_none]
  unfold timestamps
  constructor
  · intro h hmem
    rw [List.mem_map] at hmem
    obtain ⟨e, he, hkey⟩ := hmem
    exact h e he (by simpa using hkey)
  · intro h e he hkey
    exact h (List.mem_map.mpr ⟨e, he, by simpa using hkey⟩)

/-- C7: in every state that a series reaches, `DeleteRange(start, stop)` keeps,
in their order and with their metadata and value, exactly the entries whose
timestamp is not in `[start, stop)`: `Read` fails afterwards on the timestamps
of that range and returns what it returned before on all the others, and
`GetStatistics` reports the number of the remaining entries and the bytes of
their values. When `start ≥ stop` the state is unchanged. -/
theorem DeleteRange_spec (maxLength maxSize : Nat) (history : List Call)
    (s : MemoryTimeSeriesContent)
    (hstate : calls (create maxLength maxSize) history = .ok s) (start stop : Int) :
    (DeleteRange s start stop).content_ =
        s.content_.filter (fun e => !decide (start ≤ e.1 ∧ e.1 < stop)) ∧
      (∀ t, Read (DeleteRange s start stop) t =
        if start ≤ t ∧ t < stop then none else Read s t) ∧
      GetStatistics (DeleteRange s start stop) =
        ((s.content_.filter (fun e => !decide (start ≤ e.1 ∧ e.1 < stop))).length,
         totalSize (s.content_.filter (fun e => !decide (start ≤ e.1 ∧ e.1 < stop)))) ∧
      (start ≥ stop → DeleteRange s start stop = s ∧
        GetStatistics (DeleteRange s start stop) = GetStatistics s) := by
  obtain ⟨hs, _, _⟩ := created_consistent maxLength maxSize history s hstate
  refine ⟨by rw [DeleteRange_eq s hs], ?_, by rw [DeleteRange_eq s hs]; rfl, ?_⟩
  · intro t
    rw [Read_eq_find?, Read_eq_find?, DeleteRange_eq s hs]
    have hf := find?_key_filter s.content_ (fun k => !decide (start ≤ k ∧ k < stop)) t
    beta_reduce at hf
    show Option.map _ (List.find? _ (s.content_.filter _)) = _
    rw [hf]
    by_cases h : start ≤ t ∧ t < stop
    · simp [h]
    · simp [h]
  · intro h
    have : DeleteRange s start stop = s := by unfold DeleteRange; rw [if_pos h]
    rw [this]
    exact ⟨rfl, rfl⟩

/-- Witness of C7: `DeleteRange(0, 1)` on the series of the test `SizeRecycling`
after its first `Append`. -/
theorem DeleteRange_spec_witness :
    (DeleteRange sizeRecyclingFirst 0 1).content_ =
        sizeRecyclingFirst.content_.filter (fun e => !decide ((0 : Int) ≤ e.1 ∧ e.1 < 1)) ∧
      (∀ t, Read (DeleteRange sizeRecyclingFirst 0 1) t =
        if (0 : Int) ≤ t ∧ t < 1 then none else Read sizeRecyclingFirst t) ∧
      GetStatistics (DeleteRange sizeRecyclingFirst 0 1) =
        ((sizeRecyclingFirst.content_.filter
            (fun e => !decide ((0 : Int) ≤ e.1 ∧ e.1 < 1))).length,
         totalSize (sizeRecyclingFirst.content_.filter
            (fun e => !decide ((0 : Int) ≤ e.1 ∧ e.1 < 1)))) ∧
      ((0 : Int) ≥ 1 → DeleteRange sizeRecyclingFirst 0 1 = sizeRecyclingFirst ∧
        GetStatistics (DeleteRange sizeRecyclingFirst 0 1) = GetStatistics sizeRecyclingFirst) :=
  DeleteRange_spec 0 10 [Call.Append 0 [] digits] sizeRecyclingFirst (by decide) 0 1

/-- Once the last timestamp has reached `timestamp`, no later call changes what
is stored under `timestamp`: it can only be removed. -/
theorem calls_keep_entry (timestamp : Int) (item : Item) (ops : List Call) :
    ∀ s : MemoryTimeSeriesContent, Consistent s → s.hasLastTimestamp_ = true →
      timestamp ≤ s.lastTimestamp_ → (∀ e ∈ s.content_, e.1 = timestamp → e.2 = item) →
      ∃ s1, calls s ops = .ok s1 ∧ Consistent s1 ∧
        (∀ e ∈ s1.content_, e.1 = timestamp → e.2 = item) := by
  induction ops with
  | nil => intro s hs _ _ hitem; exact ⟨s, rfl, hs, hitem⟩
  | cons op rest ih =>
    intro s hs hhas hle hitem
    cases op with
    | Append t m v =>
      rcases Append_total s hs t m v with ⟨_, hrun⟩ | ⟨⟨_, hlast⟩, k, hk, hrun, hl, hz⟩
      · obtain ⟨s2, hc, hs2, hitem2⟩ := ih s hs hhas hle hitem
        exact ⟨s2, by simp only [calls, call, hrun, hc], hs2, hitem2⟩
      · obtain ⟨a, s1, hrun1, hs1⟩ := Consistent_Append s hs t m v
        rw [hrun] at hrun1
        injection hrun1 with hrun1
        injection hrun1 with _ hs1eq
        subst hs1eq
        have hlt : s.lastTimestamp_ < t := by
          rcases hlast with h | h
          · rw [h] at hhas; exact Bool.noConfusion hhas
          · exact h
        obtain ⟨s2, hc, hs2, hitem2⟩ := ih _ hs1 rfl (show timestamp ≤ t by omega) (by
          intro e he hkey
          have he : e ∈ s.content_.drop k ++ [(t, { metadata_ := m, value_ := v })] := he
          rw [List.mem_append, List.mem_singleton] at he
          rcases he with he | he
          · exact hitem e (List.mem_of_mem_drop he) hkey
          · rw [he] at hkey
            have : t = timestamp := hkey
            omega)
        exact ⟨s2, by simp only [calls, call, hrun, hc], hs2, hitem2⟩
    | DeleteRange start stop =>
      have hs1 := Consistent_DeleteRange s hs start stop
      have heq := DeleteRange_eq s hs start stop
      obtain ⟨s2, hc, hs2, hitem2⟩ := ih (DeleteRange s start stop) hs1
        (by rw [heq]; exact hhas) (by rw [heq]; exact hle) (by
          rw [heq]
          intro e he hkey
          exact hitem e (List.mem_of_mem_filter he) hkey)
      exact ⟨s2, by simp only [calls, call, hc], hs2, hitem2⟩
    | ClearContent =>
      obtain ⟨s2, hc, hs2, hitem2⟩ := ih (ClearContent s) (Consistent_ClearContent s)
        hhas hle (by intro e he; simp [ClearContent] at he)
      exact ⟨s2, by simp only [calls, call, hc], hs2, hitem2⟩

/-- C10: in every state that a series reaches, after an accepted
`Append(timestamp, metadata, value)` and any sequence of later calls, `Read` at
`timestamp` returns `(metadata, value)` as long as `timestamp` is still stored,
and `Read` fails exactly on the timestamps that are not stored. -/
theorem Read_returns_appended (maxLength maxSize : Nat) (history : List Call)
    (s : MemoryTimeSeriesContent)
    (hstate : calls (create maxLength maxSize) history = .ok s)
    (timestamp : Int) (metadata value : Bytes) (s1 : MemoryTimeSeriesContent)
    (haccepted : Append s timestamp metadata value = .ok (true, s1)) (later : List Call) :
    ∃ s2, calls s1 later = .ok s2 ∧
      (timestamp ∈ timestamps s2 → Read s2 timestamp = some (metadata, value)) ∧
      (∀ t, Read s2 t = none ↔ t ∉ timestamps s2) := by
  obtain ⟨hs, _, _⟩ := created_consistent maxLength maxSize history s hstate
  rcases Append_total s hs timestamp metadata value with ⟨_, hrun⟩ | ⟨⟨_, hlast⟩, k, hk, hrun, _, _⟩
  · rw [hrun] at haccepted
    injection haccepted with h
    injection h with h _
    exact Bool.noConfusion h
  · obtain ⟨a, s1', hrun1, hs1⟩ := Consistent_Append s hs timestamp metadata value
    rw [haccepted] at hrun hrun1
    injection hrun1 with hrun1
    injection hrun1 with _ hs1eq
    subst hs1eq
    injection hrun with hrun
    injection hrun with _ hs1eq
    have habove : ∀ e ∈ s.content_, e.1 < timestamp := by
      intro e he
      obtain ⟨h0, h1⟩ := hs.below_last e he
      rcases hlast with h | h
      · rw [h] at h0; exact Bool.noConfusion h0
      · omega
    obtain ⟨s2, hc, hs2, hitem⟩ := calls_keep_entry timestamp
      { metadata_ := metadata, value_ := value } later s1 hs1
      (by rw [hs1eq]) (by rw [hs1eq]) (by
        rw [hs1eq]
        intro e he hkey
        have he : e ∈ s.content_.drop k ++
            [(timestamp, { metadata_ := metadata, value_ := value })] := he
        rw [List.mem_append, List.mem_singleton] at he
        rcases he with he | he
        · have := habove e (List.mem_of_mem_drop he)
          omega
        · rw [he])
    refine ⟨s2, hc, ?_, fun t => Read_eq_none_iff s2 t⟩
    intro hmem
    rw [Read_eq_find?]
    cases hfind : s2.content_.find? (fun e => decide (e.1 = timestamp)) with
    | none =>
      exfalso
      have hnone : Read s2 timestamp = none := by rw [Read_eq_find?, hfind]; rfl
      exact (Read_eq_none_iff s2 timestamp).mp hnone hmem
    | some e =>
      have hkey : e.1 = timestamp := by simpa using List.find?_some hfind
      have := hitem e (List.mem_of_find?_eq_some hfind) hkey
      simp only [Option.map_some', this]

/-- Witness of C10: on a new series with quota `(0, 10)`, `"0123456789"` is
appended at timestamp 0 and `"01234"` at timestamp 1 afterwards. -/
theorem Read_returns_appended_witness :
    ∃ s2, calls sizeRecyclingFirst [Call.Append 1 [] lowDigits] = .ok s2 ∧
      ((0 : Int) ∈ timestamps s2 → Read s2 0 = some ([], digits)) ∧
      (∀ t, Read s2 t = none ↔ t ∉ timestamps s2) :=
  Read_returns_appended 0 10 [] (create 0 10) (by decide) 0 [] digits sizeRecyclingFirst
    (by decide) [Call.Append 1 [] lowDigits]

theorem getElem_findIdx_eq_find (content : Content) (p : Int × Item → Bool) :
    content[content.findIdx p]? = content.find? p := by
  induction content with
  | nil => rfl
  | cons e rest ih =>
    cases h : p e with
    | true => simp [List.findIdx_cons, List.find?_cons, h]
    | false =>
      simp only [List.findIdx_cons, List.find?_cons, h, cond_false, List.getElem?_cons_succ]
      exact ih

/-- In a map in key order, the first entry whose key passes a test has the
least key among those that pass it. -/
theorem find?_sorted_least (c : Content) (p : Int → Bool)
    (hsorted : c.Pairwise (fun a b => a.1 < b.1)) (e : Int × Item)
    (h : c.find? (fun x => p x.1) = some e) :
    e ∈ c ∧ p e.1 = true ∧ ∀ x ∈ c, p x.1 = true → e.1 ≤ x.1 := by
  have hp : (fun x : Int × Item => p x.1) e = true :=
    @List.find?_some _ (fun x : Int × Item => p x.1) e c h
  refine ⟨List.mem_of_find?_eq_some h, hp, ?_⟩
  rw [List.find?_eq_some] at h
  obtain ⟨_, front, back, hsplit, hfront⟩ := h
  intro x hx hpx
  rw [hsplit, List.mem_append, List.mem_cons] at hx
  rw [hsplit, List.pairwise_append, List.pairwise_cons] at hsorted
  rcases hx with hx | hx | hx
  · have := hfront x hx
    rw [hpx] at this
    exact Bool.noConfusion this
  · rw [hx]
  · exact le_of_lt (hsorted.2.1.1 x hx)

/-- In a map in key order, the last entry has the greatest key. -/
theorem getLast?_sorted_greatest (c : Content)
    (hsorted : c.Pairwise (fun a b => a.1 < b.1)) (e : Int × Item)
    (h : c.getLast? = some e) : e ∈ c ∧ ∀ x ∈ c, x.1 ≤ e.1 := by
  refine ⟨List.mem_of_getLast?_eq_some h, ?_⟩
  rw [List.getLast?_eq_some_iff] at h
  obtain ⟨front, hsplit⟩ := h
  intro x hx
  rw [hsplit, List.mem_append, List.mem_singleton] at hx
  rw [hsplit, List.pairwise_append] at hsorted
  rcases hx with hx | hx
  · exact le_of_lt (hsorted.2.2 x hx e (List.mem_singleton.mpr rfl))
  · rw [hx]

theorem SeekNearest_eq (s : MemoryTimeSeriesContent) (timestamp : Int) :
    SeekNearest s timestamp =
      (s.content_.find? (fun e => decide (timestamp ≤ e.1))).map Prod.fst := by
  unfold SeekNearest Content.lower_bound
  rw [getElem_findIdx_eq_find]
  cases s.content_.find? (fun e => decide (timestamp ≤ e.1)) <;> rfl

theorem SeekNext_eq (s : MemoryTimeSeriesContent) (timestamp : Int) :
    SeekNext s timestamp =
      (s.content_.find? (fun e => decide (timestamp < e.1))).map Prod.fst := by
  unfold SeekNext Content.upper_bound
  rw [getElem_findIdx_eq_find]
  cases s.content_.find? (fun e => decide (timestamp < e.1)) <;> rfl

theorem SeekPrevious_eq (s : MemoryTimeSeriesContent) (hs : Consistent s) (timestamp : Int) :
    SeekPrevious s timestamp =
      ((s.content_.filter (fun e => decide (e.1 < timestamp))).getLast?).map Prod.fst := by
  rw [← take_lower_bound s.content_ timestamp hs.sorted, List.getLast?_take]
  unfold SeekPrevious
  by_cases hempty : s.content_ = []
  · simp [hempty, Content.lower_bound]
  · have h1 : s.content_.isEmpty = false := by
      cases hc : s.content_ with
      | nil => exact absurd hc hempty
      | cons _ _ => rfl
    rw [h1]
    simp only [Bool.false_eq_true, if_false]
    by_cases hzero : s.content_.lower_bound timestamp = 0
    · simp [hzero]
    · have hlt : s.content_.lower_bound timestamp - 1 < s.content_.length := by
        have := lower_bound_le_length s.content_ timestamp
        omega
      rw [if_neg hzero, if_neg hzero]
      have hget : s.content_[s.content_.lower_bound timestamp - 1]? =
          some (s.content_[s.content_.lower_bound timestamp - 1]) :=
        List.getElem?_eq_getElem hlt
      rw [hget]
      rfl

theorem option_least_iff (o : Option Int) (keys : List Int) (P : Int → Prop)
    (hsome : ∀ r, o = some r → r ∈ keys ∧ P r ∧ ∀ t ∈ keys, P t → r ≤ t)
    (hnone : o = none → ∀ t ∈ keys, ¬ P t) :
    (∀ r, o = some r ↔ r ∈ keys ∧ P r ∧ ∀ t ∈ keys, P t → r ≤ t) ∧
      (o = none ↔ ∀ t ∈ keys, ¬ P t) := by
  cases o with
  | none =>
    refine ⟨fun r => ⟨fun h => Option.noConfusion h, ?_⟩, ⟨hnone, fun _ => rfl⟩⟩
    rintro ⟨h1, h2, _⟩
    exact absurd h2 (hnone rfl r h1)
  | some r0 =>
    obtain ⟨h1, h2, h3⟩ := hsome r0 rfl
    refine ⟨fun r => ⟨hsome r, ?_⟩, ⟨fun h => Option.noConfusion h, fun h => absurd h2 (h r0 h1)⟩⟩
    rintro ⟨g1, g2, g3⟩
    have := h3 r g1 g2
    have := g3 r0 h1 h2
    have : r0 = r := by omega
    rw [this]

theorem option_greatest_iff (o : Option Int) (keys : List Int) (P : Int → Prop)
    (hsome : ∀ r, o = some r → r ∈ keys ∧ P r ∧ ∀ t ∈ keys, P t → t ≤ r)
    (hnone : o = none → ∀ t ∈ keys, ¬ P t) :
    (∀ r, o = some r ↔ r ∈ keys ∧ P r ∧ ∀ t ∈ keys, P t → t ≤ r) ∧
      (o = none ↔ ∀ t ∈ keys, ¬ P t) := by
  cases o with
  | none =>
    refine ⟨fun r => ⟨fun h => Option.noConfusion h, ?_⟩, ⟨hnone, fun _ => rfl⟩⟩
    rintro ⟨h1, h2, _⟩
    exact absurd h2 (hnone rfl r h1)
  | some r0 =>
    obtain ⟨h1, h2, h3⟩ := hsome r0 rfl
    refine ⟨fun r => ⟨hsome r, ?_⟩, ⟨fun h => Option.noConfusion h, fun h => absurd h2 (h r0 h1)⟩⟩
    rintro ⟨g1, g2, g3⟩
    have := h3 r g1 g2
    have := g3 r0 h1 h2
    have : r0 = r := by omega
    rw [this]

theorem mem_timestamps (s : MemoryTimeSeriesContent) (t : Int) :
    t ∈ timestamps s ↔ ∃ e ∈ s.content_, e.1 = t := by
  unfold timestamps
  rw [List.mem_map]

/-- The first entry that passes a test on its key, in a consistent state. -/
theorem find?_key_spec (s : MemoryTimeSeriesContent) (hs : Consistent s) (p : Int → Bool) :
    (∀ r, (s.content_.find? (fun e => p e.1)).map Prod.fst = some r →
      r ∈ timestamps s ∧ p r = true ∧ ∀ t ∈ timestamps s, p t = true → r ≤ t) ∧
    ((s.content_.find? (fun e => p e.1)).map Prod.fst = none →
      ∀ t ∈ timestamps s, ¬ p t = true) := by
  constructor
  · intro r hr
    rw [Option.map_eq_some'] at hr
    obtain ⟨e, hfind, hkey⟩ := hr
    obtain ⟨h1, h2, h3⟩ := find?_sorted_least s.content_ p hs.sorted e hfind
    subst hkey
    refine ⟨(mem_timestamps s _).mpr ⟨e, h1, rfl⟩, h2, ?_⟩
    intro t ht hpt
    obtain ⟨x, hx, hxt⟩ := (mem_timestamps s t).mp ht
    subst hxt
    exact h3 x hx hpt
  · intro hnone t ht hpt
    rw [Option.map_eq_none', List.find?_eq_none] at hnone
    obtain ⟨x, hx, hxt⟩ := (mem_timestamps s t).mp ht
    subst hxt
    exact hnone x hx hpt

/-- The last entry among those that pass a test on their key, in a consistent state. -/
theorem getLast?_key_spec (s : MemoryTimeSeriesContent) (hs : Consistent s) (p : Int → Bool) :
    (∀ r, ((s.content_.filter (fun e => p e.1)).getLast?).map Prod.fst = some r →
      r ∈ timestamps s ∧ p r = true ∧ ∀ t ∈ timestamps s, p t = true → t ≤ r) ∧
    (((s.content_.filter (fun e => p e.1)).getLast?).map Prod.fst = none →
      ∀ t ∈ timestamps s, ¬ p t = true) := by
  have hsorted : (s.content_.filter (fun e => p e.1)).Pairwise (fun a b => a.1 < b.1) :=
    hs.sorted.sublist (List.filter_sublist _)
  constructor
  · intro r hr
    rw [Option.map_eq_some'] at hr
    obtain ⟨e, hlast, hkey⟩ := hr
    obtain ⟨h1, h2⟩ := getLast?_sorted_greatest _ hsorted e hlast
    rw [List.mem_filter] at h1
    subst hkey
    refine ⟨(mem_timestamps s _).mpr ⟨e, h1.1, rfl⟩, h1.2, ?_⟩
    intro t ht hpt
    obtain ⟨x, hx, hxt⟩ := (mem_timestamps s t).mp ht
    subst hxt
    exact h2 x (List.mem_filter.mpr ⟨hx, hpt⟩)
  · intro hnone t ht hpt
    rw [Option.map_eq_none', List.getLast?_eq_none_iff] at hnone
    obtain ⟨x, hx, hxt⟩ := (mem_timestamps s t).mp ht
    subst hxt
    have : x ∈ s.content_.filter (fun e => p e.1) := List.mem_filter.mpr ⟨hx, hpt⟩
    rw [hnone] at this
    exact absurd this (List.not_mem_nil _)

theorem SeekFirst_eq (s : MemoryTimeSeriesContent) :
    SeekFirst s = (s.content_.find? (fun e => (fun _ => true) e.1)).map Prod.fst := by
  unfold SeekFirst
  cases s.content_ <;> rfl

theorem SeekLast_eq (s : MemoryTimeSeriesContent) :
    SeekLast s = ((s.content_.filter (fun e => (fun _ => true) e.1)).getLast?).map Prod.fst := by
  unfold SeekLast
  rw [List.filter_true]
  cases s.content_.getLast? <;> rfl

/-- C9: in every state that a series reaches, `SeekNearest(timestamp)` returns
the smallest stored timestamp `≥ timestamp`, `SeekNext(timestamp)` the smallest
stored timestamp `> timestamp`, `SeekPrevious(timestamp)` the largest stored
timestamp `< timestamp`, `SeekFirst` the smallest and `SeekLast` the largest
stored timestamp; each of them fails exactly when there is no such stored
timestamp. -/
theorem seek_spec (maxLength maxSize : Nat) (history : List Call)
    (s : MemoryTimeSeriesContent)
    (hstate : calls (create maxLength maxSize) history = .ok s) (timestamp : Int) :
    ((∀ r, SeekNearest s timestamp = some r ↔
        r ∈ timestamps s ∧ timestamp ≤ r ∧ ∀ t ∈ timestamps s, timestamp ≤ t → r ≤ t) ∧
      (SeekNearest s timestamp = none ↔ ∀ t ∈ timestamps s, ¬ timestamp ≤ t)) ∧
    ((∀ r, SeekNext s timestamp = some r ↔
        r ∈ timestamps s ∧ timestamp < r ∧ ∀ t ∈ timestamps s, timestamp < t → r ≤ t) ∧
      (SeekNext s timestamp = none ↔ ∀ t ∈ timestamps s, ¬ timestamp < t)) ∧
    ((∀ r, SeekPrevious s timestamp = some r ↔
        r ∈ timestamps s ∧ r < timestamp ∧ ∀ t ∈ timestamps s, t < timestamp → t ≤ r) ∧
      (SeekPrevious s timestamp = none ↔ ∀ t ∈ timestamps s, ¬ t < timestamp)) ∧
    ((∀ r, SeekFirst s = some r ↔ r ∈ timestamps s ∧ ∀ t ∈ timestamps s, r ≤ t) ∧
      (SeekFirst s = none ↔ timestamps s = [])) ∧
    ((∀ r, SeekLast s = some r ↔ r ∈ timestamps s ∧ ∀ t ∈ timestamps s, t ≤ r) ∧
      (SeekLast s = none ↔ timestamps s = [])) := by
  obtain ⟨hs, _, _⟩ := created_consistent maxLength maxSize history s hstate
  have hnearest := find?_key_spec s hs (fun k => decide (timestamp ≤ k))
  have hnext := find?_key_spec s hs (fun k => decide (timestamp < k))
  have hprevious := getLast?_key_spec s hs (fun k => decide (k < timestamp))
  have hfirst := find?_key_spec s hs (fun _ => true)
  have hlast := getLast?_key_spec s hs (fun _ => true)
  rw [← SeekNearest_eq] at hnearest
  rw [← SeekNext_eq] at hnext
  rw [← SeekPrevious_eq s hs] at hprevious
  rw [← SeekFirst_eq] at hfirst
  rw [← SeekLast_eq] at hlast
  simp only [decide_eq_true_eq] at hnearest hnext hprevious
  have hempty : (∀ t ∈ timestamps s, ¬ True) ↔ timestamps s = [] := by
    constructor
    · intro h
      cases hk : timestamps s with
      | nil => rfl
      | cons t rest => exact absurd trivial (h t (by rw [hk]; exact List.mem_cons_self _ _))
    · intro h t ht
      rw [h] at ht
      exact absurd ht (List.not_mem_nil _)
  refine ⟨option_least_iff _ _ _ hnearest.1 hnearest.2, option_least_iff _ _ _ hnext.1 hnext.2,
    option_greatest_iff _ _ _ hprevious.1 hprevious.2, ?_, ?_⟩
  · have := option_least_iff (SeekFirst s) (timestamps s) (fun _ => True)
      (fun r hr => ⟨(hfirst.1 r hr).1, trivial, fun t ht _ => (hfirst.1 r hr).2.2 t ht rfl⟩)
      (fun h t ht _ => hfirst.2 h t ht rfl)
    refine ⟨fun r => ?_, this.2.trans hempty⟩
    rw [this.1 r]
    constructor
    · rintro ⟨h1, _, h3⟩
      exact ⟨h1, fun t ht => h3 t ht trivial⟩
    · rintro ⟨h1, h3⟩
      exact ⟨h1, trivial, fun t ht _ => h3 t ht⟩
  · have := option_greatest_iff (SeekLast s) (timestamps s) (fun _ => True)
      (fun r hr => ⟨(hlast.1 r hr).1, trivial, fun t ht _ => (hlast.1 r hr).2.2 t ht rfl⟩)
      (fun h t ht _ => hlast.2 h t ht rfl)
    refine ⟨fun r => ?_, this.2.trans hempty⟩
    rw [this.1 r]
    constructor
    · rintro ⟨h1, _, h3⟩
      exact ⟨h1, fun t ht => h3 t ht trivial⟩
    · rintro ⟨h1, h3⟩
      exact ⟨h1, trivial, fun t ht _ => h3 t ht⟩

theorem find?_key_at (front back : Content) (e : Int × Item)
    (hsorted : (front ++ e :: back).Pairwise (fun a b => a.1 < b.1)) :
    (front ++ e :: back).find? (fun x => decide (x.1 = e.1)) = some e := by
  rw [List.pairwise_append] at hsorted
  have hfront : front.find? (fun x => decide (x.1 = e.1)) = none := by
    rw [List.find?_eq_none]
    intro x hx
    have := hsorted.2.2 x hx e (List.mem_cons_self _ _)
    simp only [decide_eq_true_eq]
    omega
  rw [List.find?_append, hfront]
  simp

theorem find?_key_after (front back : Content) (e : Int × Item)
    (hsorted : (front ++ e :: back).Pairwise (fun a b => a.1 < b.1)) :
    (front ++ e :: back).find? (fun x => decide (e.1 < x.1)) = back.head? := by
  rw [List.pairwise_append, List.pairwise_cons] at hsorted
  have hfront : front.find? (fun x => decide (e.1 < x.1)) = none := by
    rw [List.find?_eq_none]
    intro x hx
    have := hsorted.2.2 x hx e (List.mem_cons_self _ _)
    simp only [decide_eq_true_eq]
    omega
  rw [List.find?_append, hfront]
  cases back with
  | nil => simp
  | cons b rest =>
    have := hsorted.2.1.1 b (List.mem_cons_self _ _)
    simp [List.find?_cons, this]

/-- The loop of the full scan, started at an entry of a series in key order,
counts that entry and all the entries after it. -/
theorem scanLoop_spec (s : MemoryTimeSeriesContent) (hs : Consistent s) :
    ∀ (back front : Content) (e : Int × Item) (steps l2 s2 : Nat),
      s.content_ = front ++ e :: back → back.length < steps →
      scanLoop s steps e.1 l2 s2 =
        some (l2 + (e :: back).length, s2 + totalSize (e :: back)) := by
  intro back
  induction back with
  | nil =>
    intro front e steps l2 s2 hsplit hsteps
    have hsorted := hs.sorted
    rw [hsplit] at hsorted
    have hread : Read s e.1 = some (e.2.metadata_, e.2.value_) := by
      rw [Read_eq_find?, hsplit, find?_key_at front [] e hsorted]; rfl
    have hnext : SeekNext s e.1 = none := by
      rw [SeekNext_eq, hsplit, find?_key_after front [] e hsorted]; rfl
    cases steps with
    | zero => omega
    | succ steps =>
      simp only [scanLoop, hread, hnext, totalSize, List.length_cons, List.length_nil,
        Item.GetValue, Nat.add_zero]
  | cons b rest ih =>
    intro front e steps l2 s2 hsplit hsteps
    have hsorted := hs.sorted
    rw [hsplit] at hsorted
    have hread : Read s e.1 = some (e.2.metadata_, e.2.value_) := by
      rw [Read_eq_find?, hsplit, find?_key_at front (b :: rest) e hsorted]; rfl
    have hnext : SeekNext s e.1 = some b.1 := by
      rw [SeekNext_eq, hsplit, find?_key_after front (b :: rest) e hsorted]; rfl
    cases steps with
    | zero => omega
    | succ steps =>
      have hsplit2 : s.content_ = (front ++ [e]) ++ b :: rest := by
        rw [hsplit]; simp
      have := ih (front ++ [e]) b steps (l2 + 1) (s2 + e.2.value_.length) hsplit2
        (by simp only [List.length_cons] at hsteps; omega)
      simp only [scanLoop, hread, hnext, this, totalSize, List.length_cons, Item.GetValue]
      congr 2 <;> omega

theorem fullScan_spec (s : MemoryTimeSeriesContent) (hs : Consistent s) (steps : Nat)
    (hsteps : s.content_.length ≤ steps) :
    fullScan s steps = some (s.content_.length, totalSize s.content_) := by
  unfold fullScan SeekFirst
  cases hc : s.content_ with
  | nil => rfl
  | cons e back =>
    rw [hc] at hsteps
    have := scanLoop_spec s hs back [] e steps 0 0 (by rw [hc]; rfl)
      (by simp only [List.length_cons] at hsteps; omega)
    simp only [this, Nat.zero_add]

/-- C4: after every sequence of calls on a new series, `GetStatistics` returns
the number of stored entries as the length and the sum of the byte lengths of
their values as the size; these are the figures that a full scan of the series
with `SeekFirst`, `Read` and `SeekNext` counts, and the scan ends within as
many turns as there are entries (any bound from that number on gives them). -/
theorem statistics_exact (maxLength maxSize : Nat) (ops : List Call) :
    ∃ s, calls (create maxLength maxSize) ops = .ok s ∧
      GetStatistics s = (s.content_.length, totalSize s.content_) ∧
      ∀ spare, fullScan s (s.content_.length + spare) = some (GetStatistics s) := by
  obtain ⟨s, _, hc, _, hs, _⟩ := created_spec maxLength maxSize ops
  have hstat : GetStatistics s = (s.content_.length, totalSize s.content_) := by
    unfold GetStatistics
    rw [hs.size_eq]
  refine ⟨s, hc, hstat, ?_⟩
  intro spare
  rw [hstat]
  exact fullScan_spec s hs _ (Nat.le_add_right _ _)

/-- With a length quota `maxLength > 0` and no size quota, a sequence of
`Append` calls leaves the last `maxLength` entries of what was stored before
followed by what was accepted since. -/
theorem appends_keep_last (maxLength : Nat) (hpos : 0 < maxLength)
    (items : List (Int × Bytes × Bytes)) :
    ∀ s : MemoryTimeSeriesContent, Consistent s → s.maxLength_ = maxLength → s.maxSize_ = 0 →
      ∃ log s2, appends s items = .ok (log, s2) ∧
        s2.content_ = (s.content_ ++ log).drop ((s.content_ ++ log).length - maxLength) := by
  induction items with
  | nil =>
    intro s hs hL _
    refine ⟨[], s, rfl, ?_⟩
    have := hs.length_le (by omega)
    have hzero : (s.content_ ++ []).length - maxLength = 0 := by
      rw [List.append_nil]; omega
    rw [hzero, List.drop_zero, List.append_nil]
  | cons item rest ih =>
    intro s hs hL hS
    obtain ⟨t, m, v⟩ := item
    rcases Append_total s hs t m v with ⟨_, hrun⟩ | ⟨⟨hfit, hlast⟩, _⟩
    · obtain ⟨log, s2, hrest, hcontent⟩ := ih s hs hL hS
      exact ⟨log, s2, by simp only [appends, hrun, hrest, Bool.false_eq_true, if_false],
        hcontent⟩
    · obtain ⟨k, hk, hrun, _, _, hleast⟩ := Append_accepted s hs t m v hfit hlast
      obtain ⟨a, s1, hrun1, hs1⟩ := Consistent_Append s hs t m v
      rw [hrun] at hrun1
      injection hrun1 with hrun1
      injection hrun1 with _ hs1eq
      subst hs1eq
      obtain ⟨log, s2, hrest, hcontent⟩ := ih _ hs1 hL hS
      refine ⟨(t, { metadata_ := m, value_ := v }) :: log, s2,
        by simp only [appends, hrun, hrest, if_true], ?_⟩
      rw [hcontent]
      show ((s.content_.drop k ++ [(t, ({ metadata_ := m, value_ := v } : Item))]) ++ log).drop _
        = _
      have hk2 : k ≤ s.content_.length + 1 - maxLength := by
        cases k with
        | zero => omega
        | succ j =>
          have := hleast j (Nat.lt_succ_self j)
          by_contra hc
          apply this
          refine ⟨fun _ => ?_, fun h => absurd hS h⟩
          rw [hL]
          omega
      have hsplit : (s.content_.drop k ++ [(t, ({ metadata_ := m, value_ := v } : Item))]) ++ log =
          (s.content_ ++ (t, ({ metadata_ := m, value_ := v } : Item)) :: log).drop k := by
        rw [List.drop_append_of_le_length hk]
        simp
      rw [hsplit, List.drop_drop]
      congr 1
      simp only [List.length_drop, List.length_append, List.length_cons]
      omega

/-- C6: in every state that a series reaches, an accepted `Append` removes the
first `k` entries (those of lowest timestamps, the map being in key order),
keeps every other entry as it is and adds the new entry; `k` is the least
number of removals after which the length plus one is within `maxLength` (if
`maxLength > 0`) and the size plus the length of the value is within `maxSize`
(if `maxSize > 0`). And on a new series with a length quota `quota > 0` and no
size quota, after any sequence of `Append` calls the series holds exactly the
last `min n quota` of the `n` accepted entries. -/
theorem Append_evicts_oldest (maxLength maxSize : Nat) (history : List Call)
    (s : MemoryTimeSeriesContent)
    (hstate : calls (create maxLength maxSize) history = .ok s)
    (timestamp : Int) (metadata value : Bytes) (s1 : MemoryTimeSeriesContent)
    (haccepted : Append s timestamp metadata value = .ok (true, s1)) :
    (∃ k, k ≤ s.content_.length ∧
      s1.content_ =
        s.content_.drop k ++ [(timestamp, { metadata_ := metadata, value_ := value })] ∧
      (∀ e ∈ s.content_.take k, ∀ x ∈ s.content_.drop k, e.1 < x.1) ∧
      ((maxLength > 0 → (GetStatistics s).1 - k + 1 ≤ maxLength) ∧
        (maxSize > 0 →
          (GetStatistics s).2 - totalSize (s.content_.take k) + value.length ≤ maxSize)) ∧
      ∀ j, j < k →
        ¬ ((maxLength > 0 → (GetStatistics s).1 - j + 1 ≤ maxLength) ∧
          (maxSize > 0 →
            (GetStatistics s).2 - totalSize (s.content_.take j) + value.length ≤ maxSize))) ∧
    (∀ (quota : Nat) (items : List (Int × Bytes × Bytes)), 0 < quota →
      ∃ log s2, appends (create quota 0) items = .ok (log, s2) ∧
        s2.content_ = log.drop (log.length - min log.length quota)) := by
  obtain ⟨hs, hL, hS⟩ := created_consistent maxLength maxSize history s hstate
  constructor
  · rcases Append_total s hs timestamp metadata value with ⟨_, hrun⟩ | ⟨⟨hfit, hlast⟩, _⟩
    · rw [hrun] at haccepted
      injection haccepted with h
      injection h with h _
      exact Bool.noConfusion h
    · obtain ⟨k, hk, hrun, hl, hz, hleast⟩ :=
        Append_accepted s hs timestamp metadata value hfit hlast
      rw [haccepted] at hrun
      injection hrun with hrun
      injection hrun with _ hs1eq
      have hsize : ∀ j, (GetStatistics s).2 - totalSize (s.content_.take j) =
          totalSize (s.content_.drop j) := fun j => size_after_removals s hs.size_eq j
      refine ⟨k, hk, by rw [hs1eq], ?_, ⟨?_, ?_⟩, ?_⟩
      · have hsorted := hs.sorted
        rw [← List.take_append_drop k s.content_, List.pairwise_append] at hsorted
        exact hsorted.2.2
      · intro h
        rw [← hL]
        exact hl (by omega)
      · intro h
        rw [hsize, ← hS]
        exact hz (by omega)
      · intro j hj hboth
        apply hleast j hj
        refine ⟨fun h => ?_, fun h => ?_⟩
        · rw [hL]
          exact hboth.1 (by omega)
        · have := hboth.2 (by omega)
          rw [hsize] at this
          rw [hS]
          exact this
  · intro quota items hpos
    obtain ⟨log, s2, hrun, hcontent⟩ := appends_keep_last quota hpos items
      (create quota 0) (Consistent_create quota 0) rfl rfl
    refine ⟨log, s2, hrun, ?_⟩
    rw [hcontent]
    show ([] ++ log).drop (([] ++ log).length - quota) = _
    rw [List.nil_append]
    congr 1
    omega

/-- Witness of C6: the `Append(2, "", "56789")` of the test `SizeRecycling` made
right after the first accepted `Append`, and three appends under a length
quota of 2. -/
theorem Append_evicts_oldest_witness :
    (∃ k, k ≤ sizeRecyclingFirst.content_.length ∧
      sizeRecyclingThird.content_ =
        sizeRecyclingFirst.content_.drop k ++ [(2, { metadata_ := [], value_ := highDigits })] ∧
      (∀ e ∈ sizeRecyclingFirst.content_.take k, ∀ x ∈ sizeRecyclingFirst.content_.drop k,
        e.1 < x.1) ∧
      ((0 > 0 → (GetStatistics sizeRecyclingFirst).1 - k + 1 ≤ 0) ∧
        (10 > 0 →
          (GetStatistics sizeRecyclingFirst).2 - totalSize (sizeRecyclingFirst.content_.take k) +
            highDigits.length ≤ 10)) ∧
      ∀ j, j < k →
        ¬ ((0 > 0 → (GetStatistics sizeRecyclingFirst).1 - j + 1 ≤ 0) ∧
          (10 > 0 →
            (GetStatistics sizeRecyclingFirst).2 -
              totalSize (sizeRecyclingFirst.content_.take j) + highDigits.length ≤ 10))) ∧
    (∃ log s2, appends (create 2 0) threeAppends = .ok (log, s2) ∧
      s2.content_ = log.drop (log.length - min log.length 2)) :=
  have h := Append_evicts_oldest 0 10 [Call.Append 0 [] digits] sizeRecyclingFirst (by decide)
    2 [] highDigits sizeRecyclingThird (by decide)
  ⟨h.1, h.2 2 threeAppends (by decide)⟩

/-- Witness of C9: the seeks around timestamp 10 in the series holding the
timestamps 0, 10 and 20. -/
theorem seek_spec_witness :
    ((∀ r, SeekNearest threeItems 10 = some r ↔
        r ∈ timestamps threeItems ∧ 10 ≤ r ∧ ∀ t ∈ timestamps threeItems, 10 ≤ t → r ≤ t) ∧
      (SeekNearest threeItems 10 = none ↔ ∀ t ∈ timestamps threeItems, ¬ 10 ≤ t)) ∧
    ((∀ r, SeekNext threeItems 10 = some r ↔
        r ∈ timestamps threeItems ∧ 10 < r ∧ ∀ t ∈ timestamps threeItems, 10 < t → r ≤ t) ∧
      (SeekNext threeItems 10 = none ↔ ∀ t ∈ timestamps threeItems, ¬ 10 < t)) ∧
    ((∀ r, SeekPrevious threeItems 10 = some r ↔
        r ∈ timestamps threeItems ∧ r < 10 ∧ ∀ t ∈ timestamps threeItems, t < 10 → t ≤ r) ∧
      (SeekPrevious threeItems 10 = none ↔ ∀ t ∈ timestamps threeItems, ¬ t < 10)) ∧
    ((∀ r, SeekFirst threeItems = some r ↔
        r ∈ timestamps threeItems ∧ ∀ t ∈ timestamps threeItems, r ≤ t) ∧
      (SeekFirst threeItems = none ↔ timestamps threeItems = [])) ∧
    ((∀ r, SeekLast threeItems = some r ↔
        r ∈ timestamps threeItems ∧ ∀ t ∈ timestamps threeItems, t ≤ r) ∧
      (SeekLast threeItems = none ↔ timestamps threeItems = [])) :=
  seek_spec 0 0 threeCalls threeItems (by decide) 10

end MemoryTimeSeriesContent

/-! ## Lemmas on writers and readers -/

namespace TimeSeriesWriter

theorem Transaction.create_transaction (series : TimeSeries) :
    (Transaction.create series).transaction_ = series.backend_ := by
  unfold Transaction.create TimeSeries.HasBackend
  cases series.backend_ <;> rfl

/-- The method `Append(message)` once the timestamp is resolved and the backend
has answered: the boolean of the backend, the series with the new state of the
backend, and a notification of the observers exactly when the boolean is `true`. -/
theorem Append_eq (series : TimeSeries) (clock : Clock) (message : Message)
    (backend backend1 : MemoryTimeSeriesBackend) (timestamp : Int) (accepted : Bool)
    (hbackend : series.backend_ = some backend)
    (hresolve : resolve (Transaction.create series) clock message = .ok timestamp)
    (happend : backend.Append timestamp message.GetMetadata message.GetValue =
      .ok (accepted, backend1)) :
    Append series clock message =
      .ok (accepted, { series with backend_ := some backend1 },
        if accepted then series.NotifyModification else []) := by
  have ht : (Transaction.create series).transaction_ = some backend := by
    rw [Transaction.create_transaction, hbackend]
  unfold Append
  simp only [hresolve, Transaction.Append, ht, happend]
  cases accepted <;> simp [Transaction.destroy, Transaction.create]

/-- The timestamp of a message of type `Sequence`. -/
theorem resolve_Sequence (series : TimeSeries) (clock : Clock) (message : Message)
    (backend : MemoryTimeSeriesBackend) (hbackend : series.backend_ = some backend)
    (htype : message.GetTimestampType = TimestampType.Sequence) :
    resolve (Transaction.create series) clock message =
      match backend.GetLastTimestamp with
      | some timestamp => .ok (toInt64 (timestamp + 1))
      | none => .ok 0 := by
  have ht : (Transaction.create series).transaction_ = some backend := by
    rw [Transaction.create_transaction, hbackend]
  unfold resolve
  simp only [htype, Transaction.GetLastTimestamp, ht]
  rfl

end TimeSeriesWriter

namespace MemoryTimeSeriesContent

/-- Without quotas an accepted `Append` evicts nothing. -/
theorem Append_no_quota (s : MemoryTimeSeriesContent) (hs : Consistent s)
    (hlength : s.maxLength_ = 0) (hsize : s.maxSize_ = 0)
    (timestamp : Int) (metadata value : Bytes)
    (hlast : s.hasLastTimestamp_ = false ∨ s.lastTimestamp_ < timestamp) :
    Append s timestamp metadata value =
      .ok (true, { s with
        content_ := s.content_ ++ [(timestamp, { metadata_ := metadata, value_ := value })],
        size_ := totalSize s.content_ + value.length,
        hasLastTimestamp_ := true,
        lastTimestamp_ := timestamp }) := by
  obtain ⟨k, _, hrun, _, _, hleast⟩ :=
    Append_accepted s hs timestamp metadata value (Or.inl hsize) hlast
  have hk : k = 0 := by
    by_contra hne
    exact hleast 0 (Nat.pos_of_ne_zero hne) ⟨fun h => absurd hlength h, fun h => absurd hsize h⟩
  subst hk
  rw [hrun, List.drop_zero]

end MemoryTimeSeriesContent

namespace TimeSeriesReader

open MemoryTimeSeriesContent in
/-- The loop of the full scan, started on an entry of a series in key order,
meets the timestamp of that entry and of all the entries after it. -/
theorem scanLoop_reader (backend : MemoryTimeSeriesBackend) (hs : Consistent backend) :
    ∀ (back front : Content) (e : Int × Item) (steps : Nat),
      backend.content_ = front ++ e :: back → back.length < steps →
      scanLoop steps { transaction_ := some backend, valid_ := true, timestamp_ := e.1 } =
        some ((e :: back).map Prod.fst) := by
  intro back
  induction back with
  | nil =>
    intro front e steps hsplit hsteps
    have hsorted := hs.sorted
    rw [hsplit] at hsorted
    have hnext : SeekNext backend e.1 = none := by
      rw [SeekNext_eq, hsplit, find?_key_after front [] e hsorted]; rfl
    cases steps with
    | zero => omega
    | succ steps =>
      simp [scanLoop, Transaction.GetTimestamp, Transaction.SeekNext, Transaction.moveTo, hnext]
  | cons b rest ih =>
    intro front e steps hsplit hsteps
    have hsorted := hs.sorted
    rw [hsplit] at hsorted
    have hnext : SeekNext backend e.1 = some b.1 := by
      rw [SeekNext_eq, hsplit, find?_key_after front (b :: rest) e hsorted]; rfl
    cases steps with
    | zero => omega
    | succ steps =>
      have hsplit2 : backend.content_ = (front ++ [e]) ++ b :: rest := by
        rw [hsplit]; simp
      have := ih (front ++ [e]) b steps hsplit2
        (by simp only [List.length_cons] at hsteps; omega)
      simp [scanLoop, Transaction.GetTimestamp, Transaction.SeekNext, Transaction.moveTo,
        hnext, this]

open MemoryTimeSeriesContent in
/-- A full scan of a series with a consistent backend meets the stored
timestamps in increasing order, within as many turns as there are entries. -/
theorem readAll_spec (series : TimeSeries) (backend : MemoryTimeSeriesBackend)
    (hbackend : series.backend_ = some backend) (hs : Consistent backend) (steps : Nat)
    (hsteps : backend.content_.length ≤ steps) :
    readAll series steps = some (timestamps backend) := by
  have ht : Transaction.create series =
      { transaction_ := some backend, valid_ := false, timestamp_ := 0 } := by
    simp [Transaction.create, TimeSeries.HasBackend, hbackend]
  unfold readAll
  rw [ht]
  unfold timestamps
  cases hc : backend.content_ with
  | nil => simp [Transaction.SeekFirst, Transaction.moveTo, MemoryTimeSeriesContent.SeekFirst, hc]
  | cons e back =>
    rw [hc] at hsteps
    have := scanLoop_reader backend hs back [] e steps (by rw [hc]; rfl)
      (by simp only [List.length_cons] at hsteps; omega)
    simp [Transaction.SeekFirst, Transaction.moveTo, MemoryTimeSeriesContent.SeekFirst, hc, this]

end TimeSeriesReader

namespace TimeSeriesWriter

open MemoryTimeSeriesContent in
/-- Messages of type `Sequence` appended to a series without quotas whose last
timestamp is `n - 1` (absent when `n = 0`): all are accepted, and they are
stored at the timestamps `n`, `n + 1`, ... after what was stored before. -/
theorem appendAll_sequence (messages : List (Clock × Message)) :
    ∀ (series : TimeSeries) (backend : MemoryTimeSeriesBackend) (n : Nat),
      series.backend_ = some backend → Consistent backend →
      backend.maxLength_ = 0 → backend.maxSize_ = 0 →
      backend.GetLastTimestamp = (if n = 0 then none else some ((n : Int) - 1)) →
      (∀ cm ∈ messages, cm.2.GetTimestampType = TimestampType.Sequence) →
      n + messages.length ≤ 2 ^ 63 →
      ∃ backend1, appendAll series messages =
          .ok (List.replicate messages.length true, { series with backend_ := some backend1 }) ∧
        Consistent backend1 ∧ backend1.maxLength_ = 0 ∧ backend1.maxSize_ = 0 ∧
        backend1.GetLastTimestamp =
          (if n + messages.length = 0 then none
           else some (((n + messages.length : Nat) : Int) - 1)) ∧
        timestamps backend1 =
          timestamps backend ++ (List.range' n messages.length).map Int.ofNat := by
  induction messages with
  | nil =>
    intro series backend n hbackend hs hL hS hlast _ _
    refine ⟨backend, ?_, hs, hL, hS, by simpa using hlast, by simp⟩
    simp only [appendAll, List.length_nil, List.replicate_zero, ← hbackend]
  | cons cm rest ih =>
    intro series backend n hbackend hs hL hS hlast htypes hbound
    obtain ⟨clock, message⟩ := cm
    have htype : message.GetTimestampType = TimestampType.Sequence :=
      htypes (clock, message) (List.mem_cons_self _ _)
    simp only [List.length_cons] at hbound
    have hn : (n : Int) < 2 ^ 63 := by
      have : n < 2 ^ 63 := by omega
      exact_mod_cast this
    -- the resolved timestamp is `n`
    have hresolve : resolve (Transaction.create series) clock message = .ok (n : Int) := by
      rw [resolve_Sequence series clock message backend hbackend htype, hlast]
      by_cases h0 : n = 0
      · simp [h0]
      · simp only [h0, if_false]
        congr 1
        unfold toInt64
        omega
    have hlast2 : backend.hasLastTimestamp_ = false ∨ backend.lastTimestamp_ < (n : Int) := by
      unfold GetLastTimestamp at hlast
      cases hb : backend.hasLastTimestamp_ with
      | false => exact Or.inl rfl
      | true =>
        right
        rw [hb] at hlast
        by_cases h0 : n = 0
        · simp [h0] at hlast
        · simp only [h0, if_false, if_true, Option.some.injEq] at hlast
          omega
    have happend := Append_no_quota backend hs hL hS (n : Int) message.GetMetadata
      message.GetValue hlast2
    obtain ⟨a, b1, hrun1, hs1⟩ := Consistent_Append backend hs (n : Int) message.GetMetadata
      message.GetValue
    rw [happend] at hrun1
    injection hrun1 with hrun1
    injection hrun1 with _ hb1
    subst hb1
    have hstep := Append_eq series clock message backend _ (n : Int) true hbackend hresolve
      happend
    obtain ⟨backend2, hrest, hs2, hL2, hS2, hlast3, hstamps⟩ :=
      ih { series with backend_ := some _ } _ (n + 1) rfl hs1 hL hS
        (by simp [GetLastTimestamp])
        (fun cm hcm => htypes cm (List.mem_cons_of_mem _ hcm)) (by omega)
    refine ⟨backend2, ?_, hs2, hL2, hS2, ?_, ?_⟩
    · simp only [appendAll, hstep, hrest, List.length_cons, List.replicate_succ]
    · have : n + (rest.length + 1) = n + 1 + rest.length := by omega
      simp only [List.length_cons, this]
      exact hlast3
    · rw [hstamps]
      simp [timestamps, List.range'_succ]

end TimeSeriesWriter

/-! ## The claims on writers and readers -/

namespace TimeSeriesWriter

open MemoryTimeSeriesContent TimeSeriesReader in
/-- C11: on a new series without quotas (any name, declared policy and
observers), consecutive calls of `TimeSeriesWriter::Append` with messages of
type `Sequence` all return `true`, and a full scan with a reader transaction
then meets exactly the timestamps `0, 1, ..., N - 1`. When a writer transaction
then calls `ClearContent` and further messages of type `Sequence` are appended,
they are all accepted too and the scan meets `N, N + 1, ...`: the numbering goes
on. The timestamps are `int64_t` values, so the number of messages is at most
`2 ^ 63`. -/
theorem sequence_numbering (name : String) (policy : TimestampType) (observers : List Nat)
    (first second : List (Clock × Message))
    (hfirst : ∀ cm ∈ first, cm.2.GetTimestampType = TimestampType.Sequence)
    (hsecond : ∀ cm ∈ second, cm.2.GetTimestampType = TimestampType.Sequence)
    (hbound : first.length + second.length ≤ 2 ^ 63) :
    ∃ series1 cleared notifications series2,
      appendAll (newSeries name policy observers) first =
        .ok (List.replicate first.length true, series1) ∧
      (∀ spare, readAll series1 (first.length + spare) =
        some ((List.range' 0 first.length).map Int.ofNat)) ∧
      transact series1 [Call.ClearContent] = .ok (cleared, notifications) ∧
      appendAll cleared second = .ok (List.replicate second.length true, series2) ∧
      (∀ spare, readAll series2 (second.length + spare) =
        some ((List.range' first.length second.length).map Int.ofNat)) := by
  obtain ⟨b1, hrun1, hs1, hL1, hS1, hlast1, hstamps1⟩ :=
    appendAll_sequence first (newSeries name policy observers) (create 0 0) 0 rfl
      (Consistent_create 0 0) rfl rfl rfl hfirst (by omega)
  have hstamps1 : timestamps b1 = (List.range' 0 first.length).map Int.ofNat := by
    rw [hstamps1]; rfl
  have hlen1 : b1.content_.length = first.length := by
    have := congrArg List.length hstamps1
    simpa [timestamps] using this
  obtain ⟨b2, hrun2, hs2, _, _, _, hstamps2⟩ :=
    appendAll_sequence second
      { newSeries name policy observers with backend_ := some (ClearContent b1) }
      (ClearContent b1) first.length rfl (Consistent_ClearContent b1) hL1 hS1
      (by simpa [GetLastTimestamp, ClearContent] using hlast1) hsecond hbound
  have hstamps2 : timestamps b2 = (List.range' first.length second.length).map Int.ofNat := by
    rw [hstamps2]; rfl
  have hlen2 : b2.content_.length = second.length := by
    have := congrArg List.length hstamps2
    simpa [timestamps] using this
  refine ⟨_, { newSeries name policy observers with backend_ := some (ClearContent b1) },
    (newSeries name policy observers).NotifyModification, _, hrun1, ?_, ?_, hrun2, ?_⟩
  · intro spare
    rw [← hstamps1]
    exact readAll_spec _ b1 rfl hs1 _ (by omega)
  · simp [transact, Transaction.applyAll, Transaction.apply, Transaction.ClearContent,
      Transaction.create, Transaction.destroy, TimeSeries.HasBackend, newSeries,
      TimeSeries.NotifyModification]
  · intro spare
    rw [← hstamps2]
    exact readAll_spec _ b2 rfl hs2 _ (by omega)

open MemoryTimeSeriesContent TimeSeriesReader in
/-- Witness of C11: the test `Sequence`, two messages, `ClearContent`, one message. -/
theorem sequence_numbering_witness :
    ∃ series1 cleared notifications series2,
      appendAll (newSeries "hello" TimestampType.Sequence [])
          [(someClock, sequenceMessage), (someClock, sequenceMessage)] =
        .ok (List.replicate 2 true, series1) ∧
      (∀ spare, readAll series1 (2 + spare) = some ((List.range' 0 2).map Int.ofNat)) ∧
      transact series1 [Call.ClearContent] = .ok (cleared, notifications) ∧
      appendAll cleared [(someClock, sequenceMessage)] =
        .ok (List.replicate 1 true, series2) ∧
      (∀ spare, readAll series2 (1 + spare) = some ((List.range' 2 1).map Int.ofNat)) :=
  sequence_numbering "hello" TimestampType.Sequence []
    [(someClock, sequenceMessage), (someClock, sequenceMessage)] [(someClock, sequenceMessage)]
    (by decide) (by decide) (by norm_num)

end TimeSeriesWriter

namespace TimeSeriesWriter

/-- C12 as stated fails. On a new series whose declared policy is `Fixed`, a
new message (type `Default`) makes `Append` raise `BadParameterType`, while the
same message carrying the type `Fixed` is appended (at its timestamp 0). And on
a series whose last timestamp is `INT64_MAX`, a message of type `Sequence` is
not appended at the last timestamp plus one: the sum wraps to `-2 ^ 63` and
`Append` returns `false`. -/
theorem Append_message_not_as_stated :
    (Append (newSeries "hello" TimestampType.Fixed []) someClock Message.create =
        .error ErrorCode.BadParameterType ∧
      Append (newSeries "hello" TimestampType.Fixed []) someClock
          { Message.create with type_ := TimestampType.Fixed } =
        .ok (true, fixedSeriesFirst, [])) ∧
    (Append (newSeries "hello" TimestampType.Sequence []) someClock
        (Message.create.SetTimestamp INT64_MAX) = .ok (true, seriesAtMax, []) ∧
      resolve (Transaction.create seriesAtMax) someClock sequenceMessage = .ok (-2 ^ 63) ∧
      Append seriesAtMax someClock sequenceMessage = .ok (false, seriesAtMax, [])) :=
  ⟨⟨by decide, by decide⟩, by decide, by decide, by decide⟩

end TimeSeriesWriter

namespace TimeSeriesWriter

open MemoryTimeSeriesContent in
/-- C12, amended: on a series whose backend is in a state that it can reach,
`TimeSeriesWriter::Append(message)` resolves the timestamp to
`message.timestamp_` for the type `Fixed`, and for the type `Sequence` to 0
when the series never had an item and to the last timestamp plus one when the
last timestamp (an `int64_t` value) is below `INT64_MAX`. For the type `Default` it returns what it
returns for the same message carrying the declared policy of the series, unless
that policy is `Fixed`: then it raises `BadParameterType`. Whenever a timestamp
is resolved, the backend answers and `Append` returns the boolean of the
backend and leaves the state of the backend in the series. A `Fixed` timestamp
not above the last timestamp is refused, also right after a transaction that
calls `DeleteRange`, whatever it deletes. -/
theorem Append_message_spec (maxLength maxSize : Nat) (history : List Call)
    (backend : MemoryTimeSeriesBackend)
    (hstate : calls (create maxLength maxSize) history = .ok backend)
    (series : TimeSeries) (hbackend : series.backend_ = some backend)
    (clock : Clock) (message : Message) :
    (message.GetTimestampType = TimestampType.Fixed →
      resolve (Transaction.create series) clock message = .ok message.timestamp_) ∧
    (message.GetTimestampType = TimestampType.Sequence →
      (backend.GetLastTimestamp = none →
        resolve (Transaction.create series) clock message = .ok 0) ∧
      (∀ last, backend.GetLastTimestamp = some last → INT64_MIN ≤ last → last < INT64_MAX →
        resolve (Transaction.create series) clock message = .ok (last + 1))) ∧
    (message.GetTimestampType = TimestampType.Default →
      (series.GetDefaultTimestampType ≠ TimestampType.Fixed →
        Append series clock message =
          Append series clock { message with type_ := series.GetDefaultTimestampType }) ∧
      (series.GetDefaultTimestampType = TimestampType.Fixed →
        Append series clock message = .error ErrorCode.BadParameterType)) ∧
    (∀ timestamp, resolve (Transaction.create series) clock message = .ok timestamp →
      ∃ accepted backend1,
        backend.Append timestamp message.GetMetadata message.GetValue =
          .ok (accepted, backend1) ∧
        Append series clock message =
          .ok (accepted, { series with backend_ := some backend1 },
            if accepted then series.NotifyModification else [])) ∧
    (∀ last, backend.GetLastTimestamp = some last →
      message.GetTimestampType = TimestampType.Fixed → message.timestamp_ ≤ last →
      Append series clock message = .ok (false, series, []) ∧
      ∀ start stop, ∃ deleted notifications,
        transact series [Call.DeleteRange start stop] = .ok (deleted, notifications) ∧
        Append deleted clock message = .ok (false, deleted, [])) := by
  obtain ⟨hs, _, _⟩ := created_consistent maxLength maxSize history backend hstate
  have ht : (Transaction.create series).transaction_ = some backend := by
    rw [Transaction.create_transaction, hbackend]
  have hcreate : Transaction.create series =
      { lock_ := series, transaction_ := some backend, modified_ := false } := by
    simp [Transaction.create, TimeSeries.HasBackend, hbackend]
  have hfixed : message.GetTimestampType = TimestampType.Fixed →
      resolve (Transaction.create series) clock message = .ok message.timestamp_ := by
    intro htype
    have htype2 : message.type_ = TimestampType.Fixed := htype
    simp [resolve, htype, Message.GetTimestamp, htype2]
  -- a refused fixed timestamp, on any series with a consistent backend
  have hrefused : ∀ (series2 : TimeSeries) (backend2 : MemoryTimeSeriesBackend) (last : Int),
      series2.backend_ = some backend2 → backend2.GetLastTimestamp = some last →
      message.GetTimestampType = TimestampType.Fixed → message.timestamp_ ≤ last →
      Append series2 clock message = .ok (false, series2, []) := by
    intro series2 backend2 last hb2 hlast htype hle
    have htype2 : message.type_ = TimestampType.Fixed := htype
    have hres : resolve (Transaction.create series2) clock message = .ok message.timestamp_ := by
      simp [resolve, htype, Message.GetTimestamp, htype2]
    have hhas : backend2.hasLastTimestamp_ = true ∧ backend2.lastTimestamp_ = last := by
      unfold GetLastTimestamp at hlast
      cases hb : backend2.hasLastTimestamp_ with
      | false => rw [hb] at hlast; simp at hlast
      | true => rw [hb] at hlast; simpa using hlast
    have happ : backend2.Append message.timestamp_ message.GetMetadata message.GetValue =
        .ok (false, backend2) := by
      unfold MemoryTimeSeriesContent.Append
      by_cases h1 : backend2.maxSize_ ≠ 0 ∧ message.GetValue.length > backend2.maxSize_
      · rw [if_pos h1]
      · rw [if_neg h1, if_pos ⟨hhas.1, by rw [hhas.2]; exact hle⟩]
    have := Append_eq series2 clock message backend2 backend2 message.timestamp_ false hb2
      hres happ
    rw [this]
    have hsame : ({ series2 with backend_ := some backend2 } : TimeSeries) = series2 := by
      cases series2
      simp only [TimeSeries.mk.injEq, true_and, and_true] at hb2 ⊢
      exact hb2.symm
    simp [hsame]
  refine ⟨hfixed, ?_, ?_, ?_, ?_⟩
  · intro htype
    have hres := resolve_Sequence series clock message backend hbackend htype
    refine ⟨fun hnone => by rw [hres, hnone], fun last hlast hge hlt => ?_⟩
    rw [hres, hlast]
    simp only
    congr 1
    unfold toInt64
    unfold INT64_MAX at hlt
    unfold INT64_MIN at hge
    omega
  · intro htype
    have htype2 : message.type_ = TimestampType.Default := htype
    constructor
    · intro hpolicy
      have hpolicy2 : series.defaultTimestamp_ ≠ TimestampType.Fixed := hpolicy
      have hres : resolve (Transaction.create series) clock message =
          resolve (Transaction.create series) clock
            { message with type_ := series.GetDefaultTimestampType } := by
        unfold resolve
        simp only [Message.GetTimestampType, htype2, Transaction.GetDefaultTimestampType,
          hcreate, TimeSeries.GetDefaultTimestampType, if_true]
        cases hp : series.defaultTimestamp_ <;> simp [hp] at hpolicy2 ⊢
      unfold Append
      simp only [hres]
      rfl
    · intro hpolicy
      have hpolicy2 : series.defaultTimestamp_ = TimestampType.Fixed := hpolicy
      have hres : resolve (Transaction.create series) clock message =
          .error ErrorCode.BadParameterType := by
        unfold resolve
        simp [Message.GetTimestampType, htype2, Transaction.GetDefaultTimestampType,
          hcreate, TimeSeries.GetDefaultTimestampType, hpolicy2, Message.GetTimestamp]
      unfold Append
      simp only [hres]
  · intro timestamp hres
    obtain ⟨accepted, backend1, hrun, _⟩ :=
      Consistent_Append backend hs timestamp message.GetMetadata message.GetValue
    exact ⟨accepted, backend1, hrun,
      Append_eq series clock message backend backend1 timestamp accepted hbackend hres hrun⟩
  · intro last hlast htype hle
    refine ⟨hrefused series backend last hbackend hlast htype hle, ?_⟩
    intro start stop
    refine ⟨{ series with backend_ := some (backend.DeleteRange start stop) },
      series.NotifyModification, ?_, ?_⟩
    · simp [transact, Transaction.applyAll, Transaction.apply, Transaction.DeleteRange,
        hcreate, Transaction.destroy]
    · apply hrefused _ (backend.DeleteRange start stop) last rfl _ htype hle
      rw [DeleteRange_eq backend hs]
      exact hlast

end TimeSeriesWriter

namespace TimeSeriesWriter

open MemoryTimeSeriesContent in
/-- Witness of C12: the end of the test `Sequence2`. The message set to the
timestamp 10 is refused on the series whose last timestamp is 10, also after
`DeleteRange(10, 11)` has removed the item at 10. -/
theorem Append_message_spec_witness :
    Append sequence2Series someClock (Message.create.SetTimestamp 10) =
        .ok (false, sequence2Series, []) ∧
      ∀ start stop, ∃ deleted notifications,
        transact sequence2Series [Call.DeleteRange start stop] = .ok (deleted, notifications) ∧
        Append deleted someClock (Message.create.SetTimestamp 10) = .ok (false, deleted, []) :=
  (Append_message_spec 0 0 [Call.Append 0 [] [], Call.Append 10 [] []] sequence2Backend
    (by decide) sequence2Series (by decide) someClock
    (Message.create.SetTimestamp 10)).2.2.2.2 10 (by decide) (by decide) (by decide)

end TimeSeriesWriter

namespace TimeSeriesReader

open MemoryTimeSeriesContent in
/-- C13: in a reader transaction on a series whose backend is in a state that
it can reach, whatever the cursor was, after `Seek(timestamp)` the cursor is
valid and `GetTimestamp` returns `timestamp`, stored or not. `Read` then
returns what the backend stores at `timestamp` and succeeds exactly when
`timestamp` is stored. A following `SeekNext` returns `true` and moves the
cursor to `r` exactly when `r` is the smallest stored timestamp above
`timestamp`; it returns `false` and leaves the cursor exactly when no stored
timestamp is above. A following `SeekPrevious` does the same with the largest
stored timestamp below `timestamp`. -/
theorem Seek_spec (maxLength maxSize : Nat) (history : List Call)
    (backend : MemoryTimeSeriesBackend)
    (hstate : calls (create maxLength maxSize) history = .ok backend)
    (t : Transaction) (ht : t.transaction_ = some backend) (timestamp : Int) :
    (t.Seek timestamp).valid_ = true ∧
    (t.Seek timestamp).GetTimestamp = some timestamp ∧
    (t.Seek timestamp).Read = backend.Read timestamp ∧
    ((t.Seek timestamp).Read ≠ none ↔ timestamp ∈ timestamps backend) ∧
    ((∀ r, (t.Seek timestamp).SeekNext = (true, t.Seek r) ↔
        r ∈ timestamps backend ∧ timestamp < r ∧
          ∀ x ∈ timestamps backend, timestamp < x → r ≤ x) ∧
      ((t.Seek timestamp).SeekNext = (false, t.Seek timestamp) ↔
        ∀ x ∈ timestamps backend, ¬ timestamp < x)) ∧
    ((∀ r, (t.Seek timestamp).SeekPrevious = (true, t.Seek r) ↔
        r ∈ timestamps backend ∧ r < timestamp ∧
          ∀ x ∈ timestamps backend, x < timestamp → x ≤ r) ∧
      ((t.Seek timestamp).SeekPrevious = (false, t.Seek timestamp) ↔
        ∀ x ∈ timestamps backend, ¬ x < timestamp)) := by
  obtain ⟨hs, _, _⟩ := created_consistent maxLength maxSize history backend hstate
  have hread : (t.Seek timestamp).Read = backend.Read timestamp := by
    simp [Transaction.Read, Transaction.Seek, ht]
  have hmove : ∀ found : Option Int,
      ((∀ r, (t.Seek timestamp).moveTo found = (true, t.Seek r) ↔ found = some r) ∧
        ((t.Seek timestamp).moveTo found = (false, t.Seek timestamp) ↔ found = none)) := by
    intro found
    cases found with
    | none => simp [Transaction.moveTo]
    | some r0 =>
      simp only [Transaction.moveTo, Transaction.Seek, Prod.mk.injEq, true_and,
        Transaction.mk.injEq, and_true, Option.some.injEq, Bool.true_eq_false, false_and,
        reduceCtorEq, and_false, implies_true]
  have hnext : (t.Seek timestamp).SeekNext =
      (t.Seek timestamp).moveTo (backend.SeekNext timestamp) := by
    simp [Transaction.SeekNext, Transaction.Seek, ht]
  have hprevious : (t.Seek timestamp).SeekPrevious =
      (t.Seek timestamp).moveTo (backend.SeekPrevious timestamp) := by
    simp [Transaction.SeekPrevious, Transaction.Seek, ht]
  have hn := find?_key_spec backend hs (fun k => decide (timestamp < k))
  have hp := getLast?_key_spec backend hs (fun k => decide (k < timestamp))
  rw [← SeekNext_eq] at hn
  rw [← SeekPrevious_eq backend hs] at hp
  simp only [decide_eq_true_eq] at hn hp
  have hn2 := option_least_iff _ _ _ hn.1 hn.2
  have hp2 := option_greatest_iff _ _ _ hp.1 hp.2
  refine ⟨rfl, rfl, hread, ?_, ⟨?_, ?_⟩, ⟨?_, ?_⟩⟩
  · rw [hread]
    exact not_congr (Read_eq_none_iff backend timestamp) |>.trans not_not
  · intro r
    rw [hnext, (hmove _).1 r]
    exact hn2.1 r
  · rw [hnext, (hmove _).2]
    exact hn2.2
  · intro r
    rw [hprevious, (hmove _).1 r]
    exact hp2.1 r
  · rw [hprevious, (hmove _).2]
    exact hp2.2

open MemoryTimeSeriesContent in
/-- Witness of C13: `Seek(5)` in a new transaction on the series that holds the
timestamps 0, 10 and 20. -/
theorem Seek_spec_witness :
    ((Transaction.create threeItemsSeries).Seek 5).GetTimestamp = some 5 ∧
    (((Transaction.create threeItemsSeries).Seek 5).Read ≠ none ↔
      (5 : Int) ∈ timestamps threeItems) ∧
    (∀ r, ((Transaction.create threeItemsSeries).Seek 5).SeekNext =
        (true, (Transaction.create threeItemsSeries).Seek r) ↔
      r ∈ timestamps threeItems ∧ 5 < r ∧ ∀ x ∈ timestamps threeItems, 5 < x → r ≤ x) :=
  have h := Seek_spec 0 0 threeCalls threeItems (by decide)
    (Transaction.create threeItemsSeries) (by decide) 5
  ⟨h.2.1, h.2.2.2.1, h.2.2.2.2.1.1⟩

end TimeSeriesReader

namespace TimeSeriesWriter

open MemoryTimeSeriesContent in
/-- The operations of a writer transaction on a consistent backend: the backend
goes through the calls, and `modified_` is set by every accepted `Append` and
by every `DeleteRange` and `ClearContent`. -/
theorem Transaction.applyAll_spec (operations : List Call) :
    ∀ (t : Transaction) (backend : MemoryTimeSeriesBackend),
      t.transaction_ = some backend → Consistent backend →
      ∃ backend1 results,
        calls backend operations = .ok backend1 ∧
        returned backend operations = .ok results ∧
        Consistent backend1 ∧
        ∃ modified, t.applyAll operations =
            .ok { lock_ := t.lock_, transaction_ := some backend1, modified_ := modified } ∧
          (modified = true ↔
            (t.modified_ = true ∨ true ∈ results ∨
              (∃ start stop, Call.DeleteRange start stop ∈ operations) ∨
              Call.ClearContent ∈ operations)) := by
  induction operations with
  | nil =>
    intro t backend ht hs
    refine ⟨backend, [], rfl, rfl, hs, t.modified_, ?_, by simp⟩
    cases t
    simp only [Transaction.applyAll] at ht ⊢
    rw [← ht]
  | cons op rest ih =>
    intro t backend ht hs
    cases op with
    | Append timestamp metadata value =>
      obtain ⟨accepted, b1, hrun, hs1⟩ := Consistent_Append backend hs timestamp metadata value
      cases accepted with
      | true =>
        obtain ⟨b2, results, hc, hr, hs2, modified, hall, hiff⟩ :=
          ih { t with transaction_ := some b1, modified_ := true } b1 rfl hs1
        refine ⟨b2, true :: results, by simp only [calls, call, hrun, hc],
          by simp only [returned, hrun, hr], hs2, modified, ?_, ?_⟩
        · simp only [Transaction.applyAll, Transaction.apply, Transaction.Append, ht, hrun]
          exact hall
        · have hm : modified = true := hiff.mpr (Or.inl rfl)
          simp [hm]
      | false =>
        obtain ⟨b2, results, hc, hr, hs2, modified, hall, hiff⟩ :=
          ih { t with transaction_ := some b1 } b1 rfl hs1
        refine ⟨b2, false :: results, by simp only [calls, call, hrun, hc],
          by simp only [returned, hrun, hr], hs2, modified, ?_, ?_⟩
        · simp only [Transaction.applyAll, Transaction.apply, Transaction.Append, ht, hrun]
          exact hall
        · rw [hiff]
          simp
    | DeleteRange start stop =>
      obtain ⟨b2, results, hc, hr, hs2, modified, hall, hiff⟩ :=
        ih { t with transaction_ := some (backend.DeleteRange start stop), modified_ := true }
          (backend.DeleteRange start stop) rfl (Consistent_DeleteRange backend hs start stop)
      refine ⟨b2, results, by simp only [calls, call, hc], by simp only [returned, hr], hs2,
        modified, ?_, ?_⟩
      · simp only [Transaction.applyAll, Transaction.apply, Transaction.DeleteRange, ht]
        exact hall
      · have hm : modified = true := hiff.mpr (Or.inl rfl)
        simp only [hm, true_iff]
        exact Or.inr (Or.inr (Or.inl ⟨start, stop, List.mem_cons_self _ _⟩))
    | ClearContent =>
      obtain ⟨b2, results, hc, hr, hs2, modified, hall, hiff⟩ :=
        ih { t with transaction_ := some backend.ClearContent, modified_ := true }
          backend.ClearContent rfl (Consistent_ClearContent backend)
      refine ⟨b2, results, by simp only [calls, call, hc], by simp only [returned, hr], hs2,
        modified, ?_, ?_⟩
      · simp only [Transaction.applyAll, Transaction.apply, Transaction.ClearContent, ht]
        exact hall
      · have hm : modified = true := hiff.mpr (Or.inl rfl)
        simp only [hm, true_iff]
        exact Or.inr (Or.inr (Or.inr (List.mem_cons_self _ _)))

open MemoryTimeSeriesContent in
/-- C14 as stated fails: on a new series with the observer 7, a writer
transaction whose only operation is `DeleteRange(5, 5)` leaves the series as it
was and still calls `NotifySeriesModified` on the observer; so does a
transaction whose only operation is `ClearContent`. -/
theorem unchanged_series_is_signalled :
    transact (newSeries "hello" TimestampType.Sequence [7]) [Call.DeleteRange 5 5] =
        .ok (newSeries "hello" TimestampType.Sequence [7],
             [Notification.SeriesModified 7 "hello"]) ∧
      transact (newSeries "hello" TimestampType.Sequence [7]) [Call.ClearContent] =
        .ok (newSeries "hello" TimestampType.Sequence [7],
             [Notification.SeriesModified 7 "hello"]) :=
  ⟨by decide, by decide⟩

open MemoryTimeSeriesContent in
/-- C14, amended: a writer transaction on a series whose backend is in a state
that it can reach runs its operations to the end, and when it is destroyed it
calls `NotifyModification` (`NotifySeriesModified` on every observer) if and
only if one of its `Append` calls was accepted or it called `DeleteRange` or
`ClearContent` at all; a transaction whose only operations were refused
`Append` calls notifies nobody. -/
theorem transaction_signals_iff (maxLength maxSize : Nat) (history : List Call)
    (backend : MemoryTimeSeriesBackend)
    (hstate : calls (create maxLength maxSize) history = .ok backend)
    (series : TimeSeries) (hbackend : series.backend_ = some backend)
    (operations : List Call) :
    ∃ backend1 results modified,
      calls backend operations = .ok backend1 ∧
      returned backend operations = .ok results ∧
      (Transaction.create series).applyAll operations =
        .ok { lock_ := series, transaction_ := some backend1, modified_ := modified } ∧
      (modified = true ↔
        (true ∈ results ∨ (∃ start stop, Call.DeleteRange start stop ∈ operations) ∨
          Call.ClearContent ∈ operations)) ∧
      transact series operations =
        .ok ({ series with backend_ := some backend1 },
             if modified then series.NotifyModification else []) := by
  obtain ⟨hs, _, _⟩ := created_consistent maxLength maxSize history backend hstate
  have hcreate : Transaction.create series =
      { lock_ := series, transaction_ := some backend, modified_ := false } := by
    simp [Transaction.create, TimeSeries.HasBackend, hbackend]
  obtain ⟨b1, results, hc, hr, _, modified, hall, hiff⟩ :=
    Transaction.applyAll_spec operations (Transaction.create series) backend
      (by rw [hcreate]) hs
  rw [hcreate] at hall hiff
  refine ⟨b1, results, modified, hc, hr, by rw [hcreate]; exact hall, by simpa using hiff, ?_⟩
  simp only [transact, hcreate, hall, Transaction.destroy]

open MemoryTimeSeriesContent in
/-- Witness of C14: on the series of the test `Sequence2`, a transaction whose
only operation is an `Append` at the timestamp 10, which is refused. -/
theorem transaction_signals_iff_witness :
    ∃ backend1 results modified,
      calls sequence2Backend [Call.Append 10 [] []] = .ok backend1 ∧
      returned sequence2Backend [Call.Append 10 [] []] = .ok results ∧
      (Transaction.create sequence2Series).applyAll [Call.Append 10 [] []] =
        .ok { lock_ := sequence2Series, transaction_ := some backend1, modified_ := modified } ∧
      (modified = true ↔
        (true ∈ results ∨
          (∃ start stop, Call.DeleteRange start stop ∈ [Call.Append 10 [] []]) ∨
          Call.ClearContent ∈ [Call.Append 10 [] []])) ∧
      transact sequence2Series [Call.Append 10 [] []] =
        .ok ({ sequence2Series with backend_ := some backend1 },
             if modified then sequence2Series.NotifyModification else []) :=
  transaction_signals_iff 0 0 [Call.Append 0 [] [], Call.Append 10 [] []] sequence2Backend
    (by decide) sequence2Series (by decide) [Call.Append 10 [] []]

end TimeSeriesWriter

/-! ## Lemmas and claims on the manager -/

namespace GenericTimeSeriesManager

theorem find_eq_none_iff (m : GenericTimeSeriesManager) (name : String) :
    m.find name = none ↔ name ∉ m.ListTimeSeries := by
  unfold find ListTimeSeries
  cases hf : m.content_.find? (fun entry => entry.1 == name) with
  | none =>
    simp only [true_iff]
    rw [List.find?_eq_none] at hf
    intro hmem
    rw [List.mem_map] at hmem
    obtain ⟨e, he, hname⟩ := hmem
    exact hf e he (by simp [hname])
  | some e =>
    simp only [reduceCtorEq, false_iff, not_not]
    have h1 := List.mem_of_find?_eq_some hf
    have h2 : (e.1 == name) = true :=
      @List.find?_some _ (fun entry : String × Nat => entry.1 == name) e m.content_ hf
    rw [List.mem_map]
    exact ⟨e, h1, by simpa using h2⟩

theorem find_isSome_iff (m : GenericTimeSeriesManager) (name : String) :
    (m.find name).isSome = true ↔ name ∈ m.ListTimeSeries := by
  have := find_eq_none_iff m name
  cases hf : m.find name with
  | none => rw [hf] at this; simpa using this
  | some idx => rw [hf] at this; simpa using this

/-- The lookup of a new name, after its entry was added at the end of `content_`. -/
theorem find_append_new (content : List (String × Nat)) (name : String) (pointer : Nat)
    (hnew : ∀ entry ∈ content, ¬ (entry.1 == name) = true) :
    (content ++ [(name, pointer)]).find? (fun entry => entry.1 == name) =
      some (name, pointer) := by
  rw [List.find?_append, List.find?_eq_none.mpr hnew]
  simp

end GenericTimeSeriesManager

namespace GenericTimeSeriesManager

open TimeSeriesReader in
/-- C16 as stated fails: under a factory whose backends come with the rows that
the database already holds (here one item of 10 bytes), `CreateTimeSeries` on a
new name succeeds and the series that it creates is not empty: a reader reports
length 1 and size 10. -/
theorem created_series_not_empty :
    ¬ ∀ (m1 : GenericTimeSeriesManager),
      (emptyManager persistentFactory).CreateTimeSeries "hello" TimestampType.Sequence =
        .ok m1 →
      ∀ accessor m2 series, createReader m1 "hello" false 0 = .ok (accessor, m2) →
        m2.Lock accessor = some series →
        (Transaction.create series).GetStatistics = (0, 0) := by
  intro h
  have := h { factory_ := persistentFactory, content_ := [("hello", 0)],
              heap_ := [{ name_ := "hello", backend_ := some sizeRecyclingFirst,
                          defaultTimestamp_ := TimestampType.Sequence, observers_ := [] }] }
    rfl { timeSeries_ := 0, observer_ := none } _ _ rfl rfl
  revert this
  decide

open TimeSeriesReader in
/-- C16, amended: `CreateTimeSeries(name, policy)` raises `BadSequenceOfCalls`
whenever a series of that name exists, and the manager is then as it was. When
the name is new and the factory yields a backend, `ListTimeSeries` returns
afterwards the previous names plus `name`, and the new series is the one of
that backend: a reader opened on the name reports the length and size of the
backend that the factory yielded, which are `(0, 0)` when this is a new memory
backend. -/
theorem CreateTimeSeries_spec (m : GenericTimeSeriesManager) (name : String)
    (policy : TimestampType) :
    (name ∈ m.ListTimeSeries →
      m.CreateTimeSeries name policy = .error ErrorCode.BadSequenceOfCalls ∧
      (m.call (Call.CreateTimeSeries name policy)).ListTimeSeries = m.ListTimeSeries ∧
      (m.call (Call.CreateTimeSeries name policy)).heap_ = m.heap_) ∧
    (name ∉ m.ListTimeSeries →
      ∀ backend, m.factory_.CreateManualTimeSeries name = some backend →
        ∃ m1, m.CreateTimeSeries name policy = .ok m1 ∧
          m1.ListTimeSeries = m.ListTimeSeries ++ [name] ∧
          ∀ hasSynchronousWait address, ∃ accessor m2 series,
            createReader m1 name hasSynchronousWait address = .ok (accessor, m2) ∧
            m2.Lock accessor = some series ∧
            series.backend_ = some backend ∧
            (Transaction.create series).GetStatistics = backend.GetStatistics ∧
            (∀ maxLength maxSize, backend = MemoryTimeSeriesContent.create maxLength maxSize →
              (Transaction.create series).GetStatistics = (0, 0))) := by
  constructor
  · intro hmem
    have hfound : (m.find name).isSome = true := (find_isSome_iff m name).mpr hmem
    have hrun : m.CreateTimeSeries name policy = .error ErrorCode.BadSequenceOfCalls := by
      unfold CreateTimeSeries
      rw [if_pos hfound]
    refine ⟨hrun, ?_, ?_⟩ <;> simp only [call, hrun]
  · intro hnew backend hfactory
    have hnone : m.find name = none := (find_eq_none_iff m name).mpr hnew
    have hnew2 : ∀ entry ∈ m.content_, ¬ (entry.1 == name) = true := by
      intro entry he hname
      apply hnew
      unfold ListTimeSeries
      rw [List.mem_map]
      exact ⟨entry, he, by simpa using hname⟩
    let series0 : TimeSeries :=
      { name_ := name, backend_ := some backend, defaultTimestamp_ := policy, observers_ := [] }
    let m1 : GenericTimeSeriesManager :=
      { m with heap_ := m.heap_ ++ [series0],
               content_ := m.content_ ++ [(name, m.heap_.length)] }
    have hget : GetTimeSeries m1 name = .ok (m.heap_.length, m1) := by
      unfold GetTimeSeries find
      simp only [m1, find_append_new m.content_ name m.heap_.length hnew2]
    have hobject : m1.heap_[m.heap_.length]? = some series0 := by
      simp [m1]
    refine ⟨m1, ?_, ?_, ?_⟩
    · unfold CreateTimeSeries
      simp [hnone, hfactory, TimeSeries.create, m1, series0]
    · simp [ListTimeSeries, m1]
    · intro hasSynchronousWait address
      cases hasSynchronousWait with
      | false =>
        refine ⟨{ timeSeries_ := m.heap_.length, observer_ := none }, m1, series0,
          ?_, ?_, rfl, ?_, ?_⟩
        · simp [createReader, CreateAccessor, hget]
        · exact hobject
        · simp [Transaction.create, Transaction.GetStatistics, TimeSeries.HasBackend, series0]
        · intro maxLength maxSize hb
          simp [Transaction.create, Transaction.GetStatistics, TimeSeries.HasBackend, hb,
            MemoryTimeSeriesContent.create, MemoryTimeSeriesContent.GetStatistics, series0]
      | true =>
        let series1 : TimeSeries := { series0 with observers_ := [address] }
        let m2 : GenericTimeSeriesManager :=
          { m1 with heap_ := m1.heap_.set m.heap_.length series1 }
        refine ⟨{ timeSeries_ := m.heap_.length, observer_ := some address }, m2, series1,
          ?_, ?_, rfl, ?_, ?_⟩
        · simp only [createReader, CreateAccessor, hget, hobject, if_true]
          simp [TimeSeries.RegisterObserver, series0, series1, m2]
        · simp [Lock, m1, m2]
        · simp [Transaction.create, Transaction.GetStatistics, TimeSeries.HasBackend, series0,
            series1]
        · intro maxLength maxSize hb
          simp [Transaction.create, Transaction.GetStatistics, TimeSeries.HasBackend, hb,
            MemoryTimeSeriesContent.create, MemoryTimeSeriesContent.GetStatistics, series0,
            series1]

end GenericTimeSeriesManager

namespace GenericTimeSeriesManager

/-- The manager with another object at one place of the heap. -/
theorem WellFormed.set (m : GenericTimeSeriesManager) (hwf : WellFormed m) (pointer : Nat)
    (series : TimeSeries) :
    WellFormed { m with heap_ := m.heap_.set pointer series } where
  valid := by
    intro entry he
    simpa using hwf.valid entry he
  names := hwf.names
  pointers := hwf.pointers

/-- The manager with a new object under a new name. -/
theorem WellFormed.push (m : GenericTimeSeriesManager) (hwf : WellFormed m) (name : String)
    (hnew : name ∉ m.ListTimeSeries) (series : TimeSeries) :
    WellFormed { m with heap_ := m.heap_ ++ [series],
                        content_ := m.content_ ++ [(name, m.heap_.length)] } where
  valid := by
    intro entry he
    have he : entry ∈ m.content_ ++ [(name, m.heap_.length)] := he
    rw [List.mem_append, List.mem_singleton] at he
    show entry.2 < (m.heap_ ++ [series]).length
    rw [List.length_append, List.length_singleton]
    rcases he with he | he
    · have := hwf.valid entry he
      omega
    · rw [he]
      exact Nat.lt_succ_self _
  names := by
    show ((m.content_ ++ [(name, m.heap_.length)]).map Prod.fst).Nodup
    rw [List.map_append, List.nodup_append]
    refine ⟨hwf.names, List.nodup_singleton _, ?_⟩
    intro a ha hb
    simp only [List.map_cons, List.map_nil, List.mem_singleton] at hb
    rw [hb] at ha
    exact hnew ha
  pointers := by
    show ((m.content_ ++ [(name, m.heap_.length)]).map Prod.snd).Nodup
    rw [List.map_append, List.nodup_append]
    refine ⟨hwf.pointers, List.nodup_singleton _, ?_⟩
    intro a ha hb
    simp only [List.map_cons, List.map_nil, List.mem_singleton] at hb
    rw [List.mem_map] at ha
    obtain ⟨entry, he, hentry⟩ := ha
    have := hwf.valid entry he
    omega

/-- The manager without the entry of a name, and another object at one place. -/
theorem WellFormed.erase (m : GenericTimeSeriesManager) (hwf : WellFormed m) (name : String)
    (pointer : Nat) (series : TimeSeries) :
    WellFormed { m with heap_ := m.heap_.set pointer series,
                        content_ := m.content_.filter (fun entry => entry.1 != name) } where
  valid := by
    intro entry he
    have he : entry ∈ m.content_.filter (fun entry => entry.1 != name) := he
    simpa using hwf.valid entry (List.mem_of_mem_filter he)
  names := hwf.names.sublist ((List.filter_sublist _).map _)
  pointers := hwf.pointers.sublist ((List.filter_sublist _).map _)

theorem mem_of_find (m : GenericTimeSeriesManager) (name : String) (pointer : Nat)
    (h : m.find name = some pointer) : (name, pointer) ∈ m.content_ := by
  unfold find at h
  cases hf : m.content_.find? (fun entry => entry.1 == name) with
  | none => rw [hf] at h; exact Option.noConfusion h
  | some e =>
    rw [hf] at h
    have h1 := List.mem_of_find?_eq_some hf
    have h2 : (e.1 == name) = true :=
      @List.find?_some _ (fun entry : String × Nat => entry.1 == name) e m.content_ hf
    have h3 : e.1 = name := by simpa using h2
    have h4 : e.2 = pointer := by simpa using h
    have : e = (name, pointer) := by
      cases e
      simp only at h3 h4
      rw [h3, h4]
    rw [← this]
    exact h1

/-- The three ways in which `GetTimeSeries` ends. -/
theorem GetTimeSeries_cases (m : GenericTimeSeriesManager) (name : String) :
    (∃ pointer, m.find name = some pointer ∧ m.GetTimeSeries name = .ok (pointer, m)) ∨
    (m.find name = none ∧ (m.factory_.CreateAutoTimeSeries name).2 = none ∧
      m.GetTimeSeries name = .error ErrorCode.InexistentItem) ∨
    (m.find name = none ∧ ∃ backend,
      (m.factory_.CreateAutoTimeSeries name).2 = some backend ∧
      m.GetTimeSeries name =
        .ok (m.heap_.length,
          { m with
            heap_ := m.heap_ ++
              [{ name_ := name, backend_ := some backend,
                 defaultTimestamp_ := (m.factory_.CreateAutoTimeSeries name).1,
                 observers_ := [] }],
            content_ := m.content_ ++ [(name, m.heap_.length)] })) := by
  cases hf : m.find name with
  | some pointer =>
    left
    exact ⟨pointer, rfl, by unfold GetTimeSeries; rw [hf]⟩
  | none =>
    right
    cases hauto : m.factory_.CreateAutoTimeSeries name with
    | mk type backend =>
      cases backend with
      | none =>
        left
        refine ⟨rfl, rfl, ?_⟩
        unfold GetTimeSeries
        rw [hf]
        simp only [hauto]
      | some backend =>
        right
        refine ⟨rfl, backend, rfl, ?_⟩
        unfold GetTimeSeries
        rw [hf]
        simp only [hauto, TimeSeries.create]

end GenericTimeSeriesManager

namespace TimeSeriesWriter

/-- On a series without backend the operations of a writer transaction do nothing. -/
theorem Transaction.applyAll_no_backend (operations : List MemoryTimeSeriesContent.Call)
    (t : Transaction) (ht : t.transaction_ = none) : t.applyAll operations = .ok t := by
  induction operations with
  | nil => rfl
  | cons op rest ih =>
    cases op <;>
      simp [Transaction.applyAll, Transaction.apply, Transaction.Append,
        Transaction.DeleteRange, Transaction.ClearContent, ht, ih]

/-- A writer transaction on a series without backend leaves the series as it
is and notifies nobody. -/
theorem transact_no_backend (series : TimeSeries) (hbackend : series.backend_ = none)
    (operations : List MemoryTimeSeriesContent.Call) :
    transact series operations = .ok (series, []) := by
  have hcreate : Transaction.create series =
      { lock_ := series, transaction_ := none, modified_ := false } := by
    simp [Transaction.create, TimeSeries.HasBackend, hbackend]
  unfold transact
  rw [Transaction.applyAll_no_backend operations _ (by rw [hcreate]), hcreate]
  cases series
  simp only [Transaction.destroy] at hbackend ⊢
  simp [hbackend]

end TimeSeriesWriter

namespace GenericTimeSeriesManager

theorem Detached.keep_set (m : GenericTimeSeriesManager) (pointer : Nat) (hd : Detached m pointer)
    (place : Nat) (series : TimeSeries) (hseries : place = pointer → series.backend_ = none) :
    Detached { m with heap_ := m.heap_.set place series } pointer where
  bound := by simpa using hd.bound
  forgotten := hd.forgotten
  deleted := by
    intro s hs
    have hs : (m.heap_.set place series)[pointer]? = some s := hs
    by_cases h : place = pointer
    · subst h
      rw [List.getElem?_set_self hd.bound] at hs
      injection hs with hs
      rw [← hs]
      exact hseries rfl
    · rw [List.getElem?_set_ne h] at hs
      exact hd.deleted s hs

theorem Detached.keep_push (m : GenericTimeSeriesManager) (pointer : Nat) (hd : Detached m pointer)
    (name : String) (series : TimeSeries) :
    Detached { m with heap_ := m.heap_ ++ [series],
                      content_ := m.content_ ++ [(name, m.heap_.length)] } pointer where
  bound := by
    show pointer < (m.heap_ ++ [series]).length
    have := hd.bound
    rw [List.length_append, List.length_singleton]
    omega
  forgotten := by
    intro entry he
    have he : entry ∈ m.content_ ++ [(name, m.heap_.length)] := he
    rw [List.mem_append, List.mem_singleton] at he
    rcases he with he | he
    · exact hd.forgotten entry he
    · rw [he]
      have := hd.bound
      show m.heap_.length ≠ pointer
      omega
  deleted := by
    intro s hs
    have hs : (m.heap_ ++ [series])[pointer]? = some s := hs
    rw [List.getElem?_append_left hd.bound] at hs
    exact hd.deleted s hs

theorem Detached.keep_erase (m : GenericTimeSeriesManager) (pointer : Nat) (hd : Detached m pointer)
    (name : String) (place : Nat) (series : TimeSeries)
    (hseries : place = pointer → series.backend_ = none) :
    Detached { m with heap_ := m.heap_.set place series,
                      content_ := m.content_.filter (fun entry => entry.1 != name) }
      pointer where
  bound := by simpa using hd.bound
  forgotten := by
    intro entry he
    have he : entry ∈ m.content_.filter (fun entry => entry.1 != name) := he
    exact hd.forgotten entry (List.mem_of_mem_filter he)
  deleted := (Detached.keep_set m pointer hd place series hseries).deleted

theorem CreateTimeSeries_ok (m m1 : GenericTimeSeriesManager) (name : String)
    (type : TimestampType) (h : m.CreateTimeSeries name type = .ok m1) :
    m.find name = none ∧ ∃ backend,
      m.factory_.CreateManualTimeSeries name = some backend ∧
      m1 = { m with heap_ := m.heap_ ++ [{ name_ := name, backend_ := some backend,
                                            defaultTimestamp_ := type, observers_ := [] }],
                    content_ := m.content_ ++ [(name, m.heap_.length)] } := by
  unfold CreateTimeSeries at h
  cases hf : m.find name with
  | some found => simp [hf] at h
  | none =>
    refine ⟨rfl, ?_⟩
    cases hb : m.factory_.CreateManualTimeSeries name with
    | none => simp [hf, hb, TimeSeries.create] at h
    | some backend =>
      simp only [hf, hb, TimeSeries.create, Option.isSome_none, Bool.false_eq_true,
        if_false] at h
      injection h with h
      exact ⟨backend, rfl, h.symm⟩

theorem DeleteTimeSeries_ok (m m1 : GenericTimeSeriesManager) (name : String)
    (notifications : List Notification)
    (h : m.DeleteTimeSeries name = .ok (m1, notifications)) :
    ∃ found series, m.find name = some found ∧ m.heap_[found]? = some series ∧
      notifications = series.Delete.2 ∧
      m1 = { m with heap_ := m.heap_.set found series.Delete.1,
                    content_ := m.content_.filter (fun entry => entry.1 != name) } := by
  unfold DeleteTimeSeries at h
  cases hf : m.find name with
  | none => simp [hf] at h
  | some found =>
    cases hobject : m.heap_[found]? with
    | none => simp [hf, hobject] at h
    | some series =>
      simp only [hf, hobject] at h
      injection h with h
      injection h with h1 h2
      exact ⟨found, series, rfl, hobject, h2.symm, h1.symm⟩

theorem CreateAccessor_ok (m m2 : GenericTimeSeriesManager) (name : String)
    (hasSynchronousWait : Bool) (address : Nat) (accessor : Accessor)
    (h : m.CreateAccessor name hasSynchronousWait address = .ok (accessor, m2)) :
    ∃ m1, m.GetTimeSeries name = .ok (accessor.timeSeries_, m1) ∧
      (m2 = m1 ∨ ∃ object object1, m1.heap_[accessor.timeSeries_]? = some object ∧
        object1.backend_ = object.backend_ ∧
        m2 = { m1 with heap_ := m1.heap_.set accessor.timeSeries_ object1 }) := by
  unfold CreateAccessor at h
  cases hrun : m.GetTimeSeries name with
  | error e => simp [hrun] at h
  | ok result =>
    obtain ⟨pointer, m1⟩ := result
    cases hasSynchronousWait with
    | false =>
      simp only [hrun, Bool.false_eq_true, if_false] at h
      injection h with h
      injection h with h1 h2
      subst h1 h2
      exact ⟨m1, rfl, Or.inl rfl⟩
    | true =>
      cases hobject : m1.heap_[pointer]? with
      | none => simp [hrun, hobject] at h
      | some object =>
        by_cases hmem : address ∈ object.observers_
        · simp [hrun, hobject, TimeSeries.RegisterObserver, hmem] at h
        · simp only [hrun, hobject, TimeSeries.RegisterObserver, hmem, if_true, if_false] at h
          injection h with h
          injection h with h1 h2
          subst h1 h2
          exact ⟨m1, rfl, Or.inr ⟨object,
            { object with observers_ := object.observers_ ++ [address] }, hobject, rfl, rfl⟩⟩

theorem Write_ok (m m1 : GenericTimeSeriesManager) (accessor : Accessor)
    (operations : List MemoryTimeSeriesContent.Call) (notifications : List Notification)
    (h : m.Write accessor operations = .ok (m1, notifications)) :
    ∃ series series1, m.heap_[accessor.timeSeries_]? = some series ∧
      TimeSeriesWriter.transact series operations = .ok (series1, notifications) ∧
      m1 = { m with heap_ := m.heap_.set accessor.timeSeries_ series1 } := by
  unfold Write Lock at h
  cases hobject : m.heap_[accessor.timeSeries_]? with
  | none => simp [hobject] at h
  | some series =>
    cases hrun : TimeSeriesWriter.transact series operations with
    | error e => simp [hobject, hrun] at h
    | ok result =>
      obtain ⟨series1, notes⟩ := result
      simp only [hobject, hrun] at h
      injection h with h
      injection h with h1 h2
      subst h1 h2
      exact ⟨series, series1, rfl, hrun, rfl⟩

theorem GetTimeSeries_invariant (m m1 : GenericTimeSeriesManager) (hwf : WellFormed m)
    (name : String) (pointer : Nat) (hrun : m.GetTimeSeries name = .ok (pointer, m1)) :
    WellFormed m1 ∧ m1.factory_ = m.factory_ ∧
      ∀ p, Detached m p → Detached m1 p ∧ pointer ≠ p := by
  rcases GetTimeSeries_cases m name with ⟨found, hf, h⟩ | ⟨_, _, h⟩ | ⟨hf, backend, _, h⟩
  · rw [h] at hrun
    injection hrun with hrun
    injection hrun with h1 h2
    subst h1 h2
    exact ⟨hwf, rfl, fun p hd => ⟨hd, hd.forgotten _ (mem_of_find m name found hf)⟩⟩
  · rw [h] at hrun
    exact Except.noConfusion hrun
  · rw [h] at hrun
    injection hrun with hrun
    injection hrun with h1 h2
    subst h1 h2
    refine ⟨WellFormed.push m hwf name ((find_eq_none_iff m name).mp hf) _, rfl,
      fun p hd => ⟨Detached.keep_push m p hd name _, ?_⟩⟩
    have := hd.bound
    omega

/-- What one call keeps: the manager stays well formed, keeps its factory, and
an object that it has deleted and forgotten stays so. -/
theorem call_invariant (m : GenericTimeSeriesManager) (hwf : WellFormed m) (c : Call) :
    WellFormed (m.call c) ∧ (m.call c).factory_ = m.factory_ ∧
      ∀ pointer, Detached m pointer → Detached (m.call c) pointer := by
  have hsame : WellFormed m ∧ m.factory_ = m.factory_ ∧
      ∀ pointer, Detached m pointer → Detached m pointer := ⟨hwf, rfl, fun _ h => h⟩
  cases c with
  | CreateTimeSeries name type =>
    simp only [call]
    cases hrun : m.CreateTimeSeries name type with
    | error e => exact hsame
    | ok m1 =>
      obtain ⟨hf, backend, _, h1⟩ := CreateTimeSeries_ok m m1 name type hrun
      subst h1
      exact ⟨WellFormed.push m hwf name ((find_eq_none_iff m name).mp hf) _, rfl,
        fun pointer hd => Detached.keep_push m pointer hd name _⟩
  | DeleteTimeSeries name =>
    simp only [call]
    cases hrun : m.DeleteTimeSeries name with
    | error e => exact hsame
    | ok result =>
      obtain ⟨m1, notifications⟩ := result
      obtain ⟨found, series, hf, _, _, h1⟩ := DeleteTimeSeries_ok m m1 name notifications hrun
      subst h1
      refine ⟨WellFormed.erase m hwf name found _, rfl, fun pointer hd => ?_⟩
      exact Detached.keep_erase m pointer hd name found _
        (fun h => absurd h (hd.forgotten _ (mem_of_find m name found hf)))
  | CreateAccessor name hasSynchronousWait address =>
    simp only [call]
    cases hrun : m.CreateAccessor name hasSynchronousWait address with
    | error e =>
      cases hget : m.GetTimeSeries name with
      | error e => exact hsame
      | ok result =>
        obtain ⟨pointer, m1⟩ := result
        obtain ⟨g1, g2, g3⟩ := GetTimeSeries_invariant m m1 hwf name pointer hget
        exact ⟨g1, g2, fun p hd => (g3 p hd).1⟩
    | ok result =>
      obtain ⟨accessor, m2⟩ := result
      obtain ⟨m1, hget, h2⟩ := CreateAccessor_ok m m2 name hasSynchronousWait address accessor hrun
      obtain ⟨g1, g2, g3⟩ := GetTimeSeries_invariant m m1 hwf name _ hget
      rcases h2 with h2 | ⟨object, object1, _, _, h2⟩
      · subst h2
        exact ⟨g1, g2, fun p hd => (g3 p hd).1⟩
      · subst h2
        exact ⟨WellFormed.set m1 g1 _ object1, g2,
          fun p hd => Detached.keep_set m1 p (g3 p hd).1 _ object1
            (fun h => absurd h (g3 p hd).2)⟩
  | DestroyAccessor accessor =>
    simp only [call, DestroyAccessor]
    cases hobserver : accessor.observer_ with
    | none => exact hsame
    | some address =>
      cases hobject : m.heap_[accessor.timeSeries_]? with
      | none => exact hsame
      | some series =>
        refine ⟨WellFormed.set m hwf _ _, rfl, fun p hd => ?_⟩
        refine Detached.keep_set m p hd _ _ (fun h => ?_)
        rw [h] at hobject
        exact hd.deleted series hobject
  | Write accessor operations =>
    simp only [call]
    cases hrun : m.Write accessor operations with
    | error e => exact hsame
    | ok result =>
      obtain ⟨m1, notifications⟩ := result
      obtain ⟨series, series1, hobject, htransact, h1⟩ :=
        Write_ok m m1 accessor operations notifications hrun
      subst h1
      refine ⟨WellFormed.set m hwf _ _, rfl, fun p hd => ?_⟩
      refine Detached.keep_set m p hd _ _ (fun h => ?_)
      rw [h] at hobject
      have hnone := hd.deleted series hobject
      rw [TimeSeriesWriter.transact_no_backend series hnone operations] at htransact
      injection htransact with htransact
      injection htransact with h1 _
      rw [← h1]
      exact hnone

/-- The same for a sequence of calls. -/
theorem calls_invariant (history : List Call) :
    ∀ m : GenericTimeSeriesManager, WellFormed m →
      WellFormed (m.calls history) ∧ (m.calls history).factory_ = m.factory_ ∧
        ∀ pointer, Detached m pointer → Detached (m.calls history) pointer := by
  induction history with
  | nil => intro m hwf; exact ⟨hwf, rfl, fun _ h => h⟩
  | cons c rest ih =>
    intro m hwf
    obtain ⟨h1, h2, h3⟩ := call_invariant m hwf c
    obtain ⟨g1, g2, g3⟩ := ih (m.call c) h1
    exact ⟨g1, g2.trans h2, fun p hd => g3 p (h3 p hd)⟩

theorem create_loop_invariant (manual : List (String × TimestampType)) :
    ∀ m m0 : GenericTimeSeriesManager, WellFormed m → create.loop m manual = .ok m0 →
      WellFormed m0 ∧ m0.factory_ = m.factory_ := by
  induction manual with
  | nil =>
    intro m m0 hwf h
    simp only [create.loop] at h
    injection h with h
    subst h
    exact ⟨hwf, rfl⟩
  | cons entry rest ih =>
    intro m m0 hwf h
    obtain ⟨name, type⟩ := entry
    have hinv := call_invariant m hwf (Call.CreateTimeSeries name type)
    simp only [create.loop] at h
    cases hrun : m.CreateTimeSeries name type with
    | error e => rw [hrun] at h; exact Except.noConfusion h
    | ok m1 =>
      rw [hrun] at h
      simp only [call, hrun] at hinv
      obtain ⟨g1, g2⟩ := ih m1 m0 hinv.1 h
      exact ⟨g1, g2.trans hinv.2.1⟩

/-- Every manager that the constructor and later calls make is well formed and
has the factory that it was given. -/
theorem created_invariant (factory : ITimeSeriesFactory) (m0 : GenericTimeSeriesManager)
    (hcreate : create factory = .ok m0) (history : List Call) :
    WellFormed (m0.calls history) ∧ (m0.calls history).factory_ = factory := by
  have hempty : WellFormed { factory_ := factory, content_ := [], heap_ := [] } :=
    ⟨by intro e he; simp at he, by simp, by simp⟩
  obtain ⟨h1, h2⟩ := create_loop_invariant factory.ListManualTimeSeries _ m0 hempty hcreate
  obtain ⟨g1, g2, _⟩ := calls_invariant history m0 h1
  exact ⟨g1, g2.trans h2⟩

end GenericTimeSeriesManager

namespace GenericTimeSeriesManager

theorem find_push (m : GenericTimeSeriesManager) (name : String) (pointer : Nat)
    (h : m.find name = some pointer) (entry : String × Nat) (heap : List TimeSeries) :
    ({ m with heap_ := heap, content_ := m.content_ ++ [entry] } :
      GenericTimeSeriesManager).find name = some pointer := by
  unfold find at h ⊢
  show (match (m.content_ ++ [entry]).find? (fun entry => entry.1 == name) with
    | none => none
    | some entry => some entry.2) = some pointer
  cases hf : m.content_.find? (fun entry => entry.1 == name) with
  | none => rw [hf] at h; exact Option.noConfusion h
  | some e =>
    rw [hf] at h
    rw [List.find?_append, hf]
    exact h

theorem find_pushed (m : GenericTimeSeriesManager) (name : String)
    (h : m.find name = none) (pointer : Nat) (heap : List TimeSeries) :
    ({ m with heap_ := heap, content_ := m.content_ ++ [(name, pointer)] } :
      GenericTimeSeriesManager).find name = some pointer := by
  have hnew : ∀ entry ∈ m.content_, ¬ (entry.1 == name) = true := by
    intro entry he hentry
    have hname : entry.1 = name := by simpa using hentry
    exact (find_eq_none_iff m name).mp h (by
      unfold ListTimeSeries
      rw [← hname]
      exact List.mem_map_of_mem _ he)
  unfold find
  show (match (m.content_ ++ [(name, pointer)]).find? (fun entry => entry.1 == name) with
    | none => none
    | some entry => some entry.2) = some pointer
  rw [find_append_new m.content_ name pointer hnew]

theorem find_filter_ne (content : List (String × Nat)) (name other : String)
    (hne : other ≠ name) :
    (content.filter (fun entry => entry.1 != name)).find? (fun entry => entry.1 == other) =
      content.find? (fun entry => entry.1 == other) := by
  induction content with
  | nil => rfl
  | cons e rest ih =>
    by_cases h1 : e.1 = name
    · have h2 : ¬ e.1 = other := fun h => hne (h.symm.trans h1)
      have hb1 : (e.1 != name) = false := by simp [h1]
      have hb2 : (e.1 == other) = false := by simpa using h2
      rw [List.filter_cons, List.find?_cons]
      simp only [hb1, hb2, Bool.false_eq_true, if_false]
      exact ih
    · have hb1 : (e.1 != name) = true := by simpa using h1
      rw [List.filter_cons, List.find?_cons]
      simp only [hb1, if_true]
      rw [List.find?_cons]
      cases hb2 : (e.1 == other) with
      | true => rfl
      | false => exact ih

theorem find_erase_ne (m : GenericTimeSeriesManager) (name other : String) (hne : other ≠ name)
    (heap : List TimeSeries) :
    ({ m with heap_ := heap, content_ := m.content_.filter (fun entry => entry.1 != name) } :
      GenericTimeSeriesManager).find other = m.find other := by
  unfold find
  show (match (m.content_.filter (fun entry => entry.1 != name)).find?
      (fun entry => entry.1 == other) with
    | none => none
    | some entry => some entry.2) = _
  rw [find_filter_ne m.content_ name other hne]

theorem not_mem_erase (m : GenericTimeSeriesManager) (name : String) (heap : List TimeSeries) :
    name ∉ ({ m with heap_ := heap,
                     content_ := m.content_.filter (fun entry => entry.1 != name) } :
      GenericTimeSeriesManager).ListTimeSeries := by
  unfold ListTimeSeries
  show name ∉ (m.content_.filter (fun entry => entry.1 != name)).map Prod.fst
  intro h
  rw [List.mem_map] at h
  obtain ⟨entry, he, hentry⟩ := h
  have := (List.mem_filter.mp he).2
  simp [hentry] at this

/-- Two entries of a well-formed manager with the same pointer have the same name. -/
theorem WellFormed.same_name (m : GenericTimeSeriesManager) (hwf : WellFormed m)
    (name other : String) (pointer : Nat) (h1 : (name, pointer) ∈ m.content_)
    (h2 : (other, pointer) ∈ m.content_) : other = name := by
  have := List.inj_on_of_nodup_map hwf.pointers h2 h1 rfl
  exact congrArg Prod.fst this

/-- The object under a name is deleted and forgotten once `DeleteTimeSeries` has
taken the name off. -/
theorem Detached.of_erase (m : GenericTimeSeriesManager) (hwf : WellFormed m) (name : String)
    (pointer : Nat) (hfind : m.find name = some pointer) (series : TimeSeries) :
    Detached { m with heap_ := m.heap_.set pointer series.Delete.1,
                      content_ := m.content_.filter (fun entry => entry.1 != name) }
      pointer where
  bound := by
    show pointer < (m.heap_.set pointer series.Delete.1).length
    rw [List.length_set]
    exact hwf.valid _ (mem_of_find m name pointer hfind)
  forgotten := by
    intro entry he hentry
    have he : entry ∈ m.content_.filter (fun entry => entry.1 != name) := he
    obtain ⟨hmem, hname⟩ := List.mem_filter.mp he
    have hentry2 : entry = (entry.1, pointer) := by rw [← hentry]
    rw [hentry2] at hmem
    have := WellFormed.same_name m hwf name entry.1 pointer (mem_of_find m name pointer hfind) hmem
    simp [this] at hname
  deleted := by
    intro s hs
    have hs : (m.heap_.set pointer series.Delete.1)[pointer]? = some s := hs
    rw [List.getElem?_set_self (hwf.valid _ (mem_of_find m name pointer hfind))] at hs
    injection hs with hs
    rw [← hs]
    rfl

/-- Without auto-creation, a name that the manager does not have can neither
be opened nor deleted. -/
theorem absent_spec (m : GenericTimeSeriesManager)
    (hauto : ∀ name, (m.factory_.CreateAutoTimeSeries name).2 = none) (name : String)
    (habsent : name ∉ m.ListTimeSeries) :
    (∀ hasSynchronousWait address,
      m.CreateAccessor name hasSynchronousWait address = .error ErrorCode.InexistentItem) ∧
    m.DeleteTimeSeries name = .error ErrorCode.InexistentItem := by
  have hf : m.find name = none := (find_eq_none_iff m name).mpr habsent
  have hget : m.GetTimeSeries name = .error ErrorCode.InexistentItem := by
    rcases GetTimeSeries_cases m name with ⟨p, h, _⟩ | ⟨_, _, h⟩ | ⟨_, backend, h, _⟩
    · rw [hf] at h; exact Option.noConfusion h
    · exact h
    · rw [hauto name] at h; exact Option.noConfusion h
  refine ⟨fun hasSynchronousWait address => ?_, ?_⟩
  · unfold CreateAccessor
    rw [hget]
  · unfold DeleteTimeSeries
    rw [hf]

/-- C17: with a factory that creates no series automatically, in every manager
that the constructor and later calls make, opening a reader or a writer on a
name that the manager does not list raises `InexistentItem`, and so does
`DeleteTimeSeries` on such a name. `DeleteTimeSeries` on a listed name returns;
afterwards the name is not listed, opening a reader or a writer on it raises
`InexistentItem`, and every other name is listed as before, points to the same
object as before, and this object is as it was. -/
theorem DeleteTimeSeries_spec (factory : ITimeSeriesFactory) (m0 : GenericTimeSeriesManager)
    (hcreate : create factory = .ok m0) (history : List Call)
    (hauto : ∀ name, (factory.CreateAutoTimeSeries name).2 = none) (name : String) :
    (name ∉ (m0.calls history).ListTimeSeries →
      (∀ hasSynchronousWait address,
        TimeSeriesReader.createReader (m0.calls history) name hasSynchronousWait address =
          .error ErrorCode.InexistentItem) ∧
      (∀ address, TimeSeriesWriter.createWriter (m0.calls history) name address =
          .error ErrorCode.InexistentItem) ∧
      (m0.calls history).DeleteTimeSeries name = .error ErrorCode.InexistentItem) ∧
    (name ∈ (m0.calls history).ListTimeSeries →
      ∃ m1 notifications,
        (m0.calls history).DeleteTimeSeries name = .ok (m1, notifications) ∧
        name ∉ m1.ListTimeSeries ∧
        (∀ hasSynchronousWait address,
          TimeSeriesReader.createReader m1 name hasSynchronousWait address =
            .error ErrorCode.InexistentItem) ∧
        (∀ address, TimeSeriesWriter.createWriter m1 name address =
            .error ErrorCode.InexistentItem) ∧
        (∀ other, other ≠ name →
          (other ∈ m1.ListTimeSeries ↔ other ∈ (m0.calls history).ListTimeSeries) ∧
          m1.find other = (m0.calls history).find other ∧
          ∀ pointer, (m0.calls history).find other = some pointer →
            m1.heap_[pointer]? = (m0.calls history).heap_[pointer]?)) := by
  obtain ⟨hwf, hfactory⟩ := created_invariant factory m0 hcreate history
  generalize m0.calls history = m at hwf hfactory ⊢
  have hauto1 : ∀ name, (m.factory_.CreateAutoTimeSeries name).2 = none := by
    rw [hfactory]; exact hauto
  constructor
  · intro habsent
    obtain ⟨h1, h2⟩ := absent_spec m hauto1 name habsent
    exact ⟨fun s a => h1 s a, fun a => h1 false a, h2⟩
  · intro hlisted
    have hsome := (find_isSome_iff m name).mpr hlisted
    cases hf : m.find name with
    | none => rw [hf] at hsome; exact absurd hsome (by decide)
    | some found =>
      have hmem := mem_of_find m name found hf
      have hbound := hwf.valid _ hmem
      have hobject : m.heap_[found]? = some (m.heap_.get ⟨found, hbound⟩) :=
        List.getElem?_eq_getElem hbound
      generalize m.heap_.get ⟨found, hbound⟩ = series at hobject
      have hdelete : m.DeleteTimeSeries name =
          .ok ({ m with heap_ := m.heap_.set found series.Delete.1,
                        content_ := m.content_.filter (fun entry => entry.1 != name) },
               series.Delete.2) := by
        unfold DeleteTimeSeries
        rw [hf]
        simp only [hobject]
      refine ⟨_, _, hdelete, not_mem_erase m name _, ?_⟩
      obtain ⟨h1, _⟩ := absent_spec
        { m with heap_ := m.heap_.set found series.Delete.1,
                 content_ := m.content_.filter (fun entry => entry.1 != name) }
        hauto1 name (not_mem_erase m name _)
      refine ⟨fun s a => h1 s a, fun a => h1 false a, ?_⟩
      intro other hne
      have hfind := find_erase_ne m name other hne (m.heap_.set found series.Delete.1)
      refine ⟨?_, hfind, ?_⟩
      · rw [← find_isSome_iff, ← find_isSome_iff, hfind]
      · intro pointer hother
        show (m.heap_.set found series.Delete.1)[pointer]? = m.heap_[pointer]?
        have hdiff : found ≠ pointer := by
          intro h
          rw [← h] at hother
          exact hne (WellFormed.same_name m hwf name other found hmem
            (mem_of_find m other found hother))
        rw [List.getElem?_set_ne hdiff]

/-- C17 on the manager of the unit tests after the creation of two series:
`world` is absent, `hello` is deleted. -/
theorem DeleteTimeSeries_spec_witness :
    create (memoryFactory 0 0) = .ok (emptyManager (memoryFactory 0 0)) ∧
    (∀ name, ((memoryFactory 0 0).CreateAutoTimeSeries name).2 = none) ∧
    ((emptyManager (memoryFactory 0 0)).calls
        [Call.CreateTimeSeries "hello" TimestampType.Sequence,
         Call.CreateTimeSeries "other" TimestampType.Fixed]).DeleteTimeSeries "world" =
      .error ErrorCode.InexistentItem :=
  ⟨rfl, fun _ => rfl,
   ((DeleteTimeSeries_spec (memoryFactory 0 0) (emptyManager (memoryFactory 0 0)) rfl
      [Call.CreateTimeSeries "hello" TimestampType.Sequence,
       Call.CreateTimeSeries "other" TimestampType.Fixed]
      (fun _ => rfl) "world").1 (by decide)).2.2⟩

end GenericTimeSeriesManager

namespace GenericTimeSeriesManager

/-- The object that an accessor was created on stays under its name until the
name is deleted, and is then deleted and forgotten for ever. -/
theorem call_tracked (m : GenericTimeSeriesManager) (hwf : WellFormed m) (name : String)
    (pointer : Nat) (h : m.find name = some pointer ∨ Detached m pointer) (c : Call) :
    (m.call c).find name = some pointer ∨ Detached (m.call c) pointer := by
  rcases h with h | h
  swap
  · exact Or.inr ((call_invariant m hwf c).2.2 pointer h)
  cases c with
  | CreateTimeSeries other type =>
    simp only [call]
    cases hrun : m.CreateTimeSeries other type with
    | error e => exact Or.inl h
    | ok m1 =>
      obtain ⟨_, backend, _, h1⟩ := CreateTimeSeries_ok m m1 other type hrun
      subst h1
      exact Or.inl (find_push m name pointer h _ _)
  | DeleteTimeSeries other =>
    simp only [call]
    cases hrun : m.DeleteTimeSeries other with
    | error e => exact Or.inl h
    | ok result =>
      obtain ⟨m1, notifications⟩ := result
      obtain ⟨found, series, hf, _, _, h1⟩ := DeleteTimeSeries_ok m m1 other notifications hrun
      subst h1
      by_cases hname : name = other
      · subst hname
        rw [h] at hf
        injection hf with hf
        subst hf
        exact Or.inr (Detached.of_erase m hwf name pointer h series)
      · left
        rw [find_erase_ne m other name hname]
        exact h
  | CreateAccessor other hasSynchronousWait address =>
    have hget : ∀ p m1, m.GetTimeSeries other = .ok (p, m1) → m1.find name = some pointer := by
      intro p m1 hrun
      rcases GetTimeSeries_cases m other with ⟨_, _, g⟩ | ⟨_, _, g⟩ | ⟨_, backend, _, g⟩
      · rw [g] at hrun
        injection hrun with hrun
        injection hrun with _ h2
        rw [← h2]
        exact h
      · rw [g] at hrun
        exact Except.noConfusion hrun
      · rw [g] at hrun
        injection hrun with hrun
        injection hrun with _ h2
        rw [← h2]
        exact find_push m name pointer h _ _
    simp only [call]
    cases hrun : m.CreateAccessor other hasSynchronousWait address with
    | error e =>
      cases hrun2 : m.GetTimeSeries other with
      | error e => exact Or.inl h
      | ok result =>
        obtain ⟨p, m1⟩ := result
        exact Or.inl (hget p m1 hrun2)
    | ok result =>
      obtain ⟨accessor, m2⟩ := result
      obtain ⟨m1, hrun2, h2⟩ :=
        CreateAccessor_ok m m2 other hasSynchronousWait address accessor hrun
      have := hget _ m1 hrun2
      rcases h2 with h2 | ⟨object, object1, _, _, h2⟩
      · subst h2
        exact Or.inl this
      · subst h2
        exact Or.inl this
  | DestroyAccessor accessor =>
    simp only [call, DestroyAccessor]
    cases hobserver : accessor.observer_ with
    | none => exact Or.inl h
    | some address =>
      cases hobject : m.heap_[accessor.timeSeries_]? with
      | none => exact Or.inl h
      | some series => exact Or.inl h
  | Write accessor operations =>
    simp only [call]
    cases hrun : m.Write accessor operations with
    | error e => exact Or.inl h
    | ok result =>
      obtain ⟨m1, notifications⟩ := result
      obtain ⟨series, series1, _, _, h1⟩ := Write_ok m m1 accessor operations notifications hrun
      subst h1
      exact Or.inl h

/-- The same for a sequence of calls. -/
theorem calls_tracked (name : String) (pointer : Nat) (history : List Call) :
    ∀ m : GenericTimeSeriesManager, WellFormed m →
      (m.find name = some pointer ∨ Detached m pointer) →
      (m.calls history).find name = some pointer ∨ Detached (m.calls history) pointer := by
  induction history with
  | nil => intro m _ h; exact h
  | cons c rest ih =>
    intro m hwf h
    exact ih (m.call c) (call_invariant m hwf c).1 (call_tracked m hwf name pointer h c)

/-- An accessor points to the object that is under the name when it has been created. -/
theorem CreateAccessor_find (m m2 : GenericTimeSeriesManager) (hwf : WellFormed m)
    (name : String) (hasSynchronousWait : Bool) (address : Nat) (accessor : Accessor)
    (h : m.CreateAccessor name hasSynchronousWait address = .ok (accessor, m2)) :
    WellFormed m2 ∧ m2.find name = some accessor.timeSeries_ := by
  obtain ⟨m1, hrun, h2⟩ := CreateAccessor_ok m m2 name hasSynchronousWait address accessor h
  obtain ⟨hwf1, _, _⟩ := GetTimeSeries_invariant m m1 hwf name _ hrun
  have hfind : m1.find name = some accessor.timeSeries_ := by
    rcases GetTimeSeries_cases m name with ⟨p, hf, g⟩ | ⟨_, _, g⟩ | ⟨hf, backend, _, g⟩
    · rw [g] at hrun
      injection hrun with hrun
      injection hrun with h1 h2
      rw [← h2, ← h1]
      exact hf
    · rw [g] at hrun
      exact Except.noConfusion hrun
    · rw [g] at hrun
      injection hrun with hrun
      injection hrun with h1 h2
      rw [← h2, ← h1]
      exact find_pushed m name hf _ _
  rcases h2 with h2 | ⟨object, object1, _, _, h2⟩
  · subst h2
    exact ⟨hwf1, hfind⟩
  · subst h2
    exact ⟨WellFormed.set m1 hwf1 _ _, hfind⟩

/-- C15: in every manager that the constructor and later calls make, take an
accessor that `CreateAccessor` returns on a name (the accessor of a reader or
of a writer), and let `DeleteTimeSeries` return on that name after any further
calls. Then, whatever calls follow, the accessor locks a series on which every
reader transaction, wherever its cursor is, gets `false` from `SeekFirst`,
`SeekLast`, `SeekNearest`, `SeekNext` and `SeekPrevious` without moving, reads
nothing and reports the statistics `(0, 0)`, and on which a writer transaction
has no last timestamp, gets `false` from `Append` and `DeleteRange` without an
exception and without a change, and notifies nobody when it ends. -/
theorem deleted_series_is_empty (factory : ITimeSeriesFactory) (m0 : GenericTimeSeriesManager)
    (hcreate : create factory = .ok m0) (before : List Call) (name : String)
    (hasSynchronousWait : Bool) (address : Nat) (accessor : Accessor)
    (m1 : GenericTimeSeriesManager)
    (hopen : (m0.calls before).CreateAccessor name hasSynchronousWait address =
      .ok (accessor, m1))
    (between : List Call) (m2 : GenericTimeSeriesManager) (notifications : List Notification)
    (hdelete : (m1.calls between).DeleteTimeSeries name = .ok (m2, notifications))
    (later : List Call) :
    ∃ series, (m2.calls later).Lock accessor = some series ∧
      series.HasBackend = false ∧
      (∀ (valid : Bool) (timestamp target : Int),
        (({ TimeSeriesReader.Transaction.create series with
            valid_ := valid, timestamp_ := timestamp } : TimeSeriesReader.Transaction).SeekFirst
          = (false, { TimeSeriesReader.Transaction.create series with
                      valid_ := valid, timestamp_ := timestamp })) ∧
        (({ TimeSeriesReader.Transaction.create series with
            valid_ := valid, timestamp_ := timestamp } : TimeSeriesReader.Transaction).SeekLast
          = (false, { TimeSeriesReader.Transaction.create series with
                      valid_ := valid, timestamp_ := timestamp })) ∧
        (({ TimeSeriesReader.Transaction.create series with
            valid_ := valid, timestamp_ := timestamp } :
              TimeSeriesReader.Transaction).SeekNearest target
          = (false, { TimeSeriesReader.Transaction.create series with
                      valid_ := valid, timestamp_ := timestamp })) ∧
        (({ TimeSeriesReader.Transaction.create series with
            valid_ := valid, timestamp_ := timestamp } : TimeSeriesReader.Transaction).SeekNext
          = (false, { TimeSeriesReader.Transaction.create series with
                      valid_ := valid, timestamp_ := timestamp })) ∧
        (({ TimeSeriesReader.Transaction.create series with
            valid_ := valid, timestamp_ := timestamp } :
              TimeSeriesReader.Transaction).SeekPrevious
          = (false, { TimeSeriesReader.Transaction.create series with
                      valid_ := valid, timestamp_ := timestamp })) ∧
        (({ TimeSeriesReader.Transaction.create series with
            valid_ := valid, timestamp_ := timestamp } : TimeSeriesReader.Transaction).Read
          = none) ∧
        (({ TimeSeriesReader.Transaction.create series with
            valid_ := valid, timestamp_ := timestamp } :
              TimeSeriesReader.Transaction).GetStatistics
          = (0, 0))) ∧
      (TimeSeriesWriter.Transaction.create series).GetLastTimestamp = none ∧
      (∀ timestamp metadata value,
        (TimeSeriesWriter.Transaction.create series).Append timestamp metadata value =
          .ok (false, TimeSeriesWriter.Transaction.create series)) ∧
      (∀ start stop,
        (TimeSeriesWriter.Transaction.create series).DeleteRange start stop =
          (false, TimeSeriesWriter.Transaction.create series)) ∧
      (TimeSeriesWriter.Transaction.create series).destroy = (series, []) := by
  obtain ⟨hwf, _⟩ := created_invariant factory m0 hcreate before
  obtain ⟨hwf1, hfind1⟩ := CreateAccessor_find _ m1 hwf name hasSynchronousWait address
    accessor hopen
  have hwf2 := (calls_invariant between m1 hwf1).1
  have htracked := calls_tracked name accessor.timeSeries_ between m1 hwf1 (Or.inl hfind1)
  obtain ⟨found, object, hf, _, _, h2⟩ :=
    DeleteTimeSeries_ok (m1.calls between) m2 name notifications hdelete
  have hdetached : Detached m2 accessor.timeSeries_ := by
    rw [h2]
    rcases htracked with h | h
    · rw [h] at hf
      injection hf with hf
      rw [← hf]
      exact Detached.of_erase _ hwf2 name _ h object
    · exact Detached.keep_erase _ _ h name found _
        (fun g => absurd g (h.forgotten _ (mem_of_find _ name found hf)))
  have hwfm2 : WellFormed m2 := by
    rw [h2]
    exact WellFormed.erase _ hwf2 name found _
  have hlater := (calls_invariant later m2 hwfm2).2.2 _ hdetached
  have hobject : (m2.calls later).heap_[accessor.timeSeries_]? =
      some ((m2.calls later).heap_.get ⟨accessor.timeSeries_, hlater.bound⟩) :=
    List.getElem?_eq_getElem hlater.bound
  generalize (m2.calls later).heap_.get ⟨accessor.timeSeries_, hlater.bound⟩ = series
    at hobject
  have hnone : series.backend_ = none := hlater.deleted series hobject
  have hreader : ∀ (valid : Bool) (timestamp : Int),
      ({ TimeSeriesReader.Transaction.create series with
         valid_ := valid, timestamp_ := timestamp } : TimeSeriesReader.Transaction) =
      { transaction_ := none, valid_ := valid, timestamp_ := timestamp } := by
    intro valid timestamp
    simp [TimeSeriesReader.Transaction.create, TimeSeries.HasBackend, hnone]
  have hwriter : TimeSeriesWriter.Transaction.create series =
      { lock_ := series, transaction_ := none, modified_ := false } := by
    simp [TimeSeriesWriter.Transaction.create, TimeSeries.HasBackend, hnone]
  refine ⟨series, hobject, by simp [TimeSeries.HasBackend, hnone], ?_, ?_, ?_, ?_, ?_⟩
  · intro valid timestamp target
    rw [hreader valid timestamp]
    cases valid <;>
      simp [TimeSeriesReader.Transaction.SeekFirst, TimeSeriesReader.Transaction.SeekLast,
        TimeSeriesReader.Transaction.SeekNearest, TimeSeriesReader.Transaction.SeekNext,
        TimeSeriesReader.Transaction.SeekPrevious, TimeSeriesReader.Transaction.Read,
        TimeSeriesReader.Transaction.GetStatistics]
  · rw [hwriter]; rfl
  · intro timestamp metadata value
    rw [hwriter]; rfl
  · intro start stop
    rw [hwriter]; rfl
  · rw [hwriter]
    cases series
    simp only [TimeSeriesWriter.Transaction.destroy] at hnone ⊢
    simp [hnone]

end GenericTimeSeriesManager

/-! ## Lemmas and claims on the LoRa payloads -/

namespace LoRa

theorem byteAt_lt (data : Bytes) (i : Nat) : byteAt data i < 256 :=
  UInt8.toNat_lt _

theorem byteAt_cons_succ (byte : UInt8) (data : Bytes) (i : Nat) :
    byteAt (byte :: data) (i + 1) = byteAt data i := rfl

theorem byteAt_eq (data : Bytes) (i : Nat) (byte : UInt8) (h : data[i]? = some byte) :
    byteAt data i = byte.toNat := by
  unfold byteAt
  rw [List.getD_eq_getElem?_getD, h]
  rfl

/-- The four bytes that `le32` reads, the least significant one first. -/
theorem le32_eq (offset : Nat) : ∀ (data : Bytes), offset + 4 ≤ data.length →
    le32 data offset =
      byteAt data offset + 256 * byteAt data (offset + 1) +
        65536 * byteAt data (offset + 2) + 16777216 * byteAt data (offset + 3) := by
  induction offset with
  | zero =>
    intro data h
    match data, h with
    | b0 :: b1 :: b2 :: b3 :: rest, _ =>
      simp only [le32, List.drop_zero, List.take_succ_cons, List.take_zero, List.foldr_cons,
        List.foldr_nil, byteAt, List.getD_cons_zero, List.getD_cons_succ]
      omega
  | succ offset ih =>
    intro data h
    match data, h with
    | b0 :: rest, h =>
      have h1 : offset + 4 ≤ rest.length := by
        simp only [List.length_cons] at h
        omega
      have := ih rest h1
      simp only [le32, List.drop_succ_cons] at this ⊢
      rw [this]
      rfl

/-- The two bytes that `le16` reads, the least significant one first. -/
theorem le16_eq (offset : Nat) : ∀ (data : Bytes), offset + 2 ≤ data.length →
    le16 data offset = byteAt data offset + 256 * byteAt data (offset + 1) := by
  induction offset with
  | zero =>
    intro data h
    match data, h with
    | b0 :: b1 :: rest, _ =>
      simp only [le16, List.drop_zero, List.take_succ_cons, List.take_zero, List.foldr_cons,
        List.foldr_nil, byteAt, List.getD_cons_zero, List.getD_cons_succ]
      omega
  | succ offset ih =>
    intro data h
    match data, h with
    | b0 :: rest, h =>
      have h1 : offset + 2 ≤ rest.length := by
        simp only [List.length_cons] at h
        omega
      have := ih rest h1
      simp only [le16, List.drop_succ_cons] at this ⊢
      rw [this]
      rfl

namespace PHYPayload

/-- C18: a buffer shorter than 5 bytes is rejected with `NetworkProtocol`. A
buffer of 5 bytes or more is parsed; MHDR is its byte 0; the message type is
the one that the list JoinRequest, JoinAccept, UnconfirmedDataUp,
UnconfirmedDataDown, ConfirmedDataUp, ConfirmedDataDown, Reserved, Proprietary
has at the place given by the bits 7..5 of MHDR; RFU is the bits 4..2 and the
major the bits 1..0 of MHDR; MIC is the number that the last four bytes make,
the first of them being the least significant. -/
theorem PHYPayload_spec (buffer : Bytes) :
    (buffer.length < 5 → FromBuffer buffer = .error ErrorCode.NetworkProtocol) ∧
    (5 ≤ buffer.length → ∃ p, FromBuffer buffer = .ok p ∧
      p.buffer_ = buffer ∧
      buffer[0]? = some (UInt8.ofNat p.GetMHDR) ∧ p.GetMHDR < 256 ∧
      [MessageType.JoinRequest, MessageType.JoinAccept, MessageType.UnconfirmedDataUp,
       MessageType.UnconfirmedDataDown, MessageType.ConfirmedDataUp,
       MessageType.ConfirmedDataDown, MessageType.Reserved,
       MessageType.Proprietary][p.GetMHDR / 2 ^ 5 % 2 ^ 3]? = some p.GetMessageType ∧
      p.GetRFU = p.GetMHDR / 2 ^ 2 % 2 ^ 3 ∧
      p.GetMajor = p.GetMHDR % 2 ^ 2 ∧
      p.GetMIC = byteAt buffer (buffer.length - 4) +
        2 ^ 8 * byteAt buffer (buffer.length - 3) +
        2 ^ 16 * byteAt buffer (buffer.length - 2) +
        2 ^ 24 * byteAt buffer (buffer.length - 1)) := by
  constructor
  · intro h
    simp [FromBuffer, Parse, h]
  · intro h
    have hlen : ¬ buffer.length < 5 := by omega
    have hbyte : byteAt buffer 0 < 256 := byteAt_lt buffer 0
    have hcode : byteAt buffer 0 >>> 5 = byteAt buffer 0 / 2 ^ 5 % 2 ^ 3 := by
      rw [Nat.shiftRight_eq_div_pow]
      omega
    have hrfu : (byteAt buffer 0 >>> 2) &&& 0x07 = byteAt buffer 0 / 2 ^ 2 % 2 ^ 3 := by
      rw [Nat.shiftRight_eq_div_pow]
      exact Nat.and_pow_two_sub_one_eq_mod _ 3
    have hmajor : byteAt buffer 0 &&& 0x03 = byteAt buffer 0 % 2 ^ 2 :=
      Nat.and_pow_two_sub_one_eq_mod _ 2
    have hmic := le32_eq (buffer.length - 4) buffer (by omega)
    have h3 : buffer.length - 4 + 1 = buffer.length - 3 := by omega
    have h2 : buffer.length - 4 + 2 = buffer.length - 2 := by omega
    have h1 : buffer.length - 4 + 3 = buffer.length - 1 := by omega
    rw [h3, h2, h1] at hmic
    have hfirst : buffer[0]? = some (UInt8.ofNat (byteAt buffer 0)) := by
      match buffer, h with
      | b0 :: rest, _ =>
        simp only [byteAt, List.getD_cons_zero, List.getElem?_cons_zero]
        congr 1
        cases b0 with
        | mk val =>
          apply UInt8.ext
          simp [UInt8.toNat, UInt8.ofNat, Fin.ofNat, Nat.mod_eq_of_lt val.isLt]
    have hk : byteAt buffer 0 / 2 ^ 5 % 2 ^ 3 < 8 := Nat.mod_lt _ (by norm_num)
    simp only [FromBuffer, Parse, hlen, if_false, hcode]
    have hsum : le32 buffer (buffer.length - 4) =
        byteAt buffer (buffer.length - 4) + 2 ^ 8 * byteAt buffer (buffer.length - 3) +
          2 ^ 16 * byteAt buffer (buffer.length - 2) +
          2 ^ 24 * byteAt buffer (buffer.length - 1) := by
      rw [hmic]
      norm_num
    generalize hkeq : byteAt buffer 0 / 2 ^ 5 % 2 ^ 3 = k at hk
    interval_cases k <;>
      exact ⟨_, rfl, rfl, hfirst, hbyte, by
        show [MessageType.JoinRequest, MessageType.JoinAccept, MessageType.UnconfirmedDataUp,
          MessageType.UnconfirmedDataDown, MessageType.ConfirmedDataUp,
          MessageType.ConfirmedDataDown, MessageType.Reserved,
          MessageType.Proprietary][byteAt buffer 0 / 2 ^ 5 % 2 ^ 3]? = _
        rw [hkeq]
        rfl, hrfu, hmajor, hsum⟩

/-- C18 on the physical payload of the test `PHYPayload3`. -/
theorem PHYPayload_spec_witness :
    5 ≤ phyPayload3.length ∧
    ∃ p, FromBuffer phyPayload3 = .ok p ∧ p.GetMHDR < 256 ∧ p.GetRFU = p.GetMHDR / 2 ^ 2 % 2 ^ 3 :=
  ⟨by decide,
   Exists.imp (fun _ h => ⟨h.1, h.2.2.2.1, h.2.2.2.2.2.1⟩)
     ((PHYPayload_spec phyPayload3).2 (by decide))⟩

end PHYPayload

end LoRa

namespace LoRa

theorem substr_eq (s : Bytes) (pos len : Nat) (h : pos + len ≤ s.length) :
    ∃ result, substr s pos len = some result ∧ result.length = len ∧
      ∀ i, i < len → result[i]? = s[pos + i]? := by
  refine ⟨(s.drop pos).take len, ?_, ?_, ?_⟩
  · unfold substr
    have : ¬ pos > s.length := by omega
    simp only [this, if_false]
  · rw [List.length_take, List.length_drop]
    omega
  · intro i hi
    rw [List.getElem?_take_of_lt hi, List.getElem?_drop]

namespace MACPayload

/-- What `Parse` stores for a buffer that it accepts. -/
theorem Parse_ok (buffer : Bytes) (hsize : 7 ≤ buffer.length)
    (hoptions : 7 + byteAt buffer 4 % 2 ^ 4 ≤ buffer.length) :
    ∃ p, Parse buffer = .ok p ∧ p.buffer_ = buffer ∧
      p.deviceAddress_ = le32 buffer 0 ∧ p.fctrl_ = byteAt buffer 4 ∧
      p.frameCounter_ = le16 buffer 5 ∧ p.foptsLength_ = byteAt buffer 4 % 2 ^ 4 ∧
      (buffer.length = 7 + byteAt buffer 4 % 2 ^ 4 →
        p.fport_ = 0 ∧ p.frameOffset_ = 7 + byteAt buffer 4 % 2 ^ 4 ∧ p.frameSize_ = 0) ∧
      (buffer.length ≠ 7 + byteAt buffer 4 % 2 ^ 4 →
        p.fport_ = byteAt buffer (7 + byteAt buffer 4 % 2 ^ 4) ∧
        p.frameOffset_ = 8 + byteAt buffer 4 % 2 ^ 4 ∧
        p.frameSize_ =
          if buffer.length = 9 + byteAt buffer 4 % 2 ^ 4 then 0
          else buffer.length - (8 + byteAt buffer 4 % 2 ^ 4)) := by
  have hmask : byteAt buffer 4 &&& 0x0f = byteAt buffer 4 % 2 ^ 4 :=
    Nat.and_pow_two_sub_one_eq_mod _ 4
  have h1 : ¬ buffer.length < 7 := by omega
  have h2 : ¬ buffer.length < 7 + byteAt buffer 4 % 2 ^ 4 := by omega
  by_cases h3 : buffer.length = 7 + byteAt buffer 4 % 2 ^ 4
  · refine ⟨_, by simp only [Parse, h1, if_false, hmask, h2]; rw [if_pos h3], rfl, rfl, rfl,
      rfl, rfl, fun _ => ⟨rfl, rfl, rfl⟩, fun h => absurd h3 h⟩
  · refine ⟨_, by simp only [Parse, h1, if_false, hmask, h2]; rw [if_neg h3], rfl, rfl, rfl,
      rfl, rfl, fun h => absurd h h3, fun _ => ⟨rfl, ?_, ?_⟩⟩
    · show 7 + byteAt buffer 4 % 2 ^ 4 + 1 = _
      omega
    · show (if buffer.length = 7 + byteAt buffer 4 % 2 ^ 4 + 1 + 1 then 0
        else buffer.length - (7 + byteAt buffer 4 % 2 ^ 4 + 1)) = _
      have e1 : 7 + byteAt buffer 4 % 2 ^ 4 + 1 + 1 = 9 + byteAt buffer 4 % 2 ^ 4 := by omega
      have e2 : 7 + byteAt buffer 4 % 2 ^ 4 + 1 = 8 + byteAt buffer 4 % 2 ^ 4 := by omega
      rw [e1, e2]

/-- C19: a MAC payload is rejected with `NetworkProtocol` exactly when it is
shorter than 7 bytes or shorter than 7 + FOptsLen, FOptsLen being the low four
bits of its byte 4. Every other buffer is parsed: DevAddr is the number that
the bytes 0..3 make and FCnt the number that the bytes 5..6 make, in both the
first byte being the least significant, FCtrl is the byte 4, and `GetFOpts`
returns FOptsLen bytes, which are those of the buffer from the offset 7 on. -/
theorem MACPayload_spec (buffer : Bytes) :
    (FromBuffer buffer = .error ErrorCode.NetworkProtocol ↔
      (buffer.length < 7 ∨ buffer.length < 7 + byteAt buffer 4 % 2 ^ 4)) ∧
    (¬ (buffer.length < 7 ∨ buffer.length < 7 + byteAt buffer 4 % 2 ^ 4) →
      ∃ p, FromBuffer buffer = .ok p ∧ p.buffer_ = buffer ∧
        p.GetDeviceAddress = byteAt buffer 0 + 2 ^ 8 * byteAt buffer 1 +
          2 ^ 16 * byteAt buffer 2 + 2 ^ 24 * byteAt buffer 3 ∧
        p.GetFCtrl = byteAt buffer 4 ∧
        p.GetFrameCounter = byteAt buffer 5 + 2 ^ 8 * byteAt buffer 6 ∧
        p.GetFOptsLength = byteAt buffer 4 % 2 ^ 4 ∧
        ∃ options, p.GetFOpts = some options ∧ options.length = byteAt buffer 4 % 2 ^ 4 ∧
          ∀ i, i < byteAt buffer 4 % 2 ^ 4 → options[i]? = buffer[7 + i]?) := by
  have hmask : byteAt buffer 4 &&& 0x0f = byteAt buffer 4 % 2 ^ 4 :=
    Nat.and_pow_two_sub_one_eq_mod _ 4
  have haccepted : ¬ (buffer.length < 7 ∨ buffer.length < 7 + byteAt buffer 4 % 2 ^ 4) →
      ∃ p, FromBuffer buffer = .ok p ∧ p.buffer_ = buffer ∧
        p.GetDeviceAddress = byteAt buffer 0 + 2 ^ 8 * byteAt buffer 1 +
          2 ^ 16 * byteAt buffer 2 + 2 ^ 24 * byteAt buffer 3 ∧
        p.GetFCtrl = byteAt buffer 4 ∧
        p.GetFrameCounter = byteAt buffer 5 + 2 ^ 8 * byteAt buffer 6 ∧
        p.GetFOptsLength = byteAt buffer 4 % 2 ^ 4 ∧
        ∃ options, p.GetFOpts = some options ∧ options.length = byteAt buffer 4 % 2 ^ 4 ∧
          ∀ i, i < byteAt buffer 4 % 2 ^ 4 → options[i]? = buffer[7 + i]? := by
    intro h
    have hsize : 7 ≤ buffer.length := by omega
    have hoptions : 7 + byteAt buffer 4 % 2 ^ 4 ≤ buffer.length := by omega
    obtain ⟨p, hp, hbuffer, haddress, hfctrl, hcounter, hlength, _, _⟩ :=
      Parse_ok buffer hsize hoptions
    refine ⟨p, hp, hbuffer, ?_, hfctrl, ?_, hlength, ?_⟩
    · show p.deviceAddress_ = _
      rw [haddress, le32_eq 0 buffer (by omega)]
      norm_num
    · show p.frameCounter_ = _
      rw [hcounter, le16_eq 5 buffer (by omega)]
      norm_num
    · show ∃ options, substr p.buffer_ 7 p.foptsLength_ = some options ∧ _
      rw [hbuffer, hlength]
      exact substr_eq buffer 7 _ hoptions
  refine ⟨⟨fun h => ?_, fun h => ?_⟩, haccepted⟩
  · by_contra hnot
    obtain ⟨p, hp, _⟩ := haccepted hnot
    rw [hp] at h
    exact Except.noConfusion h
  · unfold FromBuffer Parse
    by_cases h1 : buffer.length < 7
    · simp only [h1, if_true]
    · have h2 : buffer.length < 7 + byteAt buffer 4 % 2 ^ 4 := by omega
      simp only [h1, if_false, hmask, h2, if_true]

/-- C19 on the MAC payload of the test `PHYPayload3`. -/
theorem MACPayload_spec_witness :
    ¬ (macPayload3.length < 7 ∨ macPayload3.length < 7 + byteAt macPayload3 4 % 2 ^ 4) ∧
    ∃ p, FromBuffer macPayload3 = .ok p ∧ p.buffer_ = macPayload3 ∧
      p.GetDeviceAddress = byteAt macPayload3 0 + 2 ^ 8 * byteAt macPayload3 1 +
        2 ^ 16 * byteAt macPayload3 2 + 2 ^ 24 * byteAt macPayload3 3 :=
  ⟨by decide,
   Exists.imp (fun _ h => ⟨h.1, h.2.1, h.2.2.1⟩) ((MACPayload_spec macPayload3).2 (by decide))⟩

/-- C20 at a MAC payload of 9 bytes without options, whose FPort is followed
by the one byte `0x95`: `Parse` accepts it with FPort 1, but stores the frame
size 0, and `GetFramePayload` returns the empty string, whereas one byte
follows the FPort in the buffer. With four bytes after the FPort (the test
`PHYPayload3`) the frame size is 4 and the four bytes are returned. -/
theorem one_byte_payload_is_dropped :
    macPayloadOneByte.length = 9 ∧ byteAt macPayloadOneByte 4 % 2 ^ 4 = 0 ∧
    macPayloadOneByte.drop 8 = [0x95] ∧
    (∃ p, FromBuffer macPayloadOneByte = .ok p ∧ p.GetFPort = 1 ∧ p.GetFrameSize = 0 ∧
      p.GetFramePayload = some []) ∧
    (∃ p, FromBuffer macPayload3 = .ok p ∧ p.GetFPort = 1 ∧ p.GetFrameSize = 4 ∧
      p.GetFramePayload = some [0x95, 0x43, 0x78, 0x76]) := by
  refine ⟨by decide, by decide, by decide, ⟨_, rfl, ?_⟩, ⟨_, rfl, ?_⟩⟩ <;> decide

end MACPayload

end LoRa

namespace GenericTimeSeriesManager

/-- C15 on the manager of the unit tests: the series `hello` is created, opened
by a synchronous reader, deleted, and created again under the same name. -/
theorem deleted_series_is_empty_witness :
    create (memoryFactory 0 0) = .ok (emptyManager (memoryFactory 0 0)) ∧
    ((emptyManager (memoryFactory 0 0)).calls
        [Call.CreateTimeSeries "hello" TimestampType.Sequence]).CreateAccessor "hello" true 7 =
      .ok (helloAccessor, openedManager) ∧
    (openedManager.calls []).DeleteTimeSeries "hello" =
      .ok (deletedManager, [Notification.SeriesDeleted 7 "hello"]) ∧
    ∃ series,
      (deletedManager.calls [Call.CreateTimeSeries "hello" TimestampType.Fixed]).Lock
        helloAccessor = some series ∧
      series.HasBackend = false :=
  ⟨rfl, rfl, rfl,
   Exists.imp (fun _ h => ⟨h.1, h.2.1⟩)
     (deleted_series_is_empty (memoryFactory 0 0) (emptyManager (memoryFactory 0 0)) rfl
       [Call.CreateTimeSeries "hello" TimestampType.Sequence] "hello" true 7 helloAccessor
       openedManager rfl [] deletedManager [Notification.SeriesDeleted 7 "hello"] rfl
       [Call.CreateTimeSeries "hello" TimestampType.Fixed])⟩

/-- C16, amended, on the manager of the unit tests without series. -/
theorem CreateTimeSeries_spec_witness :
    "hello" ∉ (emptyManager (memoryFactory 0 0)).ListTimeSeries ∧
    ∃ m1, (emptyManager (memoryFactory 0 0)).CreateTimeSeries "hello" TimestampType.Sequence =
        .ok m1 ∧
      m1.ListTimeSeries = (emptyManager (memoryFactory 0 0)).ListTimeSeries ++ ["hello"] :=
  ⟨by decide,
   Exists.imp (fun _ h => ⟨h.1, h.2.1⟩)
     ((CreateTimeSeries_spec (emptyManager (memoryFactory 0 0)) "hello"
       TimestampType.Sequence).2 (by decide) (MemoryTimeSeriesContent.create 0 0) rfl)⟩

end GenericTimeSeriesManager

namespace LoRa

namespace MACPayload

/-- What `GetFramePayload` returns for a buffer that `Parse` accepts, except at
the size 9 + FOptsLen: nothing at the size 7 + FOptsLen, and else the bytes
that follow the FPort. -/
theorem GetFramePayload_eq (buffer : Bytes) (hsize : 7 ≤ buffer.length)
    (hoptions : 7 + byteAt buffer 4 % 2 ^ 4 ≤ buffer.length) :
    ∃ p, Parse buffer = .ok p ∧
      (buffer.length = 7 + byteAt buffer 4 % 2 ^ 4 →
        p.GetFrameSize = 0 ∧ p.GetFramePayload = some []) ∧
      (buffer.length ≠ 7 + byteAt buffer 4 % 2 ^ 4 →
        buffer.length ≠ 9 + byteAt buffer 4 % 2 ^ 4 →
        p.GetFPort = byteAt buffer (7 + byteAt buffer 4 % 2 ^ 4) ∧
        p.GetFrameSize = buffer.length - 8 - byteAt buffer 4 % 2 ^ 4 ∧
        p.GetFramePayload = some (buffer.drop (8 + byteAt buffer 4 % 2 ^ 4))) ∧
      (buffer.length = 9 + byteAt buffer 4 % 2 ^ 4 →
        p.GetFrameSize = 0 ∧ p.GetFramePayload = some []) := by
  obtain ⟨p, hp, hbuffer, _, _, _, _, hnone, hsome⟩ := Parse_ok buffer hsize hoptions
  refine ⟨p, hp, fun h => ?_, fun h1 h2 => ?_, fun h => ?_⟩
  · obtain ⟨_, hoffset, hframe⟩ := hnone h
    refine ⟨hframe, ?_⟩
    unfold GetFramePayload substr
    rw [hbuffer, hoffset, hframe]
    have : ¬ 7 + byteAt buffer 4 % 2 ^ 4 > buffer.length := by omega
    simp only [this, if_false, List.take_zero]
  · obtain ⟨hport, hoffset, hframe⟩ := hsome h1
    rw [if_neg h2] at hframe
    refine ⟨hport, by show p.frameSize_ = _; rw [hframe]; omega, ?_⟩
    unfold GetFramePayload substr
    rw [hbuffer, hoffset, hframe]
    have : ¬ 8 + byteAt buffer 4 % 2 ^ 4 > buffer.length := by omega
    simp only [this, if_false]
    rw [List.take_of_length_le (by rw [List.length_drop])]
  · obtain ⟨_, hoffset, hframe⟩ := hsome (by omega)
    rw [if_pos h] at hframe
    refine ⟨hframe, ?_⟩
    unfold GetFramePayload substr
    rw [hbuffer, hoffset, hframe]
    have : ¬ 8 + byteAt buffer 4 % 2 ^ 4 > buffer.length := by omega
    simp only [this, if_false, List.take_zero]

end MACPayload

end LoRa

/-! ## Lemmas and claims on the header and the flags of a MAC payload -/

namespace LoRa

namespace MACPayload

/-- What `GetFHDR` returns for a buffer that `Parse` accepts: the first
7 + FOptsLen bytes when an FPort follows them, and one byte less when none does. -/
theorem GetFHDR_eq (buffer : Bytes) (hsize : 7 ≤ buffer.length)
    (hoptions : 7 + byteAt buffer 4 % 2 ^ 4 ≤ buffer.length) :
    ∃ p, Parse buffer = .ok p ∧
      (buffer.length ≠ 7 + byteAt buffer 4 % 2 ^ 4 →
        p.GetFHDR = some (buffer.take (7 + byteAt buffer 4 % 2 ^ 4))) ∧
      (buffer.length = 7 + byteAt buffer 4 % 2 ^ 4 →
        p.GetFHDR = some (buffer.take (6 + byteAt buffer 4 % 2 ^ 4))) := by
  obtain ⟨p, hp, hbuffer, _, _, _, _, hnone, hsome⟩ := Parse_ok buffer hsize hoptions
  refine ⟨p, hp, fun h => ?_, fun h => ?_⟩
  · obtain ⟨_, hoffset, _⟩ := hsome h
    unfold GetFHDR substr
    rw [hbuffer, hoffset]
    have e : 8 + byteAt buffer 4 % 2 ^ 4 - 1 = 7 + byteAt buffer 4 % 2 ^ 4 := by omega
    simp [e]
  · obtain ⟨_, hoffset, _⟩ := hnone h
    unfold GetFHDR substr
    rw [hbuffer, hoffset]
    have e : 7 + byteAt buffer 4 % 2 ^ 4 - 1 = 6 + byteAt buffer 4 % 2 ^ 4 := by omega
    simp [e]

/-- C21 at a MAC payload of 7 bytes without options, which `Parse` accepts and
which has no FPort: `GetFHDR` returns its first 6 bytes only, whereas the header
(DevAddr, FCtrl, FCnt) is the 7 bytes. With an FPort after the header (the test
`PHYPayload3`) `GetFHDR` returns the 7 bytes. -/
theorem GetFHDR_without_FPort_is_short :
    macPayloadNoFPort.length = 7 + byteAt macPayloadNoFPort 4 % 2 ^ 4 ∧
    (∃ p, FromBuffer macPayloadNoFPort = .ok p ∧ p.GetFOptsLength = 0 ∧
      p.GetFHDR = some [0xF1, 0x7D, 0xBE, 0x49, 0x00, 0x02] ∧
      p.GetFHDR ≠ some (macPayloadNoFPort.take 7)) ∧
    (∃ p, FromBuffer macPayload3 = .ok p ∧ p.GetFOptsLength = 0 ∧
      p.GetFHDR = some (macPayload3.take 7)) := by
  refine ⟨by decide, ⟨_, rfl, ?_⟩, ⟨_, rfl, ?_⟩⟩ <;> decide

/-- The function `HasBit` tests the bit of the given rank. -/
theorem HasBit_eq (value bit : Nat) : HasBit value bit = decide (value / 2 ^ bit % 2 = 1) := by
  rw [← Nat.testBit_to_div_mod]
  unfold HasBit
  rw [Nat.one_shiftLeft]
  cases h : value.testBit bit with
  | true =>
    have h1 : (value &&& 2 ^ bit).testBit bit = true := by
      rw [Nat.testBit_and, h, Nat.testBit_two_pow_self]
      rfl
    have h2 : value &&& 2 ^ bit ≠ 0 := by
      intro h0
      rw [h0, Nat.zero_testBit] at h1
      exact Bool.noConfusion h1
    simpa using h2
  | false =>
    have h2 : value &&& 2 ^ bit = 0 := by
      apply Nat.eq_of_testBit_eq
      intro i
      rw [Nat.testBit_and, Nat.zero_testBit, Nat.testBit_two_pow]
      by_cases hi : bit = i
      · subst hi
        rw [h]
        rfl
      · simp [hi]
    simp [h2]

/-- C22: for every FCtrl byte, `HasADR` is its bit 7 and `HasACK` its bit 5,
whatever the direction; `HasADRACKReq` is the bit 6 for an uplink and raises
`ParameterOutOfRange` for a downlink; `GetFPending` is the bit 4 for a downlink
and raises `ParameterOutOfRange` for an uplink; `HasRFU` is the bit 4 for an
uplink and the bit 6 for a downlink. -/
theorem FCtrl_flags (p : MACPayload) :
    p.HasADR = decide (p.GetFCtrl / 2 ^ 7 % 2 = 1) ∧
    p.HasACK = decide (p.GetFCtrl / 2 ^ 5 % 2 = 1) ∧
    p.HasADRACKReq MessageDirection.Uplink = .ok (decide (p.GetFCtrl / 2 ^ 6 % 2 = 1)) ∧
    p.HasADRACKReq MessageDirection.Downlink = .error ErrorCode.ParameterOutOfRange ∧
    p.GetFPending MessageDirection.Downlink = .ok (decide (p.GetFCtrl / 2 ^ 4 % 2 = 1)) ∧
    p.GetFPending MessageDirection.Uplink = .error ErrorCode.ParameterOutOfRange ∧
    p.HasRFU MessageDirection.Uplink = decide (p.GetFCtrl / 2 ^ 4 % 2 = 1) ∧
    p.HasRFU MessageDirection.Downlink = decide (p.GetFCtrl / 2 ^ 6 % 2 = 1) := by
  refine ⟨HasBit_eq _ 7, HasBit_eq _ 5, ?_, rfl, ?_, rfl, HasBit_eq _ 4, HasBit_eq _ 6⟩
  · show Except.ok (HasBit p.fctrl_ 6) = _
    rw [HasBit_eq]
    rfl
  · show Except.ok (HasBit p.fctrl_ 4) = _
    rw [HasBit_eq]
    rfl

end MACPayload

end LoRa

/-! ## Lemmas and claims on hexadecimal strings -/

namespace LoRa

/-- A property of all bytes holds when it holds for the bytes of rank 0 to 255. -/
theorem forall_byte (P : UInt8 → Prop) (h : ∀ i : Fin 256, P (UInt8.ofNat i.val)) :
    ∀ b : UInt8, P b := by
  intro b
  have hb : UInt8.ofNat b.toNat = b := by
    cases b with
    | mk v =>
      show UInt8.mk (BitVec.ofNat 8 v.toNat) = UInt8.mk v
      rw [BitVec.ofNat_toNat, BitVec.setWidth_eq]
  rw [← hb]
  exact h ⟨b.toNat, UInt8.toNat_lt b⟩

namespace LoRaToolbox

/-- Parsing the two characters of a byte gives the byte back. -/
theorem parse_format_byte (upcase : Bool) : ∀ value : UInt8,
    GetHexadecimalValuePair (ToHexadecimalCharacters value upcase).1
      (ToHexadecimalCharacters value upcase).2 = .ok value := by
  cases upcase
  · apply forall_byte
    decide!
  · apply forall_byte
    decide!

theorem length_FormatHexadecimal (upcase : Bool) : ∀ buffer : Bytes,
    (FormatHexadecimal buffer upcase).length = 2 * buffer.length
  | [] => rfl
  | value :: rest => by
    simp only [FormatHexadecimal, List.length_cons, length_FormatHexadecimal upcase rest]
    omega

theorem loop_FormatHexadecimal (upcase : Bool) : ∀ buffer : Bytes,
    ParseHexadecimal.loop (FormatHexadecimal buffer upcase) = .ok buffer
  | [] => rfl
  | value :: rest => by
    simp only [FormatHexadecimal, ParseHexadecimal.loop, parse_format_byte upcase value,
      loop_FormatHexadecimal upcase rest]

/-- The value of a character is known exactly for the characters 0-9, a-f, A-F. -/
theorem GetHexadecimalValue_isOk (c : UInt8) :
    (∃ v, GetHexadecimalValue c = .ok v) ↔
      ((0x30 ≤ c ∧ c ≤ 0x39) ∨ (0x61 ≤ c ∧ c ≤ 0x66) ∨ (0x41 ≤ c ∧ c ≤ 0x46)) := by
  unfold GetHexadecimalValue
  by_cases h1 : 0x61 ≤ c ∧ c ≤ 0x66
  · simp [h1]
  · by_cases h2 : 0x41 ≤ c ∧ c ≤ 0x46
    · simp [h1, h2]
    · by_cases h3 : 0x30 ≤ c ∧ c ≤ 0x39
      · simp [h1, h2, h3]
      · simp [h1, h2, h3]

theorem GetHexadecimalValue_error (c : UInt8) (e : ErrorCode)
    (h : GetHexadecimalValue c = .error e) : e = ErrorCode.ParameterOutOfRange := by
  unfold GetHexadecimalValue at h
  split at h
  · exact Except.noConfusion h
  · split at h
    · exact Except.noConfusion h
    · split at h
      · exact Except.noConfusion h
      · injection h with h
        exact h.symm

/-- The character that `ToHexadecimalCharacters` writes for a digit below 16. -/
theorem format_nibbles (upcase : Bool) : ∀ high low : Fin 16,
    ToHexadecimalCharacters (UInt8.ofNat high.val * 16 + UInt8.ofNat low.val) upcase =
      (if UInt8.ofNat high.val < 10 then 0x30 + UInt8.ofNat high.val
        else (if upcase then 0x41 else 0x61) + (UInt8.ofNat high.val - 10),
       if UInt8.ofNat low.val < 10 then 0x30 + UInt8.ofNat low.val
        else (if upcase then 0x41 else 0x61) + (UInt8.ofNat low.val - 10)) := by
  cases upcase
  · decide!
  · decide!

/-- The value of a character is below 16, and written back as a digit it is
the character in the letter case that is asked for. -/
theorem digit_of_value (c v : UInt8) (hv : GetHexadecimalValue c = .ok v) :
    v.toNat < 16 ∧
    (if v < 10 then 0x30 + v else 0x41 + (v - 10)) =
      (if 0x61 ≤ c ∧ c ≤ 0x66 then c - 0x20 else c) ∧
    (if v < 10 then 0x30 + v else 0x61 + (v - 10)) =
      (if 0x41 ≤ c ∧ c ≤ 0x46 then c + 0x20 else c) := by
  have h : ∀ i : Fin 256,
      (match GetHexadecimalValue (UInt8.ofNat i.val) with
        | .error _ => true
        | .ok v =>
          decide (v.toNat < 16) &&
          decide ((if v < 10 then 0x30 + v else 0x41 + (v - 10)) =
            (if 0x61 ≤ UInt8.ofNat i.val ∧ UInt8.ofNat i.val ≤ 0x66
              then UInt8.ofNat i.val - 0x20 else UInt8.ofNat i.val)) &&
          decide ((if v < 10 then 0x30 + v else 0x61 + (v - 10)) =
            (if 0x41 ≤ UInt8.ofNat i.val ∧ UInt8.ofNat i.val ≤ 0x46
              then UInt8.ofNat i.val + 0x20 else UInt8.ofNat i.val))) = true := by
    decide!
  revert v
  revert c
  apply forall_byte
  intro i v hv
  have := h i
  rw [hv] at this
  simp only [Bool.and_eq_true, decide_eq_true_eq] at this
  exact ⟨this.1.1, this.1.2, this.2⟩

end LoRaToolbox

end LoRa

namespace LoRa

theorem ofNat_toNat (b : UInt8) : UInt8.ofNat b.toNat = b := by
  cases b with
  | mk v =>
    show UInt8.mk (BitVec.ofNat 8 v.toNat) = UInt8.mk v
    rw [BitVec.ofNat_toNat, BitVec.setWidth_eq]

namespace LoRaToolbox

/-- The two characters written for the byte that two characters 0-9, a-f, A-F
give are these characters in the letter case that is asked for. -/
theorem format_parse_pair (high low vh vl : UInt8) (hh : GetHexadecimalValue high = .ok vh)
    (hl : GetHexadecimalValue low = .ok vl) :
    ToHexadecimalCharacters (vh * 16 + vl) true =
      (if 0x61 ≤ high ∧ high ≤ 0x66 then high - 0x20 else high,
       if 0x61 ≤ low ∧ low ≤ 0x66 then low - 0x20 else low) ∧
    ToHexadecimalCharacters (vh * 16 + vl) false =
      (if 0x41 ≤ high ∧ high ≤ 0x46 then high + 0x20 else high,
       if 0x41 ≤ low ∧ low ≤ 0x46 then low + 0x20 else low) := by
  obtain ⟨h1, h2, h3⟩ := digit_of_value high vh hh
  obtain ⟨l1, l2, l3⟩ := digit_of_value low vl hl
  have ht := format_nibbles true ⟨vh.toNat, h1⟩ ⟨vl.toNat, l1⟩
  have hf := format_nibbles false ⟨vh.toNat, h1⟩ ⟨vl.toNat, l1⟩
  simp only [ofNat_toNat] at ht hf
  rw [ht, hf]
  simp only [if_true, Bool.false_eq_true, if_false] at h2 h3 l2 l3 ⊢
  rw [h2, h3, l2, l3]
  exact ⟨rfl, rfl⟩

/-- The loop of `ParseHexadecimal` on an even number of characters. -/
theorem loop_spec : ∀ s : Bytes, s.length % 2 = 0 →
    ((∀ c ∈ s, (0x30 ≤ c ∧ c ≤ 0x39) ∨ (0x61 ≤ c ∧ c ≤ 0x66) ∨ (0x41 ≤ c ∧ c ≤ 0x46)) →
      ∃ b, ParseHexadecimal.loop s = .ok b ∧
        FormatHexadecimal b true =
          s.map (fun c => if 0x61 ≤ c ∧ c ≤ 0x66 then c - 0x20 else c) ∧
        FormatHexadecimal b false =
          s.map (fun c => if 0x41 ≤ c ∧ c ≤ 0x46 then c + 0x20 else c)) ∧
    ((∃ c ∈ s, ¬ ((0x30 ≤ c ∧ c ≤ 0x39) ∨ (0x61 ≤ c ∧ c ≤ 0x66) ∨ (0x41 ≤ c ∧ c ≤ 0x46))) →
      ParseHexadecimal.loop s = .error ErrorCode.ParameterOutOfRange)
  | [], _ => ⟨fun _ => ⟨[], rfl, rfl, rfl⟩, fun h => by
      obtain ⟨c, hc, _⟩ := h
      exact absurd hc (List.not_mem_nil c)⟩
  | [c], h => by simp at h
  | high :: low :: rest, h => by
    have hrest : rest.length % 2 = 0 := by
      simp only [List.length_cons] at h
      omega
    obtain ⟨ih1, ih2⟩ := loop_spec rest hrest
    constructor
    · intro hall
      obtain ⟨vh, hh⟩ := (GetHexadecimalValue_isOk high).mpr (hall high (by simp))
      obtain ⟨vl, hl⟩ := (GetHexadecimalValue_isOk low).mpr (hall low (by simp))
      obtain ⟨b, hb, hup, hlow⟩ := ih1 (fun c hc => hall c (by simp [hc]))
      obtain ⟨p1, p2⟩ := format_parse_pair high low vh vl hh hl
      refine ⟨(vh * 16 + vl) :: b, ?_, ?_, ?_⟩
      · simp only [ParseHexadecimal.loop, GetHexadecimalValuePair, hh, hl, hb]
      · simp only [FormatHexadecimal, p1, hup, List.map_cons]
      · simp only [FormatHexadecimal, p2, hlow, List.map_cons]
    · intro hbad
      obtain ⟨c, hc, hnot⟩ := hbad
      cases hh : GetHexadecimalValue high with
      | error e =>
        have := GetHexadecimalValue_error high e hh
        subst this
        simp only [ParseHexadecimal.loop, GetHexadecimalValuePair, hh]
      | ok vh =>
        cases hl : GetHexadecimalValue low with
        | error e =>
          have := GetHexadecimalValue_error low e hl
          subst this
          simp only [ParseHexadecimal.loop, GetHexadecimalValuePair, hh, hl]
        | ok vl =>
          have hrest2 : c ∈ rest := by
            simp only [List.mem_cons] at hc
            rcases hc with hc | hc | hc
            · subst hc
              exact absurd ((GetHexadecimalValue_isOk c).mp ⟨vh, hh⟩) hnot
            · subst hc
              exact absurd ((GetHexadecimalValue_isOk c).mp ⟨vl, hl⟩) hnot
            · exact hc
          simp only [ParseHexadecimal.loop, GetHexadecimalValuePair, hh, hl,
            ih2 ⟨c, hrest2, hnot⟩]

/-- C30: for every byte string and both letter cases, `ParseHexadecimal` gives
back the string that `FormatHexadecimal` has formatted. For every string `s`
of an even number of characters 0-9, a-f, A-F, `ParseHexadecimal` returns a
buffer, whose format in upper case is `s` with the letters a-f replaced by A-F,
and whose format in lower case is `s` with the letters A-F replaced by a-f.
`ParseHexadecimal` raises an error exactly when the length of `s` is odd or `s`
has a character outside 0-9, a-f, A-F. -/
theorem hexadecimal_roundtrip :
    (∀ (b : Bytes) (upcase : Bool),
      ParseHexadecimal (FormatHexadecimal b upcase) = .ok b) ∧
    (∀ s : Bytes, s.length % 2 = 0 →
      (∀ c ∈ s, (0x30 ≤ c ∧ c ≤ 0x39) ∨ (0x61 ≤ c ∧ c ≤ 0x66) ∨ (0x41 ≤ c ∧ c ≤ 0x46)) →
      ∃ b, ParseHexadecimal s = .ok b ∧
        FormatHexadecimal b true =
          s.map (fun c => if 0x61 ≤ c ∧ c ≤ 0x66 then c - 0x20 else c) ∧
        FormatHexadecimal b false =
          s.map (fun c => if 0x41 ≤ c ∧ c ≤ 0x46 then c + 0x20 else c)) ∧
    (∀ s : Bytes, (∃ e, ParseHexadecimal s = .error e) ↔
      (s.length % 2 = 1 ∨
        ∃ c ∈ s, ¬ ((0x30 ≤ c ∧ c ≤ 0x39) ∨ (0x61 ≤ c ∧ c ≤ 0x66) ∨ (0x41 ≤ c ∧ c ≤ 0x46)))) := by
  refine ⟨fun b upcase => ?_, fun s heven hall => ?_, fun s => ?_⟩
  · unfold ParseHexadecimal
    have : (FormatHexadecimal b upcase).length % 2 = 0 := by
      rw [length_FormatHexadecimal]
      omega
    simp only [this, ne_eq, not_true_eq_false, if_false]
    exact loop_FormatHexadecimal upcase b
  · obtain ⟨b, hb, h1, h2⟩ := (loop_spec s heven).1 hall
    refine ⟨b, ?_, h1, h2⟩
    unfold ParseHexadecimal
    simp only [heven, ne_eq, not_true_eq_false, if_false]
    exact hb
  · by_cases heven : s.length % 2 = 0
    · have hparse : ParseHexadecimal s = ParseHexadecimal.loop s := by
        unfold ParseHexadecimal
        simp only [heven, ne_eq, not_true_eq_false, if_false]
      rw [hparse]
      constructor
      · intro herror
        right
        by_contra hnone
        have hall : ∀ c ∈ s,
            (0x30 ≤ c ∧ c ≤ 0x39) ∨ (0x61 ≤ c ∧ c ≤ 0x66) ∨ (0x41 ≤ c ∧ c ≤ 0x46) := by
          intro c hc
          by_contra hnot
          exact hnone ⟨c, hc, hnot⟩
        obtain ⟨b, hb, _⟩ := (loop_spec s heven).1 hall
        obtain ⟨e, he⟩ := herror
        rw [hb] at he
        exact Except.noConfusion he
      · intro hbad
        rcases hbad with hodd | hbad
        · omega
        · exact ⟨_, (loop_spec s heven).2 hbad⟩
    · have hodd : s.length % 2 = 1 := by omega
      have hparse : ParseHexadecimal s = .error ErrorCode.BadFileFormat := by
        unfold ParseHexadecimal
        simp only [ne_eq, heven, not_false_eq_true, if_true]
      rw [hparse]
      exact ⟨fun _ => Or.inl hodd, fun _ => ⟨_, rfl⟩⟩

/-- C30 on the frame of the test `PHYPayload1`, written with letters of both cases. -/
theorem hexadecimal_roundtrip_witness :
    (ascii "40c51C01").length % 2 = 0 ∧
    ∃ b, ParseHexadecimal (ascii "40c51C01") = .ok b ∧
      FormatHexadecimal b true =
        (ascii "40c51C01").map (fun c => if 0x61 ≤ c ∧ c ≤ 0x66 then c - 0x20 else c) :=
  ⟨by decide,
   Exists.imp (fun _ h => ⟨h.1, h.2.1⟩)
     (hexadecimal_roundtrip.2.1 (ascii "40c51C01") (by decide) (by decide))⟩

end LoRaToolbox

end LoRa

/-! ## Lemmas and claims on `UnsignedInteger128` -/

namespace LoRa

theorem bigEndian_append (data : Bytes) (byte : UInt8) :
    bigEndian (data ++ [byte]) = 256 * bigEndian data + byte.toNat := by
  unfold bigEndian
  rw [List.foldl_append]
  rfl

theorem bigEndian_lt : ∀ data : Bytes, bigEndian data < 256 ^ data.length := by
  intro data
  induction data using List.reverseRecOn with
  | nil => simp [bigEndian]
  | append_singleton data byte ih =>
    rw [bigEndian_append, List.length_append, List.length_singleton, Nat.pow_succ]
    have := UInt8.toNat_lt byte
    omega

theorem bigEndian_cons (byte : UInt8) (data : Bytes) :
    bigEndian (byte :: data) = byte.toNat * 256 ^ data.length + bigEndian data := by
  induction data using List.reverseRecOn with
  | nil => simp [bigEndian]
  | append_singleton data last ih =>
    rw [← List.cons_append, bigEndian_append, bigEndian_append, ih, List.length_append,
      List.length_singleton, Nat.pow_succ]
    ring

/-- The byte that one turn of `ShiftLeftOneBit` writes, and the overflow that
it passes on. -/
theorem shift_byte (overflow : Bool) : ∀ byte : UInt8,
    ((byte <<< 1) + (if overflow then 1 else 0)).toNat =
        (2 * byte.toNat + overflow.toNat) % 256 ∧
      ((byte &&& 0x80) != 0) = decide (128 ≤ byte.toNat) := by
  cases overflow
  · apply forall_byte
    decide!
  · apply forall_byte
    decide!

theorem xor_toNat (a b : UInt8) : (a ^^^ b).toNat = a.toNat ^^^ b.toNat := by
  cases a with
  | mk x =>
    cases b with
    | mk y => exact BitVec.toNat_xor x y

/-- The XOR of two numbers written in base 256. -/
theorem xor_base256 (a b x y : Nat) (hx : x < 256) (hy : y < 256) :
    (256 * a + x) ^^^ (256 * b + y) = 256 * (a ^^^ b) + (x ^^^ y) := by
  have hxy : x ^^^ y < 2 ^ 8 := Nat.xor_lt_two_pow (n := 8) hx hy
  apply Nat.eq_of_testBit_eq
  intro i
  have e1 := Nat.testBit_mul_pow_two_add a (show x < 2 ^ 8 from hx) i
  have e2 := Nat.testBit_mul_pow_two_add b (show y < 2 ^ 8 from hy) i
  have e3 := Nat.testBit_mul_pow_two_add (a ^^^ b) hxy i
  simp only [Nat.reducePow] at e1 e2 e3
  rw [Nat.testBit_xor, e1, e2, e3]
  by_cases hi : i < 8
  · simp [hi]
  · simp [hi]

theorem bigEndian_zipWith_xor : ∀ (a b : Bytes), a.length = b.length →
    bigEndian (List.zipWith (fun x y => x ^^^ y) a b) = bigEndian a ^^^ bigEndian b := by
  intro a
  induction a using List.reverseRecOn with
  | nil =>
    intro b hb
    have : b = [] := List.length_eq_zero.mp hb.symm
    subst this
    simp [bigEndian]
  | append_singleton a x ih =>
    intro b hb
    rcases List.eq_nil_or_concat b with hnil | ⟨b1, y, hcons⟩
    · subst hnil
      simp at hb
    · rw [List.concat_eq_append] at hcons
      subst hcons
      have hlen : a.length = b1.length := by
        simp only [List.length_append, List.length_singleton] at hb
        omega
      rw [List.zipWith_append _ _ _ _ _ hlen]
      simp only [List.zipWith_cons_cons, List.zipWith_nil_right]
      rw [bigEndian_append, bigEndian_append, bigEndian_append, ih b1 hlen, xor_toNat,
        xor_base256 _ _ _ _ (UInt8.toNat_lt x) (UInt8.toNat_lt y)]

end LoRa

namespace LoRa

theorem mod_base256 (X M y : Nat) (hM : 0 < M) (hy : y < 256) :
    (256 * X + y) % (256 * M) = 256 * (X % M) + y := by
  have hX := Nat.div_add_mod X M
  have hr := Nat.mod_lt X hM
  generalize X / M = q at hX
  generalize X % M = r at hX hr
  subst hX
  have e : 256 * (M * q + r) + y = (256 * r + y) + (256 * M) * q := by ring
  rw [e, Nat.add_mul_mod_self_left, Nat.mod_eq_of_lt (by omega)]

namespace UnsignedInteger128

/-- The turns `i, ..., 1` of the loop of `ShiftLeftOneBit` double the number
that the first `i` bytes make, add the overflow that comes in, and drop the
overflow that goes out. -/
theorem ShiftLeftOneBit_loop : ∀ (i : Nat) (pre post : Bytes) (overflow : Bool),
    pre.length = i →
    ∃ r, ShiftLeftOneBit.loop i (pre ++ post) overflow = r ++ post ∧ r.length = i ∧
      bigEndian r = (2 * bigEndian pre + overflow.toNat) % 256 ^ i := by
  intro i
  induction i with
  | zero =>
    intro pre post overflow hpre
    have : pre = [] := List.length_eq_zero.mp hpre
    subst this
    exact ⟨[], rfl, rfl, by simp [bigEndian, Nat.mod_one]⟩
  | succ i ih =>
    intro pre post overflow hpre
    rcases List.eq_nil_or_concat pre with hnil | ⟨pre1, b, hcons⟩
    · subst hnil
      simp at hpre
    · rw [List.concat_eq_append] at hcons
      subst hcons
      have hlen : pre1.length = i := by
        simp only [List.length_append, List.length_singleton] at hpre
        omega
      have hget : (pre1 ++ [b] ++ post).getD i 0 = b := by
        rw [List.append_assoc, List.getD_eq_getElem?_getD,
          List.getElem?_append_right (by omega)]
        simp [hlen]
      have hset : ∀ v, (pre1 ++ [b] ++ post).set i v = pre1 ++ (v :: post) := by
        intro v
        rw [List.append_assoc, List.set_append_right _ _ (by omega)]
        simp [hlen]
      obtain ⟨hbyte, hnext⟩ := shift_byte overflow b
      obtain ⟨r1, hr1, hr1len, hr1val⟩ := ih pre1
        (((b <<< 1) + (if overflow then 1 else 0)) :: post) ((b &&& 0x80) != 0) hlen
      refine ⟨r1 ++ [(b <<< 1) + (if overflow then 1 else 0)], ?_, ?_, ?_⟩
      · simp only [ShiftLeftOneBit.loop, hget, hset, hr1]
        simp
      · simp [hr1len]
      · rw [bigEndian_append, bigEndian_append, hr1val, hbyte, hnext, Nat.pow_succ]
        have hb := UInt8.toNat_lt b
        have hpow : 0 < 256 ^ i := Nat.pow_pos (by decide)
        have hcarry : (decide (128 ≤ b.toNat)).toNat = (2 * b.toNat + overflow.toNat) / 256 := by
          cases overflow <;> by_cases h : 128 ≤ b.toNat <;> simp [h] <;> omega
        rw [hcarry, Nat.mul_comm (256 ^ i) 256,
          ← mod_base256 _ _ _ hpow (Nat.mod_lt _ (by decide))]
        congr 1
        omega

/-- The method `ShiftLeftOneBit` on 16 bytes doubles the number that they make
as a big-endian integer, modulo `2 ^ 128`. -/
theorem ShiftLeftOneBit_eq (u : UnsignedInteger128) (hu : u.buffer_.length = 16) :
    u.ShiftLeftOneBit.buffer_.length = 16 ∧
      bigEndian u.ShiftLeftOneBit.buffer_ = 2 * bigEndian u.buffer_ % 2 ^ 128 := by
  obtain ⟨r, hr, hlen, hval⟩ := ShiftLeftOneBit_loop 16 u.buffer_ [] false hu
  rw [List.append_nil, List.append_nil] at hr
  show (ShiftLeftOneBit.loop 16 u.buffer_ false).length = 16 ∧
    bigEndian (ShiftLeftOneBit.loop 16 u.buffer_ false) = _
  rw [hr]
  refine ⟨hlen, ?_⟩
  rw [hval]
  norm_num

/-- The test `GetByte(0) & 0x80` reads the most significant bit of the 128. -/
theorem msb_eq (u : UnsignedInteger128) (hu : u.buffer_.length = 16) :
    ((u.buffer_.getD 0 0 &&& 0x80) != 0) = decide (2 ^ 127 ≤ bigEndian u.buffer_) := by
  match hb : u.buffer_, hu with
  | b :: rest, hu =>
    have hrest : rest.length = 15 := by
      simp only [List.length_cons] at hu
      omega
    have hlt := bigEndian_lt rest
    rw [hrest] at hlt
    rw [List.getD_cons_zero, (shift_byte false b).2, bigEndian_cons, hrest]
    have hb := UInt8.toNat_lt b
    norm_num at hlt ⊢
    by_cases h : 128 ≤ b.toNat
    · simp only [h, decide_True, true_iff]
      omega
    · simp only [h, decide_False, false_iff]
      omega

theorem length_ApplyXOR (a b : UnsignedInteger128) (ha : a.buffer_.length = 16)
    (hb : b.buffer_.length = 16) : (a.ApplyXOR b).buffer_.length = 16 := by
  show (List.zipWith _ a.buffer_ b.buffer_).length = 16
  rw [List.length_zipWith, ha, hb]
  rfl

end UnsignedInteger128

end LoRa

namespace LoRa

namespace UnsignedInteger128

/-- The constant `Rb` of `GenerateCMACSubkey`. -/
theorem rb_eq : AssignZero.SetByte 15 0x87 =
    .ok { buffer_ := [0, 0, 0, 0, 0, 0, 0, 0, 0, 0, 0, 0, 0, 0, 0, 0x87] } := rfl

/-- One subkey from the block before it: the block is shifted, and XORed with
`Rb` when its most significant bit is set. -/
theorem subkey_eq (l : UnsignedInteger128) (hl : l.buffer_.length = 16) :
    (if (l.buffer_.getD 0 0 &&& 0x80) != 0 then
        l.ShiftLeftOneBit.ApplyXOR { buffer_ := [0, 0, 0, 0, 0, 0, 0, 0, 0, 0, 0, 0, 0, 0, 0, 0x87] }
      else l.ShiftLeftOneBit).buffer_.length = 16 ∧
    bigEndian (if (l.buffer_.getD 0 0 &&& 0x80) != 0 then
        l.ShiftLeftOneBit.ApplyXOR { buffer_ := [0, 0, 0, 0, 0, 0, 0, 0, 0, 0, 0, 0, 0, 0, 0, 0x87] }
      else l.ShiftLeftOneBit).buffer_ =
      (2 * bigEndian l.buffer_ % 2 ^ 128) ^^^ (if 2 ^ 127 ≤ bigEndian l.buffer_ then 0x87 else 0) := by
  obtain ⟨hlen, hval⟩ := ShiftLeftOneBit_eq l hl
  rw [msb_eq l hl]
  generalize l.ShiftLeftOneBit = s at hlen hval ⊢
  generalize bigEndian l.buffer_ = number at hval ⊢
  by_cases h : 2 ^ 127 ≤ number
  · rw [decide_eq_true h, if_pos rfl, if_pos h]
    refine ⟨length_ApplyXOR _ _ hlen rfl, ?_⟩
    have hrb : bigEndian [0, 0, 0, 0, 0, 0, 0, 0, 0, 0, 0, 0, 0, 0, 0, 0x87] = 0x87 := by
      decide
    have hxor := bigEndian_zipWith_xor s.buffer_
      [0, 0, 0, 0, 0, 0, 0, 0, 0, 0, 0, 0, 0, 0, 0, 0x87] (by rw [hlen]; rfl)
    rw [hval, hrb] at hxor
    exact hxor
  · rw [decide_eq_false h, if_neg Bool.false_ne_true, if_neg h]
    exact ⟨hlen, by rw [hval, Nat.xor_zero]⟩

/-- C27: for every key `K`, with `L = encrypt(K, 0^128)` a block of 16 bytes,
`GenerateCMACSubkey` returns two blocks `K1` and `K2` of 16 bytes; read as
big-endian integers, `K1 = (2 L mod 2^128) XOR (0x87 if L ≥ 2^127, else 0)` and
`K2 = (2 K1 mod 2^128) XOR (0x87 if K1 ≥ 2^127, else 0)`. On every block of 16
bytes, `ShiftLeftOneBit` maps the big-endian integer `x` to `2 x mod 2^128`. -/
theorem GenerateCMACSubkey_spec
    (encrypt : UnsignedInteger128 → UnsignedInteger128 → UnsignedInteger128)
    (key : UnsignedInteger128) (hblock : (encrypt key AssignZero).buffer_.length = 16) :
    (∃ k1 k2, GenerateCMACSubkey encrypt key = .ok (k1, k2) ∧
      k1.buffer_.length = 16 ∧ k2.buffer_.length = 16 ∧
      bigEndian k1.buffer_ =
        (2 * bigEndian (encrypt key AssignZero).buffer_ % 2 ^ 128) ^^^
          (if 2 ^ 127 ≤ bigEndian (encrypt key AssignZero).buffer_ then 0x87 else 0) ∧
      bigEndian k2.buffer_ =
        (2 * bigEndian k1.buffer_ % 2 ^ 128) ^^^
          (if 2 ^ 127 ≤ bigEndian k1.buffer_ then 0x87 else 0)) ∧
    (∀ u : UnsignedInteger128, u.buffer_.length = 16 →
      u.ShiftLeftOneBit.buffer_.length = 16 ∧
        bigEndian u.ShiftLeftOneBit.buffer_ = 2 * bigEndian u.buffer_ % 2 ^ 128) := by
  refine ⟨?_, ShiftLeftOneBit_eq⟩
  obtain ⟨h1len, h1val⟩ := subkey_eq (encrypt key AssignZero) hblock
  obtain ⟨h2len, h2val⟩ := subkey_eq _ h1len
  refine ⟨_, _, ?_, h1len, h2len, h1val, h2val⟩
  unfold GenerateCMACSubkey
  simp only [rb_eq, GetByte, SIZE]
  rfl

/-- C27 on the key of the test vectors of RFC 4493. -/
theorem GenerateCMACSubkey_spec_witness :
    (EncryptAES rfc4493Key AssignZero).buffer_.length = 16 ∧
    ∃ k1 k2, GenerateCMACSubkey EncryptAES rfc4493Key = .ok (k1, k2) ∧
      k1.buffer_.length = 16 ∧ k2.buffer_.length = 16 :=
  ⟨rfl,
   Exists.imp (fun _ h => Exists.imp (fun _ g => ⟨g.1, g.2.1, g.2.2.1⟩) h)
     (GenerateCMACSubkey_spec EncryptAES rfc4493Key rfl).1⟩

end UnsignedInteger128

end LoRa

namespace LoRa

namespace UnsignedInteger128

theorem SetByte_ok (u : UnsignedInteger128) (pos : Nat) (value : UInt8) (hpos : pos < 16) :
    u.SetByte pos value = .ok { buffer_ := u.buffer_.set pos value } := by
  unfold SetByte SIZE
  rw [if_pos hpos]

theorem Copy_zero (value : Bytes) (size : Nat) (hsize : size ≤ 16) :
    AssignZero.Copy 0 value size =
      .ok { buffer_ := value.take size ++ List.replicate (16 - size) 0 } := by
  unfold Copy SIZE AssignZero SIZE
  have h : ¬ 0 + size > 16 := by omega
  rw [if_neg h]
  simp only [List.take_zero, List.nil_append, Nat.zero_add, List.drop_replicate]

theorem Copy_block (value : Bytes) :
    AssignZero.Copy 0 value 16 = .ok { buffer_ := value.take 16 } := by
  rw [Copy_zero value 16 (Nat.le_refl _)]
  simp

/-- The subkeys are always returned. -/
theorem GenerateCMACSubkey_ok
    (encrypt : UnsignedInteger128 → UnsignedInteger128 → UnsignedInteger128)
    (key : UnsignedInteger128) : ∃ k1 k2, GenerateCMACSubkey encrypt key = .ok (k1, k2) := by
  unfold GenerateCMACSubkey
  simp only [rb_eq, GetByte, SIZE]
  exact ⟨_, _, rfl⟩

/-- The loop of `ComputeCMAC` chains the blocks of the given ranks. -/
theorem ComputeCMAC_loop
    (encrypt : UnsignedInteger128 → UnsignedInteger128 → UnsignedInteger128)
    (key : UnsignedInteger128) (message : Bytes) : ∀ (turns i : Nat) (x : UnsignedInteger128),
    ComputeCMAC.loop encrypt key message turns i x =
      .ok (((List.range' i turns).map
          (fun j => ({ buffer_ := (message.drop (16 * j)).take 16 } : UnsignedInteger128))).foldl
        (fun x block => encrypt key (x.ApplyXOR block)) x) := by
  intro turns
  induction turns with
  | zero => intro i x; rfl
  | succ turns ih =>
    intro i x
    simp only [ComputeCMAC.loop, SIZE, Copy_block, ih, List.range'_succ, List.map_cons,
      List.foldl_cons]

/-- The method `ComputeCMAC` with the subkeys that it has generated: its last
block and its chain are those of `RFC4493.cmac`. -/
theorem ComputeCMAC_eq
    (encrypt : UnsignedInteger128 → UnsignedInteger128 → UnsignedInteger128)
    (key k1 k2 : UnsignedInteger128) (message : Bytes)
    (hkeys : GenerateCMACSubkey encrypt key = .ok (k1, k2)) :
    ComputeCMAC encrypt key message = .ok (RFC4493.cmac encrypt key k1 k2 message) := by
  unfold ComputeCMAC
  rw [hkeys]
  simp only [LoRaToolbox.CeilingDivision, SIZE, ComputeCMAC_loop, Copy_block]
  unfold RFC4493.cmac
  by_cases hflag : 0 < message.length ∧ message.length % 16 = 0
  · obtain ⟨hpos, hmod⟩ := hflag
    have hn0 : ¬ message.length / 16 = 0 := by omega
    have hn : max 1 ((message.length + 15) / 16) = message.length / 16 := by omega
    have hlast : (message.drop (16 * (message.length / 16 - 1))).take 16 =
        message.drop (16 * (message.length / 16 - 1)) := by
      apply List.take_of_length_le
      rw [List.length_drop]
      omega
    simp only [hmod, if_true, hn0, if_false, decide_True, hn, hpos, and_self, hlast,
      List.range_eq_range']
  · have hn : (if (if message.length % 16 = 0 then message.length / 16
          else message.length / 16 + 1) = 0 then 1
        else (if message.length % 16 = 0 then message.length / 16
          else message.length / 16 + 1)) = max 1 ((message.length + 15) / 16) := by
      split <;> split <;> omega
    have hflag2 : (if (if message.length % 16 = 0 then message.length / 16
          else message.length / 16 + 1) = 0 then false
        else decide (message.length % 16 = 0)) = false := by
      by_cases h0 : message.length % 16 = 0
      · have hzero : message.length / 16 = 0 := by
          by_contra hne
          exact hflag ⟨by omega, h0⟩
        simp only [h0, if_true, hzero]
      · simp only [h0, if_false, decide_False, ite_self]
    rw [hn, hflag2]
    simp only [Bool.false_eq_true, if_false, hflag]
    generalize hoffset : 16 * (max 1 ((message.length + 15) / 16) - 1) = offset
    have hr : message.length - offset < 16 := by
      by_cases h0 : message.length % 16 = 0
      · have : message.length = 0 := by
          by_contra hne
          exact hflag ⟨by omega, h0⟩
        omega
      · omega
    have hlen : (message.drop offset).length = message.length - offset := List.length_drop _ _
    generalize message.drop offset = last at hlen
    generalize message.length - offset = r at hr hlen
    rw [Copy_zero last r (by omega)]
    simp only [SetByte_ok _ _ _ hr]
    have hpad : (last.take r ++ List.replicate (16 - r) 0).set r 0x80 =
        last ++ [0x80] ++ List.replicate (15 - last.length) 0 := by
      rw [List.take_of_length_le (by omega), List.set_append_right _ _ (by omega), hlen,
        Nat.sub_self]
      have : 16 - r = (15 - r) + 1 := by omega
      rw [this, List.replicate_succ, List.set_cons_zero, List.append_assoc]
      rfl
    simp only [hpad, RFC4493.pad, List.range_eq_range']

/-- The method `ComputeCMAC` raises no exception. -/
theorem ComputeCMAC_ok
    (encrypt : UnsignedInteger128 → UnsignedInteger128 → UnsignedInteger128)
    (key : UnsignedInteger128) (message : Bytes) :
    ∃ result, ComputeCMAC encrypt key message = .ok result := by
  obtain ⟨k1, k2, hkeys⟩ := GenerateCMACSubkey_ok encrypt key
  exact ⟨_, ComputeCMAC_eq encrypt key k1 k2 message hkeys⟩

/-- C28: for every block encryption, key and message, `GenerateCMACSubkey`
returns two subkeys and `ComputeCMAC` returns the result of the construction
of RFC 4493 as section 4.7 words it (`RFC4493.cmac`) with these subkeys: with
`n = max(1, ⌈|m| / 16⌉)` blocks, the last block XORed with `K1` when `|m|` is a
positive multiple of 16 and else padded with `0x80` and zeros and XORed with
`K2`, the chain `X = encrypt(K, X ⊕ B)` from zero over the blocks before the
last, and the result `encrypt(K, X ⊕ M_last)`. -/
theorem ComputeCMAC_refines
    (encrypt : UnsignedInteger128 → UnsignedInteger128 → UnsignedInteger128)
    (key : UnsignedInteger128) (message : Bytes) :
    ∃ k1 k2, GenerateCMACSubkey encrypt key = .ok (k1, k2) ∧
      ComputeCMAC encrypt key message = .ok (RFC4493.cmac encrypt key k1 k2 message) := by
  obtain ⟨k1, k2, hkeys⟩ := GenerateCMACSubkey_ok encrypt key
  refine ⟨k1, k2, hkeys, ?_⟩
  rw [ComputeCMAC_eq encrypt key k1 k2 message hkeys]

end UnsignedInteger128

end LoRa

/-! ## Lemmas and claims on the encryption of frames -/

namespace LoRa

theorem xor_cancel (a b : UInt8) : (a ^^^ b) ^^^ b = a := by
  cases a with
  | mk x =>
    cases b with
    | mk y =>
      show UInt8.mk ((x ^^^ y) ^^^ y) = UInt8.mk x
      rw [BitVec.xor_assoc, BitVec.xor_self, BitVec.xor_zero]

theorem zipWith_xor_cancel : ∀ (x session : Bytes), x.length ≤ session.length →
    List.zipWith (fun a b => a ^^^ b) (List.zipWith (fun a b => a ^^^ b) x session) session = x
  | [], _, _ => by simp
  | a :: x, [], h => by simp at h
  | a :: x, b :: session, h => by
    simp only [List.zipWith_cons_cons, xor_cancel, List.cons.injEq, true_and]
    exact zipWith_xor_cancel x session (by simpa using h)

namespace FrameEncryptionKey

open UnsignedInteger128

/-- The block that `PrepareMainBlock` prepares. -/
theorem PrepareMainBlock_eq (direction : MessageDirection) (deviceAddress frameCounter : Nat)
    (headerByte trailerByte : UInt8) :
    PrepareMainBlock direction deviceAddress frameCounter headerByte trailerByte =
      .ok { buffer_ :=
        [headerByte, 0, 0, 0, 0, if direction = MessageDirection.Uplink then 0 else 1] ++
          htole32 deviceAddress ++ htole32 frameCounter ++ [0, trailerByte] } := rfl

/-- The loop of `PrepareSessionKey` appends one encrypted block for every
turn; the block of the turn `j` ends with the byte `j + 1`. -/
theorem PrepareSessionKey_loop
    (encrypt : UnsignedInteger128 → UnsignedInteger128 → UnsignedInteger128)
    (key : UnsignedInteger128) (head : Bytes) (hhead : head.length = 15) :
    ∀ (turns i : Nat) (last : UInt8) (result : Bytes),
      PrepareSessionKey.loop encrypt key turns i { buffer_ := head ++ [last] } result =
        .ok (result ++ ((List.range' i turns).map (fun j =>
          (encrypt key { buffer_ := head ++ [UInt8.ofNat (j + 1)] }).buffer_.take 16)).flatten) := by
  intro turns
  induction turns with
  | zero => intro i last result; simp [PrepareSessionKey.loop]
  | succ turns ih =>
    intro i last result
    have hset : (head ++ [last]).set 15 (UInt8.ofNat (i + 1)) = head ++ [UInt8.ofNat (i + 1)] := by
      rw [List.set_append_right _ _ (by omega), hhead]
      rfl
    simp only [PrepareSessionKey.loop, SetByte_ok _ _ _ (show 15 < 16 by decide), hset, ih,
      List.range'_succ, List.map_cons, List.flatten_cons, List.append_assoc]

/-- The session key: `⌈frameSize / 16⌉` encrypted blocks. -/
theorem PrepareSessionKey_eq
    (encrypt : UnsignedInteger128 → UnsignedInteger128 → UnsignedInteger128)
    (k : FrameEncryptionKey) (direction : MessageDirection) (deviceAddress frameCounter : Nat)
    (frameSize : Nat) :
    PrepareSessionKey encrypt k direction deviceAddress frameCounter frameSize =
      .ok (((List.range' 0 (LoRaToolbox.CeilingDivision frameSize 16)).map (fun j =>
        (encrypt k.key_ ⟨[0x01, 0, 0, 0, 0, if direction = MessageDirection.Uplink then 0 else 1] ++
          htole32 deviceAddress ++ htole32 frameCounter ++ [0] ++
          [UInt8.ofNat (j + 1)]⟩).buffer_.take 16)).flatten) := by
  unfold PrepareSessionKey
  rw [PrepareMainBlock_eq]
  have := PrepareSessionKey_loop encrypt k.key_
    ([0x01, 0, 0, 0, 0, if direction = MessageDirection.Uplink then 0 else 1] ++
      htole32 deviceAddress ++ htole32 frameCounter ++ [0]) (by simp [htole32])
    (LoRaToolbox.CeilingDivision frameSize 16) 0 0 []
  rw [List.nil_append] at this
  exact this

theorem length_join_blocks (f : Nat → Bytes) (hf : ∀ j, (f j).length = 16) :
    ∀ (turns i : Nat), (((List.range' i turns).map f).flatten).length = 16 * turns := by
  intro turns
  induction turns with
  | zero => intro i; rfl
  | succ turns ih =>
    intro i
    rw [List.range'_succ, List.map_cons, List.flatten_cons, List.length_append, hf, ih]
    omega

theorem CeilingDivision_ge (size : Nat) : size ≤ 16 * LoRaToolbox.CeilingDivision size 16 := by
  unfold LoRaToolbox.CeilingDivision
  split <;> omega

/-- C23: for every block encryption that returns blocks of 16 bytes, and for
every key, direction, device address, frame counter and byte string `x`,
`Apply` returns a string `y` of the length of `x`, and `Apply` on `y` with the
same parameters returns `x`. -/
theorem Apply_involution
    (encrypt : UnsignedInteger128 → UnsignedInteger128 → UnsignedInteger128)
    (hblock : ∀ key data, (encrypt key data).buffer_.length = 16)
    (k : FrameEncryptionKey) (direction : MessageDirection) (deviceAddress frameCounter : Nat)
    (x : Bytes) :
    ∃ y, Apply encrypt k x direction deviceAddress frameCounter = .ok y ∧
      y.length = x.length ∧
      Apply encrypt k y direction deviceAddress frameCounter = .ok x := by
  have hsession : ∀ size : Nat, ∃ session,
      PrepareSessionKey encrypt k direction deviceAddress frameCounter size = .ok session ∧
        size ≤ session.length := by
    intro size
    refine ⟨_, PrepareSessionKey_eq encrypt k direction deviceAddress frameCounter size, ?_⟩
    rw [length_join_blocks _ (fun j => by rw [List.length_take, hblock]; rfl) _ 0]
    exact CeilingDivision_ge size
  obtain ⟨session, hs, hle⟩ := hsession x.length
  have hlen : (List.zipWith (fun a b => a ^^^ b) x session).length = x.length := by
    rw [List.length_zipWith]
    omega
  refine ⟨List.zipWith (fun a b => a ^^^ b) x session, ?_, hlen, ?_⟩
  · unfold Apply
    rw [hs]
  · unfold Apply
    rw [hlen, hs]
    simp only [zipWith_xor_cancel x session hle]

/-- C23 with the cipher AES-128, on the key and the deciphered payload of the
test `Decrypt1`. -/
theorem Apply_involution_witness :
    (∀ key data, (EncryptAES key data).buffer_.length = 16) ∧
    ∃ y, Apply EncryptAES appSKey (ascii "test") MessageDirection.Uplink 0x49BE7DF1 2 = .ok y ∧
      y.length = (ascii "test").length ∧
      Apply EncryptAES appSKey y MessageDirection.Uplink 0x49BE7DF1 2 = .ok (ascii "test") :=
  ⟨fun _ _ => by simp [EncryptAES, AES_ECB_encrypt],
   Apply_involution EncryptAES (fun _ _ => by simp [EncryptAES, AES_ECB_encrypt]) appSKey
     MessageDirection.Uplink 0x49BE7DF1 2 (ascii "test")⟩

end FrameEncryptionKey

end LoRa

namespace LoRa

theorem toNat_ofNat (n : Nat) : (UInt8.ofNat n).toNat = n % 256 := by
  show (BitVec.ofNat 8 n).toNat = n % 256
  rw [BitVec.toNat_ofNat]

/-- The bytes of `htole32` make the number back, read as a little-endian integer. -/
theorem le32_htole32 (value : Nat) (hvalue : value < 2 ^ 32) :
    le32 (UnsignedInteger128.htole32 value) 0 = value := by
  rw [le32_eq 0 _ (by simp [UnsignedInteger128.htole32])]
  simp only [UnsignedInteger128.htole32, byteAt, List.getD_cons_zero, List.getD_cons_succ,
    toNat_ofNat, Nat.shiftRight_eq_div_pow]
  omega

theorem getElem?_flatten_blocks (f : Nat → Bytes) (hf : ∀ j, (f j).length = 16) :
    ∀ (turns i j : Nat), j < 16 * turns →
      (((List.range' i turns).map f).flatten)[j]? = (f (i + j / 16))[j % 16]? := by
  intro turns
  induction turns with
  | zero => intro i j hj; omega
  | succ turns ih =>
    intro i j hj
    rw [List.range'_succ, List.map_cons, List.flatten_cons]
    by_cases h : j < 16
    · rw [List.getElem?_append_left (by rw [hf]; exact h)]
      have e1 : j / 16 = 0 := by omega
      have e2 : j % 16 = j := by omega
      rw [e1, e2, Nat.add_zero]
    · rw [List.getElem?_append_right (by rw [hf]; omega), hf, ih (i + 1) (j - 16) (by omega)]
      have e1 : i + 1 + (j - 16) / 16 = i + j / 16 := by omega
      have e2 : (j - 16) % 16 = j % 16 := by omega
      rw [e1, e2]

namespace FrameEncryptionKey

open UnsignedInteger128

/-- The bytes of the string that `Apply` returns. -/
theorem Apply_bytes
    (encrypt : UnsignedInteger128 → UnsignedInteger128 → UnsignedInteger128)
    (hblock : ∀ key data, (encrypt key data).buffer_.length = 16)
    (k : FrameEncryptionKey) (direction : MessageDirection) (deviceAddress frameCounter : Nat)
    (source : Bytes) :
    ∃ target, Apply encrypt k source direction deviceAddress frameCounter = .ok target ∧
      target.length = source.length ∧
      ∀ j, j < source.length →
        target[j]? = some (source.getD j 0 ^^^
          (encrypt k.key_
            ⟨[0x01, 0x00, 0x00, 0x00, 0x00,
                if direction = MessageDirection.Uplink then 0x00 else 0x01] ++
              htole32 deviceAddress ++ htole32 frameCounter ++ [0x00] ++
              [UInt8.ofNat (j / 16 + 1)]⟩).buffer_.getD (j % 16) 0) := by
  have hs := PrepareSessionKey_eq encrypt k direction deviceAddress frameCounter source.length
  have hf : ∀ j, ((encrypt k.key_
      ⟨[0x01, 0x00, 0x00, 0x00, 0x00,
          if direction = MessageDirection.Uplink then 0x00 else 0x01] ++
        htole32 deviceAddress ++ htole32 frameCounter ++ [0x00] ++
        [UInt8.ofNat (j + 1)]⟩).buffer_.take 16).length = 16 := by
    intro j
    rw [List.length_take, hblock]
    rfl
  have hlen := length_join_blocks _ hf (LoRaToolbox.CeilingDivision source.length 16) 0
  have hge := CeilingDivision_ge source.length
  refine ⟨_, by unfold Apply; rw [hs], ?_, ?_⟩
  · rw [List.length_zipWith, hlen]
    omega
  · intro j hj
    have hget := getElem?_flatten_blocks _ hf (LoRaToolbox.CeilingDivision source.length 16) 0 j
      (by omega)
    have hget1 : ∀ (data : Bytes) (i : Nat), i < data.length →
        data[i]? = some (data.getD i 0) := by
      intro data i hi
      rw [List.getD_eq_getElem?_getD, List.getElem?_eq_getElem hi]
      rfl
    rw [List.getElem?_zipWith, hget, Nat.zero_add, List.getElem?_take_of_lt (by omega),
      hget1 source j hj, hget1 _ (j % 16) (by rw [hblock]; omega)]

end FrameEncryptionKey

end LoRa

namespace LoRa

namespace PHYPayload

/-- What a parsed physical payload holds. -/
theorem parsed_frame (frame : Bytes) (payload : PHYPayload)
    (h : FromBuffer frame = .ok payload) :
    payload.buffer_ = frame ∧ 5 ≤ frame.length ∧ payload.mhdr_ = byteAt frame 0 := by
  unfold FromBuffer Parse at h
  split at h
  · exact Except.noConfusion h
  · rename_i hlen
    simp only at h
    split at h <;>
      first
      | exact Except.noConfusion h
      | (injection h with h
         subst h
         exact ⟨rfl, by omega, rfl⟩)

/-- A data frame has a direction. -/
theorem direction_of_data (payload : PHYPayload) (h : payload.HasMACPayload = true) :
    ∃ direction, payload.GetMessageDirection = .ok direction := by
  unfold HasMACPayload at h
  unfold GetMessageDirection LoRa.GetMessageDirection
  cases htype : payload.type_ <;> simp [htype] at h ⊢

end PHYPayload

namespace MACPayload

/-- The buffers that `Parse` accepts. -/
theorem accepted_buffer (buffer : Bytes) (p : MACPayload) (h : Parse buffer = .ok p) :
    7 ≤ buffer.length ∧ 7 + byteAt buffer 4 % 2 ^ 4 ≤ buffer.length := by
  have hmask : byteAt buffer 4 &&& 0x0f = byteAt buffer 4 % 2 ^ 4 :=
    Nat.and_pow_two_sub_one_eq_mod _ 4
  unfold Parse at h
  split at h
  · exact Except.noConfusion h
  · simp only [hmask] at h
    split at h
    · exact Except.noConfusion h
    · omega

/-- The MAC payload of a frame: the frame is a data frame and the MAC payload
is parsed from the bytes between MHDR and MIC. -/
theorem create_inv (frame : Bytes) (payload : PHYPayload) (mac : MACPayload)
    (hframe : PHYPayload.FromBuffer frame = .ok payload)
    (hmac : create payload = .ok mac) :
    payload.HasMACPayload = true ∧ 5 ≤ frame.length ∧
      Parse ((frame.drop 1).take (frame.length - 5)) = .ok mac := by
  obtain ⟨hbuffer, hlen, _⟩ := PHYPayload.parsed_frame frame payload hframe
  unfold create PHYPayload.GetMACPayload at hmac
  cases hdata : payload.HasMACPayload with
  | false => simp [hdata] at hmac
  | true =>
    have hsub : substr payload.buffer_ 1 (payload.buffer_.length - 5) =
        some ((frame.drop 1).take (frame.length - 5)) := by
      unfold substr
      rw [hbuffer]
      have : ¬ 1 > frame.length := by omega
      rw [if_neg this]
    simp only [hdata, if_true, hsub] at hmac
    exact ⟨rfl, hlen, hmac⟩

/-- The header and the frame payload that the methods of a parsed MAC payload
return, by the three cases of `Parse`. -/
theorem parts (buffer : Bytes) (mac : MACPayload) (h : Parse buffer = .ok mac) :
    mac.frameCounter_ < 2 ^ 16 ∧
    ∃ fhdr frame, mac.GetFHDR = some fhdr ∧ mac.GetFramePayload = some frame ∧
      (buffer.length = 7 + byteAt buffer 4 % 2 ^ 4 →
        fhdr = buffer.take (6 + byteAt buffer 4 % 2 ^ 4) ∧ frame = []) ∧
      (buffer.length = 9 + byteAt buffer 4 % 2 ^ 4 →
        fhdr = buffer.take (7 + byteAt buffer 4 % 2 ^ 4) ∧ frame = []) ∧
      (buffer.length ≠ 7 + byteAt buffer 4 % 2 ^ 4 →
        buffer.length ≠ 9 + byteAt buffer 4 % 2 ^ 4 →
        fhdr = buffer.take (7 + byteAt buffer 4 % 2 ^ 4) ∧
        frame = buffer.drop (8 + byteAt buffer 4 % 2 ^ 4) ∧
        mac.fport_ = byteAt buffer (7 + byteAt buffer 4 % 2 ^ 4)) := by
  obtain ⟨hsize, hoptions⟩ := accepted_buffer buffer mac h
  obtain ⟨p1, hp1, _, _, _, hcounter, _, _, _⟩ := Parse_ok buffer hsize hoptions
  obtain ⟨p2, hp2, hf1, hf2⟩ := GetFHDR_eq buffer hsize hoptions
  obtain ⟨p3, hp3, hg1, hg2, hg3⟩ := GetFramePayload_eq buffer hsize hoptions
  rw [h] at hp1 hp2 hp3
  injection hp1 with hp1
  injection hp2 with hp2
  injection hp3 with hp3
  subst hp1 hp2 hp3
  constructor
  · rw [hcounter, le16_eq 5 buffer (by omega)]
    have := byteAt_lt buffer 5
    have := byteAt_lt buffer (5 + 1)
    omega
  · by_cases h7 : buffer.length = 7 + byteAt buffer 4 % 2 ^ 4
    · refine ⟨_, _, hf2 h7, (hg1 h7).2, fun _ => ⟨rfl, rfl⟩, fun h9 => by omega,
        fun hne => absurd h7 hne⟩
    · by_cases h9 : buffer.length = 9 + byteAt buffer 4 % 2 ^ 4
      · refine ⟨_, _, hf1 h7, (hg3 h9).2, fun h => absurd h h7, fun _ => ⟨rfl, rfl⟩,
          fun _ hne => absurd h9 hne⟩
      · refine ⟨_, _, hf1 h7, (hg2 h7 h9).2.2, fun h => absurd h h7, fun h => absurd h h9,
          fun _ _ => ⟨rfl, rfl, (hg2 h7 h9).1⟩⟩

end MACPayload

namespace FrameEncryptionKey

open UnsignedInteger128

/-- The sum of the two halves of the frame counter is their bitwise OR. -/
theorem frameCounter32_eq (frameCounter highFrameCounter : Nat) (hlow : frameCounter < 2 ^ 16)
    (hhigh : highFrameCounter < 2 ^ 16) :
    frameCounter32 frameCounter highFrameCounter = (highFrameCounter <<< 16) ||| frameCounter := by
  unfold frameCounter32
  rw [Nat.shiftLeft_eq, Nat.mul_comm, ← Nat.mul_add_lt_is_or hlow]
  omega

end FrameEncryptionKey

end LoRa

namespace LoRa

namespace FrameEncryptionKey

open UnsignedInteger128

/-- C24: for every block encryption that returns blocks of 16 bytes, every
key, direction, device address and frame counter below `2 ^ 32` and every
source of at most 4080 bytes, `Apply` returns a string of the length of the
source whose byte `j` is `source[j] XOR S[j]`, where `S[j]` is the byte
`j mod 16` of `encrypt(key, A_i)` for `i = j / 16 + 1`, and `A_i` is the block
`01 00 00 00 00 | dir | address | counter | 00 | i`, with `dir` 0 for an uplink
and 1 for a downlink, `address` and `counter` the four bytes that make the
device address and the frame counter as little-endian integers, and `i` one
byte. `Apply` on a parsed frame is `Apply` on the string that `GetFramePayload`
returns, with the frame counter `(high << 16) | FCnt`. On the frame
`phyPayloadOneByte`, whose FPort is followed by the one byte `0x95`, that
string is empty and `Apply` returns the empty string. -/
theorem Apply_spec
    (encrypt : UnsignedInteger128 → UnsignedInteger128 → UnsignedInteger128)
    (hblock : ∀ key data, (encrypt key data).buffer_.length = 16)
    (k : FrameEncryptionKey) (direction : MessageDirection) (deviceAddress frameCounter : Nat)
    (haddress : deviceAddress < 2 ^ 32) (hcounter : frameCounter < 2 ^ 32)
    (source : Bytes) (hsize : source.length ≤ 4080) :
    (∃ target address counter,
      Apply encrypt k source direction deviceAddress frameCounter = .ok target ∧
      target.length = source.length ∧
      address.length = 4 ∧ le32 address 0 = deviceAddress ∧
      counter.length = 4 ∧ le32 counter 0 = frameCounter ∧
      ∀ j, j < source.length →
        (UInt8.ofNat (j / 16 + 1)).toNat = j / 16 + 1 ∧
        target[j]? = some (source.getD j 0 ^^^
          (encrypt k.key_
            ⟨[0x01, 0x00, 0x00, 0x00, 0x00,
                if direction = MessageDirection.Uplink then 0x00 else 0x01] ++
              address ++ counter ++ [0x00] ++
              [UInt8.ofNat (j / 16 + 1)]⟩).buffer_.getD (j % 16) 0)) ∧
    (∀ frame payload mac high, PHYPayload.FromBuffer frame = .ok payload →
      MACPayload.create payload = .ok mac → high < 2 ^ 16 →
      ∃ data dir, mac.GetFramePayload = some data ∧ payload.GetMessageDirection = .ok dir ∧
        ApplyPayload encrypt k payload high =
          Apply encrypt k data dir mac.GetDeviceAddress
            ((high <<< 16) ||| mac.GetFrameCounter)) ∧
    (∃ payload mac, PHYPayload.FromBuffer phyPayloadOneByte = .ok payload ∧
      MACPayload.create payload = .ok mac ∧ mac.GetFOptsLength = 0 ∧
      mac.buffer_.drop 8 = [0x95] ∧ mac.GetFramePayload = some [] ∧
      ApplyPayload encrypt k payload 0 = .ok []) := by
  refine ⟨?_, ?_, ?_⟩
  · obtain ⟨target, htarget, hlen, hbytes⟩ :=
      Apply_bytes encrypt hblock k direction deviceAddress frameCounter source
    refine ⟨target, htole32 deviceAddress, htole32 frameCounter, htarget, hlen, rfl,
      le32_htole32 _ haddress, rfl, le32_htole32 _ hcounter, fun j hj => ⟨?_, hbytes j hj⟩⟩
    rw [toNat_ofNat]
    omega
  · intro frame payload mac high hframe hmac hhigh
    obtain ⟨hdata, _, hparse⟩ := MACPayload.create_inv frame payload mac hframe hmac
    obtain ⟨hlow, _, data, _, hpayload, _⟩ := MACPayload.parts _ mac hparse
    obtain ⟨dir, hdir⟩ := PHYPayload.direction_of_data payload hdata
    refine ⟨data, dir, hpayload, hdir, ?_⟩
    unfold ApplyPayload
    simp only [hmac, hpayload, hdir]
    rw [frameCounter32_eq mac.GetFrameCounter high hlow hhigh]
  · exact ⟨_, _, rfl, rfl, rfl, rfl, rfl, rfl⟩

/-- C24 with the cipher AES-128, on the key and the frame payload of the test
`Decrypt1`. -/
theorem Apply_spec_witness :
    (∀ key data, (EncryptAES key data).buffer_.length = 16) ∧
    (0x49BE7DF1 < 2 ^ 32 ∧ 2 < 2 ^ 32 ∧ ([0x95, 0x43, 0x78, 0x76] : Bytes).length ≤ 4080) ∧
    ∃ target,
      Apply EncryptAES appSKey [0x95, 0x43, 0x78, 0x76] MessageDirection.Uplink 0x49BE7DF1 2 =
        .ok target ∧
      target.length = ([0x95, 0x43, 0x78, 0x76] : Bytes).length :=
  ⟨fun _ _ => by simp [EncryptAES, AES_ECB_encrypt], ⟨by decide, by decide, by decide⟩,
   Exists.imp (fun _ h => Exists.elim h (fun _ g => Exists.elim g (fun _ f => ⟨f.1, f.2.1⟩)))
     (Apply_spec EncryptAES (fun _ _ => by simp [EncryptAES, AES_ECB_encrypt]) appSKey
       MessageDirection.Uplink 0x49BE7DF1 2 (by decide) (by decide)
       [0x95, 0x43, 0x78, 0x76] (by decide)).1⟩

/-- What `ComputeMIC` does on a parsed data frame: the size of the message
that it authenticates exceeds 255 exactly when the frame without its MIC is
longer than 255 bytes; it then raises `NetworkProtocol`, and it else returns
the first four bytes of the CMAC of the block `B0` followed by MHDR, the
string of `GetFHDR`, the byte of `GetFPort` and the string of `GetFramePayload`. -/
theorem ComputeMIC_eq
    (encrypt : UnsignedInteger128 → UnsignedInteger128 → UnsignedInteger128)
    (k : FrameEncryptionKey) (frame : Bytes) (payload : PHYPayload) (mac : MACPayload)
    (highFrameCounter : Nat) (hframe : PHYPayload.FromBuffer frame = .ok payload)
    (hmac : MACPayload.create payload = .ok mac) :
    ∃ fhdr data direction cmac,
      mac.GetFHDR = some fhdr ∧ mac.GetFramePayload = some data ∧
      payload.GetMessageDirection = .ok direction ∧
      (255 < 1 + fhdr.length + 1 + data.length ↔ 255 < frame.length - 4) ∧
      k.key_.ComputeCMAC encrypt
        ([0x49, 0x00, 0x00, 0x00, 0x00,
            if direction = MessageDirection.Uplink then 0x00 else 0x01] ++
          htole32 mac.GetDeviceAddress ++
          htole32 (frameCounter32 mac.GetFrameCounter highFrameCounter) ++
          [0x00, UInt8.ofNat (1 + fhdr.length + 1 + data.length)] ++
          [UInt8.ofNat payload.GetMHDR] ++ fhdr ++ [UInt8.ofNat mac.GetFPort] ++ data) =
        .ok cmac ∧
      ComputeMIC encrypt k payload highFrameCounter =
        if 255 < 1 + fhdr.length + 1 + data.length then .error ErrorCode.NetworkProtocol
        else .ok (le32 cmac.buffer_ 0) := by
  obtain ⟨hdata, hlen, hparse⟩ := MACPayload.create_inv frame payload mac hframe hmac
  obtain ⟨_, fhdr, data, hfhdr, hpayload, h7, h9, hregular⟩ := MACPayload.parts _ mac hparse
  obtain ⟨direction, hdir⟩ := PHYPayload.direction_of_data payload hdata
  obtain ⟨hsize, hoptions⟩ := MACPayload.accepted_buffer _ mac hparse
  obtain ⟨cmac, hcmac⟩ := ComputeCMAC_ok encrypt k.key_
    ([0x49, 0x00, 0x00, 0x00, 0x00,
        if direction = MessageDirection.Uplink then 0x00 else 0x01] ++
      htole32 mac.GetDeviceAddress ++
      htole32 (frameCounter32 mac.GetFrameCounter highFrameCounter) ++
      [0x00, UInt8.ofNat (1 + fhdr.length + 1 + data.length)] ++
      [UInt8.ofNat payload.GetMHDR] ++ fhdr ++ [UInt8.ofNat mac.GetFPort] ++ data)
  refine ⟨fhdr, data, direction, cmac, hfhdr, hpayload, hdir, ?_, hcmac, ?_⟩
  · have hn : ((frame.drop 1).take (frame.length - 5)).length = frame.length - 5 := by
      rw [List.length_take, List.length_drop]
      omega
    generalize (frame.drop 1).take (frame.length - 5) = buffer at hn h7 h9 hregular hsize hoptions
    have hF : byteAt buffer 4 % 2 ^ 4 < 16 := Nat.mod_lt _ (by decide)
    by_cases c7 : buffer.length = 7 + byteAt buffer 4 % 2 ^ 4
    · obtain ⟨e1, e2⟩ := h7 c7
      rw [e1, e2, List.length_take, List.length_nil]
      omega
    · by_cases c9 : buffer.length = 9 + byteAt buffer 4 % 2 ^ 4
      · obtain ⟨e1, e2⟩ := h9 c9
        rw [e1, e2, List.length_take, List.length_nil]
        omega
      · obtain ⟨e1, e2, _⟩ := hregular c7 c9
        rw [e1, e2, List.length_take, List.length_drop]
        omega
  · unfold ComputeMIC
    rw [hmac]
    dsimp only
    rw [hfhdr]
    dsimp only
    rw [hpayload]
    dsimp only
    by_cases hbig : 255 < 1 + fhdr.length + 1 + data.length
    · rw [if_pos hbig, if_pos hbig]
    · rw [if_neg hbig, if_neg hbig, hdir]
      dsimp only
      rw [PrepareMainBlock_eq]
      dsimp only
      have hb0 : List.take 16
          ([0x49, 0, 0, 0, 0, if direction = MessageDirection.Uplink then 0 else 1] ++
            htole32 mac.GetDeviceAddress ++
            htole32 (frameCounter32 mac.GetFrameCounter highFrameCounter) ++
            [0, UInt8.ofNat (1 + fhdr.length + 1 + data.length)]) =
          [0x49, 0, 0, 0, 0, if direction = MessageDirection.Uplink then 0 else 1] ++
            htole32 mac.GetDeviceAddress ++
            htole32 (frameCounter32 mac.GetFrameCounter highFrameCounter) ++
            [0, UInt8.ofNat (1 + fhdr.length + 1 + data.length)] := by
        apply List.take_of_length_le
        simp [htole32]
      rw [hb0, hcmac]

/-- C26: on every parsed data frame whose MAC payload is parsed, `ComputeMIC`
raises `NetworkProtocol` exactly when the frame without its four bytes of MIC,
which is the message MHDR, FHDR, FPort, FRMPayload, is longer than 255 bytes,
and it returns a MIC for every frame that is not. -/
theorem ComputeMIC_error_iff
    (encrypt : UnsignedInteger128 → UnsignedInteger128 → UnsignedInteger128)
    (k : FrameEncryptionKey) (frame : Bytes) (payload : PHYPayload) (mac : MACPayload)
    (highFrameCounter : Nat) (hframe : PHYPayload.FromBuffer frame = .ok payload)
    (hmac : MACPayload.create payload = .ok mac) :
    (ComputeMIC encrypt k payload highFrameCounter = .error ErrorCode.NetworkProtocol ↔
      255 < frame.length - 4) ∧
    ((∃ e, ComputeMIC encrypt k payload highFrameCounter = .error e) ↔
      255 < frame.length - 4) ∧
    (frame.length - 4 ≤ 255 →
      ∃ mic, ComputeMIC encrypt k payload highFrameCounter = .ok mic ∧ mic < 2 ^ 32) := by
  obtain ⟨fhdr, data, direction, cmac, _, _, _, hiff, _, hmic⟩ :=
    ComputeMIC_eq encrypt k frame payload mac highFrameCounter hframe hmac
  rw [hmic]
  by_cases hbig : 255 < 1 + fhdr.length + 1 + data.length
  · have hlong := hiff.mp hbig
    simp only [hbig, if_true, hlong, iff_true, true_and]
    exact ⟨⟨_, rfl⟩, fun h => by omega⟩
  · have hshort : ¬ 255 < frame.length - 4 := fun h => hbig (hiff.mpr h)
    simp only [hbig, if_false, hshort, iff_false]
    refine ⟨fun h => Except.noConfusion h, fun h => ?_, fun _ => ⟨_, rfl, ?_⟩⟩
    · obtain ⟨e, he⟩ := h
      exact Except.noConfusion he
    · by_cases hc : 0 + 4 ≤ cmac.buffer_.length
      · rw [le32_eq 0 _ hc]
        have := byteAt_lt cmac.buffer_ 0
        have := byteAt_lt cmac.buffer_ (0 + 1)
        have := byteAt_lt cmac.buffer_ (0 + 2)
        have := byteAt_lt cmac.buffer_ (0 + 3)
        omega
      · have hle : ∀ data : Bytes, data.length < 4 → le32 data 0 < 2 ^ 32 := by
          intro data hd
          match data, hd with
          | [], _ => decide
          | [a], _ =>
            have := UInt8.toNat_lt a
            simp only [le32, List.drop_zero, List.take, List.foldr]
            omega
          | [a, b], _ =>
            have := UInt8.toNat_lt a
            have := UInt8.toNat_lt b
            simp only [le32, List.drop_zero, List.take, List.foldr]
            omega
          | [a, b, c], _ =>
            have := UInt8.toNat_lt a
            have := UInt8.toNat_lt b
            have := UInt8.toNat_lt c
            simp only [le32, List.drop_zero, List.take, List.foldr]
            omega
        exact hle _ (by omega)

/-- C26 on the frame of the test `Decrypt5` with the cipher AES-128. -/
theorem ComputeMIC_error_iff_witness :
    (∃ payload mac, PHYPayload.FromBuffer phyPayload3 = .ok payload ∧
      MACPayload.create payload = .ok mac) ∧
    phyPayload3.length - 4 ≤ 255 ∧
    (∀ payload, PHYPayload.FromBuffer phyPayload3 = .ok payload →
      ¬ ComputeMIC EncryptAES nwkSKey payload 0 = .error ErrorCode.NetworkProtocol) :=
  ⟨⟨_, _, rfl, rfl⟩, by decide,
   fun payload hframe h =>
     absurd ((ComputeMIC_error_iff EncryptAES nwkSKey phyPayload3 payload
       { buffer_ := macPayload3, deviceAddress_ := 0x49BE7DF1, fctrl_ := 0, frameCounter_ := 2,
         foptsLength_ := 0, fport_ := 1, frameOffset_ := 8, frameSize_ := 4 } 0 hframe
       (by
         have : Except.ok payload = PHYPayload.FromBuffer phyPayload3 := hframe.symm
         injection this with this
         subst this
         rfl)).1.mp h) (by decide)⟩

end FrameEncryptionKey

end LoRa

namespace LoRa

namespace FrameEncryptionKey

open UnsignedInteger128

theorem mic_Decrypt5 :
    Except.map (fun p => (ComputeMIC EncryptAES nwkSKey p 0, p.GetMIC))
      (PHYPayload.FromBuffer phyPayload3) = .ok (.ok 0x0DFF112B, 0x0DFF112B) := by
  decide!

theorem cmac_Decrypt5 :
    Except.map (fun c => le32 c.buffer_ 0)
      (ComputeCMAC EncryptAES nwkSKey.key_
        ([0x49, 0, 0, 0, 0, 0x00, 0xF1, 0x7D, 0xBE, 0x49, 0x02, 0x00, 0x00, 0x00, 0x00, 0x0D] ++
          phyPayload3.take (phyPayload3.length - 4))) = .ok 0x0DFF112B := by
  decide!

theorem mic_NoFPort :
    Except.map (fun p => ComputeMIC EncryptAES nwkSKey p 0)
      (PHYPayload.FromBuffer phyPayloadNoFPort) = .ok (.ok 1844292530) := by
  decide!

theorem cmac_NoFPort_code :
    Except.map (fun c => le32 c.buffer_ 0)
      (ComputeCMAC EncryptAES nwkSKey.key_
        ([0x49, 0, 0, 0, 0, 0x00, 0xF1, 0x7D, 0xBE, 0x49, 0x02, 0x01, 0x00, 0x00, 0x00, 0x08] ++
          [0x40, 0xF1, 0x7D, 0xBE, 0x49, 0x00, 0x02, 0x00])) = .ok 1844292530 := by
  decide!

theorem cmac_NoFPort_frame :
    Except.map (fun c => le32 c.buffer_ 0)
      (ComputeCMAC EncryptAES nwkSKey.key_
        ([0x49, 0, 0, 0, 0, 0x00, 0xF1, 0x7D, 0xBE, 0x49, 0x02, 0x01, 0x00, 0x00, 0x00, 0x08] ++
          phyPayloadNoFPort.take (phyPayloadNoFPort.length - 4))) = .ok 745850585 := by
  decide!

theorem mic_OneByte :
    Except.map (fun p => ComputeMIC EncryptAES nwkSKey p 0)
      (PHYPayload.FromBuffer phyPayloadOneByte) = .ok (.ok 3148188813) := by
  decide!

theorem cmac_OneByte_code :
    Except.map (fun c => le32 c.buffer_ 0)
      (ComputeCMAC EncryptAES nwkSKey.key_
        ([0x49, 0, 0, 0, 0, 0x00, 0xF1, 0x7D, 0xBE, 0x49, 0x02, 0x00, 0x00, 0x00, 0x00, 0x09] ++
          phyPayloadOneByte.take 9)) = .ok 3148188813 := by
  decide!

theorem cmac_OneByte_frame :
    Except.map (fun c => le32 c.buffer_ 0)
      (ComputeCMAC EncryptAES nwkSKey.key_
        ([0x49, 0, 0, 0, 0, 0x00, 0xF1, 0x7D, 0xBE, 0x49, 0x02, 0x00, 0x00, 0x00, 0x00, 0x0A] ++
          phyPayloadOneByte.take (phyPayloadOneByte.length - 4))) = .ok 1983145488 := by
  decide!

/-- C25 with the cipher AES-128 and the key of the tests `Decrypt5` to
`Decrypt8`. On the frame of the test `Decrypt5`, `ComputeMIC` returns the
little-endian value `0x0DFF112B` of the first four bytes of the CMAC of `B0`
followed by the frame without its MIC, which is the MIC of the frame. On the
frame `phyPayloadNoFPort`, which has no FPort, `ComputeMIC` returns the value
for the message `40 F17DBE49 00 02 00`, whose last byte `01` of FHDR is
replaced by `00`, and not the value for the frame without its MIC. On the frame
`phyPayloadOneByte`, whose FPort is followed by one byte, `ComputeMIC` returns
the value for the 9 bytes before that byte, with the length 9 in `B0`, and not
the value for the 10 bytes of the frame without its MIC. -/
theorem ComputeMIC_on_short_frames :
    (Except.map (fun p => (ComputeMIC EncryptAES nwkSKey p 0, p.GetMIC))
        (PHYPayload.FromBuffer phyPayload3) = .ok (.ok 0x0DFF112B, 0x0DFF112B) ∧
      Except.map (fun c => le32 c.buffer_ 0)
        (ComputeCMAC EncryptAES nwkSKey.key_
          ([0x49, 0, 0, 0, 0, 0x00, 0xF1, 0x7D, 0xBE, 0x49, 0x02, 0x00, 0x00, 0x00, 0x00, 0x0D] ++
            phyPayload3.take (phyPayload3.length - 4))) = .ok 0x0DFF112B) ∧
    (Except.map (fun p => ComputeMIC EncryptAES nwkSKey p 0)
        (PHYPayload.FromBuffer phyPayloadNoFPort) = .ok (.ok 1844292530) ∧
      Except.map (fun c => le32 c.buffer_ 0)
        (ComputeCMAC EncryptAES nwkSKey.key_
          ([0x49, 0, 0, 0, 0, 0x00, 0xF1, 0x7D, 0xBE, 0x49, 0x02, 0x01, 0x00, 0x00, 0x00, 0x08] ++
            [0x40, 0xF1, 0x7D, 0xBE, 0x49, 0x00, 0x02, 0x00])) = .ok 1844292530 ∧
      Except.map (fun c => le32 c.buffer_ 0)
        (ComputeCMAC EncryptAES nwkSKey.key_
          ([0x49, 0, 0, 0, 0, 0x00, 0xF1, 0x7D, 0xBE, 0x49, 0x02, 0x01, 0x00, 0x00, 0x00, 0x08] ++
            phyPayloadNoFPort.take (phyPayloadNoFPort.length - 4))) = .ok 745850585) ∧
    (Except.map (fun p => ComputeMIC EncryptAES nwkSKey p 0)
        (PHYPayload.FromBuffer phyPayloadOneByte) = .ok (.ok 3148188813) ∧
      Except.map (fun c => le32 c.buffer_ 0)
        (ComputeCMAC EncryptAES nwkSKey.key_
          ([0x49, 0, 0, 0, 0, 0x00, 0xF1, 0x7D, 0xBE, 0x49, 0x02, 0x00, 0x00, 0x00, 0x00, 0x09] ++
            phyPayloadOneByte.take 9)) = .ok 3148188813 ∧
      Except.map (fun c => le32 c.buffer_ 0)
        (ComputeCMAC EncryptAES nwkSKey.key_
          ([0x49, 0, 0, 0, 0, 0x00, 0xF1, 0x7D, 0xBE, 0x49, 0x02, 0x00, 0x00, 0x00, 0x00, 0x0A] ++
            phyPayloadOneByte.take (phyPayloadOneByte.length - 4))) = .ok 1983145488) :=
  ⟨⟨mic_Decrypt5, cmac_Decrypt5⟩, ⟨mic_NoFPort, cmac_NoFPort_code, cmac_NoFPort_frame⟩,
   ⟨mic_OneByte, cmac_OneByte_code, cmac_OneByte_frame⟩⟩

end FrameEncryptionKey

namespace UnsignedInteger128

theorem rfc4493_parsed :
    ParseHexadecimal (ascii "2b7e151628aed2a6abf7158809cf4f3c") = .ok rfc4493Key ∧
    LoRaToolbox.ParseHexadecimal (ascii "6bc1bee22e409f96e93d7e117393172a") =
      .ok (rfc4493Message.take 16) ∧
    LoRaToolbox.ParseHexadecimal (ascii
      "6bc1bee22e409f96e93d7e117393172aae2d8a571e03ac9c9eb76fac45af8e5130c81c46a35ce411") =
      .ok (rfc4493Message.take 40) ∧
    LoRaToolbox.ParseHexadecimal (ascii
      "6bc1bee22e409f96e93d7e117393172aae2d8a571e03ac9c9eb76fac45af8e5130c81c46a35ce411e5fbc1191a0a52eff69f2445df4f9b17ad2b417be66c3710") =
      .ok rfc4493Message := by
  refine ⟨?_, ?_, ?_, ?_⟩ <;> decide!

theorem rfc4493_subkeys :
    (EncryptAES rfc4493Key AssignZero).Format true = ascii "7DF76B0C1AB899B33E42F047B91B546F" ∧
    Except.map (fun keys => (keys.1.Format true, keys.2.Format true))
      (GenerateCMACSubkey EncryptAES rfc4493Key) =
      .ok (ascii "FBEED618357133667C85E08F7236A8DE", ascii "F7DDAC306AE266CCF90BC11EE46D513B") := by
  refine ⟨?_, ?_⟩ <;> decide!

theorem rfc4493_length0 :
    Except.map (fun c => c.Format true) (ComputeCMAC EncryptAES rfc4493Key []) =
      .ok (ascii "BB1D6929E95937287FA37D129B756746") := by
  decide!

theorem rfc4493_length16 :
    Except.map (fun c => c.Format true)
      (ComputeCMAC EncryptAES rfc4493Key (rfc4493Message.take 16)) =
      .ok (ascii "070A16B46B4D4144F79BDD9DD04A287C") := by
  decide!

theorem rfc4493_length40 :
    Except.map (fun c => c.Format true)
      (ComputeCMAC EncryptAES rfc4493Key (rfc4493Message.take 40)) =
      .ok (ascii "DFA66747DE9AE63030CA32611497C827") := by
  decide!

theorem rfc4493_length64 :
    Except.map (fun c => c.Format true) (ComputeCMAC EncryptAES rfc4493Key rfc4493Message) =
      .ok (ascii "51F0BEBF7E3B9D92FC49741779363CFE") := by
  decide!

/-- C29: with the cipher AES-128 and the key `2b7e151628aed2a6abf7158809cf4f3c`,
`ComputeCMAC` returns the blocks that `Format` writes as
`BB1D6929E95937287FA37D129B756746` for the empty message,
`070A16B46B4D4144F79BDD9DD04A287C` for the 16 bytes
`6bc1bee22e409f96e93d7e117393172a`, `DFA66747DE9AE63030CA32611497C827` for the
vector of 40 bytes of RFC 4493 and `51F0BEBF7E3B9D92FC49741779363CFE` for its
vector of 64 bytes; the encryption of the zero block and the two subkeys are
those of the test `RFC4493`. -/
theorem RFC4493_vectors :
    (ParseHexadecimal (ascii "2b7e151628aed2a6abf7158809cf4f3c") = .ok rfc4493Key ∧
      LoRaToolbox.ParseHexadecimal (ascii "6bc1bee22e409f96e93d7e117393172a") =
        .ok (rfc4493Message.take 16) ∧
      LoRaToolbox.ParseHexadecimal (ascii
        "6bc1bee22e409f96e93d7e117393172aae2d8a571e03ac9c9eb76fac45af8e5130c81c46a35ce411") =
        .ok (rfc4493Message.take 40) ∧
      LoRaToolbox.ParseHexadecimal (ascii
        "6bc1bee22e409f96e93d7e117393172aae2d8a571e03ac9c9eb76fac45af8e5130c81c46a35ce411e5fbc1191a0a52eff69f2445df4f9b17ad2b417be66c3710") =
        .ok rfc4493Message) ∧
    ((EncryptAES rfc4493Key AssignZero).Format true = ascii "7DF76B0C1AB899B33E42F047B91B546F" ∧
      Except.map (fun keys => (keys.1.Format true, keys.2.Format true))
        (GenerateCMACSubkey EncryptAES rfc4493Key) =
        .ok (ascii "FBEED618357133667C85E08F7236A8DE", ascii "F7DDAC306AE266CCF90BC11EE46D513B")) ∧
    Except.map (fun c => c.Format true) (ComputeCMAC EncryptAES rfc4493Key []) =
      .ok (ascii "BB1D6929E95937287FA37D129B756746") ∧
    Except.map (fun c => c.Format true)
      (ComputeCMAC EncryptAES rfc4493Key (rfc4493Message.take 16)) =
      .ok (ascii "070A16B46B4D4144F79BDD9DD04A287C") ∧
    Except.map (fun c => c.Format true)
      (ComputeCMAC EncryptAES rfc4493Key (rfc4493Message.take 40)) =
      .ok (ascii "DFA66747DE9AE63030CA32611497C827") ∧
    Except.map (fun c => c.Format true) (ComputeCMAC EncryptAES rfc4493Key rfc4493Message) =
      .ok (ascii "51F0BEBF7E3B9D92FC49741779363CFE") :=
  ⟨rfc4493_parsed, rfc4493_subkeys, rfc4493_length0, rfc4493_length16, rfc4493_length40,
   rfc4493_length64⟩

end UnsignedInteger128

end LoRa

/-! ## Claims on the cursor of a reader and on the safety of `Append` -/

namespace TimeSeriesReader

namespace Transaction

theorem moveTo_false (t : Transaction) (found : Option Int)
    (h : (t.moveTo found).1 = false) : (t.moveTo found).2 = t := by
  cases found with
  | none => rfl
  | some timestamp => exact Bool.noConfusion h

/-- C37: in a reader transaction `t`, each of `SeekFirst`, `SeekLast`,
`SeekNearest`, `SeekNext` and `SeekPrevious` that returns `false` leaves the
transaction, hence the validity and the timestamp of its cursor, exactly as it
was; a transaction that was just opened is not valid; and while the cursor is
not valid `SeekNext`, `SeekPrevious`, `Read` and `GetTimestamp` return `false`. -/
theorem failed_seek_keeps_cursor (series : TimeSeries) (t : Transaction) (timestamp : Int) :
    (t.SeekFirst.1 = false → t.SeekFirst.2 = t) ∧
    (t.SeekLast.1 = false → t.SeekLast.2 = t) ∧
    ((t.SeekNearest timestamp).1 = false → (t.SeekNearest timestamp).2 = t) ∧
    (t.SeekNext.1 = false → t.SeekNext.2 = t) ∧
    (t.SeekPrevious.1 = false → t.SeekPrevious.2 = t) ∧
    (create series).valid_ = false ∧
    (t.valid_ = false →
      t.SeekNext.1 = false ∧ t.SeekPrevious.1 = false ∧ t.Read = none ∧
        t.GetTimestamp = none) := by
  refine ⟨?_, ?_, ?_, ?_, ?_, rfl, ?_⟩
  · unfold SeekFirst
    cases t.transaction_ with
    | none => intro _; rfl
    | some backend => exact moveTo_false t _
  · unfold SeekLast
    cases t.transaction_ with
    | none => intro _; rfl
    | some backend => exact moveTo_false t _
  · unfold SeekNearest
    cases t.transaction_ with
    | none => intro _; rfl
    | some backend => exact moveTo_false t _
  · unfold SeekNext
    cases hv : t.valid_ with
    | false => intro _; rfl
    | true =>
      cases t.transaction_ with
      | none => intro _; rfl
      | some backend => exact moveTo_false t _
  · unfold SeekPrevious
    cases hv : t.valid_ with
    | false => intro _; rfl
    | true =>
      cases t.transaction_ with
      | none => intro _; rfl
      | some backend => exact moveTo_false t _
  · intro hv
    simp [SeekNext, SeekPrevious, Read, GetTimestamp, hv]

theorem failed_seek_keeps_cursor_witness :
    ((create threeItemsSeries).Seek 20).SeekNext.1 = false ∧
      ((create threeItemsSeries).Seek 20).SeekNext.2 = (create threeItemsSeries).Seek 20 :=
  ⟨by decide,
   (failed_seek_keeps_cursor threeItemsSeries ((create threeItemsSeries).Seek 20) 0).2.2.2.1
     (by decide)⟩

end Transaction

end TimeSeriesReader

namespace MemoryTimeSeriesContent

/-- The stages of an accepted `Append`: both eviction loops and `SetValue` have
returned without an exception. -/
theorem Append_stages (s : MemoryTimeSeriesContent) (timestamp : Int) (metadata value : Bytes)
    (s4 : MemoryTimeSeriesContent)
    (hrun : Append s timestamp metadata value = .ok (true, s4)) :
    ∃ s1 s2 s3,
      (if s.maxLength_ ≠ 0 then
        removeOldestWhile (fun t => decide (t.content_.length + 1 > t.maxLength_)) s
       else .ok s) = .ok s1 ∧
      (if s1.maxSize_ ≠ 0 then
        removeOldestWhile (fun t => decide (t.size_ + value.length > t.maxSize_)) s1
       else .ok s1) = .ok s2 ∧
      SetValue s2 timestamp metadata value = .ok s3 ∧
      s4 = { s3 with hasLastTimestamp_ := true, lastTimestamp_ := timestamp } := by
  unfold Append at hrun
  by_cases h1 : s.maxSize_ ≠ 0 ∧ value.length > s.maxSize_
  · rw [if_pos h1] at hrun
    injection hrun with hrun
    injection hrun with hrun _
    exact Bool.noConfusion hrun
  · rw [if_neg h1] at hrun
    by_cases h2 : s.hasLastTimestamp_ = true ∧ timestamp ≤ s.lastTimestamp_
    · rw [if_pos h2] at hrun
      injection hrun with hrun
      injection hrun with hrun _
      exact Bool.noConfusion hrun
    · rw [if_neg h2] at hrun
      cases hl : (if s.maxLength_ ≠ 0 then
          removeOldestWhile (fun t => decide (t.content_.length + 1 > t.maxLength_)) s
         else .ok s) with
      | error e => rw [hl] at hrun; exact Except.noConfusion hrun
      | ok s1 =>
        rw [hl] at hrun
        simp only at hrun
        cases hz : (if s1.maxSize_ ≠ 0 then
            removeOldestWhile (fun t => decide (t.size_ + value.length > t.maxSize_)) s1
           else .ok s1) with
        | error e => rw [hz] at hrun; exact Except.noConfusion hrun
        | ok s2 =>
          rw [hz] at hrun
          simp only at hrun
          cases hv : SetValue s2 timestamp metadata value with
          | error e => rw [hv] at hrun; exact Except.noConfusion hrun
          | ok s3 =>
            rw [hv] at hrun
            simp only at hrun
            injection hrun with hrun
            injection hrun with _ hrun
            exact ⟨s1, s2, s3, rfl, hz, hv, hrun.symm⟩

/-- An eviction loop that returns has removed the first `k` entries, each of
them from a series that was not empty. -/
theorem removeOldestWhile_ok (cond : MemoryTimeSeriesContent → Bool)
    (s s1 : MemoryTimeSeriesContent) (hrun : removeOldestWhile cond s = .ok s1) :
    ∃ k, k ≤ s.content_.length ∧ s1.content_ = s.content_.drop k := by
  rcases removeOldestLoop_spec cond s s.content_ s.size_ with ⟨k, hk, hloop, _, _⟩ | ⟨hloop, _⟩
  · unfold removeOldestWhile at hrun
    rw [hloop] at hrun
    injection hrun with hrun
    exact ⟨k, hk, by rw [← hrun]⟩
  · unfold removeOldestWhile at hrun
    rw [hloop] at hrun
    exact Except.noConfusion hrun

/-- C38: a memory series created empty with any quotas runs every sequence of
`Append`, `DeleteRange` and `ClearContent` calls to its end, and in the state
`s` that it reaches no `Append` throws: it is either refused (it returns
`false` and leaves the state alone), or both eviction loops return, having
removed `k1` and then `k2` entries that were there (`RemoveOldest` is never
called on an empty series), `SetValue` returns without finding a quota
exceeded, and `Append` returns `true`. -/
theorem Append_never_throws (maxLength maxSize : Nat) (history : List Call) :
    ∃ s, calls (create maxLength maxSize) history = .ok s ∧
      ∀ (timestamp : Int) (metadata value : Bytes),
        Append s timestamp metadata value = .ok (false, s) ∨
        ∃ s1 s2 s3 k1 k2,
          (if s.maxLength_ ≠ 0 then
            removeOldestWhile (fun t => decide (t.content_.length + 1 > t.maxLength_)) s
           else .ok s) = .ok s1 ∧
          k1 ≤ s.content_.length ∧ s1.content_ = s.content_.drop k1 ∧
          (if s1.maxSize_ ≠ 0 then
            removeOldestWhile (fun t => decide (t.size_ + value.length > t.maxSize_)) s1
           else .ok s1) = .ok s2 ∧
          k2 ≤ s1.content_.length ∧ s2.content_ = s1.content_.drop k2 ∧
          SetValue s2 timestamp metadata value = .ok s3 ∧
          Append s timestamp metadata value =
            .ok (true, { s3 with hasLastTimestamp_ := true, lastTimestamp_ := timestamp }) := by
  obtain ⟨s, _, hcalls, _, hs, _, _, _⟩ := created_spec maxLength maxSize history
  refine ⟨s, hcalls, ?_⟩
  intro timestamp metadata value
  rcases Append_total s hs timestamp metadata value with ⟨_, hrun⟩ | ⟨_, k, _, hrun, _, _⟩
  · exact Or.inl hrun
  · right
    obtain ⟨s1, s2, s3, hl, hz, hv, h4⟩ := Append_stages s timestamp metadata value _ hrun
    have hk1 : ∃ k1, k1 ≤ s.content_.length ∧ s1.content_ = s.content_.drop k1 := by
      by_cases hmax : s.maxLength_ ≠ 0
      · rw [if_pos hmax] at hl
        exact removeOldestWhile_ok _ s s1 hl
      · rw [if_neg hmax] at hl
        injection hl with hl
        exact ⟨0, Nat.zero_le _, by rw [← hl, List.drop_zero]⟩
    have hk2 : ∃ k2, k2 ≤ s1.content_.length ∧ s2.content_ = s1.content_.drop k2 := by
      by_cases hmax : s1.maxSize_ ≠ 0
      · rw [if_pos hmax] at hz
        exact removeOldestWhile_ok _ s1 s2 hz
      · rw [if_neg hmax] at hz
        injection hz with hz
        exact ⟨0, Nat.zero_le _, by rw [← hz, List.drop_zero]⟩
    obtain ⟨k1, hk1, hc1⟩ := hk1
    obtain ⟨k2, hk2, hc2⟩ := hk2
    refine ⟨s1, s2, s3, k1, k2, hl, hk1, hc1, hz, hk2, hc2, hv, ?_⟩
    rw [hrun, h4]

/-- C39: in every state `s` that a series created empty reaches by `Append`,
`DeleteRange` and `ClearContent`, every stored timestamp is at most
`lastTimestamp_`, which is present as soon as the series is not empty; so an
accepted `Append` is at a timestamp that is not stored, and the entries of the
state that it leaves are entries that were stored, as they were, followed by
the new entry: no metadata or value of an existing item is overwritten. -/
theorem stored_below_last (maxLength maxSize : Nat) (history : List Call)
    (s : MemoryTimeSeriesContent)
    (hstate : calls (create maxLength maxSize) history = .ok s) :
    (∀ t ∈ timestamps s, t ≤ s.lastTimestamp_) ∧
    (s.content_ ≠ [] → s.hasLastTimestamp_ = true) ∧
    ∀ (timestamp : Int) (metadata value : Bytes) (s1 : MemoryTimeSeriesContent),
      Append s timestamp metadata value = .ok (true, s1) →
        timestamp ∉ timestamps s ∧
        (∃ k, s1.content_ =
          s.content_.drop k ++ [(timestamp, { metadata_ := metadata, value_ := value })]) ∧
        ∀ e ∈ s1.content_, e.1 ≠ timestamp → e ∈ s.content_ := by
  obtain ⟨hs, _, _⟩ := created_consistent maxLength maxSize history s hstate
  refine ⟨?_, ?_, ?_⟩
  · intro t ht
    obtain ⟨e, he, het⟩ := (mem_timestamps s t).mp ht
    rw [← het]
    exact (hs.below_last e he).2
  · intro hne
    cases hc : s.content_ with
    | nil => exact absurd hc hne
    | cons e rest => exact (hs.below_last e (by rw [hc]; exact List.mem_cons_self _ _)).1
  · intro timestamp metadata value s1 hrun
    rcases Append_total s hs timestamp metadata value with
      ⟨_, hrefused⟩ | ⟨⟨_, hlast⟩, k, _, haccepted, _, _⟩
    · rw [hrefused] at hrun
      injection hrun with hrun
      injection hrun with hrun _
      exact Bool.noConfusion hrun
    · rw [haccepted] at hrun
      injection hrun with hrun
      injection hrun with _ hrun
      have habove : ∀ e ∈ s.content_, e.1 < timestamp := by
        intro e he
        obtain ⟨h0, h1⟩ := hs.below_last e he
        rcases hlast with h | h
        · rw [h] at h0; exact Bool.noConfusion h0
        · omega
      refine ⟨?_, ⟨k, by rw [← hrun]⟩, ?_⟩
      · intro hmem
        obtain ⟨e, he, het⟩ := (mem_timestamps s timestamp).mp hmem
        have := habove e he
        omega
      · intro e he hne
        rw [← hrun] at he
        have he : e ∈ s.content_.drop k ++
            [(timestamp, ({ metadata_ := metadata, value_ := value } : Item))] := he
        rw [List.mem_append, List.mem_singleton] at he
        rcases he with he | he
        · exact List.mem_of_mem_drop he
        · rw [he] at hne
          exact absurd rfl hne

theorem stored_below_last_witness :
    calls (create 0 0) threeCalls = .ok threeItems ∧
      ∀ t ∈ timestamps threeItems, t ≤ threeItems.lastTimestamp_ :=
  ⟨by decide, (stored_below_last 0 0 threeCalls threeItems (by decide)).1⟩

end MemoryTimeSeriesContent

/-! ## Claims on the start of the server context -/

namespace ServerContext

/-- The inner loop of `Start` stops the filters before `it`, in the order of
`filters_`. -/
theorem stopStarted_eq (it : Nat) : ∀ (filters : List IFilter) (it2 : Nat),
    it2 ≤ it → it - it2 ≤ filters.length →
      Start.stopStarted it it2 filters = (List.range' it2 (it - it2)).map FilterCall.Stop := by
  intro filters
  induction filters with
  | nil =>
    intro it2 h1 h2
    have : it - it2 = 0 := by simpa using h2
    rw [this]
    rfl
  | cons filter rest ih =>
    intro it2 h1 h2
    by_cases heq : it2 = it
    · subst heq
      simp [Start.stopStarted]
    · have hlt : it2 < it := by omega
      have hlen : it - (it2 + 1) ≤ rest.length := by
        simp only [List.length_cons] at h2
        omega
      have hsucc : it - it2 = (it - (it2 + 1)) + 1 := by omega
      simp only [Start.stopStarted, heq, if_false, StopFilter]
      rw [ih (it2 + 1) (by omega) hlen, hsucc, List.range'_succ]
      rfl

/-- The first loop of `Start`, when the filter at the position `it + k` is the
first one that does not start. -/
theorem loop_failure (filters : List IFilter) : ∀ (rest : List IFilter) (it k : Nat)
    (failing : IFilter), it + k ≤ filters.length →
    rest[k]? = some failing → failing.Start = false →
    (∀ j, j < k → ∀ f, rest[j]? = some f → f.Start = true) →
      Start.loop filters it rest =
        ((List.range' it (k + 1)).map FilterCall.Start ++
          (List.range (it + k)).map FilterCall.Stop, false) := by
  intro rest
  induction rest with
  | nil =>
    intro it k failing _ hk
    simp at hk
  | cons filter rest ih =>
    intro it k failing hlen hk hfail hbefore
    cases k with
    | zero =>
      simp only [List.getElem?_cons_zero, Option.some.injEq] at hk
      subst hk
      have hstop := stopStarted_eq it filters 0 (Nat.zero_le _) (by simpa using hlen)
      simp only [Start.loop, StartFilter, hfail, Bool.false_eq_true, if_false]
      rw [hstop]
      simp [List.range_eq_range']
    | succ k =>
      have hstart : filter.Start = true := hbefore 0 (Nat.succ_pos _) filter (List.getElem?_cons_zero)
      have hrest := ih (it + 1) k failing (by omega) (by simpa using hk) hfail
        (fun j hj f hf => hbefore (j + 1) (by omega) f (by simpa using hf))
      simp only [Start.loop, StartFilter, hstart, if_true]
      rw [hrest]
      have h1 : it + 1 + k = it + (k + 1) := by omega
      rw [h1, List.range'_succ it (k + 1)]
      rfl

/-- C33 as stated fails: with three filters of which the third one does not
start, `Start` calls `Stop` on the first filter and then on the second one, in
the order of their start, and not on the second one first. -/
theorem Start_stops_in_declared_order :
    threeFiltersContext.Start =
        ([FilterCall.Start 0, FilterCall.Start 1, FilterCall.Start 2,
          FilterCall.Stop 0, FilterCall.Stop 1], .error ErrorCode.InternalError) ∧
      threeFiltersContext.Start.1 ≠
        [FilterCall.Start 0, FilterCall.Start 1, FilterCall.Start 2,
         FilterCall.Stop 1, FilterCall.Stop 0] := by
  decide

/-- C33, amended: when the filter at the position `k` of `filters_` (counted
from 0) is the first one whose `Start` fails, `ServerContext::Start` has called
`Start` on the filters at the positions `0, ..., k`, then `Stop` on the filters
at the positions `0, ..., k - 1` in that order (the order of their start); it
calls `Stop` neither on the failing filter nor on a later one, creates no
worker thread and throws `InternalError`. -/
theorem Start_failure (c : ServerContext) (k : Nat) (failing : IFilter)
    (hsetup : c.state_ = State.Setup)
    (hk : c.filters_[k]? = some failing) (hfail : failing.Start = false)
    (hbefore : ∀ j, j < k → ∀ f, c.filters_[j]? = some f → f.Start = true) :
    c.Start =
      ((List.range (k + 1)).map FilterCall.Start ++ (List.range k).map FilterCall.Stop,
       .error ErrorCode.InternalError) := by
  have hlen : k < c.filters_.length := by
    by_contra h
    rw [List.getElem?_eq_none (by omega)] at hk
    exact Option.noConfusion hk
  have hloop := loop_failure c.filters_ c.filters_ 0 k failing (by omega) hk hfail hbefore
  unfold Start
  rw [hsetup, hloop]
  simp [List.range_eq_range']

theorem Start_failure_witness :
    threeFiltersContext.Start =
      ((List.range (2 + 1)).map FilterCall.Start ++ (List.range 2).map FilterCall.Stop,
       .error ErrorCode.InternalError) :=
  Start_failure threeFiltersContext 2 { GetName := "third", Start := false, Stop := true }
    rfl rfl rfl (by
      intro j hj f hf
      have hcases : j = 0 ∨ j = 1 := by omega
      rcases hcases with h | h
      · subst h
        have : f = { GetName := "first", Start := true, Stop := true } := by
          simpa [threeFiltersContext, threeFilters] using hf.symm
        rw [this]
      · subst h
        have : f = { GetName := "second", Start := true, Stop := true } := by
          simpa [threeFiltersContext, threeFilters] using hf.symm
        rw [this])

end ServerContext

/-! ## Lemmas and claims on the adapter filter -/

theorem toInt64_succ (t : Int) (hmin : INT64_MIN ≤ t) (hmax : t < INT64_MAX) :
    toInt64 (t + 1) = t + 1 := by
  unfold INT64_MIN at hmin
  unfold INT64_MAX at hmax
  unfold toInt64
  omega

namespace MemoryTimeSeriesContent

/-- In a consistent state `Read` at the key of a stored entry returns that entry. -/
theorem Read_stored (s : MemoryTimeSeriesContent) (hs : Consistent s) (e : Int × Item)
    (he : e ∈ s.content_) : Read s e.1 = some (e.2.metadata_, e.2.value_) := by
  obtain ⟨front, back, hsplit⟩ := List.append_of_mem he
  have hsorted := hs.sorted
  rw [hsplit] at hsorted
  rw [Read_eq_find?, hsplit, find?_key_at front back e hsorted]
  rfl

end MemoryTimeSeriesContent

namespace AdapterFilter

open MemoryTimeSeriesContent

/-- The reader transaction of a step, after a seek that found the timestamp of
a stored entry. -/
theorem read_stored (series : TimeSeries) (b : MemoryTimeSeriesBackend)
    (hb : series.backend_ = some b) (hs : Consistent b) (found : Option (Int × Item))
    (hfound : ∀ e, found = some e → e ∈ b.content_) :
    (match (TimeSeriesReader.Transaction.create series).moveTo (found.map Prod.fst) with
      | (true, transaction1) =>
        match transaction1.GetTimestamp, transaction1.Read with
        | some timestamp, some (metadata, value) => some (timestamp, metadata, value)
        | _, _ => none
      | (false, _) => none) =
    found.map (fun e => (e.1, e.2.metadata_, e.2.value_)) := by
  cases found with
  | none => rfl
  | some e =>
    have hread := Read_stored b hs e (hfound e rfl)
    simp only [Option.map_some', TimeSeriesReader.Transaction.moveTo,
      TimeSeriesReader.Transaction.GetTimestamp, TimeSeriesReader.Transaction.Read,
      TimeSeriesReader.Transaction.create, TimeSeries.HasBackend, hb, Option.isSome_some,
      if_true, Bool.not_true, Bool.false_eq_true, if_false, hread]

/-- What the reader transaction of `Step` reads on a series with a consistent
backend: the first entry after the reading head (the first entry of all when
the head is not valid), provided that the sum `timestamp_ + 1` does not wrap. -/
theorem read_eq (f : AdapterFilter) (series : TimeSeries) (b : MemoryTimeSeriesBackend)
    (hb : series.backend_ = some b) (hs : Consistent b)
    (hrange : f.isValid_ = true → INT64_MIN ≤ f.timestamp_ ∧ f.timestamp_ < INT64_MAX) :
    Step.read f series =
      (b.content_.find? (fun e => !f.isValid_ || decide (f.timestamp_ < e.1))).map
        (fun e => (e.1, e.2.metadata_, e.2.value_)) := by
  have hcreate : (TimeSeriesReader.Transaction.create series).transaction_ = some b := by
    simp [TimeSeriesReader.Transaction.create, TimeSeries.HasBackend, hb]
  cases hv : f.isValid_ with
  | false =>
    have hseek : (TimeSeriesReader.Transaction.create series).SeekFirst =
        (TimeSeriesReader.Transaction.create series).moveTo
          ((b.content_.find? (fun _ => true)).map Prod.fst) := by
      unfold TimeSeriesReader.Transaction.SeekFirst
      rw [hcreate]
      simp only [SeekFirst_eq]
    unfold Step.read
    simp only [hv, Bool.false_eq_true, if_false, hseek, Bool.not_false, Bool.true_or]
    exact read_stored series b hb hs _ (fun e he => List.mem_of_find?_eq_some he)
  | true =>
    obtain ⟨hmin, hmax⟩ := hrange hv
    have hseek : (TimeSeriesReader.Transaction.create series).SeekNearest
          (toInt64 (f.timestamp_ + 1)) =
        (TimeSeriesReader.Transaction.create series).moveTo
          ((b.content_.find? (fun e => decide (f.timestamp_ < e.1))).map Prod.fst) := by
      unfold TimeSeriesReader.Transaction.SeekNearest
      rw [hcreate, toInt64_succ _ hmin hmax]
      simp only [SeekNearest_eq]
      have : (fun e : Int × Item => decide (f.timestamp_ + 1 ≤ e.1)) =
          (fun e : Int × Item => decide (f.timestamp_ < e.1)) := by
        funext e
        exact decide_eq_decide.mpr (by omega)
      rw [this]
    unfold Step.read
    simp only [hv, if_true, hseek, Bool.not_true, Bool.false_or]
    exact read_stored series b hb hs _ (fun e he => List.mem_of_find?_eq_some he)

end AdapterFilter

namespace MemoryTimeSeriesContent

/-- One call on a consistent state: an entry of the state that it leaves was
stored before or was appended by the call above the last timestamp, and the
last timestamp does not go down. -/
theorem call_entries (s : MemoryTimeSeriesContent) (hs : Consistent s) (op : Call) :
    ∃ s1, call s op = .ok s1 ∧ Consistent s1 ∧
      (∀ e ∈ s1.content_, e ∈ s.content_ ∨
        ((∃ metadata value, op = Call.Append e.1 metadata value) ∧
          (s.hasLastTimestamp_ = true → s.lastTimestamp_ < e.1))) ∧
      (s.hasLastTimestamp_ = true →
        s1.hasLastTimestamp_ = true ∧ s.lastTimestamp_ ≤ s1.lastTimestamp_) := by
  cases op with
  | Append timestamp metadata value =>
    rcases Append_total s hs timestamp metadata value with
      ⟨_, hrun⟩ | ⟨⟨_, hlast⟩, k, _, hrun, _, _⟩
    · exact ⟨s, by simp only [call, hrun], hs, fun e he => Or.inl he, fun h => ⟨h, le_refl _⟩⟩
    · obtain ⟨a, s1, hrun1, hs1⟩ := Consistent_Append s hs timestamp metadata value
      rw [hrun] at hrun1
      injection hrun1 with hrun1
      injection hrun1 with _ hs1eq
      subst hs1eq
      refine ⟨_, by simp only [call, hrun], hs1, ?_, ?_⟩
      · intro e he
        have he : e ∈ s.content_.drop k ++
            [(timestamp, ({ metadata_ := metadata, value_ := value } : Item))] := he
        rw [List.mem_append, List.mem_singleton] at he
        rcases he with he | he
        · exact Or.inl (List.mem_of_mem_drop he)
        · right
          rw [he]
          refine ⟨⟨metadata, value, rfl⟩, ?_⟩
          intro hhas
          rcases hlast with h | h
          · rw [h] at hhas; exact Bool.noConfusion hhas
          · exact h
      · intro hhas
        refine ⟨rfl, ?_⟩
        show s.lastTimestamp_ ≤ timestamp
        rcases hlast with h | h
        · rw [h] at hhas; exact Bool.noConfusion hhas
        · omega
  | DeleteRange start stop =>
    refine ⟨_, rfl, Consistent_DeleteRange s hs start stop, ?_, ?_⟩
    · intro e he
      rw [DeleteRange_eq s hs] at he
      exact Or.inl (List.mem_of_mem_filter he)
    · intro hhas
      rw [DeleteRange_eq s hs]
      exact ⟨hhas, le_refl _⟩
  | ClearContent =>
    refine ⟨_, rfl, Consistent_ClearContent s, ?_, ?_⟩
    · intro e he
      simp [ClearContent] at he
    · intro hhas
      exact ⟨hhas, le_refl _⟩

/-- A sequence of calls on a consistent state: an entry of the state that it
leaves was stored before or was appended by one of the calls above the last
timestamp of the start, and the last timestamp does not go down. -/
theorem calls_entries (ops : List Call) :
    ∀ s : MemoryTimeSeriesContent, Consistent s →
      ∃ s1, calls s ops = .ok s1 ∧ Consistent s1 ∧
        (∀ e ∈ s1.content_, e ∈ s.content_ ∨
          ((∃ metadata value, Call.Append e.1 metadata value ∈ ops) ∧
            (s.hasLastTimestamp_ = true → s.lastTimestamp_ < e.1))) ∧
        (s.hasLastTimestamp_ = true →
          s1.hasLastTimestamp_ = true ∧ s.lastTimestamp_ ≤ s1.lastTimestamp_) := by
  induction ops with
  | nil =>
    intro s hs
    exact ⟨s, rfl, hs, fun e he => Or.inl he, fun h => ⟨h, le_refl _⟩⟩
  | cons op rest ih =>
    intro s hs
    obtain ⟨s1, hcall, hs1, hentries1, hlast1⟩ := call_entries s hs op
    obtain ⟨s2, hcalls, hs2, hentries2, hlast2⟩ := ih s1 hs1
    refine ⟨s2, by simp only [calls, hcall, hcalls], hs2, ?_, ?_⟩
    · intro e he
      rcases hentries2 e he with h | ⟨⟨metadata, value, hmem⟩, habove⟩
      · rcases hentries1 e h with h1 | ⟨⟨metadata, value, hop⟩, habove⟩
        · exact Or.inl h1
        · exact Or.inr ⟨⟨metadata, value, by rw [hop]; exact List.mem_cons_self _ _⟩, habove⟩
      · refine Or.inr ⟨⟨metadata, value, List.mem_cons_of_mem _ hmem⟩, ?_⟩
        intro hhas
        obtain ⟨h1, h2⟩ := hlast1 hhas
        have := habove h1
        omega
    · intro hhas
      obtain ⟨h1, h2⟩ := hlast1 hhas
      obtain ⟨h3, h4⟩ := hlast2 h1
      exact ⟨h3, by omega⟩

end MemoryTimeSeriesContent

namespace TimeSeriesWriter

open MemoryTimeSeriesContent in
/-- A writer transaction on a series with a consistent backend: the backend
goes through the calls. -/
theorem transact_eq (series : TimeSeries) (b : MemoryTimeSeriesBackend)
    (hb : series.backend_ = some b) (hs : Consistent b) (operations : List Call) :
    ∃ b1 notifications, calls b operations = .ok b1 ∧
      transact series operations = .ok ({ series with backend_ := some b1 }, notifications) := by
  have hcreate : (Transaction.create series).transaction_ = some b := by
    simp [Transaction.create, TimeSeries.HasBackend, hb]
  obtain ⟨b1, _, hcalls, _, _, modified, hall, _⟩ :=
    Transaction.applyAll_spec operations (Transaction.create series) b hcreate hs
  refine ⟨b1, if modified then series.NotifyModification else [], hcalls, ?_⟩
  unfold transact
  rw [hall]
  rfl

end TimeSeriesWriter

namespace AdapterFilter

open MemoryTimeSeriesContent

/-- A step that finds no item after the reading head waits and changes nothing. -/
theorem Step_wait {σ : Type} (Push : σ → Message → PushStatus × σ) (f : AdapterFilter)
    (series : TimeSeries) (subclass : σ) (hread : Step.read f series = none) :
    Step Push f series subclass =
      { returned := true, filter := f, series := series, notifications := [],
        subclass := subclass, pushed := none } := by
  unfold Step
  rw [hread]

/-- The fields that a step leaves when it has read an item. -/
theorem Step_pushed {σ : Type} (Push : σ → Message → PushStatus × σ) (f : AdapterFilter)
    (series : TimeSeries) (subclass : σ) (t : Int) (metadata value : Bytes)
    (hread : Step.read f series = some (t, metadata, value)) :
    (Step Push f series subclass).pushed =
        some (Step.message t metadata value,
          (Push subclass (Step.message t metadata value)).1) ∧
      (Step Push f series subclass).subclass =
        (Push subclass (Step.message t metadata value)).2 ∧
      (Step Push f series subclass).filter =
        (match (Push subclass (Step.message t metadata value)).1 with
          | PushStatus.Success => { f with isValid_ := true, timestamp_ := t }
          | PushStatus.Failure => { f with isValid_ := true, timestamp_ := t }
          | PushStatus.Retry => f) ∧
      (Step Push f series subclass).series =
        (if (Push subclass (Step.message t metadata value)).1 = PushStatus.Success ∧
            f.inputPopper_ = true then
          ((TimeSeriesWriter.Transaction.create series).DeleteRange t
            (toInt64 (t + 1))).2.destroy.1
         else series) := by
  unfold Step
  rw [hread]
  simp only
  split <;> exact ⟨rfl, rfl, rfl, rfl⟩

/-- The series that the writer transaction of a step leaves. -/
theorem popped_eq (series : TimeSeries) (b : MemoryTimeSeriesBackend)
    (hb : series.backend_ = some b) (start stop : Int) :
    ((TimeSeriesWriter.Transaction.create series).DeleteRange start stop).2.destroy.1 =
      { series with backend_ := some (b.DeleteRange start stop) } := by
  simp [TimeSeriesWriter.Transaction.create, TimeSeriesWriter.Transaction.DeleteRange,
    TimeSeriesWriter.Transaction.destroy, TimeSeries.HasBackend, hb]

/-- The range `[t, t + 1)` holds the timestamp `t` only. -/
theorem DeleteRange_one (b : MemoryTimeSeriesBackend) (hs : Consistent b) (t : Int) :
    (b.DeleteRange t (t + 1)).content_ = b.content_.filter (fun e => decide (e.1 ≠ t)) := by
  rw [DeleteRange_eq b hs]
  show b.content_.filter _ = _
  congr 1
  funext e
  by_cases h : e.1 = t
  · simp [h]
  · have : ¬ (t ≤ e.1 ∧ e.1 < t + 1) := by omega
    simp [h, this]

end AdapterFilter

namespace AdapterFilter

open MemoryTimeSeriesContent

/-- The invariant of a running adapter only looks at its fields, its input
series and the pushed messages. -/
theorem Running.Sound.congr {σ : Type} (old : List Int) (start : AdapterFilter)
    (r r1 : Running σ) (b : MemoryTimeSeriesBackend) (h : r.Sound old start b)
    (hfilter : r1.filter = r.filter) (hseries : r1.series = r.series) (hlog : r1.log = r.log) :
    r1.Sound old start b where
  backend := by rw [hseries]; exact h.backend
  consistent := h.consistent
  range := h.range
  head := by rw [hfilter]; exact h.head
  below_last := by rw [hlog]; exact h.below_last
  position := by rw [hlog, hfilter]; exact h.position
  old_below := by rw [hfilter]; exact h.old_below
  fresh := by rw [hlog]; exact h.fresh
  ordered := by rw [hlog]; exact h.ordered
  first := by rw [hlog, hfilter]; exact h.first
  first_read := by rw [hlog]; exact h.first_read
  stored := by rw [hlog]; exact h.stored

/-- The invariant of a running adapter after a writer transaction of someone
else that appends at timestamps of the range. -/
theorem Running.Sound.write {σ : Type} (old : List Int) (start : AdapterFilter)
    (r r1 : Running σ) (b b1 : MemoryTimeSeriesBackend) (h : r.Sound old start b)
    (operations : List Call)
    (hrange : ∀ timestamp metadata value, Call.Append timestamp metadata value ∈ operations →
      INT64_MIN ≤ timestamp ∧ timestamp < INT64_MAX)
    (hcalls : calls b operations = .ok b1)
    (hfilter : r1.filter = r.filter) (hseries : r1.series.backend_ = some b1)
    (hlog : r1.log = r.log) :
    r1.Sound old start b1 := by
  obtain ⟨b2, hcalls2, hs1, hentries, hlast⟩ := calls_entries operations b h.consistent
  rw [hcalls] at hcalls2
  injection hcalls2 with hcalls2
  subst hcalls2
  constructor
  · exact hseries
  · exact hs1
  · intro e he
    rcases hentries e he with hold | ⟨⟨metadata, value, hmem⟩, _⟩
    · exact h.range e hold
    · exact hrange e.1 metadata value hmem
  · rw [hfilter]; exact h.head
  · rw [hlog]
    intro p hp
    obtain ⟨h1, h2⟩ := h.below_last p hp
    obtain ⟨h3, h4⟩ := hlast h1
    exact ⟨h3, by omega⟩
  · rw [hlog, hfilter]
    intro p hp
    rcases h.position p hp with hpos | ⟨hretry, hall⟩
    · exact Or.inl hpos
    · refine Or.inr ⟨hretry, ?_⟩
      intro e he habove
      rcases hentries e he with hold | ⟨_, hnew⟩
      · exact hall e hold habove
      · obtain ⟨h1, h2⟩ := h.below_last p hp
        have := hnew h1
        omega
  · rw [hfilter]; exact h.old_below
  · rw [hlog]; exact h.fresh
  · rw [hlog]; exact h.ordered
  · rw [hlog, hfilter]; exact h.first
  · rw [hlog]; exact h.first_read
  · rw [hlog]; exact h.stored

/-- The invariant of a running adapter after a step that has read the entry
`e` and pushed it with the status `status`. -/
theorem Running.Sound.pushed {σ : Type} (old : List Int) (start : AdapterFilter)
    (r r1 : Running σ) (b b1 : MemoryTimeSeriesBackend) (h : r.Sound old start b)
    (e : Int × Item) (status : PushStatus)
    (hmem : e ∈ b.content_)
    (habove : r.filter.isValid_ = true → r.filter.timestamp_ < e.1)
    (hleast : ∀ x ∈ b.content_, (r.filter.isValid_ = true → r.filter.timestamp_ < x.1) →
      e.1 ≤ x.1)
    (hread : Step.read r.filter r.series = some (e.1, e.2.metadata_, e.2.value_))
    (hlog : r1.log = r.log ++
      [{ input := r.series, message := Step.message e.1 e.2.metadata_ e.2.value_,
         status := status }])
    (hfilter : (status = PushStatus.Retry ∧ r1.filter = r.filter) ∨
      (status ≠ PushStatus.Retry ∧
        r1.filter = { r.filter with isValid_ := true, timestamp_ := e.1 }))
    (hbackend : r1.series.backend_ = some b1) (hs1 : Consistent b1)
    (hsub : ∀ x ∈ b1.content_, x ∈ b.content_)
    (hhas : b1.hasLastTimestamp_ = b.hasLastTimestamp_)
    (hlast : b1.lastTimestamp_ = b.lastTimestamp_)
    (hkeep : status = PushStatus.Retry → b1 = b) :
    r1.Sound old start b1 := by
  have hts : (Step.message e.1 e.2.metadata_ e.2.value_).timestamp_ = e.1 := rfl
  have hbefore : ∀ p ∈ r.log, p.message.timestamp_ ≤ e.1 ∧
      (p.status ≠ PushStatus.Retry → p.message.timestamp_ < e.1) := by
    intro p hp
    rcases h.position p hp with ⟨hvalid, hle⟩ | ⟨hretry, hall⟩
    · have := habove hvalid
      exact ⟨by omega, fun _ => by omega⟩
    · exact ⟨hall e hmem habove, fun hne => absurd hretry hne⟩
  constructor
  · exact hbackend
  · exact hs1
  · intro x hx
    exact h.range x (hsub x hx)
  · rcases hfilter with ⟨_, hf⟩ | ⟨_, hf⟩
    · rw [hf]; exact h.head
    · rw [hf]
      intro _
      exact h.range e hmem
  · rw [hlog, hhas, hlast]
    intro p hp
    rw [List.mem_append, List.mem_singleton] at hp
    rcases hp with hp | hp
    · exact h.below_last p hp
    · rw [hp]
      exact h.consistent.below_last e hmem
  · rw [hlog]
    intro p hp
    rw [List.mem_append, List.mem_singleton] at hp
    rcases hfilter with ⟨hretry, hf⟩ | ⟨hadvance, hf⟩
    · rw [hf, hkeep hretry]
      rcases hp with hp | hp
      · exact h.position p hp
      · rw [hp]
        exact Or.inr ⟨hretry, hleast⟩
    · rw [hf]
      left
      refine ⟨rfl, ?_⟩
      show p.message.timestamp_ ≤ e.1
      rcases hp with hp | hp
      · exact (hbefore p hp).1
      · rw [hp]
        exact le_refl _
  · intro t ht
    obtain ⟨hvalid, hle⟩ := h.old_below t ht
    rcases hfilter with ⟨_, hf⟩ | ⟨_, hf⟩
    · rw [hf]; exact ⟨hvalid, hle⟩
    · rw [hf]
      have := habove hvalid
      exact ⟨rfl, by show t ≤ e.1; omega⟩
  · rw [hlog]
    intro p hp t ht
    rw [List.mem_append, List.mem_singleton] at hp
    rcases hp with hp | hp
    · exact h.fresh p hp t ht
    · rw [hp]
      obtain ⟨hvalid, hle⟩ := h.old_below t ht
      have := habove hvalid
      show t < e.1
      omega
  · rw [hlog, List.pairwise_append]
    refine ⟨h.ordered, List.pairwise_singleton _ _, ?_⟩
    intro p hp q hq
    rw [List.mem_singleton] at hq
    rw [hq]
    exact hbefore p hp
  · rw [hlog]
    intro hnil
    exact absurd hnil (by simp)
  · rw [hlog]
    intro p hp
    cases hl : r.log with
    | nil =>
      rw [hl] at hp
      simp only [List.nil_append, List.head?_cons, Option.some.injEq] at hp
      rw [← hp, ← h.first hl]
      exact hread
    | cons p0 rest =>
      rw [hl] at hp
      simp only [List.cons_append, List.head?_cons, Option.some.injEq] at hp
      exact h.first_read p (by rw [hl, hp]; rfl)
  · rw [hlog]
    intro p hp
    rw [List.mem_append, List.mem_singleton] at hp
    rcases hp with hp | hp
    · exact h.stored p hp
    · rw [hp]
      exact ⟨b, h.backend, h.consistent, hmem, rfl⟩

end AdapterFilter

namespace AdapterFilter

open MemoryTimeSeriesContent

/-- The invariant of a running adapter is kept by every event that appends at
timestamps of the range only. -/
theorem Running.Sound.event {σ : Type} (Push : σ → Message → PushStatus × σ) (old : List Int)
    (start : AdapterFilter) (r : Running σ) (b : MemoryTimeSeriesBackend)
    (h : r.Sound old start b) (e : Event)
    (hrange : ∀ t ∈ appended [e], INT64_MIN ≤ t ∧ t < INT64_MAX) :
    ∃ b1, (r.event Push e).Sound old start b1 := by
  cases e with
  | Write operations =>
    obtain ⟨b1, notifications, hcalls, htransact⟩ :=
      TimeSeriesWriter.transact_eq r.series b h.backend h.consistent operations
    refine ⟨b1, Running.Sound.write old start r _ b b1 h operations ?_ hcalls ?_ ?_ ?_⟩
    · intro timestamp metadata value hmem
      apply hrange
      simp only [appended, List.append_nil, List.mem_filterMap]
      exact ⟨_, hmem, rfl⟩
    · simp only [Running.event, htransact]
    · simp only [Running.event, htransact]
    · simp only [Running.event, htransact]
  | Step =>
    have hreadeq := read_eq r.filter r.series b h.backend h.consistent h.head
    cases hfind : b.content_.find?
        (fun e => !r.filter.isValid_ || decide (r.filter.timestamp_ < e.1)) with
    | none =>
      rw [hfind] at hreadeq
      have hstep := Step_wait Push r.filter r.series r.subclass hreadeq
      refine ⟨b, Running.Sound.congr old start r _ b h ?_ ?_ ?_⟩ <;>
        simp only [Running.event, hstep]
    | some e =>
      rw [hfind] at hreadeq
      have hread : Step.read r.filter r.series = some (e.1, e.2.metadata_, e.2.value_) :=
        hreadeq
      obtain ⟨hmem, hP, hleast0⟩ := find?_sorted_least b.content_
        (fun k => !r.filter.isValid_ || decide (r.filter.timestamp_ < k))
        h.consistent.sorted e hfind
      have habove : r.filter.isValid_ = true → r.filter.timestamp_ < e.1 := by
        intro hvalid
        simpa [hvalid] using hP
      have hleast : ∀ x ∈ b.content_,
          (r.filter.isValid_ = true → r.filter.timestamp_ < x.1) → e.1 ≤ x.1 := by
        intro x hx hcond
        apply hleast0 x hx
        cases hvalid : r.filter.isValid_ with
        | false => rfl
        | true => simpa using hcond hvalid
      obtain ⟨hpushed, _, hfilter, hseries⟩ :=
        Step_pushed Push r.filter r.series r.subclass e.1 e.2.metadata_ e.2.value_ hread
      have hlog : (r.event Push Event.Step).log = r.log ++
          [{ input := r.series, message := Step.message e.1 e.2.metadata_ e.2.value_,
             status := (Push r.subclass (Step.message e.1 e.2.metadata_ e.2.value_)).1 }] := by
        simp only [Running.event, hpushed]
      have hf : ((Push r.subclass (Step.message e.1 e.2.metadata_ e.2.value_)).1 =
            PushStatus.Retry ∧ (r.event Push Event.Step).filter = r.filter) ∨
          ((Push r.subclass (Step.message e.1 e.2.metadata_ e.2.value_)).1 ≠
            PushStatus.Retry ∧
            (r.event Push Event.Step).filter =
              { r.filter with isValid_ := true, timestamp_ := e.1 }) := by
        have hfield : (r.event Push Event.Step).filter =
            (Step Push r.filter r.series r.subclass).filter := rfl
        rw [hfield, hfilter]
        cases (Push r.subclass (Step.message e.1 e.2.metadata_ e.2.value_)).1 with
        | Success => exact Or.inr ⟨by decide, rfl⟩
        | Failure => exact Or.inr ⟨by decide, rfl⟩
        | Retry => exact Or.inl ⟨rfl, rfl⟩
      have hfield : (r.event Push Event.Step).series =
          (Step Push r.filter r.series r.subclass).series := rfl
      by_cases hpop : (Push r.subclass (Step.message e.1 e.2.metadata_ e.2.value_)).1 =
          PushStatus.Success ∧ r.filter.inputPopper_ = true
      · rw [if_pos hpop, popped_eq r.series b h.backend,
          toInt64_succ e.1 (h.range e hmem).1 (h.range e hmem).2] at hseries
        refine ⟨b.DeleteRange e.1 (e.1 + 1),
          Running.Sound.pushed old start r _ b _ h e _ hmem habove hleast hread hlog hf
            (by rw [hfield, hseries]) (Consistent_DeleteRange b h.consistent _ _) ?_ ?_ ?_ ?_⟩
        · intro x hx
          rw [DeleteRange_eq b h.consistent] at hx
          exact List.mem_of_mem_filter hx
        · rw [DeleteRange_eq b h.consistent]
        · rw [DeleteRange_eq b h.consistent]
        · intro hretry
          rw [hpop.1] at hretry
          exact PushStatus.noConfusion hretry
      · rw [if_neg hpop] at hseries
        exact ⟨b, Running.Sound.pushed old start r _ b b h e _ hmem habove hleast hread hlog hf
          (by rw [hfield, hseries]; exact h.backend) h.consistent (fun x hx => hx) rfl rfl
          (fun _ => rfl)⟩

theorem appended_cons (e : Event) (rest : List Event) :
    appended (e :: rest) = appended [e] ++ appended rest := by
  cases e with
  | Step => rfl
  | Write operations => simp [appended]

/-- The invariant of a running adapter is kept by every sequence of events
that append at timestamps of the range only. -/
theorem Running.Sound.events {σ : Type} (Push : σ → Message → PushStatus × σ) (old : List Int)
    (start : AdapterFilter) (events : List Event) :
    ∀ (r : Running σ) (b : MemoryTimeSeriesBackend), r.Sound old start b →
      (∀ t ∈ appended events, INT64_MIN ≤ t ∧ t < INT64_MAX) →
      ∃ b1, (r.events Push events).Sound old start b1 := by
  induction events with
  | nil =>
    intro r b h _
    exact ⟨b, h⟩
  | cons e rest ih =>
    intro r b h hrange
    rw [appended_cons] at hrange
    obtain ⟨b1, h1⟩ := Running.Sound.event Push old start r b h e
      (fun t ht => hrange t (List.mem_append_left _ ht))
    exact ih (r.event Push e) b1 h1 (fun t ht => hrange t (List.mem_append_right _ ht))

/-- What `Start` leaves on a series with a backend: the head is on the last
stored item when the history is not replayed and the series is not empty, and
not valid otherwise. -/
theorem Start_eq (f : AdapterFilter) (series : TimeSeries) (b : MemoryTimeSeriesBackend)
    (hb : series.backend_ = some b) :
    f.Start series =
      if f.replayHistory_ then { f with isValid_ := false }
      else
        match b.content_.getLast? with
        | some last => { f with isValid_ := true, timestamp_ := last.1 }
        | none => { f with isValid_ := false } := by
  cases hreplay : f.replayHistory_ with
  | true => simp [Start, hreplay]
  | false =>
    cases hlast : b.content_.getLast? with
    | none =>
      simp [Start, hreplay, TimeSeriesReader.Transaction.create, TimeSeries.HasBackend, hb,
        TimeSeriesReader.Transaction.SeekLast, MemoryTimeSeriesContent.SeekLast, hlast,
        TimeSeriesReader.Transaction.moveTo]
    | some last =>
      simp [Start, hreplay, TimeSeriesReader.Transaction.create, TimeSeries.HasBackend, hb,
        TimeSeriesReader.Transaction.SeekLast, MemoryTimeSeriesContent.SeekLast, hlast,
        TimeSeriesReader.Transaction.moveTo, TimeSeriesReader.Transaction.GetTimestamp]

/-- The invariant holds of an adapter that has just been started on a series
with a consistent backend that stores timestamps of the range only; `old` are
the stored timestamps when the history is not replayed. -/
theorem started_sound {σ : Type} (f : AdapterFilter) (series : TimeSeries)
    (b : MemoryTimeSeriesBackend) (subclass : σ)
    (hb : series.backend_ = some b) (hs : Consistent b)
    (hrange : ∀ t ∈ timestamps b, INT64_MIN ≤ t ∧ t < INT64_MAX) :
    (started f series subclass).Sound (if f.replayHistory_ then [] else timestamps b)
      (f.Start series) b := by
  have hrange1 : ∀ e ∈ b.content_, INT64_MIN ≤ e.1 ∧ e.1 < INT64_MAX :=
    fun e he => hrange e.1 ((mem_timestamps b e.1).mpr ⟨e, he, rfl⟩)
  have hstart := Start_eq f series b hb
  constructor
  · exact hb
  · exact hs
  · exact hrange1
  · show (f.Start series).isValid_ = true →
      INT64_MIN ≤ (f.Start series).timestamp_ ∧ (f.Start series).timestamp_ < INT64_MAX
    rw [hstart]
    cases hreplay : f.replayHistory_ with
    | true => intro hvalid; exact Bool.noConfusion hvalid
    | false =>
      cases hlast : b.content_.getLast? with
      | none => intro hvalid; exact Bool.noConfusion hvalid
      | some last =>
        intro _
        exact hrange1 last (List.mem_of_getLast?_eq_some hlast)
  · intro p hp
    exact absurd hp (List.not_mem_nil _)
  · intro p hp
    exact absurd hp (List.not_mem_nil _)
  · show ∀ t ∈ _, (f.Start series).isValid_ = true ∧ t ≤ (f.Start series).timestamp_
    rw [hstart]
    cases hreplay : f.replayHistory_ with
    | true =>
      intro t ht
      exact absurd ht (List.not_mem_nil _)
    | false =>
      intro t ht
      simp only [Bool.false_eq_true, if_false] at ht ⊢
      obtain ⟨e, he, het⟩ := (mem_timestamps b t).mp ht
      cases hlast : b.content_.getLast? with
      | none =>
        rw [List.getLast?_eq_none_iff] at hlast
        rw [hlast] at he
        exact absurd he (List.not_mem_nil _)
      | some last =>
        have := (getLast?_sorted_greatest b.content_ hs.sorted last hlast).2 e he
        exact ⟨rfl, by rw [← het]; exact this⟩
  · intro p hp
    exact absurd hp (List.not_mem_nil _)
  · exact List.Pairwise.nil
  · intro _
    rfl
  · intro p hp
    exact Option.noConfusion hp
  · intro p hp
    exact absurd hp (List.not_mem_nil _)

end AdapterFilter

namespace AdapterFilter

open MemoryTimeSeriesContent

/-- C31: a step that reads the item `(t, metadata, value)` of an input series
with a consistent backend pushes the message made of it. When `Push` returns
`Success` or `Failure` the reading head becomes `t`; when it returns `Retry` the
filter and the series are left alone, so that the next step reads the same
message again. The series that the step leaves is the one after
`DeleteRange(t, t + 1)` exactly when `Push` returned `Success` and `inputPopper_`
is set, and is the series as it was otherwise. For `t` below `INT64_MAX`, that
call deletes the item at `t` and no other one, and after `Success` or `Failure`
a later step only reads an item above `t`. For `t = INT64_MAX` both fail, as
`t + 1` wraps to `INT64_MIN`: on a series that holds one item at `INT64_MAX`, a
step that pops its input and whose `Push` returns `Success` leaves the item in
the series, and the next step reads it again. -/
theorem Step_moves_head {σ : Type} (Push : σ → Message → PushStatus × σ) (f : AdapterFilter)
    (series : TimeSeries) (b : MemoryTimeSeriesBackend) (subclass : σ)
    (t : Int) (metadata value : Bytes)
    (hb : series.backend_ = some b) (hs : Consistent b)
    (hread : Step.read f series = some (t, metadata, value)) :
    ((Step Push f series subclass).pushed =
        some (Step.message t metadata value,
          (Push subclass (Step.message t metadata value)).1) ∧
      ((Push subclass (Step.message t metadata value)).1 ≠ PushStatus.Retry →
        (Step Push f series subclass).filter = { f with isValid_ := true, timestamp_ := t }) ∧
      ((Push subclass (Step.message t metadata value)).1 = PushStatus.Retry →
        (Step Push f series subclass).filter = f ∧
        (Step Push f series subclass).series = series ∧
        Step.read (Step Push f series subclass).filter (Step Push f series subclass).series =
          some (t, metadata, value)) ∧
      (Step Push f series subclass).series =
        (if (Push subclass (Step.message t metadata value)).1 = PushStatus.Success ∧
            f.inputPopper_ = true then
          { series with backend_ := some (b.DeleteRange t (toInt64 (t + 1))) }
         else series) ∧
      (INT64_MIN ≤ t → t < INT64_MAX →
        (b.DeleteRange t (toInt64 (t + 1))).content_ =
          b.content_.filter (fun e => decide (e.1 ≠ t)) ∧
        ((Push subclass (Step.message t metadata value)).1 ≠ PushStatus.Retry →
          ∀ (series2 : TimeSeries) (b2 : MemoryTimeSeriesBackend) (t2 : Int) (m2 v2 : Bytes),
            series2.backend_ = some b2 → Consistent b2 →
            Step.read (Step Push f series subclass).filter series2 = some (t2, m2, v2) →
            t < t2))) ∧
    (Step.read (helloAdapter.SetPopInput true) seriesAtMax = some (INT64_MAX, [], []) ∧
      (Step (constantPush PushStatus.Success) (helloAdapter.SetPopInput true) seriesAtMax
        ()).series = seriesAtMax ∧
      Step.read
        (Step (constantPush PushStatus.Success) (helloAdapter.SetPopInput true) seriesAtMax
          ()).filter
        (Step (constantPush PushStatus.Success) (helloAdapter.SetPopInput true) seriesAtMax
          ()).series = some (INT64_MAX, [], [])) := by
  obtain ⟨hpushed, _, hfilter, hseries⟩ :=
    Step_pushed Push f series subclass t metadata value hread
  have hadvance : (Push subclass (Step.message t metadata value)).1 ≠ PushStatus.Retry →
      (Step Push f series subclass).filter = { f with isValid_ := true, timestamp_ := t } := by
    intro hne
    rw [hfilter]
    cases hstatus : (Push subclass (Step.message t metadata value)).1 with
    | Success => rfl
    | Failure => rfl
    | Retry => exact absurd hstatus hne
  refine ⟨⟨hpushed, hadvance, ?_, ?_, ?_⟩, by decide⟩
  · intro hretry
    have h1 : (Step Push f series subclass).filter = f := by
      rw [hfilter, hretry]
    have h2 : (Step Push f series subclass).series = series := by
      rw [hseries, if_neg]
      rintro ⟨hsuccess, _⟩
      rw [hretry] at hsuccess
      exact PushStatus.noConfusion hsuccess
    exact ⟨h1, h2, by rw [h1, h2]; exact hread⟩
  · rw [hseries, popped_eq series b hb]
  · intro hmin hmax
    rw [toInt64_succ t hmin hmax]
    refine ⟨DeleteRange_one b hs t, ?_⟩
    intro hne series2 b2 t2 m2 v2 hb2 hs2 hread2
    rw [hadvance hne, read_eq _ series2 b2 hb2 hs2 (fun _ => ⟨hmin, hmax⟩)] at hread2
    simp only [Bool.not_true, Bool.false_or, Option.map_eq_some'] at hread2
    obtain ⟨e, hfind, heq⟩ := hread2
    have hP := @List.find?_some _ (fun e : Int × Item => decide (t < e.1)) e b2.content_ hfind
    have h1 : e.1 = t2 := by
      injection heq
    rw [← h1]
    simpa using hP

theorem Step_moves_head_witness :
    Step.read helloAdapter threeItemsSeries = some (0, [], [0x30]) ∧
      (Step (constantPush PushStatus.Success) helloAdapter threeItemsSeries ()).pushed =
        some (Step.message 0 [] [0x30], PushStatus.Success) :=
  ⟨by decide,
   (Step_moves_head (constantPush PushStatus.Success) helloAdapter threeItemsSeries threeItems ()
      0 [] [0x30] rfl (created_consistent 0 0 threeCalls threeItems (by decide)).1
      (by decide)).1.1⟩

end AdapterFilter

namespace MemoryTimeSeriesContent

/-- In a consistent state two stored entries of the same key are the same entry. -/
theorem key_unique (s : MemoryTimeSeriesContent) (hs : Consistent s) (e x : Int × Item)
    (he : e ∈ s.content_) (hx : x ∈ s.content_) (hkey : e.1 = x.1) : e = x := by
  have h1 := Read_stored s hs e he
  have h2 := Read_stored s hs x hx
  rw [hkey, h2] at h1
  injection h1 with h1
  injection h1 with hm hv
  obtain ⟨k, item⟩ := e
  obtain ⟨k2, item2⟩ := x
  obtain ⟨m, v⟩ := item
  obtain ⟨m2, v2⟩ := item2
  simp only at hkey hm hv
  rw [hkey, hm, hv]

end MemoryTimeSeriesContent

namespace AdapterFilter

open MemoryTimeSeriesContent

/-- What a step reads when the reading head is valid at `t`, below `INT64_MAX`:
the stored item of the least timestamp above `t`. -/
theorem read_successor (f : AdapterFilter) (series : TimeSeries) (b : MemoryTimeSeriesBackend)
    (hb : series.backend_ = some b) (hs : Consistent b) (hvalid : f.isValid_ = true)
    (hmin : INT64_MIN ≤ f.timestamp_) (hmax : f.timestamp_ < INT64_MAX) :
    (∀ (t2 : Int) (m2 v2 : Bytes), Step.read f series = some (t2, m2, v2) ↔
      ((t2, ({ metadata_ := m2, value_ := v2 } : Item)) ∈ b.content_ ∧ f.timestamp_ < t2 ∧
        ∀ u ∈ timestamps b, f.timestamp_ < u → t2 ≤ u)) ∧
    (Step.read f series = none ↔ ∀ u ∈ timestamps b, ¬ f.timestamp_ < u) := by
  have hread := read_eq f series b hb hs (fun _ => ⟨hmin, hmax⟩)
  simp only [hvalid, Bool.not_true, Bool.false_or] at hread
  have hspec := find?_key_spec b hs (fun k => decide (f.timestamp_ < k))
  constructor
  · intro t2 m2 v2
    rw [hread, Option.map_eq_some']
    constructor
    · rintro ⟨e, hfind, heq⟩
      obtain ⟨hmem, hP, hleast⟩ := find?_sorted_least b.content_
        (fun k => decide (f.timestamp_ < k)) hs.sorted e hfind
      injection heq with h1 h2
      injection h2 with h2 h3
      have he : e = (t2, ({ metadata_ := m2, value_ := v2 } : Item)) := by
        obtain ⟨k, item⟩ := e
        obtain ⟨m, v⟩ := item
        simp only at h1 h2 h3
        rw [h1, h2, h3]
      refine ⟨by rw [← he]; exact hmem, by rw [← h1]; simpa using hP, ?_⟩
      intro u hu hlt
      obtain ⟨x, hx, hxu⟩ := (mem_timestamps b u).mp hu
      rw [← hxu, ← h1]
      exact hleast x hx (by simpa [hxu] using hlt)
    · rintro ⟨hmem, hlt, hleast⟩
      cases hfind : b.content_.find? (fun e => decide (f.timestamp_ < e.1)) with
      | none =>
        rw [List.find?_eq_none] at hfind
        have := hfind _ hmem
        simp only [decide_eq_true_eq] at this
        exact absurd hlt this
      | some e =>
        obtain ⟨hmem2, hP, hleast2⟩ := find?_sorted_least b.content_
          (fun k => decide (f.timestamp_ < k)) hs.sorted e hfind
        have h1 : e.1 ≤ t2 := hleast2 _ hmem (by simpa using hlt)
        have h2 : t2 ≤ e.1 :=
          hleast e.1 ((mem_timestamps b e.1).mpr ⟨e, hmem2, rfl⟩) (by simpa using hP)
        have hkey : e.1 = t2 := by omega
        have he := key_unique b hs e _ hmem2 hmem hkey
        exact ⟨e, rfl, by rw [he]⟩
  · rw [hread, Option.map_eq_none']
    constructor
    · intro hnone u hu hlt
      exact hspec.2 (by rw [hnone]; rfl) u hu (by simpa using hlt)
    · intro hall
      rw [List.find?_eq_none]
      intro x hx
      have := hall x.1 ((mem_timestamps b x.1).mpr ⟨x, hx, rfl⟩)
      simpa using this

/-- C40: after a step has pushed the item at `t` and `Push` has returned
`Success` or `Failure`, with `t` a 64-bit timestamp below the largest one, the
next step reads, on every input series with a consistent backend, the stored
item of the least timestamp above `t`, and waits, leaving the filter alone,
when no stored timestamp is above `t`; and in every life of an adapter over
timestamps below the largest one, a message that was not pushed with `Retry`
is followed by messages of greater timestamps only, so that no item is pushed
again after the head went past it. At the largest timestamp this fails, as
`t + 1` wraps to `INT64_MIN`: on a series that holds one item at `INT64_MAX` and
with a `Push` that returns `Failure`, two steps in a row push that same item. -/
theorem next_step_reads_successor {σ : Type} (Push : σ → Message → PushStatus × σ)
    (f : AdapterFilter) (series : TimeSeries) (subclass : σ)
    (t : Int) (metadata value : Bytes)
    (hread : Step.read f series = some (t, metadata, value))
    (hadvance : (Push subclass (Step.message t metadata value)).1 ≠ PushStatus.Retry)
    (hmin : INT64_MIN ≤ t) (hmax : t < INT64_MAX) :
    (∀ (series2 : TimeSeries) (b2 : MemoryTimeSeriesBackend) (subclass2 : σ),
        series2.backend_ = some b2 → Consistent b2 →
        (∀ (t2 : Int) (m2 v2 : Bytes),
          Step.read (Step Push f series subclass).filter series2 = some (t2, m2, v2) ↔
            ((t2, ({ metadata_ := m2, value_ := v2 } : Item)) ∈ b2.content_ ∧ t < t2 ∧
              ∀ u ∈ timestamps b2, t < u → t2 ≤ u)) ∧
        ((∀ u ∈ timestamps b2, ¬ t < u) →
          (Step Push (Step Push f series subclass).filter series2 subclass2).pushed = none ∧
          (Step Push (Step Push f series subclass).filter series2 subclass2).filter =
            (Step Push f series subclass).filter)) ∧
    (∀ (f0 : AdapterFilter) (series0 : TimeSeries) (b0 : MemoryTimeSeriesBackend)
        (subclass0 : σ) (events : List Event),
        series0.backend_ = some b0 → Consistent b0 →
        (∀ u ∈ timestamps b0, INT64_MIN ≤ u ∧ u < INT64_MAX) →
        (∀ u ∈ appended events, INT64_MIN ≤ u ∧ u < INT64_MAX) →
        ((started f0 series0 subclass0).events Push events).log.Pairwise
          (fun p q => p.status ≠ PushStatus.Retry →
            p.message.timestamp_ < q.message.timestamp_)) ∧
    (((started (helloAdapter.SetReplayHistory true) seriesAtMax ()).events
        (constantPush PushStatus.Failure) [Event.Step, Event.Step]).log.map
          (fun p => (p.message.timestamp_, p.status)) =
        [(INT64_MAX, PushStatus.Failure), (INT64_MAX, PushStatus.Failure)]) := by
  have hfilter : (Step Push f series subclass).filter =
      { f with isValid_ := true, timestamp_ := t } := by
    rw [(Step_pushed Push f series subclass t metadata value hread).2.2.1]
    cases hstatus : (Push subclass (Step.message t metadata value)).1 with
    | Success => rfl
    | Failure => rfl
    | Retry => exact absurd hstatus hadvance
  refine ⟨?_, ?_, by decide⟩
  · intro series2 b2 subclass2 hb2 hs2
    obtain ⟨hsome, hnone⟩ := read_successor (Step Push f series subclass).filter series2 b2
      hb2 hs2 (by rw [hfilter]) (by rw [hfilter]; exact hmin) (by rw [hfilter]; exact hmax)
    have ht : (Step Push f series subclass).filter.timestamp_ = t := by rw [hfilter]
    rw [ht] at hsome hnone
    refine ⟨hsome, ?_⟩
    intro hall
    have hwait := Step_wait Push _ series2 subclass2 (hnone.mpr hall)
    rw [hwait]
    exact ⟨rfl, rfl⟩
  · intro f0 series0 b0 subclass0 events hb0 hs0 hstored happended
    obtain ⟨b1, hsound⟩ := Running.Sound.events Push _ (f0.Start series0) events
      (started f0 series0 subclass0) b0 (started_sound f0 series0 b0 subclass0 hb0 hs0 hstored)
      happended
    exact hsound.ordered.imp (fun h => h.2)

theorem next_step_reads_successor_witness :
    Step.read helloAdapter threeItemsSeries = some (0, [], [0x30]) ∧
      (Step (constantPush PushStatus.Failure)
        (Step (constantPush PushStatus.Failure) helloAdapter threeItemsSeries ()).filter
        fixedSeriesFirst ()).pushed = none :=
  ⟨by decide,
   (((next_step_reads_successor (constantPush PushStatus.Failure) helloAdapter threeItemsSeries
      () 0 [] [0x30] (by decide) (by decide) (by decide) (by decide)).1 fixedSeriesFirst
      { content_ := [(0, { metadata_ := [], value_ := [] })], size_ := 0, maxLength_ := 0,
        maxSize_ := 0, hasLastTimestamp_ := true, lastTimestamp_ := 0 } () rfl
      (created_consistent 0 0 [Call.Append 0 [] []] _ (by decide)).1).2 (by decide)).1⟩

end AdapterFilter

namespace AdapterFilter

open MemoryTimeSeriesContent

/-- The first message pushed in the life of an adapter: it carries the stored
item of the least timestamp among those that the filter left by `Start` looks
at. -/
theorem first_pushed {σ : Type} (old : List Int) (start : AdapterFilter) (r : Running σ)
    (b : MemoryTimeSeriesBackend) (h : r.Sound old start b)
    (hhead : start.isValid_ = true →
      INT64_MIN ≤ start.timestamp_ ∧ start.timestamp_ < INT64_MAX)
    (p : Pushed) (hp : r.log.head? = some p) :
    ∃ input, p.input.backend_ = some input ∧
      (p.message.timestamp_,
        ({ metadata_ := p.message.metadata_, value_ := p.message.value_ } : Item)) ∈
        input.content_ ∧
      p.message = Step.message p.message.timestamp_ p.message.metadata_ p.message.value_ ∧
      ∀ e ∈ input.content_, (start.isValid_ = true → start.timestamp_ < e.1) →
        p.message.timestamp_ ≤ e.1 := by
  obtain ⟨input, hinput, hconsistent, hmem, hmessage⟩ :=
    h.stored p (List.mem_of_mem_head? hp)
  refine ⟨input, hinput, hmem, hmessage, ?_⟩
  have hread := h.first_read p hp
  rw [read_eq start p.input input hinput hconsistent hhead, Option.map_eq_some'] at hread
  obtain ⟨e, hfind, heq⟩ := hread
  obtain ⟨_, _, hleast⟩ := find?_sorted_least input.content_
    (fun k => !start.isValid_ || decide (start.timestamp_ < k)) hconsistent.sorted e hfind
  have hkey : e.1 = p.message.timestamp_ := by
    injection heq
  intro x hx hcond
  rw [← hkey]
  apply hleast x hx
  cases hvalid : start.isValid_ with
  | false => rfl
  | true => simpa using hcond hvalid

/-- C32: an adapter is started on an input series with a consistent backend
`b`, and then lives through any steps and writer transactions of others, all
timestamps stored or appended being 64-bit timestamps below the largest one.
Without `replayHistory_`, every pushed message has a timestamp above all those
stored at `Start` (no item present at `Start` is pushed), and the first pushed
message carries the oldest item, stored when it is read, among those above the
timestamps stored at `Start` (the items appended after `Start`). With
`replayHistory_`, the first pushed message carries the oldest stored item. In
both cases the messages are pushed in the order of their timestamps, strictly
after a message that was not pushed with `Retry`. At the largest timestamp the
first part fails, as `timestamp_ + 1` wraps to `INT64_MIN`: started without
`replayHistory_` on a series that holds one item at `INT64_MAX`, the adapter
pushes that item at its first step. -/
theorem replay_history_spec {σ : Type} (Push : σ → Message → PushStatus × σ)
    (f : AdapterFilter) (series : TimeSeries) (b : MemoryTimeSeriesBackend) (subclass : σ)
    (events : List Event)
    (hb : series.backend_ = some b) (hs : Consistent b)
    (hstored : ∀ t ∈ timestamps b, INT64_MIN ≤ t ∧ t < INT64_MAX)
    (happended : ∀ t ∈ appended events, INT64_MIN ≤ t ∧ t < INT64_MAX) :
    ((f.replayHistory_ = false →
        (∀ p ∈ ((started f series subclass).events Push events).log,
          ∀ t ∈ timestamps b, t < p.message.timestamp_) ∧
        (∀ p, ((started f series subclass).events Push events).log.head? = some p →
          ∃ input, p.input.backend_ = some input ∧
            (p.message.timestamp_,
              ({ metadata_ := p.message.metadata_, value_ := p.message.value_ } : Item)) ∈
              input.content_ ∧
            p.message =
              Step.message p.message.timestamp_ p.message.metadata_ p.message.value_ ∧
            ∀ e ∈ input.content_, (∀ t ∈ timestamps b, t < e.1) →
              p.message.timestamp_ ≤ e.1)) ∧
      (f.replayHistory_ = true →
        ∀ p, ((started f series subclass).events Push events).log.head? = some p →
          ∃ input, p.input.backend_ = some input ∧
            (p.message.timestamp_,
              ({ metadata_ := p.message.metadata_, value_ := p.message.value_ } : Item)) ∈
              input.content_ ∧
            p.message =
              Step.message p.message.timestamp_ p.message.metadata_ p.message.value_ ∧
            ∀ e ∈ input.content_, p.message.timestamp_ ≤ e.1) ∧
      ((started f series subclass).events Push events).log.Pairwise (fun p q =>
        p.message.timestamp_ ≤ q.message.timestamp_ ∧
        (p.status ≠ PushStatus.Retry → p.message.timestamp_ < q.message.timestamp_))) ∧
    (helloAdapter.replayHistory_ = false ∧
      seriesAtMax.backend_.map timestamps = some [INT64_MAX] ∧
      ((started helloAdapter seriesAtMax ()).events (constantPush PushStatus.Success)
        [Event.Step]).log.map (fun p => p.message.timestamp_) = [INT64_MAX]) := by
  have hstart := started_sound f series b subclass hb hs hstored
  obtain ⟨b1, hsound⟩ := Running.Sound.events Push _ (f.Start series) events
    (started f series subclass) b hstart happended
  have hhead := hstart.head
  have hstarted : (started f series subclass).filter = f.Start series := rfl
  rw [hstarted] at hhead
  refine ⟨⟨?_, ?_, hsound.ordered⟩, by decide⟩
  · intro hreplay
    constructor
    · intro p hp t ht
      apply hsound.fresh p hp t
      rw [hreplay]
      exact ht
    · intro p hp
      obtain ⟨input, hinput, hmem, hmessage, hleast⟩ :=
        first_pushed _ (f.Start series) _ b1 hsound hhead p hp
      refine ⟨input, hinput, hmem, hmessage, ?_⟩
      intro e he hall
      apply hleast e he
      intro hvalid
      rw [Start_eq f series b hb, hreplay] at hvalid ⊢
      simp only [Bool.false_eq_true, if_false] at hvalid ⊢
      cases hlast : b.content_.getLast? with
      | none =>
        rw [hlast] at hvalid
        exact Bool.noConfusion hvalid
      | some last =>
        exact hall last.1
          ((mem_timestamps b last.1).mpr ⟨last, List.mem_of_getLast?_eq_some hlast, rfl⟩)
  · intro hreplay p hp
    obtain ⟨input, hinput, hmem, hmessage, hleast⟩ :=
      first_pushed _ (f.Start series) _ b1 hsound hhead p hp
    refine ⟨input, hinput, hmem, hmessage, ?_⟩
    intro e he
    apply hleast e he
    intro hvalid
    rw [Start_eq f series b hb, hreplay] at hvalid
    exact Bool.noConfusion hvalid

theorem replay_history_spec_witness :
    threeItemsSeries.backend_ = some threeItems ∧
      ((started helloAdapter threeItemsSeries ()).events (constantPush PushStatus.Success)
        [Event.Step, Event.Write [Call.Append 30 [] [0x33]], Event.Step]).log.Pairwise
          (fun p q =>
            p.message.timestamp_ ≤ q.message.timestamp_ ∧
            (p.status ≠ PushStatus.Retry → p.message.timestamp_ < q.message.timestamp_)) :=
  ⟨rfl,
   (replay_history_spec (constantPush PushStatus.Success) helloAdapter threeItemsSeries
      threeItems () [Event.Step, Event.Write [Call.Append 30 [] [0x33]], Event.Step] rfl
      (created_consistent 0 0 threeCalls threeItems (by decide)).1 (by decide)
      (by decide)).1.2.2⟩

end AdapterFilter

/-! ## Lemmas and claims on the filter that decodes LoRa packets -/

namespace TimeSeriesWriter

open MemoryTimeSeriesContent in
/-- The method `Append(message)` for a message of type `Fixed`, on a series
that has no backend or a consistent one: it throws no exception. -/
theorem Append_fixed (series : TimeSeries) (clock : Clock) (timestamp : Int)
    (metadata value : Bytes) (hseries : ∀ b, series.backend_ = some b → Consistent b) :
    ∃ accepted series1 notifications,
      Append series clock
        (((Message.create.SetTimestamp timestamp).SetMetadata metadata).SetValue value) =
        .ok (accepted, series1, notifications) := by
  have hresolve : resolve (Transaction.create series) clock
      (((Message.create.SetTimestamp timestamp).SetMetadata metadata).SetValue value) =
        .ok timestamp := rfl
  cases hb : series.backend_ with
  | none =>
    have ht : (Transaction.create series).transaction_ = none := by
      simp [Transaction.create, TimeSeries.HasBackend, hb]
    have happend : Append series clock
        (((Message.create.SetTimestamp timestamp).SetMetadata metadata).SetValue value) =
        .ok (false, (Transaction.create series).destroy.1,
          (Transaction.create series).destroy.2) := by
      unfold Append
      simp only [hresolve, Transaction.Append, ht]
    exact ⟨_, _, _, happend⟩
  | some b =>
    obtain ⟨accepted, b1, hrun, _⟩ :=
      Consistent_Append b (hseries b hb) timestamp metadata value
    exact ⟨accepted, _, _, Append_eq series clock _ b b1 timestamp accepted hb hresolve hrun⟩

end TimeSeriesWriter

namespace LoRa

/-- The exceptions of `PHYPayload::Parse`. -/
theorem PHYPayload.Parse_error (buffer : Bytes) (e : ErrorCode)
    (h : PHYPayload.Parse buffer = .error e) :
    e = ErrorCode.NetworkProtocol ∨ e = ErrorCode.InternalError := by
  unfold PHYPayload.Parse at h
  split at h
  · injection h with h
    exact Or.inl h.symm
  · simp only at h
    split at h <;> first
      | exact Except.noConfusion h
      | (injection h with h; exact Or.inr h.symm)

/-- The exceptions of `MACPayload::Parse`. -/
theorem MACPayload.Parse_throws (buffer : Bytes) (e : ErrorCode)
    (h : MACPayload.Parse buffer = .error e) : e = ErrorCode.NetworkProtocol := by
  unfold MACPayload.Parse at h
  split at h
  · injection h with h
    exact h.symm
  · simp only at h
    split at h
    · injection h with h
      exact h.symm
    · split at h <;> exact Except.noConfusion h

/-- The exceptions of the constructor of a MAC payload on a parsed frame. -/
theorem MACPayload.create_error (frame : Bytes) (payload : PHYPayload) (e : ErrorCode)
    (hframe : PHYPayload.FromBuffer frame = .ok payload)
    (h : MACPayload.create payload = .error e) : e = ErrorCode.NetworkProtocol := by
  obtain ⟨hbuffer, hlen, _⟩ := PHYPayload.parsed_frame frame payload hframe
  unfold MACPayload.create PHYPayload.GetMACPayload at h
  have hsub : substr payload.buffer_ 1 (payload.buffer_.length - 5) =
      some ((payload.buffer_.drop 1).take (payload.buffer_.length - 5)) := by
    unfold substr
    rw [if_neg]
    rw [hbuffer]
    omega
  rw [hsub] at h
  cases hdata : payload.HasMACPayload with
  | false =>
    rw [hdata] at h
    simp only [Bool.false_eq_true, if_false] at h
    injection h with h
    exact h.symm
  | true =>
    rw [hdata] at h
    simp only [if_true] at h
    exact MACPayload.Parse_throws _ e h

/-- The method `Apply` on a parsed data frame whose MAC payload is parsed
throws no exception. -/
theorem FrameEncryptionKey.ApplyPayload_ok
    (encrypt : UnsignedInteger128 → UnsignedInteger128 → UnsignedInteger128)
    (k : FrameEncryptionKey) (frame : Bytes) (payload : PHYPayload) (mac : MACPayload)
    (highFrameCounter : Nat) (hframe : PHYPayload.FromBuffer frame = .ok payload)
    (hmac : MACPayload.create payload = .ok mac) :
    ∃ source direction value, mac.GetFramePayload = some source ∧
      payload.GetMessageDirection = .ok direction ∧
      k.Apply encrypt source direction mac.GetDeviceAddress
        (FrameEncryptionKey.frameCounter32 mac.GetFrameCounter highFrameCounter) = .ok value ∧
      k.ApplyPayload encrypt payload highFrameCounter = .ok value := by
  obtain ⟨_, source, direction, _, _, hsource, hdirection, _, _, _⟩ :=
    FrameEncryptionKey.ComputeMIC_eq encrypt k frame payload mac highFrameCounter hframe hmac
  have hkey := FrameEncryptionKey.PrepareSessionKey_eq encrypt k direction mac.GetDeviceAddress
    (FrameEncryptionKey.frameCounter32 mac.GetFrameCounter highFrameCounter) source.length
  have happly : ∃ value, k.Apply encrypt source direction mac.GetDeviceAddress
      (FrameEncryptionKey.frameCounter32 mac.GetFrameCounter highFrameCounter) = .ok value := by
    unfold FrameEncryptionKey.Apply
    rw [hkey]
    exact ⟨_, rfl⟩
  obtain ⟨value, happly⟩ := happly
  refine ⟨source, direction, value, hsource, hdirection, happly, ?_⟩
  unfold FrameEncryptionKey.ApplyPayload
  simp only [hmac, hsource, hdirection]
  exact happly

end LoRa

namespace LoRa

/-- What `CheckMIC` returns on a parsed frame: the exception of the constructor
of the MAC payload, `NetworkProtocol` when the frame without its MIC is longer
than 255 bytes, and else the comparison of the MIC of the frame with the value
of `ComputeMIC`. -/
theorem FrameEncryptionKey.CheckMIC_cases
    (encrypt : UnsignedInteger128 → UnsignedInteger128 → UnsignedInteger128)
    (k : FrameEncryptionKey) (frame : Bytes) (payload : PHYPayload) (highFrameCounter : Nat)
    (hframe : PHYPayload.FromBuffer frame = .ok payload) :
    (∀ e, MACPayload.create payload = .error e →
      k.CheckMIC encrypt payload highFrameCounter = .error e) ∧
    (∀ mac, MACPayload.create payload = .ok mac →
      (255 < frame.length - 4 ∧
        k.CheckMIC encrypt payload highFrameCounter = .error ErrorCode.NetworkProtocol) ∨
      (frame.length - 4 ≤ 255 ∧ ∃ mic,
        k.ComputeMIC encrypt payload highFrameCounter = .ok mic ∧
        k.CheckMIC encrypt payload highFrameCounter = .ok (payload.GetMIC == mic))) := by
  constructor
  · intro e hmac
    unfold FrameEncryptionKey.CheckMIC FrameEncryptionKey.ComputeMIC
    rw [hmac]
  · intro mac hmac
    obtain ⟨fhdr, data, direction, cmac, _, _, _, hiff, _, hmic⟩ :=
      FrameEncryptionKey.ComputeMIC_eq encrypt k frame payload mac highFrameCounter hframe hmac
    by_cases hbig : 255 < 1 + fhdr.length + 1 + data.length
    · left
      rw [if_pos hbig] at hmic
      refine ⟨hiff.mp hbig, ?_⟩
      unfold FrameEncryptionKey.CheckMIC
      rw [hmic]
    · right
      rw [if_neg hbig] at hmic
      have hshort : ¬ 255 < frame.length - 4 := fun h => hbig (hiff.mpr h)
      refine ⟨by omega, _, hmic, ?_⟩
      unfold FrameEncryptionKey.CheckMIC
      rw [hmic]

end LoRa

namespace LoRaPacketFilter

open LoRa

/-- The method `Push` on a message whose value is not a frame that `CheckMIC`
accepts: it returns `Failure` and leaves the output series alone. -/
theorem Push_failure
    (encrypt : UnsignedInteger128 → UnsignedInteger128 → UnsignedInteger128)
    (that_ : LoRaPacketFilter) (writer_ : TimeSeries) (clock : Clock) (message : Message)
    (hbad : ∀ phy, PHYPayload.FromBuffer message.GetValue = .ok phy →
      that_.nwkSKey_.CheckMIC encrypt phy 0 ≠ .ok true) :
    Push encrypt that_ writer_ clock message = .ok (PushStatus.Failure, writer_, []) := by
  cases hphy : PHYPayload.FromBuffer message.GetValue with
  | error e =>
    have hbody : Push.body encrypt that_ writer_ clock message = .error e := by
      unfold Push.body
      rw [hphy]
    unfold Push
    rw [hbody]
    rcases PHYPayload.Parse_error _ e hphy with he | he <;> rw [he]
  | ok phy =>
    obtain ⟨herror, hparsed⟩ :=
      FrameEncryptionKey.CheckMIC_cases encrypt that_.nwkSKey_ _ phy 0 hphy
    cases hmac : MACPayload.create phy with
    | error e =>
      have hbody : Push.body encrypt that_ writer_ clock message = .error e := by
        unfold Push.body
        simp only [hphy, hmac]
      unfold Push
      rw [hbody, MACPayload.create_error _ phy e hphy hmac]
    | ok mac =>
      obtain ⟨source, _, _, hsource, _, _, _⟩ :=
        FrameEncryptionKey.ApplyPayload_ok encrypt that_.appSKey_ _ phy mac 0 hphy hmac
      rcases hparsed mac hmac with ⟨_, hcheck⟩ | ⟨_, mic, _, hcheck⟩
      · have hbody : Push.body encrypt that_ writer_ clock message =
            .error ErrorCode.NetworkProtocol := by
          unfold Push.body
          simp only [hphy, hmac, hsource, hcheck]
        unfold Push
        rw [hbody]
      · cases hequal : (phy.GetMIC == mic) with
        | true =>
          rw [hequal] at hcheck
          exact absurd hcheck (hbad phy hphy)
        | false =>
          rw [hequal] at hcheck
          have hbody : Push.body encrypt that_ writer_ clock message = .ok none := by
            unfold Push.body
            simp only [hphy, hmac, hsource, hcheck]
          unfold Push
          rw [hbody]

/-- The method `Push` on a message of type `Fixed` whose value is a frame that
`CheckMIC` accepts, when the output series has no backend or a consistent one:
it hands to the writer a message with the timestamp of the input, whose value
is `Apply` of `appSKey_` on the string of `GetFramePayload`, and returns
`Success`. -/
theorem Push_success
    (encrypt : UnsignedInteger128 → UnsignedInteger128 → UnsignedInteger128)
    (that_ : LoRaPacketFilter) (writer_ : TimeSeries) (clock : Clock)
    (timestamp : Int) (metadata frame : Bytes)
    (hwriter : ∀ b, writer_.backend_ = some b → MemoryTimeSeriesContent.Consistent b)
    (phy : PHYPayload) (hphy : PHYPayload.FromBuffer frame = .ok phy)
    (hcheck : that_.nwkSKey_.CheckMIC encrypt phy 0 = .ok true) :
    ∃ mac source direction value accepted series notifications,
      MACPayload.create phy = .ok mac ∧ mac.GetFramePayload = some source ∧
      phy.GetMessageDirection = .ok direction ∧
      that_.appSKey_.Apply encrypt source direction mac.GetDeviceAddress
        (FrameEncryptionKey.frameCounter32 mac.GetFrameCounter 0) = .ok value ∧
      TimeSeriesWriter.Append writer_ clock
        (((Message.create.SetTimestamp timestamp).SetMetadata
          (sprintf04X mac.GetDeviceAddress)).SetValue value) =
        .ok (accepted, series, notifications) ∧
      Push encrypt that_ writer_ clock (AdapterFilter.Step.message timestamp metadata frame) =
        .ok (PushStatus.Success, series, notifications) := by
  obtain ⟨herror, _⟩ := FrameEncryptionKey.CheckMIC_cases encrypt that_.nwkSKey_ _ phy 0 hphy
  cases hmac : MACPayload.create phy with
  | error e =>
    rw [herror e hmac] at hcheck
    exact Except.noConfusion hcheck
  | ok mac =>
    obtain ⟨source, direction, value, hsource, hdirection, happly, hpayload⟩ :=
      FrameEncryptionKey.ApplyPayload_ok encrypt that_.appSKey_ _ phy mac 0 hphy hmac
    obtain ⟨accepted, series, notifications, happend⟩ :=
      TimeSeriesWriter.Append_fixed writer_ clock timestamp (sprintf04X mac.GetDeviceAddress)
        value hwriter
    refine ⟨mac, source, direction, value, accepted, series, notifications, rfl, hsource,
      hdirection, happly, happend, ?_⟩
    have hvalue : (AdapterFilter.Step.message timestamp metadata frame).GetValue = frame := rfl
    have htime : (AdapterFilter.Step.message timestamp metadata frame).GetTimestamp =
        .ok timestamp := rfl
    have hbody : Push.body encrypt that_ writer_ clock
        (AdapterFilter.Step.message timestamp metadata frame) =
          .ok (some (series, notifications)) := by
      unfold Push.body
      simp only [hvalue, hphy, hmac, hsource, hcheck, hpayload, htime, happend]
    unfold Push
    rw [hbody]

end LoRaPacketFilter

namespace LoRaPacketFilter

open LoRa

theorem push_Decrypt1 :
    Push UnsignedInteger128.EncryptAES testPacketFilter (newSeries "out" TimestampType.Fixed [])
        someClock (AdapterFilter.Step.message 5 [] phyPayload3) =
      .ok (PushStatus.Success,
        { name_ := "out",
          backend_ := some
            { content_ := [(5, { metadata_ := ascii "49BE7DF1", value_ := ascii "test" })],
              size_ := 4, maxLength_ := 0, maxSize_ := 0, hasLastTimestamp_ := true,
              lastTimestamp_ := 5 },
          defaultTimestamp_ := TimestampType.Fixed, observers_ := [] }, []) := by
  decide!

theorem push_OneByteGenuine :
    Push UnsignedInteger128.EncryptAES testPacketFilter (newSeries "out" TimestampType.Fixed [])
        someClock (AdapterFilter.Step.message 5 [] phyPayloadOneByteGenuine) =
      .ok (PushStatus.Failure, newSeries "out" TimestampType.Fixed [], []) := by
  decide!

theorem push_OneByteAccepted :
    Push UnsignedInteger128.EncryptAES testPacketFilter (newSeries "out" TimestampType.Fixed [])
        someClock (AdapterFilter.Step.message 5 [] phyPayloadOneByteAccepted) =
      .ok (PushStatus.Success,
        { name_ := "out",
          backend_ := some
            { content_ := [(5, { metadata_ := ascii "49BE7DF1", value_ := [] })],
              size_ := 0, maxLength_ := 0, maxSize_ := 0, hasLastTimestamp_ := true,
              lastTimestamp_ := 5 },
          defaultTimestamp_ := TimestampType.Fixed, observers_ := [] }, []) := by
  decide!

theorem mic_OneByteGenuine :
    Except.map (fun p => p.GetMIC) (PHYPayload.FromBuffer phyPayloadOneByteGenuine) =
        .ok 1983145488 ∧
      Except.map (fun c => le32 c.buffer_ 0)
        (UnsignedInteger128.ComputeCMAC UnsignedInteger128.EncryptAES nwkSKey.key_
          ([0x49, 0, 0, 0, 0, 0x00, 0xF1, 0x7D, 0xBE, 0x49, 0x02, 0x00, 0x00, 0x00, 0x00, 0x0A] ++
            phyPayloadOneByteGenuine.take (phyPayloadOneByteGenuine.length - 4))) =
        .ok 1983145488 := by
  decide!

theorem payload_OneByte :
    appSKey.Apply UnsignedInteger128.EncryptAES [0x95] MessageDirection.Uplink 0x49BE7DF1 2 =
      .ok (ascii "t") := by
  decide!

/-- C34: `Push` on the message that a step makes of an item `(timestamp,
metadata, frame)`, with any block cipher, when the output series has no backend
or a consistent one. If the frame is parsed and `CheckMIC` of `nwkSKey_` accepts
it, `Push` returns `Success` after it has handed to the writer a message with
the timestamp of the input whose value is `Apply` of `appSKey_` on the string of
`GetFramePayload`. In every other case it returns `Failure` and leaves the
output series alone; so it does for a frame shorter than 5 bytes, for a frame
whose MAC payload the constructor rejects (the type is not a data type, or the
MAC payload is too short) and for a frame of more than 255 bytes without its
MIC. With AES-128 and the keys of the tests, the frame of the test `Decrypt1`
is appended with the value `test`. The claim fails on frames with one byte of
FRMPayload: the frame `40 F17DBE49 00 0200 01 95` followed by the MIC
`10 66 34 76` of these ten bytes gets `Failure`, and followed by `8D 8C A5 BB`
it gets `Success` with an empty value, where the FRMPayload `95` decrypts to
the one byte `t`. -/
theorem Push_spec
    (encrypt : UnsignedInteger128 → UnsignedInteger128 → UnsignedInteger128)
    (that_ : LoRaPacketFilter) (writer_ : TimeSeries) (clock : Clock)
    (timestamp : Int) (metadata frame : Bytes)
    (hwriter : ∀ b, writer_.backend_ = some b → MemoryTimeSeriesContent.Consistent b) :
    ((∀ phy, PHYPayload.FromBuffer frame = .ok phy →
        that_.nwkSKey_.CheckMIC encrypt phy 0 = .ok true →
        ∃ mac source direction value accepted series notifications,
          MACPayload.create phy = .ok mac ∧ mac.GetFramePayload = some source ∧
          phy.GetMessageDirection = .ok direction ∧
          that_.appSKey_.Apply encrypt source direction mac.GetDeviceAddress
            (FrameEncryptionKey.frameCounter32 mac.GetFrameCounter 0) = .ok value ∧
          TimeSeriesWriter.Append writer_ clock
            (((Message.create.SetTimestamp timestamp).SetMetadata
              (sprintf04X mac.GetDeviceAddress)).SetValue value) =
            .ok (accepted, series, notifications) ∧
          Push encrypt that_ writer_ clock
              (AdapterFilter.Step.message timestamp metadata frame) =
            .ok (PushStatus.Success, series, notifications)) ∧
      ((∀ phy, PHYPayload.FromBuffer frame = .ok phy →
          that_.nwkSKey_.CheckMIC encrypt phy 0 ≠ .ok true) →
        Push encrypt that_ writer_ clock (AdapterFilter.Step.message timestamp metadata frame) =
          .ok (PushStatus.Failure, writer_, [])) ∧
      (frame.length < 5 →
        Push encrypt that_ writer_ clock (AdapterFilter.Step.message timestamp metadata frame) =
          .ok (PushStatus.Failure, writer_, [])) ∧
      (∀ phy e, PHYPayload.FromBuffer frame = .ok phy → MACPayload.create phy = .error e →
        Push encrypt that_ writer_ clock (AdapterFilter.Step.message timestamp metadata frame) =
          .ok (PushStatus.Failure, writer_, [])) ∧
      (255 < frame.length - 4 →
        Push encrypt that_ writer_ clock (AdapterFilter.Step.message timestamp metadata frame) =
          .ok (PushStatus.Failure, writer_, []))) ∧
    (Push UnsignedInteger128.EncryptAES testPacketFilter (newSeries "out" TimestampType.Fixed [])
        someClock (AdapterFilter.Step.message 5 [] phyPayload3) =
      .ok (PushStatus.Success,
        { name_ := "out",
          backend_ := some
            { content_ := [(5, { metadata_ := ascii "49BE7DF1", value_ := ascii "test" })],
              size_ := 4, maxLength_ := 0, maxSize_ := 0, hasLastTimestamp_ := true,
              lastTimestamp_ := 5 },
          defaultTimestamp_ := TimestampType.Fixed, observers_ := [] }, []) ∧
      (Except.map (fun p => p.GetMIC) (PHYPayload.FromBuffer phyPayloadOneByteGenuine) =
          .ok 1983145488 ∧
        Except.map (fun c => le32 c.buffer_ 0)
          (UnsignedInteger128.ComputeCMAC UnsignedInteger128.EncryptAES nwkSKey.key_
            ([0x49, 0, 0, 0, 0, 0x00, 0xF1, 0x7D, 0xBE, 0x49, 0x02, 0x00, 0x00, 0x00, 0x00,
                0x0A] ++
              phyPayloadOneByteGenuine.take (phyPayloadOneByteGenuine.length - 4))) =
          .ok 1983145488) ∧
      Push UnsignedInteger128.EncryptAES testPacketFilter
          (newSeries "out" TimestampType.Fixed []) someClock
          (AdapterFilter.Step.message 5 [] phyPayloadOneByteGenuine) =
        .ok (PushStatus.Failure, newSeries "out" TimestampType.Fixed [], []) ∧
      Push UnsignedInteger128.EncryptAES testPacketFilter
          (newSeries "out" TimestampType.Fixed []) someClock
          (AdapterFilter.Step.message 5 [] phyPayloadOneByteAccepted) =
        .ok (PushStatus.Success,
          { name_ := "out",
            backend_ := some
              { content_ := [(5, { metadata_ := ascii "49BE7DF1", value_ := [] })],
                size_ := 0, maxLength_ := 0, maxSize_ := 0, hasLastTimestamp_ := true,
                lastTimestamp_ := 5 },
            defaultTimestamp_ := TimestampType.Fixed, observers_ := [] }, []) ∧
      appSKey.Apply UnsignedInteger128.EncryptAES [0x95] MessageDirection.Uplink 0x49BE7DF1 2 =
        .ok (ascii "t")) := by
  have hfailure := Push_failure encrypt that_ writer_ clock
    (AdapterFilter.Step.message timestamp metadata frame)
  have hvalue : (AdapterFilter.Step.message timestamp metadata frame).GetValue = frame := rfl
  rw [hvalue] at hfailure
  refine ⟨⟨?_, hfailure, ?_, ?_, ?_⟩, push_Decrypt1, mic_OneByteGenuine, push_OneByteGenuine,
    push_OneByteAccepted, payload_OneByte⟩
  · intro phy hphy hcheck
    exact Push_success encrypt that_ writer_ clock timestamp metadata frame hwriter phy hphy hcheck
  · intro hshort
    apply hfailure
    intro phy hphy
    have : PHYPayload.FromBuffer frame = .error ErrorCode.NetworkProtocol := by
      simp [PHYPayload.FromBuffer, PHYPayload.Parse, hshort]
    rw [this] at hphy
    exact Except.noConfusion hphy
  · intro phy e hphy hmac
    apply hfailure
    intro phy1 hphy1
    rw [hphy] at hphy1
    injection hphy1 with hphy1
    subst hphy1
    rw [(FrameEncryptionKey.CheckMIC_cases encrypt that_.nwkSKey_ frame phy 0 hphy).1 e hmac]
    intro h
    exact Except.noConfusion h
  · intro hlong
    apply hfailure
    intro phy hphy
    obtain ⟨herror, hparsed⟩ :=
      FrameEncryptionKey.CheckMIC_cases encrypt that_.nwkSKey_ frame phy 0 hphy
    cases hmac : MACPayload.create phy with
    | error e =>
      rw [herror e hmac]
      intro h
      exact Except.noConfusion h
    | ok mac =>
      rcases hparsed mac hmac with ⟨_, hcheck⟩ | ⟨hshort, _⟩
      · rw [hcheck]
        intro h
        exact Except.noConfusion h
      · omega

theorem Push_spec_witness :
    ([] : Bytes).length < 5 ∧
      Push UnsignedInteger128.EncryptAES testPacketFilter
          (newSeries "out" TimestampType.Fixed []) someClock
          (AdapterFilter.Step.message 5 [] []) =
        .ok (PushStatus.Failure, newSeries "out" TimestampType.Fixed [], []) :=
  ⟨by decide,
   (Push_spec UnsignedInteger128.EncryptAES testPacketFilter
      (newSeries "out" TimestampType.Fixed []) someClock 5 [] []
      (fun b hb => by
        injection hb with hb
        rw [← hb]
        exact MemoryTimeSeriesContent.Consistent_create 0 0)).1.2.2.1 (by decide)⟩

end LoRaPacketFilter

/-! ## Lemmas on the SQLite backend -/

/-- On rows in increasing order of timestamp, `ORDER BY timestamp ASC LIMIT 1`
selects the first row. -/
theorem firstByTimestamp_sorted (rows : List ContentRow)
    (hsorted : rows.Pairwise (fun a b => a.timestamp < b.timestamp)) :
    firstByTimestamp rows = rows.head? := by
  induction rows with
  | nil => rfl
  | cons row rest ih =>
    rw [List.pairwise_cons] at hsorted
    have hrest := ih hsorted.2
    cases rest with
    | nil => rfl
    | cons next others =>
      have hlt := hsorted.1 next (List.mem_cons_self _ _)
      have hnot : ¬ next.timestamp < row.timestamp := by omega
      simp only [firstByTimestamp] at hrest ⊢
      rw [hrest]
      simp [hnot]

/-- On rows in increasing order of timestamp, `ORDER BY timestamp DESC LIMIT 1`
selects the last row. -/
theorem lastByTimestamp_sorted (rows : List ContentRow)
    (hsorted : rows.Pairwise (fun a b => a.timestamp < b.timestamp)) :
    lastByTimestamp rows = rows.getLast? := by
  induction rows with
  | nil => rfl
  | cons row rest ih =>
    rw [List.pairwise_cons] at hsorted
    have hrest := ih hsorted.2
    cases rest with
    | nil => rfl
    | cons next others =>
      obtain ⟨last, hlast⟩ : ∃ last, (next :: others).getLast? = some last :=
        ⟨_, List.getLast?_eq_getLast _ (List.cons_ne_nil _ _)⟩
      have hmem : last ∈ next :: others := List.mem_of_getLast?_eq_some hlast
      have hlt := hsorted.1 last hmem
      rw [hlast] at hrest
      have hgoal : (row :: next :: others).getLast? = some last := by
        rw [List.getLast?_cons_cons]
        exact hlast
      rw [hgoal]
      show (match lastByTimestamp (next :: others) with
        | none => some row
        | some other => if row.timestamp < other.timestamp then some other else some row) = _
      rw [hrest]
      simp [hlt]

/-- The first row of the selected rows is the first row of the table that the
clause `WHERE` selects. -/
theorem head?_filter_eq_find? {α : Type} (p : α → Bool) (l : List α) :
    (l.filter p).head? = l.find? p := by
  induction l with
  | nil => rfl
  | cons a rest ih =>
    by_cases h : p a = true
    · simp [List.filter_cons, List.find?_cons, h]
    · simp [List.filter_cons, List.find?_cons, h, ih]

namespace SQLiteTimeSeriesTransaction

open MemoryTimeSeriesContent

/-- The rows of the series are in increasing order of timestamp when the
transaction holds what a memory backend holds. -/
theorem Refines.rows_sorted {t : SQLiteTimeSeriesTransaction} {s : MemoryTimeSeriesContent}
    (h : t.Refines s) : t.rows.Pairwise (fun a b => a.timestamp < b.timestamp) := by
  have hsorted := h.sorted
  rw [← h.items] at hsorted
  unfold SQLiteTimeSeriesTransaction.items at hsorted
  rw [List.pairwise_map] at hsorted
  exact hsorted

/-- The bytes counted by the column `size` of rows whose `size` is the length
of the value. -/
theorem totalSize_entries (rows : List ContentRow)
    (hsizes : ∀ row ∈ rows, row.size = row.value.length) :
    totalSize (rows.map ContentRow.entry) = (rows.map (fun row => row.size)).sum := by
  induction rows with
  | nil => rfl
  | cons row rest ih =>
    have h1 := hsizes row (List.mem_cons_self _ _)
    have h2 := ih (fun r hr => hsizes r (List.mem_cons_of_mem _ hr))
    simp only [List.map_cons, totalSize, List.sum_cons, h2, h1]
    rfl

/-- A row that `ORDER BY timestamp ASC LIMIT 1` selects is one of the rows. -/
theorem firstByTimestamp_mem (rows : List ContentRow) (row : ContentRow)
    (h : firstByTimestamp rows = some row) : row ∈ rows := by
  induction rows generalizing row with
  | nil => exact Option.noConfusion h
  | cons first rest ih =>
    simp only [firstByTimestamp] at h
    cases hrest : firstByTimestamp rest with
    | none =>
      rw [hrest] at h
      injection h with h
      rw [← h]
      exact List.mem_cons_self _ _
    | some other =>
      rw [hrest] at h
      simp only at h
      by_cases hlt : other.timestamp < first.timestamp
      · rw [if_pos hlt] at h
        injection h with h
        rw [← h]
        exact List.mem_cons_of_mem _ (ih other hrest)
      · rw [if_neg hlt] at h
        injection h with h
        rw [← h]
        exact List.mem_cons_self _ _

/-- A call of `RemoveOldest` that does not throw deletes a row of `Content`. -/
theorem RemoveOldest_length (t t1 : SQLiteTimeSeriesTransaction)
    (h : RemoveOldest t = .ok t1) :
    t1.transaction_.tableContent.length < t.transaction_.tableContent.length := by
  unfold RemoveOldest at h
  cases hfirst : firstByTimestamp t.rows with
  | none =>
    rw [hfirst] at h
    exact Except.noConfusion h
  | some oldest =>
    rw [hfirst] at h
    simp only at h
    split at h
    · exact Except.noConfusion h
    · injection h with h
      rw [← h]
      have hmem := firstByTimestamp_mem t.rows oldest hfirst
      unfold rows at hmem
      rw [List.mem_filter] at hmem
      apply List.length_filter_lt_length_iff_exists.mpr
      exact ⟨oldest, hmem.1, by simpa using hmem.2⟩

/-- The bound on the turns of the loop does not matter once it is above the
number of rows of the table. -/
theorem removeOldestLoop_turns (cond : SQLiteTimeSeriesTransaction → Bool) :
    ∀ (n m : Nat) (t : SQLiteTimeSeriesTransaction),
      t.transaction_.tableContent.length < n → t.transaction_.tableContent.length < m →
      removeOldestLoop cond n t = removeOldestLoop cond m t := by
  intro n
  induction n with
  | zero => intro m t hn _; omega
  | succ n ih =>
    intro m t hn hm
    cases m with
    | zero => omega
    | succ m =>
      simp only [removeOldestLoop]
      cases hc : cond t with
      | false => rfl
      | true =>
        simp only [if_true]
        cases hremove : RemoveOldest t with
        | error e => rfl
        | ok t1 =>
          have := RemoveOldest_length t t1 hremove
          exact ih m t1 (by omega) (by omega)

/-- The loop is `while (cond) { RemoveOldest(); }`: when the condition holds it
calls `RemoveOldest` and goes on from the state that this leaves, and it lets
the exception of `RemoveOldest` through. The bound on the turns is not seen. -/
theorem removeOldestWhile_eq (cond : SQLiteTimeSeriesTransaction → Bool)
    (t : SQLiteTimeSeriesTransaction) :
    removeOldestWhile cond t =
      if cond t then
        match RemoveOldest t with
        | .ok t1 => removeOldestWhile cond t1
        | .error e => .error e
      else .ok t := by
  unfold removeOldestWhile
  simp only [removeOldestLoop]
  cases hc : cond t with
  | false => rfl
  | true =>
    simp only [if_true]
    cases hremove : RemoveOldest t with
    | error e => rfl
    | ok t1 =>
      have := RemoveOldest_length t t1 hremove
      exact removeOldestLoop_turns cond t.transaction_.tableContent.length
        (t1.transaction_.tableContent.length + 1) t1 (by omega) (by omega)

end SQLiteTimeSeriesTransaction

namespace SQLiteTimeSeriesTransaction

open MemoryTimeSeriesContent

/-- The rows of a series after a `DELETE FROM Content WHERE id=? AND ...`: the
rows that the rest of the clause does not select. -/
theorem rows_delete (table : List ContentRow) (id : Int) (Q : ContentRow → Prop)
    [DecidablePred Q] :
    (table.filter (fun row => !decide (row.id = id ∧ Q row))).filter
        (fun row => decide (row.id = id)) =
      (table.filter (fun row => decide (row.id = id))).filter (fun row => !decide (Q row)) := by
  rw [List.filter_filter, List.filter_filter]
  apply List.filter_congr
  intro row _
  by_cases h1 : row.id = id <;> by_cases h2 : Q row <;> simp [h1, h2]

/-- Every transaction has its own frame. -/
theorem Frame.refl (t : SQLiteTimeSeriesTransaction) : Frame t t :=
  ⟨rfl, rfl, rfl, rfl, rfl, rfl⟩

theorem Frame.trans {t t1 t2 : SQLiteTimeSeriesTransaction} (h1 : Frame t t1)
    (h2 : Frame t1 t2) : Frame t t2 :=
  ⟨h2.table.trans h1.table, h2.id.trans h1.id, h2.maxLength.trans h1.maxLength,
    h2.maxSize.trans h1.maxSize, h2.hasLast.trans h1.hasLast, h2.last.trans h1.last⟩

/-- The method `RemoveOldest` of the two backends, on states that hold the
same: both throw on an empty series, and otherwise both remove the entry with
the lowest timestamp and leave states that hold the same. -/
theorem RemoveOldest_refines (t : SQLiteTimeSeriesTransaction) (s : MemoryTimeSeriesContent)
    (h : t.Refines s) :
    (RemoveOldest t = .error ErrorCode.InternalError ∧
      MemoryTimeSeriesContent.RemoveOldest s = .error ErrorCode.InternalError) ∨
    (∃ t1 s1, RemoveOldest t = .ok t1 ∧ MemoryTimeSeriesContent.RemoveOldest s = .ok s1 ∧
      t1.Refines s1 ∧ Frame t t1 ∧ s1.content_.length + 1 = s.content_.length ∧
      ∀ e ∈ s1.content_, e ∈ s.content_) := by
  have hitems : t.rows.map ContentRow.entry = s.content_ := h.items
  have hsorted := h.rows_sorted
  cases hc : s.content_ with
  | nil =>
    left
    rw [hc, List.map_eq_nil_iff] at hitems
    constructor
    · unfold RemoveOldest
      rw [hitems]
      rfl
    · unfold MemoryTimeSeriesContent.RemoveOldest
      rw [hc]
  | cons oldest rest =>
    right
    rw [hc, List.map_eq_cons_iff] at hitems
    obtain ⟨row, others, hrows, hentry, hothers⟩ := hitems
    have hfirst : firstByTimestamp t.rows = some row := by
      rw [firstByTimestamp_sorted _ hsorted, hrows]
      rfl
    have hsize : row.size = oldest.2.GetValue.length := by
      rw [h.sizes row (by rw [hrows]; exact List.mem_cons_self _ _), ← hentry]
      rfl
    have hlength : t.currentLength_ = rest.length + 1 := by
      rw [h.currentLength, hc]
      rfl
    have htotal : t.currentSize_ = oldest.2.GetValue.length + totalSize rest := by
      rw [h.currentSize, h.size_eq, hc]
      rfl
    have hok : ¬ (t.currentLength_ = 0 ∨ t.currentSize_ < row.size) := by omega
    have hrows1 : (t.transaction_.tableContent.filter (fun r =>
          !decide (r.id = t.id_ ∧ r.timestamp = row.timestamp))).filter
          (fun r => decide (r.id = t.id_)) = others := by
      rw [rows_delete t.transaction_.tableContent t.id_ (fun r => r.timestamp = row.timestamp)]
      show t.rows.filter _ = others
      rw [hrows] at hsorted ⊢
      rw [List.pairwise_cons] at hsorted
      rw [List.filter_cons_of_neg (by simp)]
      apply List.filter_eq_self.mpr
      intro r hr
      have := hsorted.1 r hr
      have hne : r.timestamp ≠ row.timestamp := by omega
      simp [hne]
    have hT : RemoveOldest t = .ok
        { t with
          currentSize_ := t.currentSize_ - row.size
          currentLength_ := t.currentLength_ - 1
          transaction_ :=
            { t.transaction_ with
              tableContent := t.transaction_.tableContent.filter (fun r =>
                !decide (r.id = t.id_ ∧ r.timestamp = row.timestamp)) } } := by
      unfold RemoveOldest
      rw [hfirst]
      simp only [if_neg hok]
    have hS : MemoryTimeSeriesContent.RemoveOldest s = .ok
        { s with content_ := rest, size_ := s.size_ - oldest.2.GetValue.length } := by
      unfold MemoryTimeSeriesContent.RemoveOldest
      rw [hc]
    refine ⟨_, _, hT, hS, ?_, ?_, rfl, ?_⟩
    · constructor
      · show List.map ContentRow.entry (List.filter _ (List.filter _ _)) = rest
        rw [hrows1, hothers]
      · intro r hr
        have hr : r ∈ List.filter _ (List.filter _ _) := hr
        rw [hrows1] at hr
        exact h.sizes r (by rw [hrows]; exact List.mem_cons_of_mem _ hr)
      · exact h.maxLength
      · exact h.maxSize
      · show t.currentLength_ - 1 = rest.length
        omega
      · show t.currentSize_ - row.size = s.size_ - oldest.2.GetValue.length
        rw [h.currentSize, hsize]
      · exact h.hasLast
      · exact h.last
      · have := h.sorted
        rw [hc, List.pairwise_cons] at this
        exact this.2
      · show s.size_ - oldest.2.GetValue.length = totalSize rest
        rw [← h.currentSize]
        omega
    · exact ⟨rfl, rfl, rfl, rfl, rfl, rfl⟩
    · intro e he
      exact List.mem_cons_of_mem _ he

/-- The loop `while (cond) { RemoveOldest(); }` of the two backends, on states
that hold the same and with conditions that agree on such states: both throw,
or both leave states that hold the same. -/
theorem removeOldestWhile_refines (condT : SQLiteTimeSeriesTransaction → Bool)
    (condS : MemoryTimeSeriesContent → Bool)
    (hcond : ∀ t s, t.Refines s → condT t = condS s) :
    ∀ (n : Nat) (t : SQLiteTimeSeriesTransaction) (s : MemoryTimeSeriesContent),
      s.content_.length = n → t.Refines s →
      (removeOldestWhile condT t = .error ErrorCode.InternalError ∧
        MemoryTimeSeriesContent.removeOldestWhile condS s = .error ErrorCode.InternalError) ∨
      (∃ t1 s1, removeOldestWhile condT t = .ok t1 ∧
        MemoryTimeSeriesContent.removeOldestWhile condS s = .ok s1 ∧
        t1.Refines s1 ∧ Frame t t1 ∧ ∀ e ∈ s1.content_, e ∈ s.content_) := by
  intro n
  induction n with
  | zero =>
    intro t s hn h
    rw [removeOldestWhile_eq, MemoryTimeSeriesContent.removeOldestWhile_unfold, hcond t s h]
    cases hc : condS s with
    | false => exact Or.inr ⟨t, s, rfl, rfl, h, Frame.refl t, fun e he => he⟩
    | true =>
      rcases RemoveOldest_refines t s h with ⟨h1, h2⟩ | ⟨t1, s1, _, _, _, _, hlen, _⟩
      · left
        simp only [if_true, h1, h2, and_self]
      · omega
  | succ n ih =>
    intro t s hn h
    rw [removeOldestWhile_eq, MemoryTimeSeriesContent.removeOldestWhile_unfold, hcond t s h]
    cases hc : condS s with
    | false => exact Or.inr ⟨t, s, rfl, rfl, h, Frame.refl t, fun e he => he⟩
    | true =>
      rcases RemoveOldest_refines t s h with ⟨h1, h2⟩ | ⟨t1, s1, h1, h2, href, hframe, hlen, hmem⟩
      · left
        simp only [if_true, h1, h2, and_self]
      · simp only [if_true, h1, h2]
        rcases ih t1 s1 (by omega) href with herr | ⟨t2, s2, h3, h4, href2, hframe2, hmem2⟩
        · exact Or.inl herr
        · exact Or.inr ⟨t2, s2, h3, h4, href2, hframe.trans hframe2,
            fun e he => hmem e (hmem2 e he)⟩

end SQLiteTimeSeriesTransaction

namespace SQLiteTimeSeriesTransaction

open MemoryTimeSeriesContent

/-- The transaction that the constructor opens holds the row of the series. -/
theorem create_synced (database : SQLiteDatabase) (name : String)
    (t : SQLiteTimeSeriesTransaction) (h : create database name = .ok t) :
    t.transaction_ = database ∧ Synced t name := by
  unfold create at h
  cases hfind : database.tableTimeSeries.find? (fun row => row.publicId == name) with
  | none =>
    rw [hfind] at h
    exact Except.noConfusion h
  | some row =>
    rw [hfind] at h
    injection h with h
    subst h
    refine ⟨rfl, row, hfind, rfl, rfl, rfl, rfl, rfl, ?_⟩
    cases row.lastTimestamp <;> rfl

/-- A transaction opened on the database that a transaction in step with the
table `TimeSeries` has left: it has the fields of that transaction, but for a
last timestamp that is not there. -/
theorem Synced.reopen {t : SQLiteTimeSeriesTransaction} {name : String} (h : Synced t name) :
    ∃ t1, create t.destroy name = .ok t1 ∧ t1.transaction_ = t.transaction_ ∧
      t1.id_ = t.id_ ∧ t1.maxLength_ = t.maxLength_ ∧ t1.maxSize_ = t.maxSize_ ∧
      t1.currentLength_ = t.currentLength_ ∧ t1.currentSize_ = t.currentSize_ ∧
      t1.hasLastTimestamp_ = t.hasLastTimestamp_ ∧
      (t.hasLastTimestamp_ = true → t1.lastTimestamp_ = t.lastTimestamp_) := by
  obtain ⟨row, hfind, hid, hmaxLength, hmaxSize, hlength, hsize, hlast⟩ := h
  have hcreate : create t.destroy name = .ok
      { transaction_ := t.transaction_
        id_ := row.internalId
        maxLength_ := row.maxLength
        maxSize_ := row.maxSize
        currentLength_ := row.currentLength
        currentSize_ := row.currentSize
        hasLastTimestamp_ := row.lastTimestamp.isSome
        lastTimestamp_ := row.lastTimestamp.getD 0 } := by
    unfold create destroy
    rw [hfind]
  refine ⟨_, hcreate, rfl, hid, hmaxLength, hmaxSize, hlength, hsize, ?_, ?_⟩
  · show row.lastTimestamp.isSome = t.hasLastTimestamp_
    rw [hlast]
    cases t.hasLastTimestamp_ <;> rfl
  · intro hhas
    show row.lastTimestamp.getD 0 = t.lastTimestamp_
    rw [hlast, hhas]
    rfl

/-- A transaction with the rows, the counters, the quotas and the last
timestamp of a transaction that holds what `s` holds does so as well. -/
theorem Refines.of_fields {t t1 : SQLiteTimeSeriesTransaction} {s : MemoryTimeSeriesContent}
    (h : t.Refines s) (hrows : t1.rows = t.rows)
    (hmaxLength : t1.maxLength_ = t.maxLength_) (hmaxSize : t1.maxSize_ = t.maxSize_)
    (hlength : t1.currentLength_ = t.currentLength_)
    (hsize : t1.currentSize_ = t.currentSize_)
    (hhas : t1.hasLastTimestamp_ = t.hasLastTimestamp_)
    (hlast : t.hasLastTimestamp_ = true → t1.lastTimestamp_ = t.lastTimestamp_) :
    t1.Refines s where
  items := by
    show t1.rows.map ContentRow.entry = s.content_
    rw [hrows]
    exact h.items
  sizes := by rw [hrows]; exact h.sizes
  maxLength := by rw [hmaxLength]; exact h.maxLength
  maxSize := by rw [hmaxSize]; exact h.maxSize
  currentLength := by rw [hlength]; exact h.currentLength
  currentSize := by rw [hsize]; exact h.currentSize
  hasLast := by rw [hhas]; exact h.hasLast
  last := by
    intro hs
    rw [hlast (by rw [h.hasLast]; exact hs)]
    exact h.last hs
  sorted := h.sorted
  size_eq := h.size_eq

/-- The method `UpdateTimeSeriesTable` brings the row of the series in step
with the fields of the transaction. -/
theorem Synced.update {t0 t : SQLiteTimeSeriesTransaction} {name : String}
    (h : Synced t0 name)
    (htable : t.transaction_.tableTimeSeries = t0.transaction_.tableTimeSeries)
    (hid : t.id_ = t0.id_) (hmaxLength : t.maxLength_ = t0.maxLength_)
    (hmaxSize : t.maxSize_ = t0.maxSize_) :
    Synced (UpdateTimeSeriesTable t) name := by
  obtain ⟨row, hfind, hrow, hrowLength, hrowSize, _, _, _⟩ := h
  refine ⟨{ row with
            currentLength := t.currentLength_
            currentSize := t.currentSize_
            lastTimestamp := if t.hasLastTimestamp_ then some t.lastTimestamp_ else none },
    ?_, hrow.trans hid.symm, hrowLength.trans hmaxLength.symm,
    hrowSize.trans hmaxSize.symm, rfl, rfl, rfl⟩
  show List.find? _ (List.map _ t.transaction_.tableTimeSeries) = _
  rw [htable, List.find?_map]
  have hcomp : ((fun r : TimeSeriesRow => r.publicId == name) ∘
      (fun r : TimeSeriesRow =>
        if r.internalId = t.id_ then
          { r with
            currentLength := t.currentLength_
            currentSize := t.currentSize_
            lastTimestamp := if t.hasLastTimestamp_ then some t.lastTimestamp_ else none }
        else r)) = (fun r : TimeSeriesRow => r.publicId == name) := by
    funext r
    simp only [Function.comp]
    split <;> rfl
  rw [hcomp, hfind]
  simp only [Option.map_some', hrow, hid, if_true]

/-- The `if` around the first loop of `Append`, in the two backends. -/
theorem lengthLoop_refines (t : SQLiteTimeSeriesTransaction) (s : MemoryTimeSeriesContent)
    (h : t.Refines s) :
    ((if t.maxLength_ ≠ 0 then
          removeOldestWhile (fun u => decide (u.currentLength_ + 1 > u.maxLength_)) t
        else .ok t) = .error ErrorCode.InternalError ∧
      (if s.maxLength_ ≠ 0 then
          MemoryTimeSeriesContent.removeOldestWhile
            (fun t => decide (t.content_.length + 1 > t.maxLength_)) s
        else .ok s) = .error ErrorCode.InternalError) ∨
    (∃ t1 s1,
      (if t.maxLength_ ≠ 0 then
          removeOldestWhile (fun u => decide (u.currentLength_ + 1 > u.maxLength_)) t
        else .ok t) = .ok t1 ∧
      (if s.maxLength_ ≠ 0 then
          MemoryTimeSeriesContent.removeOldestWhile
            (fun t => decide (t.content_.length + 1 > t.maxLength_)) s
        else .ok s) = .ok s1 ∧
      t1.Refines s1 ∧ Frame t t1 ∧ ∀ e ∈ s1.content_, e ∈ s.content_) := by
  rw [h.maxLength]
  by_cases hmax : s.maxLength_ ≠ 0
  · rw [if_pos hmax, if_pos hmax]
    exact removeOldestWhile_refines _ _
      (fun u v huv => by simp only [huv.currentLength, huv.maxLength]) _ t s rfl h
  · rw [if_neg hmax, if_neg hmax]
    exact Or.inr ⟨t, s, rfl, rfl, h, Frame.refl t, fun e he => he⟩

/-- The `if` around the second loop of `Append`, in the two backends. -/
theorem sizeLoop_refines (t : SQLiteTimeSeriesTransaction) (s : MemoryTimeSeriesContent)
    (h : t.Refines s) (value : Bytes) :
    ((if t.maxSize_ ≠ 0 then
          removeOldestWhile (fun u => decide (u.currentSize_ + value.length > u.maxSize_)) t
        else .ok t) = .error ErrorCode.InternalError ∧
      (if s.maxSize_ ≠ 0 then
          MemoryTimeSeriesContent.removeOldestWhile
            (fun t => decide (t.size_ + value.length > t.maxSize_)) s
        else .ok s) = .error ErrorCode.InternalError) ∨
    (∃ t1 s1,
      (if t.maxSize_ ≠ 0 then
          removeOldestWhile (fun u => decide (u.currentSize_ + value.length > u.maxSize_)) t
        else .ok t) = .ok t1 ∧
      (if s.maxSize_ ≠ 0 then
          MemoryTimeSeriesContent.removeOldestWhile
            (fun t => decide (t.size_ + value.length > t.maxSize_)) s
        else .ok s) = .ok s1 ∧
      t1.Refines s1 ∧ Frame t t1 ∧ ∀ e ∈ s1.content_, e ∈ s.content_) := by
  rw [h.maxSize]
  by_cases hmax : s.maxSize_ ≠ 0
  · rw [if_pos hmax, if_pos hmax]
    exact removeOldestWhile_refines _ _
      (fun u v huv => by simp only [huv.currentSize, huv.maxSize]) _ t s rfl h
  · rw [if_neg hmax, if_neg hmax]
    exact Or.inr ⟨t, s, rfl, rfl, h, Frame.refl t, fun e he => he⟩

/-- The method `Append` of the two backends, on states that hold the same: the
two calls return the same boolean and leave states that hold the same. -/
theorem Append_refines (t : SQLiteTimeSeriesTransaction) (s : MemoryTimeSeriesContent)
    (name : String) (h : t.Refines s) (hs : Consistent s) (hsync : Synced t name)
    (timestamp : Int) (metadata value : Bytes) :
    ∃ accepted t1 s1, Append t timestamp metadata value = .ok (accepted, t1) ∧
      MemoryTimeSeriesContent.Append s timestamp metadata value = .ok (accepted, s1) ∧
      t1.Refines s1 ∧ Consistent s1 ∧ Synced t1 name := by
  obtain ⟨a, sf, hrun, hsf⟩ := Consistent_Append s hs timestamp metadata value
  by_cases hA : s.maxSize_ ≠ 0 ∧ value.length > s.maxSize_
  · refine ⟨false, t, s, ?_, ?_, h, hs, hsync⟩
    · unfold Append
      rw [h.maxSize, if_pos hA]
    · unfold MemoryTimeSeriesContent.Append
      rw [if_pos hA]
  by_cases hB : s.hasLastTimestamp_ = true ∧ timestamp ≤ s.lastTimestamp_
  · refine ⟨false, t, s, ?_, ?_, h, hs, hsync⟩
    · unfold Append
      rw [h.maxSize, if_neg hA, h.hasLast, h.last hB.1, if_pos hB]
    · unfold MemoryTimeSeriesContent.Append
      rw [if_neg hA, if_pos hB]
  have hBt : ¬ (t.hasLastTimestamp_ = true ∧ timestamp ≤ t.lastTimestamp_) := by
    intro hc
    rw [h.hasLast] at hc
    rw [h.last hc.1] at hc
    exact hB hc
  have hAt : ¬ (t.maxSize_ ≠ 0 ∧ value.length > t.maxSize_) := by
    rw [h.maxSize]
    exact hA
  have hrun0 := hrun
  unfold MemoryTimeSeriesContent.Append at hrun
  rw [if_neg hA, if_neg hB] at hrun
  simp only at hrun
  rcases lengthLoop_refines t s h with ⟨_, herr⟩ | ⟨t1, s1, hT1, hS1, href1, hframe1, hmem1⟩
  · rw [herr] at hrun
    exact Except.noConfusion hrun
  rw [hS1] at hrun
  simp only at hrun
  rcases sizeLoop_refines t1 s1 href1 value with
    ⟨_, herr⟩ | ⟨t2, s2, hT2, hS2, href2, hframe2, hmem2⟩
  · rw [herr] at hrun
    exact Except.noConfusion hrun
  rw [hS2] at hrun
  simp only at hrun
  have habove : ∀ e ∈ s2.content_, e.1 < timestamp := by
    intro e he
    obtain ⟨hhas, hle⟩ := hs.below_last e (hmem1 e (hmem2 e he))
    have : ¬ timestamp ≤ s.lastTimestamp_ := fun hc => hB ⟨hhas, hc⟩
    omega
  have hfind : s2.content_[s2.content_.find timestamp]? = none := by
    rw [Content.find_eq_length_of_lt _ _ habove]
    simp
  cases hset : MemoryTimeSeriesContent.SetValue s2 timestamp metadata value with
  | error e =>
    rw [hset] at hrun
    exact Except.noConfusion hrun
  | ok s3 =>
    rw [hset] at hrun
    simp only at hrun
    injection hrun with hrun
    injection hrun with ha hsf3
    unfold MemoryTimeSeriesContent.SetValue at hset
    simp only [hfind] at hset
    split at hset
    · exact Except.noConfusion hset
    split at hset
    · exact Except.noConfusion hset
    injection hset with hset
    rw [Content.assign_of_lt _ _ _ habove] at hset
    have hframe := hframe1.trans hframe2
    have hany : (t2.transaction_.tableContent.any
        (fun row => decide (row.id = t2.id_ ∧ row.timestamp = timestamp))) = false := by
      rw [List.any_eq_false]
      intro row hrow hc
      simp only [decide_eq_true_eq] at hc
      have hmem : row ∈ t2.rows := by
        unfold rows
        rw [List.mem_filter]
        exact ⟨hrow, by simpa using hc.1⟩
      have hentry : row.entry ∈ s2.content_ := by
        rw [← href2.items]
        exact List.mem_map_of_mem _ hmem
      have := habove _ hentry
      have hts : row.entry.1 = row.timestamp := rfl
      omega
    have hT : Append t timestamp metadata value = .ok (true, UpdateTimeSeriesTable
        { t2 with
          transaction_ :=
            { t2.transaction_ with
              tableContent := t2.transaction_.tableContent ++
                [{ id := t2.id_, timestamp := timestamp, size := value.length,
                   metadata := metadata, value := value }] }
          currentLength_ := t2.currentLength_ + 1
          currentSize_ := t2.currentSize_ + value.length
          hasLastTimestamp_ := true
          lastTimestamp_ := timestamp }) := by
      unfold Append
      rw [if_neg hAt, if_neg hBt]
      simp only
      rw [hT1]
      simp only
      rw [hT2]
      simp only [hany, Bool.false_eq_true, if_false]
    have hrows : (UpdateTimeSeriesTable
        { t2 with
          transaction_ :=
            { t2.transaction_ with
              tableContent := t2.transaction_.tableContent ++
                [{ id := t2.id_, timestamp := timestamp, size := value.length,
                   metadata := metadata, value := value }] }
          currentLength_ := t2.currentLength_ + 1
          currentSize_ := t2.currentSize_ + value.length
          hasLastTimestamp_ := true
          lastTimestamp_ := timestamp }).rows = t2.rows ++
            [{ id := t2.id_, timestamp := timestamp, size := value.length,
               metadata := metadata, value := value }] := by
      show List.filter (fun row => decide (row.id = t2.id_)) (t2.transaction_.tableContent ++
          [{ id := t2.id_, timestamp := timestamp, size := value.length,
             metadata := metadata, value := value }]) =
        List.filter (fun row => decide (row.id = t2.id_)) t2.transaction_.tableContent ++
          [{ id := t2.id_, timestamp := timestamp, size := value.length,
             metadata := metadata, value := value }]
      rw [List.filter_append]
      congr 1
      simp
    refine ⟨true, _, sf, hT, by rw [hrun0, ← ha], ?_, hsf, ?_⟩
    · rw [← hsf3, ← hset]
      constructor
      · show List.map ContentRow.entry (rows _) = _
        rw [hrows, List.map_append]
        show t2.items ++ _ = _
        rw [href2.items]
        rfl
      · intro row hrow
        rw [hrows, List.mem_append, List.mem_singleton] at hrow
        rcases hrow with hrow | hrow
        · exact href2.sizes row hrow
        · rw [hrow]
      · exact href2.maxLength
      · exact href2.maxSize
      · show t2.currentLength_ + 1 = (s2.content_ ++ _).length
        rw [List.length_append, href2.currentLength]
        rfl
      · show t2.currentSize_ + value.length = s2.size_ + value.length
        rw [href2.currentSize]
      · rfl
      · intro _
        rfl
      · have := hsf.sorted
        rw [← hsf3, ← hset] at this
        exact this
      · have := hsf.size_eq
        rw [← hsf3, ← hset] at this
        exact this
    · exact Synced.update hsync hframe.table hframe.id hframe.maxLength hframe.maxSize

end SQLiteTimeSeriesTransaction

/-- The rows that a clause selects and the rows that it does not select make
the table: their numbers add up. -/
theorem length_filter_add {α : Type} (p : α → Bool) (l : List α) :
    (l.filter p).length + (l.filter (fun x => !p x)).length = l.length := by
  induction l with
  | nil => rfl
  | cons a rest ih =>
    by_cases h : p a = true
    · simp only [List.filter_cons, h, if_true, Bool.not_true, Bool.false_eq_true, if_false,
        List.length_cons]
      omega
    · simp only [Bool.not_eq_true] at h
      simp only [List.filter_cons, h, Bool.false_eq_true, if_false, Bool.not_false, if_true,
        List.length_cons]
      omega

/-- The rows that a clause selects and the rows that it does not select make
the table: the sums of a column add up. -/
theorem sum_filter_add {α : Type} (p : α → Bool) (f : α → Nat) (l : List α) :
    ((l.filter p).map f).sum + ((l.filter (fun x => !p x)).map f).sum = (l.map f).sum := by
  induction l with
  | nil => rfl
  | cons a rest ih =>
    by_cases h : p a = true
    · simp only [List.filter_cons, h, if_true, Bool.not_true, Bool.false_eq_true, if_false,
        List.map_cons, List.sum_cons]
      omega
    · simp only [Bool.not_eq_true] at h
      simp only [List.filter_cons, h, Bool.false_eq_true, if_false, Bool.not_false, if_true,
        List.map_cons, List.sum_cons]
      omega

namespace SQLiteTimeSeriesTransaction

open MemoryTimeSeriesContent

/-- The method `DeleteRange` of the two backends, on states that hold the same:
the SQLite one does not throw, and the two leave states that hold the same. -/
theorem DeleteRange_refines (t : SQLiteTimeSeriesTransaction) (s : MemoryTimeSeriesContent)
    (name : String) (h : t.Refines s) (hs : Consistent s) (hsync : Synced t name)
    (start stop : Int) :
    ∃ t1, DeleteRange t start stop = .ok t1 ∧
      t1.Refines (MemoryTimeSeriesContent.DeleteRange s start stop) ∧ Synced t1 name := by
  have hlen := length_filter_add
    (fun row : ContentRow => decide (row.timestamp ≥ start ∧ row.timestamp < stop)) t.rows
  have hsum := sum_filter_add
    (fun row : ContentRow => decide (row.timestamp ≥ start ∧ row.timestamp < stop))
    (fun row => row.size) t.rows
  have hrowsLength : t.rows.length = t.currentLength_ := by
    rw [h.currentLength, ← h.items]
    exact (List.length_map _ _).symm
  have hrowsSize : (t.rows.map (fun row => row.size)).sum = t.currentSize_ := by
    rw [h.currentSize, h.size_eq, ← h.items]
    exact (totalSize_entries t.rows h.sizes).symm
  have hok : ¬ (t.currentLength_ <
        (t.rows.filter (fun row =>
          decide (row.timestamp ≥ start ∧ row.timestamp < stop))).length ∨
      t.currentSize_ <
        ((t.rows.filter (fun row =>
          decide (row.timestamp ≥ start ∧ row.timestamp < stop))).map
            (fun row => row.size)).sum) := by
    omega
  have hT : DeleteRange t start stop = .ok (UpdateTimeSeriesTable
      { t with
        currentLength_ := t.currentLength_ -
          (t.rows.filter (fun row =>
            decide (row.timestamp ≥ start ∧ row.timestamp < stop))).length
        currentSize_ := t.currentSize_ -
          ((t.rows.filter (fun row =>
            decide (row.timestamp ≥ start ∧ row.timestamp < stop))).map
              (fun row => row.size)).sum
        transaction_ :=
          { t.transaction_ with
            tableContent := t.transaction_.tableContent.filter (fun row =>
              !decide (row.id = t.id_ ∧ row.timestamp ≥ start ∧ row.timestamp < stop)) } }) := by
    unfold DeleteRange
    simp only [if_neg hok]
  have hrows : (t.transaction_.tableContent.filter (fun row =>
        !decide (row.id = t.id_ ∧ row.timestamp ≥ start ∧ row.timestamp < stop))).filter
        (fun row => decide (row.id = t.id_)) =
      t.rows.filter (fun row => !decide (row.timestamp ≥ start ∧ row.timestamp < stop)) :=
    rows_delete t.transaction_.tableContent t.id_
      (fun row => row.timestamp ≥ start ∧ row.timestamp < stop)
  have hkept : (t.rows.filter (fun row =>
        !decide (row.timestamp ≥ start ∧ row.timestamp < stop))).map ContentRow.entry =
      s.content_.filter (fun e => !decide (start ≤ e.1 ∧ e.1 < stop)) := by
    rw [← h.items]
    unfold items
    rw [List.filter_map]
    rfl
  have hkeptSizes : ∀ row ∈ t.rows.filter (fun row =>
      !decide (row.timestamp ≥ start ∧ row.timestamp < stop)), row.size = row.value.length :=
    fun row hrow => h.sizes row (List.mem_of_mem_filter hrow)
  obtain ⟨t1, ht1⟩ : ∃ t1, t1 = UpdateTimeSeriesTable
      { t with
        currentLength_ := t.currentLength_ -
          (t.rows.filter (fun row =>
            decide (row.timestamp ≥ start ∧ row.timestamp < stop))).length
        currentSize_ := t.currentSize_ -
          ((t.rows.filter (fun row =>
            decide (row.timestamp ≥ start ∧ row.timestamp < stop))).map
              (fun row => row.size)).sum
        transaction_ :=
          { t.transaction_ with
            tableContent := t.transaction_.tableContent.filter (fun row =>
              !decide (row.id = t.id_ ∧ row.timestamp ≥ start ∧ row.timestamp < stop)) } } :=
    ⟨_, rfl⟩
  rw [← ht1] at hT
  have hrows1 : t1.rows =
      t.rows.filter (fun row => !decide (row.timestamp ≥ start ∧ row.timestamp < stop)) := by
    rw [ht1]
    exact hrows
  have hlength1 : t1.currentLength_ = t.currentLength_ -
      (t.rows.filter (fun row =>
        decide (row.timestamp ≥ start ∧ row.timestamp < stop))).length := by
    rw [ht1]
    rfl
  have hsize1 : t1.currentSize_ = t.currentSize_ -
      ((t.rows.filter (fun row =>
        decide (row.timestamp ≥ start ∧ row.timestamp < stop))).map
          (fun row => row.size)).sum := by
    rw [ht1]
    rfl
  refine ⟨t1, hT, ?_, by rw [ht1]; exact Synced.update hsync rfl rfl rfl rfl⟩
  rw [DeleteRange_eq s hs]
  constructor
  · show t1.rows.map ContentRow.entry = _
    rw [hrows1, hkept]
  · intro row hrow
    rw [hrows1] at hrow
    exact hkeptSizes row hrow
  · rw [ht1]; exact h.maxLength
  · rw [ht1]; exact h.maxSize
  · rw [hlength1]
    show _ = (List.filter _ s.content_).length
    rw [← hkept, List.length_map]
    omega
  · rw [hsize1]
    show _ = totalSize (List.filter _ s.content_)
    rw [← hkept, totalSize_entries _ hkeptSizes]
    omega
  · rw [ht1]; exact h.hasLast
  · rw [ht1]; exact h.last
  · exact h.sorted.filter _
  · rfl

/-- The method `ClearContent` of the two backends, on states that hold the
same. -/
theorem ClearContent_refines (t : SQLiteTimeSeriesTransaction) (s : MemoryTimeSeriesContent)
    (name : String) (h : t.Refines s) (hsync : Synced t name) :
    (ClearContent t).Refines (MemoryTimeSeriesContent.ClearContent s) ∧
      Synced (ClearContent t) name := by
  have hrows : (t.transaction_.tableContent.filter (fun row => !decide (row.id = t.id_))).filter
      (fun row => decide (row.id = t.id_)) = [] := by
    rw [List.filter_filter, List.filter_eq_nil_iff]
    intro row _
    by_cases hid : row.id = t.id_ <;> simp [hid]
  have hrows1 : (ClearContent t).rows = [] := hrows
  refine ⟨?_, Synced.update hsync rfl rfl rfl rfl⟩
  constructor
  · show (ClearContent t).rows.map ContentRow.entry = []
    rw [hrows1]
    rfl
  · intro row hrow
    rw [hrows1] at hrow
    exact absurd hrow (List.not_mem_nil _)
  · exact h.maxLength
  · exact h.maxSize
  · rfl
  · rfl
  · exact h.hasLast
  · exact h.last
  · exact List.Pairwise.nil
  · rfl

/-- The timestamp of the first row that a clause selects, among rows that hold
the entries of a map. -/
theorem first_selected (rows : List ContentRow) (content : Content)
    (hitems : rows.map ContentRow.entry = content)
    (hsorted : rows.Pairwise (fun a b => a.timestamp < b.timestamp)) (p : Int → Bool) :
    (match firstByTimestamp (rows.filter (fun row => p row.timestamp)) with
      | some row => some row.timestamp
      | none => none) = (content.find? (fun e => p e.1)).map Prod.fst := by
  rw [firstByTimestamp_sorted _ (hsorted.filter _), head?_filter_eq_find?, ← hitems,
    List.find?_map]
  have hcomp : ((fun e : Int × Item => p e.1) ∘ ContentRow.entry) =
      (fun row : ContentRow => p row.timestamp) := rfl
  rw [hcomp]
  cases rows.find? (fun row => p row.timestamp) <;> rfl

/-- The timestamp of the last row that a clause selects, among rows that hold
the entries of a map. -/
theorem last_selected (rows : List ContentRow) (content : Content)
    (hitems : rows.map ContentRow.entry = content)
    (hsorted : rows.Pairwise (fun a b => a.timestamp < b.timestamp)) (p : Int → Bool) :
    (match lastByTimestamp (rows.filter (fun row => p row.timestamp)) with
      | some row => some row.timestamp
      | none => none) = ((content.filter (fun e => p e.1)).getLast?).map Prod.fst := by
  rw [lastByTimestamp_sorted _ (hsorted.filter _), ← hitems, List.filter_map,
    List.getLast?_map]
  have hcomp : ((fun e : Int × Item => p e.1) ∘ ContentRow.entry) =
      (fun row : ContentRow => p row.timestamp) := rfl
  rw [hcomp]
  cases (rows.filter (fun row => p row.timestamp)).getLast? <;> rfl

/-- The seeks and `Read` of the two backends return the same on states that
hold the same. -/
theorem reads_refine (t : SQLiteTimeSeriesTransaction) (s : MemoryTimeSeriesContent)
    (h : t.Refines s) (hs : Consistent s) :
    SeekFirst t = MemoryTimeSeriesContent.SeekFirst s ∧
      SeekLast t = MemoryTimeSeriesContent.SeekLast s ∧
      (∀ timestamp, SeekNearest t timestamp = MemoryTimeSeriesContent.SeekNearest s timestamp) ∧
      (∀ timestamp, SeekNext t timestamp = MemoryTimeSeriesContent.SeekNext s timestamp) ∧
      (∀ timestamp,
        SeekPrevious t timestamp = MemoryTimeSeriesContent.SeekPrevious s timestamp) ∧
      (∀ timestamp, Read t timestamp = MemoryTimeSeriesContent.Read s timestamp) ∧
      GetStatistics t = MemoryTimeSeriesContent.GetStatistics s ∧
      GetLastTimestamp t = MemoryTimeSeriesContent.GetLastTimestamp s := by
  have hitems : t.rows.map ContentRow.entry = s.content_ := h.items
  have hsorted := h.rows_sorted
  have hall : t.rows.filter (fun row => (fun _ : Int => true) row.timestamp) = t.rows :=
    List.filter_eq_self.mpr (fun _ _ => rfl)
  refine ⟨?_, ?_, ?_, ?_, ?_, ?_, ?_, ?_⟩
  · rw [SeekFirst_eq]
    have := first_selected t.rows s.content_ hitems hsorted (fun _ => true)
    rw [hall] at this
    exact this
  · rw [SeekLast_eq]
    have := last_selected t.rows s.content_ hitems hsorted (fun _ => true)
    rw [hall] at this
    exact this
  · intro timestamp
    rw [SeekNearest_eq]
    exact first_selected t.rows s.content_ hitems hsorted (fun k => decide (timestamp ≤ k))
  · intro timestamp
    rw [SeekNext_eq]
    exact first_selected t.rows s.content_ hitems hsorted (fun k => decide (timestamp < k))
  · intro timestamp
    rw [SeekPrevious_eq s hs]
    exact last_selected t.rows s.content_ hitems hsorted (fun k => decide (k < timestamp))
  · intro timestamp
    rw [Read_eq_find?, ← hitems, List.find?_map]
    have hcomp : ((fun e : Int × Item => decide (e.1 = timestamp)) ∘ ContentRow.entry) =
        (fun row : ContentRow => decide (row.timestamp = timestamp)) := rfl
    rw [hcomp]
    unfold Read
    cases t.rows.find? (fun row => decide (row.timestamp = timestamp)) <;> rfl
  · show (t.currentLength_, t.currentSize_) = (s.content_.length, s.size_)
    rw [h.currentLength, h.currentSize]
  · unfold GetLastTimestamp MemoryTimeSeriesContent.GetLastTimestamp
    rw [h.hasLast]
    cases hhas : s.hasLastTimestamp_ with
    | false => rfl
    | true => simp only [if_true, h.last hhas]

end SQLiteTimeSeriesTransaction

namespace SQLiteTimeSeriesTransaction

open MemoryTimeSeriesContent ITransaction

/-- What is seen of the two backends is the same on states that hold the same. -/
theorem observation_eq (t : SQLiteTimeSeriesTransaction) (s : MemoryTimeSeriesContent)
    (h : t.Refines s) (hs : Consistent s) (answer : Answer) :
    observation t answer = MemoryTimeSeriesContent.observation s answer := by
  obtain ⟨_, _, _, _, _, _, hstatistics, hlast⟩ := reads_refine t s h hs
  unfold observation MemoryTimeSeriesContent.observation
  rw [h.items, hstatistics, hlast]

/-- One call on the two backends, on states that hold the same: the SQLite call
does not throw, the two calls return the same and leave states that hold the
same. -/
theorem perform_refines (t : SQLiteTimeSeriesTransaction) (s : MemoryTimeSeriesContent)
    (name : String) (h : t.Refines s) (hs : Consistent s) (hsync : Synced t name)
    (op : Operation) :
    ∃ answer t1 s1, perform t op = .ok (answer, t1) ∧
      MemoryTimeSeriesContent.perform s op = .ok (answer, s1) ∧
      t1.Refines s1 ∧ Consistent s1 ∧ Synced t1 name := by
  obtain ⟨hfirst, hlast, hnearest, hnext, hprevious, hread, hstatistics, hlastTimestamp⟩ :=
    reads_refine t s h hs
  cases op with
  | Append timestamp metadata value =>
    obtain ⟨accepted, t1, s1, hT, hS, h1, hs1, hsync1⟩ :=
      Append_refines t s name h hs hsync timestamp metadata value
    exact ⟨Answer.Append accepted, t1, s1, by simp only [perform, hT],
      by simp only [MemoryTimeSeriesContent.perform, hS], h1, hs1, hsync1⟩
  | DeleteRange start stop =>
    obtain ⟨t1, hT, h1, hsync1⟩ := DeleteRange_refines t s name h hs hsync start stop
    exact ⟨Answer.Void, t1, _, by simp only [perform, hT], rfl, h1,
      Consistent_DeleteRange s hs start stop, hsync1⟩
  | ClearContent =>
    obtain ⟨h1, hsync1⟩ := ClearContent_refines t s name h hsync
    exact ⟨Answer.Void, _, _, rfl, rfl, h1, Consistent_ClearContent s, hsync1⟩
  | SeekFirst =>
    exact ⟨_, t, s, rfl, by simp only [MemoryTimeSeriesContent.perform, hfirst], h, hs, hsync⟩
  | SeekLast =>
    exact ⟨_, t, s, rfl, by simp only [MemoryTimeSeriesContent.perform, hlast], h, hs, hsync⟩
  | SeekNearest timestamp =>
    exact ⟨_, t, s, rfl, by simp only [MemoryTimeSeriesContent.perform, hnearest], h, hs,
      hsync⟩
  | SeekNext timestamp =>
    exact ⟨_, t, s, rfl, by simp only [MemoryTimeSeriesContent.perform, hnext], h, hs, hsync⟩
  | SeekPrevious timestamp =>
    exact ⟨_, t, s, rfl, by simp only [MemoryTimeSeriesContent.perform, hprevious], h, hs,
      hsync⟩
  | Read timestamp =>
    exact ⟨_, t, s, rfl, by simp only [MemoryTimeSeriesContent.perform, hread], h, hs, hsync⟩
  | GetStatistics =>
    exact ⟨_, t, s, rfl, by simp only [MemoryTimeSeriesContent.perform, hstatistics], h, hs,
      hsync⟩
  | GetLastTimestamp =>
    exact ⟨_, t, s, rfl, by simp only [MemoryTimeSeriesContent.perform, hlastTimestamp], h, hs,
      hsync⟩

/-- The calls of one transaction on the two backends, on states that hold the
same: no call throws, the same is seen after each call, and the states at the
end hold the same. -/
theorem run_refines (name : String) (ops : List Operation) :
    ∀ (t : SQLiteTimeSeriesTransaction) (s : MemoryTimeSeriesContent),
      t.Refines s → Consistent s → Synced t name →
      ∃ seen t1 s1, run t ops = .ok (seen, t1) ∧
        MemoryTimeSeriesContent.run s ops = .ok (seen, s1) ∧
        t1.Refines s1 ∧ Consistent s1 ∧ Synced t1 name := by
  induction ops with
  | nil =>
    intro t s h hs hsync
    exact ⟨[], t, s, rfl, rfl, h, hs, hsync⟩
  | cons op rest ih =>
    intro t s h hs hsync
    obtain ⟨answer, t1, s1, hT, hS, h1, hs1, hsync1⟩ := perform_refines t s name h hs hsync op
    obtain ⟨seen, t2, s2, hT2, hS2, h2, hs2, hsync2⟩ := ih t1 s1 h1 hs1 hsync1
    refine ⟨observation t1 answer :: seen, t2, s2, by simp only [run, hT, hT2], ?_, h2, hs2,
      hsync2⟩
    simp only [MemoryTimeSeriesContent.run, hS, hS2, observation_eq t1 s1 h1 hs1]

/-- A transaction opened on the database that a transaction has left holds what
that transaction held. -/
theorem Refines.reopened {t : SQLiteTimeSeriesTransaction} {s : MemoryTimeSeriesContent}
    {name : String} (h : t.Refines s) (hsync : Synced t name) :
    ∃ t1, create t.destroy name = .ok t1 ∧ t1.Refines s := by
  obtain ⟨t1, hcreate, htransaction, hid, hmaxLength, hmaxSize, hlength, hsize, hhas, hlast⟩ :=
    hsync.reopen
  refine ⟨t1, hcreate, h.of_fields ?_ hmaxLength hmaxSize hlength hsize hhas hlast⟩
  unfold rows
  rw [htransaction, hid]

end SQLiteTimeSeriesTransaction

namespace SQLiteDatabase

open MemoryTimeSeriesContent ITransaction

/-- A sequence of transactions on the two backends, from a database and a
memory backend that hold the same: no call throws, the same is seen after each
call, and the backends hold the same at the end. -/
theorem runAll_refines (name : String) (transactions : List (List Operation)) :
    ∀ (database : SQLiteDatabase) (t : SQLiteTimeSeriesTransaction)
      (s : MemoryTimeSeriesContent),
      SQLiteTimeSeriesTransaction.create database name = .ok t → t.Refines s → Consistent s →
      ∃ seen database1 s1 t1, database.runAll name transactions = .ok (seen, database1) ∧
        s.runAll transactions = .ok (seen, s1) ∧
        SQLiteTimeSeriesTransaction.create database1 name = .ok t1 ∧
        t1.Refines s1 ∧ Consistent s1 := by
  induction transactions with
  | nil =>
    intro database t s hcreate h hs
    exact ⟨[], database, s, t, rfl, rfl, hcreate, h, hs⟩
  | cons ops rest ih =>
    intro database t s hcreate h hs
    obtain ⟨_, hsync⟩ := SQLiteTimeSeriesTransaction.create_synced database name t hcreate
    obtain ⟨seen1, t1, s1, hT1, hS1, h1, hs1, hsync1⟩ :=
      SQLiteTimeSeriesTransaction.run_refines name ops t s h hs hsync
    obtain ⟨t2, hcreate2, h2⟩ := h1.reopened hsync1
    obtain ⟨seen2, database3, s3, t3, hT3, hS3, hcreate3, h3, hs3⟩ :=
      ih t1.destroy t2 s1 hcreate2 h2 hs1
    exact ⟨seen1 ++ seen2, database3, s3, t3, by simp only [runAll, hcreate, hT1, hT3],
      by simp only [MemoryTimeSeriesContent.runAll, hS1, hS3], hcreate3, h3, hs3⟩

/-- A new series of a new database holds what a new memory backend with the
same quotas holds. -/
theorem create_refines (name : String) (maxLength maxSize : Nat) :
    ∃ database t, create.CreateTimeSeries name maxLength maxSize = .ok database ∧
      SQLiteTimeSeriesTransaction.create database name = .ok t ∧
      t.Refines (MemoryTimeSeriesContent.create maxLength maxSize) := by
  have hopen : SQLiteTimeSeriesTransaction.create
      { tableTimeSeries :=
          [{ internalId := 1, publicId := name, maxLength := maxLength,
             maxSize := maxSize, currentLength := 0, currentSize := 0,
             lastTimestamp := none }]
        tableContent := [] } name = .ok
      { transaction_ :=
          { tableTimeSeries :=
              [{ internalId := 1, publicId := name, maxLength := maxLength,
                 maxSize := maxSize, currentLength := 0, currentSize := 0,
                 lastTimestamp := none }]
            tableContent := [] }
        id_ := 1, maxLength_ := maxLength, maxSize_ := maxSize, currentLength_ := 0,
        currentSize_ := 0, hasLastTimestamp_ := false, lastTimestamp_ := 0 } := by
    simp [SQLiteTimeSeriesTransaction.create]
  refine ⟨_, _, rfl, hopen, ?_⟩
  · constructor
    · rfl
    · intro row hrow
      exact absurd hrow (List.not_mem_nil _)
    · rfl
    · rfl
    · rfl
    · rfl
    · rfl
    · intro hhas
      exact Bool.noConfusion hhas
    · exact List.Pairwise.nil
    · rfl

/-- C36: for the same quotas and every sequence of `Append`, `DeleteRange`,
`ClearContent`, seek, `Read`, `GetStatistics` and `GetLastTimestamp` calls,
grouped in transactions in any way, the SQLite transactions on a new series
(their queries read as operations on the rows of the series) and a new memory
backend do not throw and show the same after each call: the call returns the
same result, and the series holds the same items, the same statistics and the
same last timestamp. A transaction opened at the end on the database finds what
the memory backend holds. -/
theorem same_as_memory (name : String) (maxLength maxSize : Nat)
    (transactions : List (List Operation)) :
    ∃ seen database s t,
      created name maxLength maxSize transactions = .ok (seen, database) ∧
      (MemoryTimeSeriesContent.create maxLength maxSize).runAll transactions = .ok (seen, s) ∧
      SQLiteTimeSeriesTransaction.create database name = .ok t ∧
      t.items = s.content_ ∧ t.GetStatistics = s.GetStatistics ∧
      t.GetLastTimestamp = s.GetLastTimestamp := by
  obtain ⟨database0, t0, hcreated, hopen, h0⟩ := create_refines name maxLength maxSize
  obtain ⟨seen, database, s, t, hT, hS, hcreate, h, hs⟩ :=
    runAll_refines name transactions database0 t0 _ hopen h0
      (Consistent_create maxLength maxSize)
  obtain ⟨_, _, _, _, _, _, hstatistics, hlast⟩ :=
    SQLiteTimeSeriesTransaction.reads_refine t s h hs
  exact ⟨seen, database, s, t, by simp only [created, hcreated, hT], hS, hcreate, h.items,
    hstatistics, hlast⟩

end SQLiteDatabase

/-! ## Claims on the change of the quotas of a SQLite series -/

namespace MemoryTimeSeriesContent

/-- The first loop of `UpdateQuota` (length quota), run on a state of the memory
backend whose `size_` is exact: it removes the first `k` entries, `k` being the
least number of removals after which the length is within the quota. -/
theorem quotaLength_loop (s : MemoryTimeSeriesContent)
    (hsize : s.size_ = totalSize s.content_) :
    ∃ k, k ≤ s.content_.length ∧
      (if s.maxLength_ ≠ 0 then
          removeOldestWhile (fun u => decide (u.content_.length > u.maxLength_)) s
        else .ok s) =
        .ok { s with content_ := s.content_.drop k, size_ := totalSize (s.content_.drop k) } ∧
      (s.maxLength_ ≠ 0 → s.content_.length - k ≤ s.maxLength_) ∧
      ∀ j, j < k → s.maxLength_ ≠ 0 ∧ ¬ (s.content_.length - j ≤ s.maxLength_) := by
  by_cases hmax : s.maxLength_ ≠ 0
  · rw [if_pos hmax]
    rcases removeOldestLoop_spec (fun u => decide (u.content_.length > u.maxLength_)) s
        s.content_ s.size_ with ⟨k, hk, hrun, hstop, hbefore⟩ | ⟨_, hall⟩
    · refine ⟨k, hk, ?_, ?_, ?_⟩
      · unfold removeOldestWhile
        rw [hrun, size_after_removals s hsize k]
      · intro _
        simpa using hstop
      · intro j hj
        have := hbefore j hj
        simp at this
        exact ⟨hmax, by omega⟩
    · have := hall s.content_.length (le_refl _)
      simp at this
  · rw [if_neg hmax]
    refine ⟨0, Nat.zero_le _, ?_, fun h => absurd h hmax, fun j hj => by omega⟩
    obtain ⟨content, size, maxLength, maxSize, hasLast, last⟩ := s
    simp only [List.drop_zero]
    rw [← hsize]

/-- The second loop of `UpdateQuota` (size quota), run on a state of the memory
backend whose `size_` is exact: it removes the first `k` entries, `k` being the
least number of removals after which the size is within the quota. -/
theorem quotaSize_loop (s : MemoryTimeSeriesContent)
    (hsize : s.size_ = totalSize s.content_) :
    ∃ k, k ≤ s.content_.length ∧
      (if s.maxSize_ ≠ 0 then
          removeOldestWhile (fun u => decide (u.size_ > u.maxSize_)) s
        else .ok s) =
        .ok { s with content_ := s.content_.drop k, size_ := totalSize (s.content_.drop k) } ∧
      (s.maxSize_ ≠ 0 → totalSize (s.content_.drop k) ≤ s.maxSize_) ∧
      ∀ j, j < k → s.maxSize_ ≠ 0 ∧ ¬ (totalSize (s.content_.drop j) ≤ s.maxSize_) := by
  by_cases hmax : s.maxSize_ ≠ 0
  · rw [if_pos hmax]
    rcases removeOldestLoop_spec (fun u => decide (u.size_ > u.maxSize_)) s
        s.content_ s.size_ with ⟨k, hk, hrun, hstop, hbefore⟩ | ⟨_, hall⟩
    · refine ⟨k, hk, ?_, ?_, ?_⟩
      · unfold removeOldestWhile
        rw [hrun, size_after_removals s hsize k]
      · intro _
        have := size_after_removals s hsize k
        simp at hstop
        omega
      · intro j hj
        have h1 := hbefore j hj
        have h2 := size_after_removals s hsize j
        simp at h1
        exact ⟨hmax, by omega⟩
    · have h1 := hall s.content_.length (le_refl _)
      have h2 := size_after_removals s hsize s.content_.length
      simp [totalSize] at h1 h2
      omega
  · rw [if_neg hmax]
    refine ⟨0, Nat.zero_le _, ?_, fun h => absurd h hmax, fun j hj => by omega⟩
    obtain ⟨content, size, maxLength, maxSize, hasLast, last⟩ := s
    simp only [List.drop_zero]
    rw [← hsize]

end MemoryTimeSeriesContent

namespace SQLiteTimeSeriesTransaction

open MemoryTimeSeriesContent

/-- The method `UpdateQuota` on a database whose series holds what the state `s`
of a memory backend holds: it does not throw, and it leaves in the series the
entries of `s` but for the first `k`, `k` being the least number of removals
after which the length and the size are within the quotas that are not zero. -/
theorem UpdateQuota_refines (database : SQLiteDatabase) (name : String)
    (t : SQLiteTimeSeriesTransaction) (s : MemoryTimeSeriesContent)
    (hopen : create database name = .ok t) (h : t.Refines s) :
    ∃ k database1 t1, k ≤ s.content_.length ∧
      UpdateQuota database name = .ok database1 ∧ create database1 name = .ok t1 ∧
      t1.Refines
        { s with content_ := s.content_.drop k, size_ := totalSize (s.content_.drop k) } ∧
      (s.maxLength_ ≠ 0 → (s.content_.drop k).length ≤ s.maxLength_) ∧
      (s.maxSize_ ≠ 0 → totalSize (s.content_.drop k) ≤ s.maxSize_) ∧
      ∀ j, j < k →
        ¬ ((s.maxLength_ ≠ 0 → (s.content_.drop j).length ≤ s.maxLength_) ∧
           (s.maxSize_ ≠ 0 → totalSize (s.content_.drop j) ≤ s.maxSize_)) := by
  obtain ⟨_, hsync⟩ := create_synced database name t hopen
  obtain ⟨k1, hk1, hS1, hfit1, hleast1⟩ := quotaLength_loop s h.size_eq
  have hloop1 : (if t.maxLength_ ≠ 0 then
        removeOldestWhile (fun u => decide (u.currentLength_ > u.maxLength_)) t
      else .ok t) = .error ErrorCode.InternalError ∧
      (if s.maxLength_ ≠ 0 then
        MemoryTimeSeriesContent.removeOldestWhile
          (fun u => decide (u.content_.length > u.maxLength_)) s
      else .ok s) = .error ErrorCode.InternalError ∨
      ∃ t1 s1, (if t.maxLength_ ≠ 0 then
          removeOldestWhile (fun u => decide (u.currentLength_ > u.maxLength_)) t
        else .ok t) = .ok t1 ∧
        (if s.maxLength_ ≠ 0 then
          MemoryTimeSeriesContent.removeOldestWhile
            (fun u => decide (u.content_.length > u.maxLength_)) s
        else .ok s) = .ok s1 ∧
        t1.Refines s1 ∧ Frame t t1 ∧ ∀ e ∈ s1.content_, e ∈ s.content_ := by
    rw [h.maxLength]
    by_cases hmax : s.maxLength_ ≠ 0
    · rw [if_pos hmax, if_pos hmax]
      exact removeOldestWhile_refines _ _
        (fun u v huv => by simp only [huv.currentLength, huv.maxLength]) _ t s rfl h
    · rw [if_neg hmax, if_neg hmax]
      exact Or.inr ⟨t, s, rfl, rfl, h, Frame.refl t, fun e he => he⟩
  rcases hloop1 with ⟨_, herr⟩ | ⟨t1, s1, hT1, hS1eq, href1, hframe1, _⟩
  · rw [hS1] at herr
    exact Except.noConfusion herr
  rw [hS1] at hS1eq
  injection hS1eq with hS1eq
  subst hS1eq
  obtain ⟨k2, hk2, hS2, hfit2, hleast2⟩ := quotaSize_loop _ href1.size_eq
  have hloop2 : (if t1.maxSize_ ≠ 0 then
        removeOldestWhile (fun u => decide (u.currentSize_ > u.maxSize_)) t1
      else .ok t1) = .error ErrorCode.InternalError ∧
      (if s.maxSize_ ≠ 0 then
        MemoryTimeSeriesContent.removeOldestWhile (fun u => decide (u.size_ > u.maxSize_))
          { s with content_ := s.content_.drop k1,
                   size_ := totalSize (s.content_.drop k1) }
      else .ok { s with content_ := s.content_.drop k1,
                        size_ := totalSize (s.content_.drop k1) }) =
        .error ErrorCode.InternalError ∨
      ∃ t2 s2, (if t1.maxSize_ ≠ 0 then
          removeOldestWhile (fun u => decide (u.currentSize_ > u.maxSize_)) t1
        else .ok t1) = .ok t2 ∧
        (if s.maxSize_ ≠ 0 then
          MemoryTimeSeriesContent.removeOldestWhile (fun u => decide (u.size_ > u.maxSize_))
            { s with content_ := s.content_.drop k1,
                     size_ := totalSize (s.content_.drop k1) }
        else .ok { s with content_ := s.content_.drop k1,
                          size_ := totalSize (s.content_.drop k1) }) = .ok s2 ∧
        t2.Refines s2 ∧ Frame t1 t2 ∧
        ∀ e ∈ s2.content_, e ∈ s.content_.drop k1 := by
    have hmaxSize : t1.maxSize_ = s.maxSize_ := href1.maxSize
    rw [hmaxSize]
    by_cases hmax : s.maxSize_ ≠ 0
    · rw [if_pos hmax, if_pos hmax]
      exact removeOldestWhile_refines _ _
        (fun u v huv => by simp only [huv.currentSize, huv.maxSize]) _ t1 _ rfl href1
    · rw [if_neg hmax, if_neg hmax]
      exact Or.inr ⟨t1, _, rfl, rfl, href1, Frame.refl t1, fun e he => he⟩
  rcases hloop2 with ⟨_, herr⟩ | ⟨t2, s2, hT2, hS2eq, href2, hframe2, _⟩
  · rw [hS2] at herr
    exact Except.noConfusion herr
  rw [hS2] at hS2eq
  injection hS2eq with hS2eq
  subst hS2eq
  have hframe := hframe1.trans hframe2
  have hsync2 : Synced (UpdateTimeSeriesTable t2) name :=
    Synced.update hsync hframe.table hframe.id hframe.maxLength hframe.maxSize
  have href3 : (UpdateTimeSeriesTable t2).Refines _ :=
    href2.of_fields rfl rfl rfl rfl rfl rfl (fun _ => rfl)
  obtain ⟨t3, hcreate3, href4⟩ := href3.reopened hsync2
  have hdrop : (s.content_.drop k1).drop k2 = s.content_.drop (k1 + k2) :=
    List.drop_drop k2 k1 s.content_
  have hquota : UpdateQuota database name = .ok (UpdateTimeSeriesTable t2).destroy := by
    unfold UpdateQuota
    rw [hopen]
    simp only
    rw [hT1]
    simp only
    rw [hT2]
  have hlen1 : (s.content_.drop k1).length = s.content_.length - k1 := List.length_drop _ _
  refine ⟨k1 + k2, _, t3, ?_, hquota, hcreate3, ?_, ?_, ?_, ?_⟩
  · have : k2 ≤ (s.content_.drop k1).length := hk2
    omega
  · have := href4
    simp only [hdrop] at this
    exact this
  · intro hmax
    have := hfit1 hmax
    rw [List.length_drop]
    omega
  · intro hmax
    have := hfit2 hmax
    simp only [hdrop] at this
    exact this
  · intro j hj hfits
    by_cases hjk : j < k1
    · obtain ⟨hmax, hnot⟩ := hleast1 j hjk
      have := hfits.1 hmax
      rw [List.length_drop] at this
      exact hnot this
    · obtain ⟨hmax, hnot⟩ := hleast2 (j - k1) (by omega)
      have hdropj : (s.content_.drop k1).drop (j - k1) = s.content_.drop j := by
        rw [List.drop_drop]
        congr 1
        omega
      simp only [hdropj] at hnot
      exact hnot (hfits.2 hmax)

end SQLiteTimeSeriesTransaction

namespace SQLiteDatabase

open MemoryTimeSeriesContent

/-- The ten transactions of the test `ChangeQuota` leave `worldDatabase`. -/
theorem changeQuotaDatabase_eq : changeQuotaDatabase = .ok worldDatabase := by
  decide

/-- The lengths and the sizes that the test `ChangeQuota` expects. -/
theorem changeQuotas_world :
    changeQuotas worldDatabase "world" [(0, 0), (5, 0), (0, 6), (0, 4)] =
      .ok [(10, 20), (5, 10), (3, 6), (2, 4)] := by
  decide

/-- The transaction on `worldDatabase` holds what `worldContent` holds. -/
theorem world_refines : worldTransaction.Refines worldContent where
  items := by decide
  sizes := by decide
  maxLength := rfl
  maxSize := rfl
  currentLength := by decide
  currentSize := rfl
  hasLast := rfl
  last := fun _ => rfl
  sorted := by decide
  size_eq := by decide

theorem world_consistent : Consistent worldContent where
  sorted := by decide
  size_eq := by decide
  below_last := by decide
  length_le := fun h => absurd rfl h
  size_le := fun h => absurd rfl h

/-- C35: when `CreateTimeSeries` is called again on a series of a SQLite
database (the series holds what a consistent state `s` of the memory backend
holds, which it does after every sequence of transactions), the call does not
throw and leaves the quotas `maxLength` and `maxSize` in the series; it removes
the `k` items with the lowest timestamps, where `k` is the least number of
removals after which the length is at most `maxLength` and the size is at most
`maxSize` (each only when not zero), so that the newest items that fit are
kept; the statistics are those of the items kept; the last timestamp is
unchanged; with quotas that are unchanged or looser, `k = 0` and nothing is
removed; and the series again holds what a consistent state holds. The last two
parts evaluate the unit test `ChangeQuota`. -/
theorem CreateTimeSeries_again (database : SQLiteDatabase) (name : String)
    (t : SQLiteTimeSeriesTransaction) (s : MemoryTimeSeriesContent)
    (hopen : SQLiteTimeSeriesTransaction.create database name = .ok t)
    (h : t.Refines s) (hs : Consistent s) (maxLength maxSize : Nat) :
    (∃ k database1 t1,
      k ≤ t.items.length ∧
      database.CreateTimeSeries name maxLength maxSize = .ok database1 ∧
      SQLiteTimeSeriesTransaction.create database1 name = .ok t1 ∧
      t1.maxLength_ = maxLength ∧ t1.maxSize_ = maxSize ∧
      t.items.Pairwise (fun a b => a.1 < b.1) ∧
      t1.items = t.items.drop k ∧
      t1.GetStatistics = ((t.items.drop k).length, totalSize (t.items.drop k)) ∧
      t1.GetLastTimestamp = t.GetLastTimestamp ∧
      (maxLength ≠ 0 → (t.items.drop k).length ≤ maxLength) ∧
      (maxSize ≠ 0 → totalSize (t.items.drop k) ≤ maxSize) ∧
      (∀ j, j < k →
        ¬ ((maxLength ≠ 0 → (t.items.drop j).length ≤ maxLength) ∧
           (maxSize ≠ 0 → totalSize (t.items.drop j) ≤ maxSize))) ∧
      ((maxLength = 0 ∨ (t.maxLength_ ≠ 0 ∧ t.maxLength_ ≤ maxLength)) →
        (maxSize = 0 ∨ (t.maxSize_ ≠ 0 ∧ t.maxSize_ ≤ maxSize)) → k = 0) ∧
      t1.Refines
        { s with content_ := s.content_.drop k, size_ := totalSize (s.content_.drop k),
                 maxLength_ := maxLength, maxSize_ := maxSize } ∧
      Consistent
        { s with content_ := s.content_.drop k, size_ := totalSize (s.content_.drop k),
                 maxLength_ := maxLength, maxSize_ := maxSize }) ∧
    changeQuotaDatabase = .ok worldDatabase ∧
    changeQuotas worldDatabase "world" [(0, 0), (5, 0), (0, 6), (0, 4)] =
      .ok [(10, 20), (5, 10), (3, 6), (2, 4)] := by
  refine ⟨?_, changeQuotaDatabase_eq, changeQuotas_world⟩
  have hopen0 := hopen
  unfold SQLiteTimeSeriesTransaction.create at hopen
  cases hfind : database.tableTimeSeries.find? (fun row => row.publicId == name) with
  | none =>
    rw [hfind] at hopen
    exact Except.noConfusion hopen
  | some row =>
    rw [hfind] at hopen
    injection hopen with hopen
    have hbeq : (row.publicId == name) = true :=
      @List.find?_some _ (fun row => row.publicId == name) row _ hfind
    have hname : row.publicId = name := by
      simpa using hbeq
    have hhas : Transaction.HasTimeSeries database name = true := by
      unfold Transaction.HasTimeSeries
      rw [List.any_eq_true]
      exact ⟨row, List.mem_of_find?_eq_some hfind, hbeq⟩
    have hopen1 : SQLiteTimeSeriesTransaction.create
        { database with
          tableTimeSeries := database.tableTimeSeries.map (fun row =>
            if row.publicId = name then { row with maxLength := maxLength, maxSize := maxSize }
            else row) } name = .ok
        { t with
          transaction_ :=
            { database with
              tableTimeSeries := database.tableTimeSeries.map (fun row =>
                if row.publicId = name then
                  { row with maxLength := maxLength, maxSize := maxSize }
                else row) }
          maxLength_ := maxLength
          maxSize_ := maxSize } := by
      unfold SQLiteTimeSeriesTransaction.create
      simp only
      rw [List.find?_map]
      have hcomp : ((fun r : TimeSeriesRow => r.publicId == name) ∘
          (fun r : TimeSeriesRow =>
            if r.publicId = name then { r with maxLength := maxLength, maxSize := maxSize }
            else r)) = (fun r : TimeSeriesRow => r.publicId == name) := by
        funext r
        simp only [Function.comp]
        split <;> rfl
      rw [hcomp, hfind]
      simp only [Option.map_some', hname, if_true]
      rw [← hopen]
    have htransaction : t.transaction_ = database := by
      rw [← hopen]
    have href1 : SQLiteTimeSeriesTransaction.Refines
        { t with
          transaction_ :=
            { database with
              tableTimeSeries := database.tableTimeSeries.map (fun row =>
                if row.publicId = name then
                  { row with maxLength := maxLength, maxSize := maxSize }
                else row) }
          maxLength_ := maxLength
          maxSize_ := maxSize }
        { s with maxLength_ := maxLength, maxSize_ := maxSize } := by
      have hrows : SQLiteTimeSeriesTransaction.rows
          { t with
            transaction_ :=
              { database with
                tableTimeSeries := database.tableTimeSeries.map (fun row =>
                  if row.publicId = name then
                    { row with maxLength := maxLength, maxSize := maxSize }
                  else row) }
            maxLength_ := maxLength
            maxSize_ := maxSize } = t.rows := by
        unfold SQLiteTimeSeriesTransaction.rows
        rw [htransaction]
      constructor
      · show List.map ContentRow.entry (SQLiteTimeSeriesTransaction.rows _) = s.content_
        rw [hrows]
        exact h.items
      · rw [hrows]
        exact h.sizes
      · rfl
      · rfl
      · exact h.currentLength
      · exact h.currentSize
      · exact h.hasLast
      · exact h.last
      · exact h.sorted
      · exact h.size_eq
    obtain ⟨k, database1, t1, hk, hquota, hcreate1, href2, hfitLength, hfitSize, hleast⟩ :=
      SQLiteTimeSeriesTransaction.UpdateQuota_refines _ name _ _ hopen1 href1
    have hcall : database.CreateTimeSeries name maxLength maxSize = .ok database1 := by
      unfold CreateTimeSeries
      rw [hhas]
      exact hquota
    have hconsistent : Consistent
        { s with content_ := s.content_.drop k, size_ := totalSize (s.content_.drop k),
                 maxLength_ := maxLength, maxSize_ := maxSize } := by
      constructor
      · exact h.sorted.drop
      · rfl
      · intro e he
        exact hs.below_last e (List.mem_of_mem_drop he)
      · exact hfitLength
      · exact hfitSize
    obtain ⟨_, _, _, _, _, _, hstatistics1, hlast1⟩ :=
      SQLiteTimeSeriesTransaction.reads_refine t1 _ href2 hconsistent
    obtain ⟨_, _, _, _, _, _, _, hlast0⟩ := SQLiteTimeSeriesTransaction.reads_refine t s h hs
    have hitems : t.items = s.content_ := h.items
    refine ⟨k, database1, t1, by rw [hitems]; exact hk, hcall, hcreate1, href2.maxLength,
      href2.maxSize, by rw [hitems]; exact h.sorted, by rw [hitems]; exact href2.items,
      by rw [hitems]; exact hstatistics1, by rw [hlast1, hlast0]; rfl,
      by rw [hitems]; exact hfitLength, by rw [hitems]; exact hfitSize,
      by rw [hitems]; exact hleast, ?_, href2, hconsistent⟩
    intro hlooserLength hlooserSize
    by_contra hk0
    apply hleast 0 (Nat.pos_of_ne_zero hk0)
    constructor
    · intro hmax
      show (s.content_.drop 0).length ≤ maxLength
      rw [List.drop_zero]
      rcases hlooserLength with h0 | ⟨hold, hle⟩
      · exact absurd h0 hmax
      · rw [h.maxLength] at hold hle
        have := hs.length_le hold
        omega
    · intro hmax
      show totalSize (s.content_.drop 0) ≤ maxSize
      rw [List.drop_zero, ← hs.size_eq]
      rcases hlooserSize with h0 | ⟨hold, hle⟩
      · exact absurd h0 hmax
      · rw [h.maxSize] at hold hle
        have := hs.size_le hold
        omega

theorem CreateTimeSeries_again_witness :
    SQLiteTimeSeriesTransaction.create worldDatabase "world" = .ok worldTransaction ∧
      ∃ k database1 t1, k ≤ worldTransaction.items.length ∧
        worldDatabase.CreateTimeSeries "world" 5 0 = .ok database1 ∧
        SQLiteTimeSeriesTransaction.create database1 "world" = .ok t1 ∧
        t1.items = worldTransaction.items.drop k ∧
        (5 ≠ 0 → (worldTransaction.items.drop k).length ≤ 5) := by
  have hopen : SQLiteTimeSeriesTransaction.create worldDatabase "world" = .ok worldTransaction :=
    by decide
  obtain ⟨⟨k, database1, t1, hk, hcall, hcreate, _, _, _, hitems, _, _, hfit, _⟩, _⟩ :=
    CreateTimeSeries_again worldDatabase "world" worldTransaction worldContent hopen
      world_refines world_consistent 5 0
  exact ⟨hopen, k, database1, t1, hk, hcall, hcreate, hitems, hfit⟩

end SQLiteDatabase

end AtomIT
